import Mathlib

/-!
# Xiangqi engine: position state, move generation, legality, repetition, hash table, book,
key stream and search

A shallow embedding of `chess/rule.go`.

Conventions of the embedding.

* Go `int` is `Int`.  The score `RecordHash` stores is a sum of two arbitrary
  arguments and is reduced to the 64-bit range by `wrapInt`, as the Go addition
  wraps; the other computations stay inside the range on the values the program
  works with, and no wrap-around is modelled for them.
* Go `uint32` is `Nat`; the position state only performs XOR on these words,
  which is closed on 32-bit values, and `nextLong` reduces modulo `2 ^ 32`.
* A Go array indexed by an `int` is a function of `Int`.  Only the indices the
  array really has are cells (`0..255` for the board, `0..MaxMoves-1` for the
  history); a Go access outside them is a run-time failure, modelled by the
  result `none` in every place where the source can reach such an access.
* A method that mutates its receiver returns the new receiver.
* Loops whose bound is not syntactic carry a fuel argument; lemmas below show
  the fuel suffices.  The recursive searches carry a bound on the depth of the
  recursion and return an `Outcome`, which tells a returned value from a
  run-time failure and from the bound reached.
* `rule.go` uses constants, tables and one-line helpers that it does not
  declare.  They are given here, each marked as modelled; the table of
  positional values `cucvlPiecePos`, whose entries no claim depends on, is a
  parameter.
-/

namespace Chess

/-! ## Constants and helpers used but not declared in `rule.go` -/

/-- Modelled from the spec: piece type index of the Jiang (general); the seven types are
numbered in the order the spec lists them. -/
def PieceJiang : Int := 0

/-- Modelled from the spec: piece type index of the Shi (advisor). -/
def PieceShi : Int := 1

/-- Modelled from the spec: piece type index of the Xiang (elephant). -/
def PieceXiang : Int := 2

/-- Modelled from the spec: piece type index of the Ma (horse). -/
def PieceMa : Int := 3

/-- Modelled from the spec: piece type index of the Ju (rook). -/
def PieceJu : Int := 4

/-- Modelled from the spec: piece type index of the Pao (cannon). -/
def PiecePao : Int := 5

/-- Modelled from the spec: piece type index of the Bing (soldier). -/
def PieceBing : Int := 6

/-- Modelled from the spec: capacity `MaxMoves` of the history stack (a hard cap, 256). -/
def MaxMoves : Int := 256

/-- Modelled from the spec: size `MaxGenMoves` of the buffers handed to `generateMoves` (128). -/
def MaxGenMoves : Nat := 128

/-- Modelled from the spec: rank (row) of a packed `rank:file` square code, its high nibble. -/
def rankY (sq : Int) : Int := sq / 16

/-- Modelled from the spec: file (column) of a packed `rank:file` square code, its low nibble. -/
def fileX (sq : Int) : Int := sq % 16

/-- Modelled from the spec: the index is a cell of the 256-cell board array. -/
def inRange (sq : Int) : Bool := decide (0 ≤ sq ∧ sq < 256)

/-- Modelled from the spec: on-board squares are ranks 3..12 and files 3..11. -/
def inBoard (sq : Int) : Bool :=
  decide (3 ≤ rankY sq ∧ rankY sq ≤ 12 ∧ 3 ≤ fileX sq ∧ fileX sq ≤ 11)

/-- Modelled from the spec: palace squares, the 3x3 regions (files 6..8) on ranks 3..5
(Black) and 10..12 (Red). -/
def inFort (sq : Int) : Bool :=
  decide (6 ≤ fileX sq ∧ fileX sq ≤ 8 ∧
    ((3 ≤ rankY sq ∧ rankY sq ≤ 5) ∨ (10 ≤ rankY sq ∧ rankY sq ≤ 12)))

/-- Modelled from the spec: `sq - 16` for Red (side 0), `sq + 16` for Black (side 1). -/
def squareForward (sq sd : Int) : Int := sq - 16 + 32 * sd

/-- Modelled from the spec: vertical mirror of a square. -/
def squareFlip (sq : Int) : Int := 254 - sq

/-- Modelled from the spec: horizontal mirror of a square (file `x` becomes `14 - x`). -/
def mirrorSquare (sq : Int) : Int := (14 - fileX sq) + 16 * rankY sq

/-- Modelled from the spec: side tag, 8 for Red (side 0) and 16 for Black (side 1). -/
def sideTag (sd : Int) : Int := 8 + 8 * sd

/-- Modelled from the spec: tag of the other side, 16 for Red and 8 for Black. -/
def oppSideTag (sd : Int) : Int := 16 - 8 * sd

/-- Modelled from the spec: source square of a move, its low byte. -/
def src (mv : Int) : Int := mv % 256

/-- Modelled from the spec: destination square of a move, its high byte. -/
def dst (mv : Int) : Int := mv / 256

/-- Modelled from the spec: a move packs the source in the low byte and the destination in
the high byte. -/
def move (sqSrc sqDst : Int) : Int := sqSrc + sqDst * 256

/-- Modelled from the spec: horizontal mirror of a move. -/
def mirrorMove (mv : Int) : Int := move (mirrorSquare (src mv)) (mirrorSquare (dst mv))

/-- Modelled from the spec: the square lies across the river for side `sd` (Red's home half
is ranks 8 and up, Black's is ranks 7 and down). -/
def hasRiver (sq sd : Int) : Bool := decide ((sq / 128) % 2 = sd)

/-- Modelled from the spec: the square lies on the home side of the river for side `sd`. -/
def noRiver (sq sd : Int) : Bool := decide ((sq / 128) % 2 ≠ sd)

/-- Modelled from the spec: both squares lie on the same side of the river. -/
def sameRiver (sqSrc sqDst : Int) : Bool := decide ((sqSrc / 128) % 2 = (sqDst / 128) % 2)

/-- Modelled from the spec: both squares lie on one rank, so that a slider moves between them
in steps of 1 (this is the helper `legalMove` pairs with the deltas -1 and +1). -/
def sameX (sqSrc sqDst : Int) : Bool := decide (rankY sqSrc = rankY sqDst)

/-- Modelled from the spec: both squares lie on one file, so that a slider moves between them
in steps of 16. -/
def sameY (sqSrc sqDst : Int) : Bool := decide (fileX sqSrc = fileX sqDst)

/-- Modelled from the spec: `JiangDelta`, the four orthogonal steps. -/
def ccJiangDelta : List Int := [-16, -1, 1, 16]

/-- Modelled from the spec: `ShiDelta`, the four diagonal steps. -/
def ccShiDelta : List Int := [-17, -15, 15, 17]

/-- Modelled from the spec: `MaDelta[4][2]`, the eight horse destinations grouped by the
orthogonal leg (in the order of `ccJiangDelta`) that can block them. -/
def ccMaDelta : List (List Int) := [[-33, -31], [-18, 14], [-14, 18], [31, 33]]

/-- Modelled from the spec: `MaCheckDelta[4][2]`, the squares from which a horse attacks,
grouped by the diagonal leg (in the order of `ccShiDelta`) that can block it. -/
def ccMaCheckDelta : List (List Int) := [[-33, -18], [-31, -14], [14, 31], [18, 33]]

/-- Modelled from the spec: the step from source to destination is a general's step. -/
def jiangSpan (sqSrc sqDst : Int) : Bool := decide (sqDst - sqSrc ∈ ccJiangDelta)

/-- Modelled from the spec: the step from source to destination is an advisor's step. -/
def shiSpan (sqSrc sqDst : Int) : Bool := decide (sqDst - sqSrc ∈ ccShiDelta)

/-- Modelled from the spec: the step from source to destination is an elephant's two-step
diagonal. -/
def xiangSpan (sqSrc sqDst : Int) : Bool :=
  decide (sqDst - sqSrc ∈ ([-34, -30, 30, 34] : List Int))

/-- Modelled from the spec: the elephant's eye, the square midway between source and
destination. -/
def xiangPin (sqSrc sqDst : Int) : Int := (sqSrc + sqDst) / 2

/-- Modelled from the spec: the horse's leg for a step from source to destination; the
source itself when the step is not a horse's step. -/
def maPin (sqSrc sqDst : Int) : Int :=
  let d := sqDst - sqSrc
  if d = -33 ∨ d = -31 then sqSrc - 16
  else if d = -18 ∨ d = 14 then sqSrc - 1
  else if d = -14 ∨ d = 18 then sqSrc + 1
  else if d = 31 ∨ d = 33 then sqSrc + 16
  else sqSrc

/-- Modelled from the spec: `StartupBoard[256]`, the standard Xiangqi initial array (Black on
ranks 3..6, Red on ranks 9..12). -/
def cucpcStartup : List Int :=
  [0, 0, 0, 0, 0, 0, 0, 0, 0, 0, 0, 0, 0, 0, 0, 0,
   0, 0, 0, 0, 0, 0, 0, 0, 0, 0, 0, 0, 0, 0, 0, 0,
   0, 0, 0, 0, 0, 0, 0, 0, 0, 0, 0, 0, 0, 0, 0, 0,
   0, 0, 0, 20, 19, 18, 17, 16, 17, 18, 19, 20, 0, 0, 0, 0,
   0, 0, 0, 0, 0, 0, 0, 0, 0, 0, 0, 0, 0, 0, 0, 0,
   0, 0, 0, 0, 21, 0, 0, 0, 0, 0, 21, 0, 0, 0, 0, 0,
   0, 0, 0, 22, 0, 22, 0, 22, 0, 22, 0, 22, 0, 0, 0, 0,
   0, 0, 0, 0, 0, 0, 0, 0, 0, 0, 0, 0, 0, 0, 0, 0,
   0, 0, 0, 0, 0, 0, 0, 0, 0, 0, 0, 0, 0, 0, 0, 0,
   0, 0, 0, 14, 0, 14, 0, 14, 0, 14, 0, 14, 0, 0, 0, 0,
   0, 0, 0, 0, 13, 0, 0, 0, 0, 0, 13, 0, 0, 0, 0, 0,
   0, 0, 0, 0, 0, 0, 0, 0, 0, 0, 0, 0, 0, 0, 0, 0,
   0, 0, 0, 12, 11, 10, 9, 8, 9, 10, 11, 12, 0, 0, 0, 0,
   0, 0, 0, 0, 0, 0, 0, 0, 0, 0, 0, 0, 0, 0, 0, 0,
   0, 0, 0, 0, 0, 0, 0, 0, 0, 0, 0, 0, 0, 0, 0, 0,
   0, 0, 0, 0, 0, 0, 0, 0, 0, 0, 0, 0, 0, 0, 0, 0]

/-! ## Data model (`rule.go`, lines 58-138) -/

/-- ZobristStruct: three 32-bit words. -/
@[ext]
structure ZobristStruct where
  dwKey : Nat
  dwLock0 : Nat
  dwLock1 : Nat
deriving DecidableEq, Repr

/-- ZobristStruct.initZero. -/
def ZobristStruct.initZero : ZobristStruct := ⟨0, 0, 0⟩

/-- ZobristStruct.xor1: word-wise XOR with another triple. -/
def ZobristStruct.xor1 (z zobr : ZobristStruct) : ZobristStruct :=
  ⟨z.dwKey ^^^ zobr.dwKey, z.dwLock0 ^^^ zobr.dwLock0, z.dwLock1 ^^^ zobr.dwLock1⟩

instance : Std.Associative ZobristStruct.xor1 :=
  ⟨by intro a b c; ext <;> simp [ZobristStruct.xor1, Nat.xor_assoc]⟩

instance : Std.Commutative ZobristStruct.xor1 :=
  ⟨by intro a b; ext <;> simp [ZobristStruct.xor1, Nat.xor_comm]⟩

/-- Zobrist: the side-to-move triple and the 14 x 256 table of piece-square triples. -/
structure Zobrist where
  Player : ZobristStruct
  Table : Int → Int → ZobristStruct

/-- MoveStruct: one record of the history stack. -/
structure MoveStruct where
  ucpcCaptured : Int
  ucbCheck : Bool
  wmv : Int
  dwKey : Nat
deriving DecidableEq, Repr

/-- PositionStruct without its search tables, which none of the operations below reads. -/
@[ext]
structure PositionStruct where
  sdPlayer : Int
  vlRed : Int
  vlBlack : Int
  nDistance : Int
  nMoveNum : Int
  ucpcSquares : Int → Int
  mvsList : Int → MoveStruct
  zobr : ZobristStruct
  zobrist : Zobrist

/-- The 256 square codes in the order every `for sq := 0; sq < 256; sq++` loop visits them. -/
def allSquares : List Int := (List.range 256).map Int.ofNat

/-! ## Position state operations (`rule.go`, lines 226-368) -/

section Operations

variable (cucvlPiecePos : Int → Int → Int)

/-- clearBoard. -/
def clearBoard (p : PositionStruct) : PositionStruct :=
  { p with sdPlayer := 0, vlRed := 0, vlBlack := 0, nDistance := 0,
           ucpcSquares := fun _ => 0, zobr := ZobristStruct.initZero }

/-- changeSide. -/
def changeSide (p : PositionStruct) : PositionStruct :=
  { p with sdPlayer := 1 - p.sdPlayer, zobr := p.zobr.xor1 p.zobrist.Player }

/-- addPiece.  The table reads are in range when `pc` is a piece code (8..14 or 16..22). -/
def addPiece (p : PositionStruct) (sq pc : Int) : PositionStruct :=
  if pc < 16 then
    { p with ucpcSquares := Function.update p.ucpcSquares sq pc,
             vlRed := p.vlRed + cucvlPiecePos (pc - 8) sq,
             zobr := p.zobr.xor1 (p.zobrist.Table (pc - 8) sq) }
  else
    { p with ucpcSquares := Function.update p.ucpcSquares sq pc,
             vlBlack := p.vlBlack + cucvlPiecePos (pc - 16) (squareFlip sq),
             zobr := p.zobr.xor1 (p.zobrist.Table (pc - 9) sq) }

/-- delPiece.  The table reads are in range when `pc` is a piece code (8..14 or 16..22). -/
def delPiece (p : PositionStruct) (sq pc : Int) : PositionStruct :=
  if pc < 16 then
    { p with ucpcSquares := Function.update p.ucpcSquares sq 0,
             vlRed := p.vlRed - cucvlPiecePos (pc - 8) sq,
             zobr := p.zobr.xor1 (p.zobrist.Table (pc - 8) sq) }
  else
    { p with ucpcSquares := Function.update p.ucpcSquares sq 0,
             vlBlack := p.vlBlack - cucvlPiecePos (pc - 16) (squareFlip sq),
             zobr := p.zobr.xor1 (p.zobrist.Table (pc - 9) sq) }

/-- movePiece: returns the captured piece code and the new position.  The destination
`dst mv` must be a cell of the board; `makeMove` checks it, `isMate` only passes generated
moves. -/
def movePiece (p : PositionStruct) (mv : Int) : Int × PositionStruct :=
  let sqSrc := src mv
  let sqDst := dst mv
  let pcCaptured := p.ucpcSquares sqDst
  let p1 := if pcCaptured ≠ 0 then delPiece cucvlPiecePos p sqDst pcCaptured else p
  let pc := p1.ucpcSquares sqSrc
  let p2 := delPiece cucvlPiecePos p1 sqSrc pc
  (pcCaptured, addPiece cucvlPiecePos p2 sqDst pc)

/-- undoMovePiece. -/
def undoMovePiece (p : PositionStruct) (mv pcCaptured : Int) : PositionStruct :=
  let sqSrc := src mv
  let sqDst := dst mv
  let pc := p.ucpcSquares sqDst
  let p1 := delPiece cucvlPiecePos p sqDst pc
  let p2 := addPiece cucvlPiecePos p1 sqSrc pc
  if pcCaptured ≠ 0 then addPiece cucvlPiecePos p2 sqDst pcCaptured else p2

/-- The scanning loop shared by the ray probes of `checked`:
`for inBoard(sqDst) { if ucpcSquares[sqDst] != 0 { break }; sqDst += nDelta }`.
Returns the final `sqDst`: the first occupied on-board square of the ray, or the first
off-board square. -/
def slide (b : Int → Int) (nDelta : Int) : Nat → Int → Int
  | 0, sqDst => sqDst
  | fuel + 1, sqDst =>
    if inBoard sqDst then
      if b sqDst ≠ 0 then sqDst else slide b nDelta fuel (sqDst + nDelta)
    else sqDst

/-- One iteration of the rook/cannon/general loop of `checked` for the direction `nDelta`:
the first piece on the ray is an enemy Ju or Jiang, or the second one is an enemy Pao. -/
def rayAttacked (b : Int → Int) (pcOppSide nDelta sqSrc : Int) : Bool :=
  let s1 := slide b nDelta 16 (sqSrc + nDelta)
  if inBoard s1 && (decide (b s1 = pcOppSide + PieceJu) || decide (b s1 = pcOppSide + PieceJiang))
  then true
  else
    let s2 := slide b nDelta 16 (s1 + nDelta)
    inBoard s2 && decide (b s2 = pcOppSide + PiecePao)

/-- The body of the square loop of `checked` once the general is found on `sqSrc`.
`none` is the out-of-range read of the forward square, which needs a side other than 0, 1. -/
def checkedAt (p : PositionStruct) (sqSrc : Int) : Option Bool :=
  let pcOppSide := oppSideTag p.sdPlayer
  let b := p.ucpcSquares
  if !inRange (squareForward sqSrc p.sdPlayer) then none
  else if b (squareForward sqSrc p.sdPlayer) = pcOppSide + PieceBing then some true
  else if ([-1, 1] : List Int).any
      (fun nDelta => decide (b (sqSrc + nDelta) = pcOppSide + PieceBing)) then some true
  else if (ccShiDelta.zip ccMaCheckDelta).any
      (fun x => decide (b (sqSrc + x.1) = 0) &&
        x.2.any (fun m => decide (b (sqSrc + m) = pcOppSide + PieceMa))) then some true
  else some (ccJiangDelta.any (fun nDelta => rayAttacked b pcOppSide nDelta sqSrc))

/-- checked: is the general of the side to move attacked.  The loop returns at the first
on-board square holding that general. -/
def checked (p : PositionStruct) : Option Bool :=
  match allSquares.find?
      (fun sq => inBoard sq && decide (p.ucpcSquares sq = sideTag p.sdPlayer + PieceJiang)) with
  | none => some false
  | some sqSrc => checkedAt p sqSrc

/-- setIrrev. -/
def setIrrev (p : PositionStruct) : Option PositionStruct :=
  match checked p with
  | none => none
  | some c =>
    some { p with mvsList := Function.update p.mvsList 0 ⟨0, c, 0, p.zobr.dwKey⟩, nMoveNum := 1 }

/-- The body of the square loop of `startup`. -/
def startupStep (q : PositionStruct) (sq : Int) : PositionStruct :=
  if cucpcStartup.getD sq.toNat 0 ≠ 0 then
    addPiece cucvlPiecePos q sq (cucpcStartup.getD sq.toNat 0)
  else q

/-- startup. -/
def startup (p : PositionStruct) : Option PositionStruct :=
  setIrrev (allSquares.foldl (startupStep cucvlPiecePos) (clearBoard p))

/-- makeMove: the result flag and the new position; `none` when the destination or the
history slot is out of range. -/
def makeMove (p : PositionStruct) (mv : Int) : Option (Bool × PositionStruct) :=
  let dwKey := p.zobr.dwKey
  if !inRange (dst mv) then none
  else
    let r := movePiece cucvlPiecePos p mv
    match checked r.2 with
    | none => none
    | some true => some (false, undoMovePiece cucvlPiecePos r.2 mv r.1)
    | some false =>
      let p2 := changeSide r.2
      if 0 ≤ p2.nMoveNum ∧ p2.nMoveNum < MaxMoves then
        match checked p2 with
        | none => none
        | some c =>
          some (true, { p2 with mvsList := Function.update p2.mvsList p2.nMoveNum ⟨r.1, c, mv, dwKey⟩,
                                nMoveNum := p2.nMoveNum + 1,
                                nDistance := p2.nDistance + 1 })
      else none

/-- undoMakeMove; `none` when the history slot read is out of range. -/
def undoMakeMove (p : PositionStruct) : Option PositionStruct :=
  let p1 := { p with nDistance := p.nDistance - 1, nMoveNum := p.nMoveNum - 1 }
  let p2 := changeSide p1
  if 0 ≤ p2.nMoveNum ∧ p2.nMoveNum < MaxMoves then
    some (undoMovePiece cucvlPiecePos p2 (p2.mvsList p2.nMoveNum).wmv
      (p2.mvsList p2.nMoveNum).ucpcCaptured)
  else none

/-! ## Move generation and legality (`rule.go`, lines 378-608) -/

/-- The test every single-step piece applies to the destination content before writing a
move: an enemy piece when only captures are wanted, anything but an own piece otherwise. -/
def emitOk (bCapture : Bool) (pcSelfSide pcOppSide pcDst : Int) : Bool :=
  (bCapture && decide (Int.land pcDst pcOppSide ≠ 0)) ||
    (!bCapture && decide (Int.land pcDst pcSelfSide = 0))

/-- The Ju loop of `generateMoves` for one direction: the moves it writes, in order.
Quiet moves over the empty squares, then the capture of the first piece when it is an
enemy. -/
def juLoop (b : Int → Int) (bCapture : Bool) (pcOppSide sqSrc nDelta : Int) :
    Nat → Int → List Int
  | 0, _ => []
  | fuel + 1, sqDst =>
    if inBoard sqDst then
      if b sqDst = 0 then
        (if !bCapture then [move sqSrc sqDst] else []) ++
          juLoop b bCapture pcOppSide sqSrc nDelta fuel (sqDst + nDelta)
      else if Int.land (b sqDst) pcOppSide ≠ 0 then [move sqSrc sqDst]
      else []
    else []

/-- The first Pao loop of `generateMoves` for one direction: the quiet moves it writes and
the value of `sqDst` when the loop ends. -/
def paoLoop1 (b : Int → Int) (bCapture : Bool) (sqSrc nDelta : Int) :
    Nat → Int → List Int × Int
  | 0, sqDst => ([], sqDst)
  | fuel + 1, sqDst =>
    if inBoard sqDst then
      if b sqDst = 0 then
        let r := paoLoop1 b bCapture sqSrc nDelta fuel (sqDst + nDelta)
        ((if !bCapture then [move sqSrc sqDst] else []) ++ r.1, r.2)
      else ([], sqDst)
    else ([], sqDst)

/-- The second Pao loop of `generateMoves` for one direction: the capture behind the
screen. -/
def paoLoop2 (b : Int → Int) (pcOppSide sqSrc nDelta : Int) : Nat → Int → List Int
  | 0, _ => []
  | fuel + 1, sqDst =>
    if inBoard sqDst then
      if b sqDst ≠ 0 then
        if Int.land (b sqDst) pcOppSide ≠ 0 then [move sqSrc sqDst] else []
      else paoLoop2 b pcOppSide sqSrc nDelta fuel (sqDst + nDelta)
    else []

/-- The body of the square loop of `generateMoves`: the moves written for `sqSrc`. -/
def genPiece (p : PositionStruct) (bCapture : Bool) (sqSrc : Int) : List Int :=
  let pcSelfSide := sideTag p.sdPlayer
  let pcOppSide := oppSideTag p.sdPlayer
  let b := p.ucpcSquares
  if !inBoard sqSrc then []
  else if Int.land (b sqSrc) pcSelfSide = 0 then []
  else if b sqSrc - pcSelfSide = PieceJiang then
    ccJiangDelta.flatMap (fun d =>
      if !inFort (sqSrc + d) then []
      else if emitOk bCapture pcSelfSide pcOppSide (b (sqSrc + d)) then [move sqSrc (sqSrc + d)]
      else [])
  else if b sqSrc - pcSelfSide = PieceShi then
    ccShiDelta.flatMap (fun d =>
      if !inFort (sqSrc + d) then []
      else if emitOk bCapture pcSelfSide pcOppSide (b (sqSrc + d)) then [move sqSrc (sqSrc + d)]
      else [])
  else if b sqSrc - pcSelfSide = PieceXiang then
    ccShiDelta.flatMap (fun d =>
      if !(inBoard (sqSrc + d) && noRiver (sqSrc + d) p.sdPlayer && decide (b (sqSrc + d) = 0))
      then []
      else if emitOk bCapture pcSelfSide pcOppSide (b (sqSrc + d + d))
      then [move sqSrc (sqSrc + d + d)]
      else [])
  else if b sqSrc - pcSelfSide = PieceMa then
    (ccJiangDelta.zip ccMaDelta).flatMap (fun x =>
      if b (sqSrc + x.1) ≠ 0 then []
      else x.2.flatMap (fun m =>
        if !inBoard (sqSrc + m) then []
        else if emitOk bCapture pcSelfSide pcOppSide (b (sqSrc + m)) then [move sqSrc (sqSrc + m)]
        else []))
  else if b sqSrc - pcSelfSide = PieceJu then
    ccJiangDelta.flatMap (fun nDelta => juLoop b bCapture pcOppSide sqSrc nDelta 16 (sqSrc + nDelta))
  else if b sqSrc - pcSelfSide = PiecePao then
    ccJiangDelta.flatMap (fun nDelta =>
      let r := paoLoop1 b bCapture sqSrc nDelta 16 (sqSrc + nDelta)
      r.1 ++ paoLoop2 b pcOppSide sqSrc nDelta 16 (r.2 + nDelta))
  else if b sqSrc - pcSelfSide = PieceBing then
    (if inBoard (squareForward sqSrc p.sdPlayer) &&
        emitOk bCapture pcSelfSide pcOppSide (b (squareForward sqSrc p.sdPlayer))
     then [move sqSrc (squareForward sqSrc p.sdPlayer)] else []) ++
    (if hasRiver sqSrc p.sdPlayer then
      ([-1, 1] : List Int).flatMap (fun nDelta =>
        if inBoard (sqSrc + nDelta) &&
            emitOk bCapture pcSelfSide pcOppSide (b (sqSrc + nDelta))
        then [move sqSrc (sqSrc + nDelta)] else [])
     else [])
  else []

/-- generateMoves: the moves written to `mvs[0..count)`, in order; the returned count is the
length of this list.  (A caller whose buffer is shorter than the list fails in Go.) -/
def generateMoves (p : PositionStruct) (bCapture : Bool) : List Int :=
  allSquares.flatMap (genPiece p bCapture)

/-- The scanning loop of `legalMove`:
`for sqPin != sqDst && ucpcSquares[sqPin] == 0 { sqPin += nDelta }`.
Returns the final `sqPin`; `none` only when the fuel runs out. -/
def walk (b : Int → Int) (nDelta sqDst : Int) : Nat → Int → Option Int
  | 0, _ => none
  | fuel + 1, sqPin =>
    if sqPin ≠ sqDst ∧ b sqPin = 0 then walk b nDelta sqDst fuel (sqPin + nDelta)
    else some sqPin

/-- The Ju/Pao case of `legalMove` once the direction `nDelta` is known. -/
def legalSlide (b : Int → Int) (tmpPiece sqSrc sqDst nDelta : Int) : Option Bool :=
  match walk b nDelta sqDst 256 (sqSrc + nDelta) with
  | none => none
  | some sqPin =>
    if sqPin = sqDst then some (decide (b sqDst = 0) || decide (tmpPiece = PieceJu))
    else if b sqDst ≠ 0 ∧ tmpPiece = PiecePao then
      match walk b nDelta sqDst 256 (sqPin + nDelta) with
      | none => none
      | some sqPin2 => some (decide (sqPin2 = sqDst))
    else some false

/-- legalMove; `none` when a board read is out of range (the destination of an arbitrary
integer `mv`, or the horse leg of a piece standing in the padding). -/
def legalMove (p : PositionStruct) (mv : Int) : Option Bool :=
  let b := p.ucpcSquares
  let sqSrc := src mv
  let pcSrc := b sqSrc
  let pcSelfSide := sideTag p.sdPlayer
  if Int.land pcSrc pcSelfSide = 0 then some false
  else
    let sqDst := dst mv
    if !inRange sqDst then none
    else
      let pcDst := b sqDst
      if Int.land pcDst pcSelfSide ≠ 0 then some false
      else
        let tmpPiece := pcSrc - pcSelfSide
        if tmpPiece = PieceJiang then some (inFort sqDst && jiangSpan sqSrc sqDst)
        else if tmpPiece = PieceShi then some (inFort sqDst && shiSpan sqSrc sqDst)
        else if tmpPiece = PieceXiang then
          some (sameRiver sqSrc sqDst && xiangSpan sqSrc sqDst &&
            decide (b (xiangPin sqSrc sqDst) = 0))
        else if tmpPiece = PieceMa then
          if maPin sqSrc sqDst = sqSrc then some false
          else if !inRange (maPin sqSrc sqDst) then none
          else some (decide (b (maPin sqSrc sqDst) = 0))
        else if tmpPiece = PieceJu ∨ tmpPiece = PiecePao then
          if sameX sqSrc sqDst then
            legalSlide b tmpPiece sqSrc sqDst (if sqDst < sqSrc then -1 else 1)
          else if sameY sqSrc sqDst then
            legalSlide b tmpPiece sqSrc sqDst (if sqDst < sqSrc then -16 else 16)
          else some false
        else if tmpPiece = PieceBing then
          if hasRiver sqDst p.sdPlayer && (decide (sqDst = sqSrc - 1) || decide (sqDst = sqSrc + 1))
          then some true
          else some (decide (sqDst = squareForward sqSrc p.sdPlayer))
        else some false

/-! ## Mate, repetition, mirror (`rule.go`, lines 676-765) -/

/-- The move loop of `isMate`: the result flag and the position the loop leaves behind. -/
def isMateLoop (p : PositionStruct) : List Int → Option (Bool × PositionStruct)
  | [] => some (true, p)
  | mv :: mvs =>
    let r := movePiece cucvlPiecePos p mv
    match checked r.2 with
    | none => none
    | some false => some (false, undoMovePiece cucvlPiecePos r.2 mv r.1)
    | some true => isMateLoop (undoMovePiece cucvlPiecePos r.2 mv r.1) mvs

/-- isMate: the result flag and the position it leaves behind; `none` when the generated
moves overflow the buffer of `MaxGenMoves` entries or `checked` fails. -/
def isMate (p : PositionStruct) : Option (Bool × PositionStruct) :=
  if (generateMoves p false).length ≤ MaxGenMoves then
    isMateLoop cucvlPiecePos p (generateMoves p false)
  else none

/-- The loop of `repStatus`, with `k = i + 1` for the loop index `i`. -/
def repLoop (lpmvs : Int → MoveStruct) (dwKey : Nat) :
    Nat → Bool → Bool → Bool → Int → Int
  | 0, _, _, _, _ => 0
  | i + 1, bSelfSide, bPerpCheck, bOppPerpCheck, nRecur =>
    if (lpmvs i).wmv ≠ 0 ∧ (lpmvs i).ucpcCaptured = 0 then
      if bSelfSide then
        if (lpmvs i).dwKey = dwKey then
          if nRecur - 1 = 0 then
            1 + (if (bPerpCheck && (lpmvs i).ucbCheck) then 2 else 0) +
              (if bOppPerpCheck then 4 else 0)
          else
            repLoop lpmvs dwKey i (!bSelfSide) (bPerpCheck && (lpmvs i).ucbCheck) bOppPerpCheck
              (nRecur - 1)
        else
          repLoop lpmvs dwKey i (!bSelfSide) (bPerpCheck && (lpmvs i).ucbCheck) bOppPerpCheck
            nRecur
      else
        repLoop lpmvs dwKey i (!bSelfSide) bPerpCheck (bOppPerpCheck && (lpmvs i).ucbCheck)
          nRecur
    else 0

/-- repStatus; `none` when the first record read, `lpmvs[nMoveNum-1]`, is past the end of
the history. -/
def repStatus (p : PositionStruct) (nRecur : Int) : Option Int :=
  if p.nMoveNum - 1 < MaxMoves then
    some (repLoop p.mvsList p.zobr.dwKey p.nMoveNum.toNat false true true nRecur)
  else none

/-- The body of the square loop of `mirror`; `none` when the mirrored square is out of
range (a piece on file 15 of rank 0). -/
def mirrorStep (p : PositionStruct) (q : Option PositionStruct) (sq : Int) :
    Option PositionStruct :=
  match q with
  | none => none
  | some q =>
    if p.ucpcSquares sq ≠ 0 then
      if inRange (mirrorSquare sq) then
        some (addPiece cucvlPiecePos q (mirrorSquare sq) (p.ucpcSquares sq))
      else none
    else some q

/-- mirror: `p.mirror(posMirror)` returns the new content of `posMirror`. -/
def mirror (p posMirror : PositionStruct) : Option PositionStruct :=
  match allSquares.foldl (mirrorStep cucvlPiecePos p) (some (clearBoard posMirror)) with
  | none => none
  | some q => setIrrev (if p.sdPlayer = 1 then changeSide q else q)

end Operations

/-! ## Search constants, history queries and repetition score (`rule.go`, lines 296-303, 693-749) -/

/-- Modelled from the spec: `MATE_VALUE = 10000`. -/
def MateValue : Int := 10000

/-- Modelled from the spec: `BAN_VALUE = MATE_VALUE - 100`. -/
def BanValue : Int := MateValue - 100

/-- Modelled from the spec: `WIN_VALUE = MATE_VALUE - 200`. -/
def WinValue : Int := MateValue - 200

/-- Modelled from the spec: `DRAW_VALUE = 20`. -/
def DrawValue : Int := 20

/-- Modelled from the spec: `LIMIT_DEPTH = 64`. -/
def LimitDepth : Int := 64

/-- inCheck: the check flag of the top history record; `none` when `nMoveNum - 1` is not an
index of the history. -/
def inCheck (p : PositionStruct) : Option Bool :=
  if 0 ≤ p.nMoveNum - 1 ∧ p.nMoveNum - 1 < MaxMoves then some (p.mvsList (p.nMoveNum - 1)).ucbCheck
  else none

/-- captured: did the last move capture; `none` when `nMoveNum - 1` is not an index of the
history. -/
def captured (p : PositionStruct) : Option Bool :=
  if 0 ≤ p.nMoveNum - 1 ∧ p.nMoveNum - 1 < MaxMoves then
    some (decide ((p.mvsList (p.nMoveNum - 1)).ucpcCaptured ≠ 0))
  else none

/-- drawValue. -/
def drawValue (p : PositionStruct) : Int :=
  if Int.land p.nDistance 1 = 0 then -DrawValue else DrawValue

/-- repValue. -/
def repValue (p : PositionStruct) (nRepStatus : Int) : Int :=
  let vl1 := if Int.land nRepStatus 2 ≠ 0 then 0 + (p.nDistance - BanValue) else 0
  let vl2 := if Int.land nRepStatus 4 ≠ 0 then vl1 + (BanValue - p.nDistance) else vl1
  if vl2 = 0 then drawValue p else vl2

/-! ## Transposition table (`rule.go`, lines 767-776, 868-934) -/

/-- Modelled from the spec: `HASH_SIZE`, the number of slots of the transposition table
(a power of two, 2^20). -/
def HashSize : Nat := 1048576

/-- Modelled from the spec: the flag `ALPHA` of a table entry. -/
def HashAlpha : Int := 1

/-- Modelled from the spec: the flag `BETA` of a table entry. -/
def HashBeta : Int := 2

/-- Modelled from the spec: the flag `PV` of a table entry. -/
def HashPV : Int := 3

/-- HashItem: one entry of the transposition table. -/
structure HashItem where
  ucDepth : Int
  ucFlag : Int
  svl : Int
  wmv : Int
  dwLock0 : Nat
  dwLock1 : Nat
  wReserved : Int
deriving DecidableEq, Repr

/-- The slot `dwKey & (HashSize-1)` both table operations address. -/
def hashIndex (p : PositionStruct) : Nat := p.zobr.dwKey &&& (HashSize - 1)

/-- The part of `probeHash` after the mate-score adjustment: the entry `hsh` as adjusted and
whether it was. -/
def probeTail (hsh : HashItem) (bMate : Bool) (vlAlpha vlBeta nDepth : Int) : Int × Int :=
  if hsh.ucDepth ≥ nDepth ∨ bMate = true then
    if hsh.ucFlag = HashBeta then
      (if hsh.svl ≥ vlBeta then (hsh.svl, hsh.wmv) else (-MateValue, hsh.wmv))
    else if hsh.ucFlag = HashAlpha then
      (if hsh.svl ≤ vlAlpha then (hsh.svl, hsh.wmv) else (-MateValue, hsh.wmv))
    else (hsh.svl, hsh.wmv)
  else (-MateValue, hsh.wmv)

/-- probeHash: the returned pair and the table it leaves.  The table holds pointers to its
entries, so the adjustment of `hsh.svl` is written to the slot. -/
def probeHash (p : PositionStruct) (hashTable : Nat → HashItem) (vlAlpha vlBeta nDepth : Int) :
    (Int × Int) × (Nat → HashItem) :=
  let hsh := hashTable (hashIndex p)
  if hsh.dwLock0 ≠ p.zobr.dwLock0 ∨ hsh.dwLock1 ≠ p.zobr.dwLock1 then ((-MateValue, 0), hashTable)
  else if hsh.svl > WinValue then
    if hsh.svl < BanValue then ((-MateValue, hsh.wmv), hashTable)
    else
      let hsh1 := { hsh with svl := hsh.svl - p.nDistance }
      (probeTail hsh1 true vlAlpha vlBeta nDepth, Function.update hashTable (hashIndex p) hsh1)
  else if hsh.svl < -WinValue then
    if hsh.svl > -BanValue then ((-MateValue, hsh.wmv), hashTable)
    else
      let hsh1 := { hsh with svl := hsh.svl + p.nDistance }
      (probeTail hsh1 true vlAlpha vlBeta nDepth, Function.update hashTable (hashIndex p) hsh1)
  else (probeTail hsh false vlAlpha vlBeta nDepth, hashTable)

/-- The result of an addition or subtraction of Go `int`s: the value reduced to the 64-bit
two-complement range `-2^63 .. 2^63 - 1`. -/
def wrapInt (x : Int) : Int := (x + 2 ^ 63) % 2 ^ 64 - 2 ^ 63

/-- RecordHash: the table it leaves.  The flag and the depth are written to the slot before
the tests that may abandon the store; the adjusted score wraps as a Go `int` does. -/
def RecordHash (p : PositionStruct) (hashTable : Nat → HashItem) (nFlag vl nDepth mv : Int) :
    Nat → HashItem :=
  let hsh := hashTable (hashIndex p)
  if hsh.ucDepth > nDepth then hashTable
  else
    let hsh1 := { hsh with ucFlag := nFlag, ucDepth := nDepth }
    if vl > WinValue then
      if mv = 0 ∧ vl ≤ BanValue then Function.update hashTable (hashIndex p) hsh1
      else Function.update hashTable (hashIndex p)
        { hsh1 with svl := wrapInt (vl + p.nDistance), wmv := mv, dwLock0 := p.zobr.dwLock0,
                    dwLock1 := p.zobr.dwLock1 }
    else if vl < -WinValue then
      if mv = 0 ∧ vl ≥ -BanValue then Function.update hashTable (hashIndex p) hsh1
      else Function.update hashTable (hashIndex p)
        { hsh1 with svl := wrapInt (vl - p.nDistance), wmv := mv, dwLock0 := p.zobr.dwLock0,
                    dwLock1 := p.zobr.dwLock1 }
    else Function.update hashTable (hashIndex p)
      { hsh1 with svl := vl, wmv := mv, dwLock0 := p.zobr.dwLock0, dwLock1 := p.zobr.dwLock1 }

/-! ## Opening book (`rule.go`, lines 140-172, 778-866) -/

/-- BookItem: one entry of the opening book. -/
structure BookItem where
  dwLock : Nat
  wmv : Int
  wvl : Int
deriving DecidableEq, Repr

/-- NewPositionStruct: a freshly allocated position object, every field zero; `zobrist` is
the table `initZobrist` fills, the same for every object. -/
def NewPositionStruct (zobrist : Zobrist) : PositionStruct :=
  ⟨0, 0, 0, 0, 0, fun _ => 0, fun _ => ⟨0, false, 0, 0⟩, ⟨0, 0, 0⟩, zobrist⟩

/-- Modelled from the spec: the binary search `searchBook` calls (`sort.Search` of the Go
library): the loop `for i < j { h := (i+j)/2; if !f(h) { i = h+1 } else { j = h } }`,
returning `i`. -/
def sortSearch (f : Nat → Bool) : Nat → Nat → Nat → Nat
  | 0, i, _ => i
  | fuel + 1, i, j =>
    if i < j then
      if !f ((i + j) / 2) then sortSearch f fuel ((i + j) / 2 + 1) j
      else sortSearch f fuel i ((i + j) / 2)
    else i

/-- The book entry at index `i`; every call site guards the index. -/
def bookAt (book : List BookItem) (i : Int) : BookItem := book.getD i.toNat ⟨0, 0, 0⟩

/-- The call `sort.Search(bookSize, func(i) { BookTable[i].dwLock >= dwLock })`. -/
def bookFind (book : List BookItem) (dwLock : Nat) : Int :=
  Int.ofNat (sortSearch (fun i => decide ((bookAt book (Int.ofNat i)).dwLock ≥ dwLock))
    (book.length + 1) 0 book.length)

/-- The test `lpbk == bookSize || (lpbk < bookSize && BookTable[lpbk].dwLock != dwLock)`. -/
def bookMiss (book : List BookItem) (dwLock : Nat) (lpbk : Int) : Bool :=
  decide (lpbk = book.length ∨ (lpbk < book.length ∧ (bookAt book lpbk).dwLock ≠ dwLock))

/-- The loop `for lpbk >= 0 && BookTable[lpbk].dwLock == dwLock { lpbk-- }`. -/
def bookRewind (book : List BookItem) (dwLock : Nat) : Nat → Int → Int
  | 0, lpbk => lpbk
  | fuel + 1, lpbk =>
    if 0 ≤ lpbk ∧ (bookAt book lpbk).dwLock = dwLock then
      bookRewind book dwLock fuel (lpbk - 1)
    else lpbk

/-- The loop of `searchBook` that fills `mvs` and `vls`: the pairs written, in order;
`none` when `legalMove` fails. -/
def bookCollect (p : PositionStruct) (book : List BookItem) (dwLock : Nat) (bMirror : Bool) :
    Nat → Int → List (Int × Int) → Option (List (Int × Int))
  | 0, _, acc => some acc
  | fuel + 1, lpbk, acc =>
    if lpbk < book.length ∧ (bookAt book lpbk).dwLock = dwLock then
      match legalMove p (if bMirror then mirrorMove (bookAt book lpbk).wmv
          else (bookAt book lpbk).wmv) with
      | none => none
      | some true =>
        if (acc ++ [((if bMirror then mirrorMove (bookAt book lpbk).wmv
              else (bookAt book lpbk).wmv), (bookAt book lpbk).wvl)]).length = MaxGenMoves then
          some (acc ++ [((if bMirror then mirrorMove (bookAt book lpbk).wmv
              else (bookAt book lpbk).wmv), (bookAt book lpbk).wvl)])
        else
          bookCollect p book dwLock bMirror fuel (lpbk + 1)
            (acc ++ [((if bMirror then mirrorMove (bookAt book lpbk).wmv
              else (bookAt book lpbk).wmv), (bookAt book lpbk).wvl)])
      | some false => bookCollect p book dwLock bMirror fuel (lpbk + 1) acc
    else some acc

/-- The loop `for i = 0; i < nBookMoves; i++ { vl -= vls[i]; if vl < 0 { break } }`: the
final `i`, counted from `i0`. -/
def bookPick : Int → List (Int × Int) → Nat → Nat
  | _, [], i0 => i0
  | vl, e :: rest, i0 => if vl - e.2 < 0 then i0 else bookPick (vl - e.2) rest (i0 + 1)

section Book

variable (cucvlPiecePos : Int → Int → Int)

/-- The part of `searchBook` after the lock to search for is fixed. -/
def searchBookTail (intn : Int → Int) (p : PositionStruct) (book : List BookItem)
    (bMirror : Bool) (dwLock : Nat) (lpbk : Int) : Option Int :=
  if bookMiss book dwLock lpbk then some 0
  else
    match bookCollect p book dwLock bMirror (book.length + 1)
        (bookRewind book dwLock (book.length + 1) lpbk + 1) [] with
    | none => none
    | some acc =>
      if (acc.map Prod.snd).sum = 0 then some 0
      else if (acc.map Prod.snd).sum < 0 then none
      else
        if bookPick (intn (acc.map Prod.snd).sum) acc 0 < MaxGenMoves then
          some (acc.getD (bookPick (intn (acc.map Prod.snd).sum) acc 0) (0, 0)).1
        else none

/-- searchBook.  `intn n` is the value the call `rand.Intn(n)` returns, which fails for
`n <= 0`; `zobrist` is the table of the object `NewPositionStruct()` allocates.  `none` is
a run-time failure. -/
def searchBook (intn : Int → Int) (zobrist : Zobrist) (p : PositionStruct)
    (book : List BookItem) : Option Int :=
  if book.length = 0 then some 0
  else if bookMiss book p.zobr.dwLock1 (bookFind book p.zobr.dwLock1) then
    match mirror cucvlPiecePos p (NewPositionStruct zobrist) with
    | none => none
    | some posMirror =>
      searchBookTail intn p book true posMirror.zobr.dwLock1
        (bookFind book posMirror.zobr.dwLock1)
  else searchBookTail intn p book false p.zobr.dwLock1 (bookFind book p.zobr.dwLock1)

end Book

/-! ## RC4 key stream and Zobrist table (`rule.go`, lines 23-108) -/

/-- RC4Struct: the 256-cell state array `s` and the two indices. -/
structure RC4Struct where
  s : List Int
  x : Int
  y : Int
deriving DecidableEq, Repr

/-- The zero-valued `RC4Struct` that `&RC4Struct{}` allocates. -/
def RC4Struct.zero : RC4Struct := ⟨List.replicate 256 0, 0, 0⟩

/-- The assignment `s[i], s[j] = s[j], s[i]`. -/
def swapCells (s : List Int) (i j : Int) : List Int :=
  (s.set i.toNat (s.getD j.toNat 0)).set j.toNat (s.getD i.toNat 0)

/-- One round of the second loop of `initZero`, on the pair `(j, s)`. -/
def initZeroStep (js : Int × List Int) (i : Int) : Int × List Int :=
  let j := Int.land (js.1 + js.2.getD i.toNat 0) 255
  (j, swapCells js.2 i j)

/-- RC4Struct.initZero. -/
def RC4Struct.initZero (r : RC4Struct) : RC4Struct :=
  let s0 := allSquares.foldl (fun s i => s.set i.toNat i) r.s
  { r with s := (allSquares.foldl initZeroStep (0, s0)).2 }

/-- RC4Struct.nextByte: the byte returned, as a `uint32`, and the generator after the
call. -/
def RC4Struct.nextByte (r : RC4Struct) : Nat × RC4Struct :=
  let x := Int.land (r.x + 1) 255
  let y := Int.land (r.y + r.s.getD x.toNat 0) 255
  let s := swapCells r.s x y
  (((s.getD (Int.land (s.getD x.toNat 0 + s.getD y.toNat 0) 255).toNat 0) % 2 ^ 32).toNat,
    ⟨s, x, y⟩)

/-- RC4Struct.nextLong, in `uint32` arithmetic. -/
def RC4Struct.nextLong (r : RC4Struct) : Nat × RC4Struct :=
  let b0 := r.nextByte
  let b1 := b0.2.nextByte
  let b2 := b1.2.nextByte
  let b3 := b2.2.nextByte
  ((b0.1 + (b1.1 <<< 8) % 2 ^ 32 + (b2.1 <<< 16) % 2 ^ 32 + (b3.1 <<< 24) % 2 ^ 32) % 2 ^ 32,
    b3.2)

/-- ZobristStruct.initRC4: the triple drawn and the generator after the three calls. -/
def ZobristStruct.initRC4 (rc4 : RC4Struct) : ZobristStruct × RC4Struct :=
  let k := rc4.nextLong
  let l0 := k.2.nextLong
  let l1 := l0.2.nextLong
  (⟨k.1, l0.1, l1.1⟩, l1.2)

/-- One round of the table loops of `initZobrist`: the triples drawn so far, in the order
`Table[0][0], Table[0][1], ...`, and the generator. -/
def initZobristStep (acc : List ZobristStruct × RC4Struct) (_ : Nat) :
    List ZobristStruct × RC4Struct :=
  let z := ZobristStruct.initRC4 acc.2
  (acc.1 ++ [z.1], z.2)

/-- Zobrist.initZobrist: `Player` takes the first triple of the stream and `Table[i][j]` the
triple number `1 + 256 * i + j`. -/
def initZobrist : Zobrist :=
  let rc4 := RC4Struct.zero.initZero
  let player := ZobristStruct.initRC4 rc4
  let table := ((List.range (14 * 256)).foldl initZobristStep ([], player.2)).1
  ⟨player.1, fun i j =>
    if 0 ≤ i ∧ i < 14 ∧ 0 ≤ j ∧ j < 256 then table.getD (256 * i + j).toNat ⟨0, 0, 0⟩
    else ⟨0, 0, 0⟩⟩

/-- The first `n` bytes `nextByte` returns from the generator `r`. -/
def nextBytes : Nat → RC4Struct → List Nat
  | 0, _ => []
  | n + 1, r => r.nextByte.1 :: nextBytes n r.nextByte.2

/-- The first `n` words `nextLong` returns from the generator `r`. -/
def nextLongs : Nat → RC4Struct → List Nat
  | 0, _ => []
  | n + 1, r => r.nextLong.1 :: nextLongs n r.nextLong.2

/-! ## Move ordering and search (`rule.go`, lines 287-376, 936-1291) -/

/-- Modelled from the spec: `ADVANCED_VALUE = 3`. -/
def AdvancedValue : Int := 3

/-- Modelled from the spec: `NULL_MARGIN = 400`. -/
def NullMargin : Int := 400

/-- Modelled from the spec: `NULL_DEPTH = 2`. -/
def NullDepth : Int := 2

/-- Modelled from the spec: the phase HASH of `nextSort`, the first of the five. -/
def PhaseHash : Int := 0

/-- Modelled from the spec: the phase KILLER1 of `nextSort`. -/
def PhaseKiller1 : Int := 1

/-- Modelled from the spec: the phase KILLER2 of `nextSort`. -/
def PhaseKiller2 : Int := 2

/-- Modelled from the spec: the phase GEN of `nextSort`. -/
def PhaseGenMoves : Int := 3

/-- Modelled from the spec: the phase REST of `nextSort`. -/
def PhaseRest : Int := 4

/-- evaluate. -/
def evaluate (p : PositionStruct) : Int :=
  if p.sdPlayer = 0 then p.vlRed - p.vlBlack + AdvancedValue
  else p.vlBlack - p.vlRed + AdvancedValue

/-- nullMove; `none` when the history slot written is out of range. -/
def nullMove (p : PositionStruct) : Option PositionStruct :=
  let dwKey := p.zobr.dwKey
  let p1 := changeSide p
  if 0 ≤ p1.nMoveNum ∧ p1.nMoveNum < MaxMoves then
    some { p1 with mvsList := Function.update p1.mvsList p1.nMoveNum ⟨0, false, 0, dwKey⟩,
                   nMoveNum := p1.nMoveNum + 1,
                   nDistance := p1.nDistance + 1 }
  else none

/-- undoNullMove. -/
def undoNullMove (p : PositionStruct) : PositionStruct :=
  changeSide { p with nDistance := p.nDistance - 1, nMoveNum := p.nMoveNum - 1 }

/-- nullOkay. -/
def nullOkay (p : PositionStruct) : Bool :=
  if p.sdPlayer = 0 then decide (p.vlRed > NullMargin) else decide (p.vlBlack > NullMargin)

/-- mvvLva, over the table `cucMvvLva` of victim and attacker weights. -/
def mvvLva (cucMvvLva : Int → Int) (p : PositionStruct) (mv : Int) : Int :=
  (cucMvvLva (p.ucpcSquares (dst mv))) <<< 3 - cucMvvLva (p.ucpcSquares (src mv))

/-- Search: the move found, the history table, the killer table and the transposition
table. -/
structure Search where
  mvResult : Int
  nHistoryTable : Int → Int
  mvKillers : Int → Int → Int
  hashTable : Nat → HashItem

/-- SortStruct. -/
structure SortStruct where
  mvHash : Int
  mvKiller1 : Int
  mvKiller2 : Int
  nPhase : Int
  nIndex : Int
  nGenMoves : Int
  mvs : List Int
deriving DecidableEq, Repr

/-- The outcome of a search routine run with a bound on the depth of its recursion: the
value it returns, a run-time failure of the Go code, or the bound reached. -/
inductive Outcome (α : Type) where
  | done (a : α)
  | failed
  | exhausted
deriving DecidableEq, Repr

/-! ### `sort.Slice` -/

/-- The slice with the elements at the indices `i` and `j` exchanged. -/
def swapSlice (l : List Int) (i j : Nat) : List Int :=
  (l.set i (l.getD j 0)).set j (l.getD i 0)

/-- Library code, not among the sources of the repository: the inner loop of the insertion
sort of Go's package `sort`, `for j := i; j > 0 && less(j, j-1); j-- { swap(j, j-1) }`.
`less` receives the slice as it stands and two indices. -/
def insertDown (less : List Int → Nat → Nat → Bool) : Nat → List Int → List Int
  | 0, l => l
  | j + 1, l => if less l (j + 1) j then insertDown less j (swapSlice l (j + 1) j) else l

/-- Library code, not among the sources of the repository: the insertion sort of Go's
package `sort`, `for i := 1; i < n; i++ { ... }`. -/
def insertionSort (less : List Int → Nat → Nat → Bool) (l : List Int) : List Int :=
  (List.range' 1 (l.length - 1)).foldl (fun acc i => insertDown less i acc) l

/-- Library code, not among the sources of the repository: `sort.Slice(mvs, less)`.  The Go
library sorts a slice of at most 12 elements by insertion; what it does to a longer slice is
the parameter `sortLong`, of which the theorems assume only that it permutes the slice. -/
def sortSlice (sortLong : (List Int → Nat → Nat → Bool) → List Int → List Int)
    (less : List Int → Nat → Nat → Bool) (l : List Int) : List Int :=
  if l.length ≤ 12 then insertionSort less l else sortLong less l

/-- The comparison both history sorts pass to `sort.Slice`:
`func(a, b int) bool { return nHistoryTable[a] > nHistoryTable[b] }`, `a` and `b` being the
indices `sort.Slice` hands over. -/
def historyLess (nHistoryTable : Int → Int) (_ : List Int) (a b : Nat) : Bool :=
  decide (nHistoryTable a > nHistoryTable b)

/-- The comparison the capture sort of `searchQuiesc` passes to `sort.Slice`:
`func(a, b int) bool { return p.mvvLva(mvs[a]) > p.mvvLva(mvs[b]) }`. -/
def mvvLvaLess (cucMvvLva : Int → Int) (p : PositionStruct) (mvs : List Int) (a b : Nat) :
    Bool :=
  decide (mvvLva cucMvvLva p (mvs.getD a 0) > mvvLva cucMvvLva p (mvs.getD b 0))

/-! ### Move ordering (`rule.go`, lines 941-1022) -/

/-- initSort on a fresh `SortStruct` with a buffer of `MaxGenMoves` moves; `none` when
`nDistance` is not an index of the killer table. -/
def initSort (p : PositionStruct) (search : Search) (mvHash : Int) : Option SortStruct :=
  if 0 ≤ p.nDistance ∧ p.nDistance < LimitDepth then
    some ⟨mvHash, search.mvKillers p.nDistance 0, search.mvKillers p.nDistance 1, PhaseHash, 0, 0,
      List.replicate MaxGenMoves 0⟩
  else none

/-- The loop of the phase REST of `nextSort`: the move returned (0 when the moves are used
up) and the structure after the call; `none` when `nIndex` is not an index of `mvs`. -/
def nextSortRest : Nat → SortStruct → Option (Int × SortStruct)
  | 0, s => some (0, s)
  | fuel + 1, s =>
    if s.nIndex < s.nGenMoves then
      if 0 ≤ s.nIndex ∧ s.nIndex < s.mvs.length then
        if s.mvs.getD s.nIndex.toNat 0 ≠ s.mvHash ∧ s.mvs.getD s.nIndex.toNat 0 ≠ s.mvKiller1 ∧
            s.mvs.getD s.nIndex.toNat 0 ≠ s.mvKiller2 then
          some (s.mvs.getD s.nIndex.toNat 0, { s with nIndex := s.nIndex + 1 })
        else nextSortRest fuel { s with nIndex := s.nIndex + 1 }
      else none
    else some (0, s)

/-- The phases GEN and REST of `nextSort`; `none` when the moves do not fit the buffer
`s.mvs`. -/
def nextSortGen (sortLong : (List Int → Nat → Nat → Bool) → List Int → List Int)
    (p : PositionStruct) (search : Search) (s : SortStruct) : Option (Int × SortStruct) :=
  if (generateMoves p false).length > s.mvs.length then none
  else
    let s1 : SortStruct :=
      { s with nPhase := PhaseRest,
               nGenMoves := (generateMoves p false).length,
               mvs := sortSlice sortLong (historyLess search.nHistoryTable)
                 (generateMoves p false),
               nIndex := 0 }
    nextSortRest (s1.nGenMoves - s1.nIndex).toNat s1

/-- The phases of `nextSort` from KILLER2 on. -/
def nextSortKiller2 (sortLong : (List Int → Nat → Nat → Bool) → List Int → List Int)
    (p : PositionStruct) (search : Search) (s : SortStruct) : Option (Int × SortStruct) :=
  let s1 := { s with nPhase := PhaseGenMoves }
  if s1.mvKiller2 ≠ s1.mvHash ∧ s1.mvKiller2 ≠ 0 then
    match legalMove p s1.mvKiller2 with
    | none => none
    | some true => some (s1.mvKiller2, s1)
    | some false => nextSortGen sortLong p search s1
  else nextSortGen sortLong p search s1

/-- The phases of `nextSort` from KILLER1 on. -/
def nextSortKiller1 (sortLong : (List Int → Nat → Nat → Bool) → List Int → List Int)
    (p : PositionStruct) (search : Search) (s : SortStruct) : Option (Int × SortStruct) :=
  let s1 := { s with nPhase := PhaseKiller2 }
  if s1.mvKiller1 ≠ s1.mvHash ∧ s1.mvKiller1 ≠ 0 then
    match legalMove p s1.mvKiller1 with
    | none => none
    | some true => some (s1.mvKiller1, s1)
    | some false => nextSortKiller2 sortLong p search s1
  else nextSortKiller2 sortLong p search s1

/-- nextSort: the move returned (0 when there is none left) and the structure after the
call; `none` is a run-time failure. -/
def nextSort (sortLong : (List Int → Nat → Nat → Bool) → List Int → List Int)
    (p : PositionStruct) (search : Search) (s : SortStruct) : Option (Int × SortStruct) :=
  if s.nPhase = PhaseHash then
    if s.mvHash ≠ 0 then some (s.mvHash, { s with nPhase := PhaseKiller1 })
    else nextSortKiller1 sortLong p search { s with nPhase := PhaseKiller1 }
  else if s.nPhase = PhaseKiller1 then nextSortKiller1 sortLong p search s
  else if s.nPhase = PhaseKiller2 then nextSortKiller2 sortLong p search s
  else if s.nPhase = PhaseGenMoves then nextSortGen sortLong p search s
  else if s.nPhase = PhaseRest then nextSortRest (s.nGenMoves - s.nIndex).toNat s
  else some (0, s)

/-- setBestMove; `none` when `mv` is not an index of the history table or `nDistance` not
one of the killer table. -/
def setBestMove (p : PositionStruct) (search : Search) (mv nDepth : Int) : Option Search :=
  if 0 ≤ mv ∧ mv < 65536 ∧ 0 ≤ p.nDistance ∧ p.nDistance < LimitDepth then
    let hist := Function.update search.nHistoryTable mv (search.nHistoryTable mv + nDepth * nDepth)
    if search.mvKillers p.nDistance 0 ≠ mv then
      some { search with
        nHistoryTable := hist,
        mvKillers := Function.update search.mvKillers p.nDistance
          (Function.update (Function.update (search.mvKillers p.nDistance) 1
            (search.mvKillers p.nDistance 0)) 0 mv) }
    else some { search with nHistoryTable := hist }
  else none

/-! ### The searches (`rule.go`, lines 1034-1200) -/

section SearchRoutines

variable (cucvlPiecePos : Int → Int → Int) (cucMvvLva : Int → Int)
  (sortLong : (List Int → Nat → Nat → Bool) → List Int → List Int)

/-- The move loop of `searchQuiesc` and the two returns after it, over the call
`searchQuiesc` of the next ply; `vlBest` is the best value so far. -/
def quiescLoop (searchNext : PositionStruct → Int → Int → Outcome (Int × PositionStruct)) :
    List Int → PositionStruct → Int → Int → Int → Outcome (Int × PositionStruct)
  | [], p, _, _, vlBest =>
    if vlBest = -MateValue then .done (p.nDistance - MateValue, p) else .done (vlBest, p)
  | mv :: mvs, p, vlAlpha, vlBeta, vlBest =>
    match makeMove cucvlPiecePos p mv with
    | none => .failed
    | some (false, p1) => quiescLoop searchNext mvs p1 vlAlpha vlBeta vlBest
    | some (true, p1) =>
      match searchNext p1 (-vlBeta) (-vlAlpha) with
      | .failed => .failed
      | .exhausted => .exhausted
      | .done r =>
        match undoMakeMove cucvlPiecePos r.2 with
        | none => .failed
        | some p3 =>
          if -r.1 > vlBest then
            if -r.1 ≥ vlBeta then .done (-r.1, p3)
            else
              quiescLoop searchNext mvs p3 (if -r.1 > vlAlpha then -r.1 else vlAlpha) vlBeta
                (-r.1)
          else quiescLoop searchNext mvs p3 vlAlpha vlBeta vlBest

/-- searchQuiesc, with a bound on the depth of the recursion: the value returned and the
position after the call. -/
def searchQuiesc (nHistoryTable : Int → Int) :
    Nat → PositionStruct → Int → Int → Outcome (Int × PositionStruct)
  | 0, _, _, _ => .exhausted
  | fuel + 1, p, vlAlpha, vlBeta =>
    match repStatus p 1 with
    | none => .failed
    | some vl =>
      if vl ≠ 0 then .done (repValue p vl, p)
      else if p.nDistance = LimitDepth then .done (evaluate p, p)
      else
        match inCheck p with
        | none => .failed
        | some true =>
          if (generateMoves p false).length > MaxGenMoves then .failed
          else
            quiescLoop cucvlPiecePos (searchQuiesc nHistoryTable fuel)
              (sortSlice sortLong (historyLess nHistoryTable) (generateMoves p false))
              p vlAlpha vlBeta (-MateValue)
        | some false =>
          if evaluate p > -MateValue then
            if evaluate p ≥ vlBeta then .done (evaluate p, p)
            else if (generateMoves p true).length > MaxGenMoves then .failed
            else
              quiescLoop cucvlPiecePos (searchQuiesc nHistoryTable fuel)
                (sortSlice sortLong (mvvLvaLess cucMvvLva p) (generateMoves p true))
                p (if evaluate p > vlAlpha then evaluate p else vlAlpha) vlBeta (evaluate p)
          else if (generateMoves p true).length > MaxGenMoves then .failed
          else
            quiescLoop cucvlPiecePos (searchQuiesc nHistoryTable fuel)
              (sortSlice sortLong (mvvLvaLess cucMvvLva p) (generateMoves p true))
              p vlAlpha vlBeta (-MateValue)

/-- The principal-variation step of `searchFull` on the position after the move: the value
`vl` and the position and tables after the one or two calls of the next ply. -/
def searchPvs
    (searchNext : PositionStruct → Search → Int → Int → Int → Bool →
      Outcome (Int × PositionStruct × Search))
    (p1 : PositionStruct) (search : Search) (vlAlpha vlBeta nNewDepth vlBest : Int) :
    Outcome (Int × PositionStruct × Search) :=
  if vlBest = -MateValue then
    match searchNext p1 search (-vlBeta) (-vlAlpha) nNewDepth false with
    | .failed => .failed
    | .exhausted => .exhausted
    | .done r => .done (-r.1, r.2)
  else
    match searchNext p1 search (-vlAlpha - 1) (-vlAlpha) nNewDepth false with
    | .failed => .failed
    | .exhausted => .exhausted
    | .done r =>
      if -r.1 > vlAlpha ∧ -r.1 < vlBeta then
        match searchNext r.2.1 r.2.2 (-vlBeta) (-vlAlpha) nNewDepth false with
        | .failed => .failed
        | .exhausted => .exhausted
        | .done r2 => .done (-r2.1, r2.2)
      else .done (-r.1, r.2)

/-- The returns of `searchFull` after its move loop. -/
def searchFinish (p : PositionStruct) (search : Search)
    (nDepth vlBest nHashFlag mvBest : Int) : Outcome (Int × PositionStruct × Search) :=
  if vlBest = -MateValue then .done (p.nDistance - MateValue, p, search)
  else
    let search1 :=
      { search with hashTable := RecordHash p search.hashTable nHashFlag vlBest nDepth mvBest }
    if mvBest ≠ 0 then
      match setBestMove p search1 mvBest nDepth with
      | none => .failed
      | some search2 => .done (vlBest, p, search2)
    else .done (vlBest, p, search1)

/-- The move loop of `searchFull`, `for mv := nextSort(s); mv != 0; mv = nextSort(s)`, and
the returns after it, over the call `searchFull` of the next ply.  The first argument
bounds the number of rounds. -/
def searchLoop
    (searchNext : PositionStruct → Search → Int → Int → Int → Bool →
      Outcome (Int × PositionStruct × Search)) (nDepth : Int) :
    Nat → SortStruct → PositionStruct → Search → Int → Int → Int → Int → Int →
      Outcome (Int × PositionStruct × Search)
  | 0, _, _, _, _, _, _, _, _ => .exhausted
  | rounds + 1, s, p, search, vlAlpha, vlBeta, vlBest, nHashFlag, mvBest =>
    match nextSort sortLong p search s with
    | none => .failed
    | some (mv, s1) =>
      if mv = 0 then searchFinish p search nDepth vlBest nHashFlag mvBest
      else
        match makeMove cucvlPiecePos p mv with
        | none => .failed
        | some (false, p1) =>
          searchLoop searchNext nDepth rounds s1 p1 search vlAlpha vlBeta vlBest nHashFlag mvBest
        | some (true, p1) =>
          match inCheck p1 with
          | none => .failed
          | some c =>
            match searchPvs searchNext p1 search vlAlpha vlBeta
                (if c then nDepth else nDepth - 1) vlBest with
            | .failed => .failed
            | .exhausted => .exhausted
            | .done r =>
              match undoMakeMove cucvlPiecePos r.2.1 with
              | none => .failed
              | some p3 =>
                if r.1 > vlBest then
                  if r.1 ≥ vlBeta then searchFinish p3 r.2.2 nDepth r.1 HashBeta mv
                  else if r.1 > vlAlpha then
                    searchLoop searchNext nDepth rounds s1 p3 r.2.2 r.1 vlBeta r.1 HashPV mv
                  else
                    searchLoop searchNext nDepth rounds s1 p3 r.2.2 vlAlpha vlBeta r.1 nHashFlag
                      mvBest
                else
                  searchLoop searchNext nDepth rounds s1 p3 r.2.2 vlAlpha vlBeta vlBest nHashFlag
                    mvBest

/-- The part of `searchFull` from the initialisation of the best value on. -/
def searchMoves
    (searchNext : PositionStruct → Search → Int → Int → Int → Bool →
      Outcome (Int × PositionStruct × Search))
    (p : PositionStruct) (search : Search) (vlAlpha vlBeta nDepth mvHash : Int) :
    Outcome (Int × PositionStruct × Search) :=
  match initSort p search mvHash with
  | none => .failed
  | some s =>
    searchLoop cucvlPiecePos sortLong searchNext nDepth (MaxGenMoves + 5) s p search vlAlpha
      vlBeta (-MateValue) HashAlpha 0

/-- searchFull, with a bound on the depth of the recursion: the value returned and the
position and the tables after the call. -/
def searchFull :
    Nat → PositionStruct → Search → Int → Int → Int → Bool →
      Outcome (Int × PositionStruct × Search)
  | 0, _, _, _, _, _, _ => .exhausted
  | fuel + 1, p, search, vlAlpha, vlBeta, nDepth, bNoNull =>
    if nDepth ≤ 0 then
      match searchQuiesc cucvlPiecePos cucMvvLva sortLong search.nHistoryTable (fuel + 1) p
          vlAlpha vlBeta with
      | .failed => .failed
      | .exhausted => .exhausted
      | .done r => .done (r.1, r.2, search)
    else
      match repStatus p 1 with
      | none => .failed
      | some vl =>
        if vl ≠ 0 then .done (repValue p vl, p, search)
        else if p.nDistance = LimitDepth then .done (evaluate p, p, search)
        else
          let probe := probeHash p search.hashTable vlAlpha vlBeta nDepth
          let search1 := { search with hashTable := probe.2 }
          if probe.1.1 > -MateValue then .done (probe.1.1, p, search1)
          else if bNoNull then
            searchMoves cucvlPiecePos sortLong (searchFull fuel) p search1 vlAlpha vlBeta nDepth
              probe.1.2
          else
            match inCheck p with
            | none => .failed
            | some true =>
              searchMoves cucvlPiecePos sortLong (searchFull fuel) p search1 vlAlpha vlBeta
                nDepth probe.1.2
            | some false =>
              if nullOkay p then
                match nullMove p with
                | none => .failed
                | some p1 =>
                  match searchFull fuel p1 search1 (-vlBeta) (1 - vlBeta)
                      (nDepth - NullDepth - 1) true with
                  | .failed => .failed
                  | .exhausted => .exhausted
                  | .done r =>
                    if -r.1 ≥ vlBeta then .done (-r.1, undoNullMove r.2.1, r.2.2)
                    else
                      searchMoves cucvlPiecePos sortLong (searchFull fuel) (undoNullMove r.2.1)
                        r.2.2 vlAlpha vlBeta nDepth probe.1.2
              else
                searchMoves cucvlPiecePos sortLong (searchFull fuel) p search1 vlAlpha vlBeta
                  nDepth probe.1.2

/-- The opening-book branch of `searchMain`: the tables cleared, `nDistance` set to 0, the
book move looked up and tried.  The flag tells whether `searchMain` returns in this branch,
and the position and tables are those at that point.  `none` is a run-time failure. -/
def searchMainBook (intn : Int → Int) (zobrist : Zobrist) (p : PositionStruct)
    (book : List BookItem) : Option (Bool × PositionStruct × Search) :=
  let p0 := { p with nDistance := 0 }
  match searchBook cucvlPiecePos intn zobrist p0 book with
  | none => none
  | some mvResult =>
    let search : Search := ⟨mvResult, fun _ => 0, fun _ _ => 0, fun _ => ⟨0, 0, 0, 0, 0, 0, 0⟩⟩
    if mvResult ≠ 0 then
      match makeMove cucvlPiecePos p0 mvResult with
      | none => none
      | some r =>
        match repStatus r.2 3 with
        | none => none
        | some vl =>
          match undoMakeMove cucvlPiecePos r.2 with
          | none => none
          | some p2 => some (decide (vl = 0), p2, search)
    else some (false, p0, search)

end SearchRoutines

/-! ## Specification-side definitions -/

/-- A content a board cell may have: empty, a Red piece code 8..14 or a Black one 16..22. -/
def okPiece (pc : Int) : Bool :=
  decide (pc = 0 ∨ (8 ≤ pc ∧ pc ≤ 14) ∨ (16 ≤ pc ∧ pc ≤ 22))

/-- Well-formed position: every cell of the board array has an admissible content. -/
def WellFormed (p : PositionStruct) : Prop :=
  ∀ n : Nat, n < 256 → okPiece (p.ucpcSquares n) = true

/-- The Zobrist triple `addPiece` and `delPiece` XOR in for piece `pc` on square `sq`. -/
def pieceKey (z : Zobrist) (pc sq : Int) : ZobristStruct :=
  if pc < 16 then z.Table (pc - 8) sq else z.Table (pc - 9) sq

/-- The triple a cell content `pc` on square `sq` contributes when the board is hashed from
scratch: `Table[pc-8][sq]` for a Red piece, `Table[pc-9][sq]` for a Black piece, nothing
for an empty cell. -/
def keyOf (z : Zobrist) (pc sq : Int) : ZobristStruct :=
  if 8 ≤ pc ∧ pc ≤ 14 then z.Table (pc - 8) sq
  else if 16 ≤ pc ∧ pc ≤ 22 then z.Table (pc - 9) sq
  else ZobristStruct.initZero

/-- XOR of the contributions of the cells `0..n-1`. -/
def rehashBoard (z : Zobrist) (b : Int → Int) : Nat → ZobristStruct
  | 0 => ZobristStruct.initZero
  | n + 1 => (rehashBoard z b n).xor1 (keyOf z (b n) n)

/-- The Zobrist triple of a position computed from scratch: the XOR over all 256 cells,
further XORed with the `Player` triple exactly when Black (side 1) is to move. -/
def rehash (p : PositionStruct) : ZobristStruct :=
  if p.sdPlayer = 1 then (rehashBoard p.zobrist p.ucpcSquares 256).xor1 p.zobrist.Player
  else rehashBoard p.zobrist p.ucpcSquares 256

/-- Sum of `f (content) (square)` over the cells `0..n-1`. -/
def sumBoard (f : Int → Int → Int) (b : Int → Int) : Nat → Int
  | 0 => 0
  | n + 1 => sumBoard f b n + f (b n) n

/-- Positional value a cell contributes to Red: `cucvlPiecePos[pc-8][sq]` for a Red piece. -/
def redValue (cucvlPiecePos : Int → Int → Int) (pc sq : Int) : Int :=
  if 8 ≤ pc ∧ pc ≤ 14 then cucvlPiecePos (pc - 8) sq else 0

/-- Positional value a cell contributes to Black: `cucvlPiecePos[pc-16][squareFlip(sq)]` for
a Black piece. -/
def blackValue (cucvlPiecePos : Int → Int → Int) (pc sq : Int) : Int :=
  if 16 ≤ pc ∧ pc ≤ 22 then cucvlPiecePos (pc - 16) (squareFlip sq) else 0

/-- The incrementally maintained data agree with the board: the side is 0 or 1, the Zobrist
triple is the one hashed from scratch and both scores are the ones summed from scratch. -/
def Consistent (cucvlPiecePos : Int → Int → Int) (p : PositionStruct) : Prop :=
  (p.sdPlayer = 0 ∨ p.sdPlayer = 1) ∧ p.zobr = rehash p ∧
    p.vlRed = sumBoard (redValue cucvlPiecePos) p.ucpcSquares 256 ∧
    p.vlBlack = sumBoard (blackValue cucvlPiecePos) p.ucpcSquares 256

/-- A sequence of `makeMove` calls, successful or rejected, each on a move accepted by
`legalMove` in the position it is played in; the position after the last call. -/
def playLegal (cucvlPiecePos : Int → Int → Int) :
    PositionStruct → List Int → Option PositionStruct
  | p, [] => some p
  | p, mv :: mvs =>
    if legalMove p mv = some true then
      match makeMove cucvlPiecePos p mv with
      | some r => playLegal cucvlPiecePos r.2 mvs
      | none => none
    else none

/-- A position obtained from `startup()` by a sequence of `makeMove` calls on moves accepted
by `legalMove`. -/
def Played (cucvlPiecePos : Int → Int → Int) (p : PositionStruct) : Prop :=
  ∃ p0 s mvs, startup cucvlPiecePos p0 = some s ∧ playLegal cucvlPiecePos s mvs = some p

/-- The history records the scan of `repStatus` visits: from index `nMoveNum-1` downward,
stopping before the first record that is a null/sentinel move (`wmv = 0`) or a capture. -/
def scannedRun (p : PositionStruct) : List MoveStruct :=
  (((List.range p.nMoveNum.toNat).reverse).map (fun i => p.mvsList (Int.ofNat i))).takeWhile
    (fun m => decide (m.wmv ≠ 0) && decide (m.ucpcCaptured = 0))

/-- The self-side records of a scanned run: the 2nd, 4th, ... record (the 1st, 3rd, ... are
plies of the opposing side). -/
def selfSide : List MoveStruct → List MoveStruct
  | [] => []
  | [_] => []
  | _ :: m :: rest => m :: selfSide rest

/-- The number of self-side records of the scanned run whose stored pre-move key equals the
current `dwKey`. -/
def matchCount (p : PositionStruct) : Nat :=
  ((selfSide (scannedRun p)).filter (fun m => decide (m.dwKey = p.zobr.dwKey))).length

/-- Matching self-side records of a list whose first record is self-side iff `bSelfSide`. -/
def countSelf (dwKey : Nat) : Bool → List MoveStruct → Nat
  | _, [] => 0
  | true, m :: rest => (if m.dwKey = dwKey then 1 else 0) + countSelf dwKey false rest
  | false, _ :: rest => countSelf dwKey true rest

/-- The run of records the loop of `repStatus` visits when it starts at index `k - 1`. -/
def runFrom (lpmvs : Int → MoveStruct) (k : Nat) : List MoveStruct :=
  (((List.range k).reverse).map (fun i => lpmvs (Int.ofNat i))).takeWhile
    (fun m => decide (m.wmv ≠ 0) && decide (m.ucpcCaptured = 0))

/-- The squares `sq + j * nDelta`, `1 <= j < k`, except the `k1`-th, are empty on-board squares. -/
def ClearExcept (b : Int → Int) (sq nDelta : Int) (k1 k : Nat) : Prop :=
  ∀ j : Nat, 1 ≤ j → j < k → j ≠ k1 → inBoard (sq + j * nDelta) = true ∧ b (sq + j * nDelta) = 0

/-- The squares `sq + j * nDelta`, `1 <= j < k`, are empty on-board squares. -/
def Clear (b : Int → Int) (sq nDelta : Int) (k : Nat) : Prop :=
  ∀ j : Nat, 1 ≤ j → j < k → inBoard (sq + j * nDelta) = true ∧ b (sq + j * nDelta) = 0

/-- What `generateMoves` guarantees about a move from `sq` to `d` it writes, by piece type. -/
def GenFact (p : PositionStruct) (c : Bool) (sq d : Int) : Prop :=
  (p.ucpcSquares sq - sideTag p.sdPlayer = PieceJiang ∧ inFort d = true ∧
    d - sq ∈ ccJiangDelta ∧
    emitOk c (sideTag p.sdPlayer) (oppSideTag p.sdPlayer) (p.ucpcSquares d) = true) ∨
  (p.ucpcSquares sq - sideTag p.sdPlayer = PieceShi ∧ inFort d = true ∧
    d - sq ∈ ccShiDelta ∧
    emitOk c (sideTag p.sdPlayer) (oppSideTag p.sdPlayer) (p.ucpcSquares d) = true) ∨
  (p.ucpcSquares sq - sideTag p.sdPlayer = PieceXiang ∧
    (∃ e ∈ ccShiDelta, d = sq + e + e ∧ inBoard (sq + e) = true ∧
      noRiver (sq + e) p.sdPlayer = true ∧ p.ucpcSquares (sq + e) = 0) ∧
    emitOk c (sideTag p.sdPlayer) (oppSideTag p.sdPlayer) (p.ucpcSquares d) = true) ∨
  (p.ucpcSquares sq - sideTag p.sdPlayer = PieceMa ∧ inBoard d = true ∧
    maPin sq d ≠ sq ∧ p.ucpcSquares (maPin sq d) = 0 ∧
    emitOk c (sideTag p.sdPlayer) (oppSideTag p.sdPlayer) (p.ucpcSquares d) = true) ∨
  (p.ucpcSquares sq - sideTag p.sdPlayer = PieceJu ∧
    ∃ nDelta ∈ ccJiangDelta, ∃ k : Nat, 1 ≤ k ∧ d = sq + k * nDelta ∧
      Clear p.ucpcSquares sq nDelta k ∧ inBoard d = true ∧
      ((p.ucpcSquares d = 0 ∧ c = false) ∨
        (p.ucpcSquares d ≠ 0 ∧ Int.land (p.ucpcSquares d) (oppSideTag p.sdPlayer) ≠ 0))) ∨
  (p.ucpcSquares sq - sideTag p.sdPlayer = PiecePao ∧
    ∃ nDelta ∈ ccJiangDelta, ∃ k : Nat, 1 ≤ k ∧ d = sq + k * nDelta ∧ inBoard d = true ∧
      ((Clear p.ucpcSquares sq nDelta k ∧ p.ucpcSquares d = 0 ∧ c = false) ∨
        (∃ k1 : Nat, 1 ≤ k1 ∧ k1 < k ∧ inBoard (sq + k1 * nDelta) = true ∧
          p.ucpcSquares (sq + k1 * nDelta) ≠ 0 ∧ ClearExcept p.ucpcSquares sq nDelta k1 k ∧
          p.ucpcSquares d ≠ 0 ∧
          Int.land (p.ucpcSquares d) (oppSideTag p.sdPlayer) ≠ 0))) ∨
  (p.ucpcSquares sq - sideTag p.sdPlayer = PieceBing ∧ inBoard d = true ∧
    emitOk c (sideTag p.sdPlayer) (oppSideTag p.sdPlayer) (p.ucpcSquares d) = true ∧
    (d = squareForward sq p.sdPlayer ∨
      (hasRiver sq p.sdPlayer = true ∧ (d = sq - 1 ∨ d = sq + 1))))

/-- Every Xiang stands on a rank of its own half from which its moves stay in that half:
ranks 8, 10, 12 for Red and 3, 5, 7 for Black. -/
def XiangHome (p : PositionStruct) : Prop :=
  ∀ sq : Int, 0 ≤ sq → sq < 256 →
    (p.ucpcSquares sq = 8 + PieceXiang → (rankY sq = 8 ∨ rankY sq = 10 ∨ rankY sq = 12)) ∧
    (p.ucpcSquares sq = 16 + PieceXiang → (rankY sq = 3 ∨ rankY sq = 5 ∨ rankY sq = 7))

/-- A sequence of successful `makeMove` calls, each on a move `generateMoves` writes in the
position it is played in; the position after the last call. -/
def playGenerated (cucvlPiecePos : Int → Int → Int) :
    PositionStruct → List Int → Option PositionStruct
  | p, [] => some p
  | p, mv :: mvs =>
    if mv ∈ generateMoves p false then
      match makeMove cucvlPiecePos p mv with
      | some (true, p1) => playGenerated cucvlPiecePos p1 mvs
      | _ => none
    else none

/-- A position reachable from the startup position by successful `makeMove` calls on
generated moves. -/
def Reached (cucvlPiecePos : Int → Int → Int) (p : PositionStruct) : Prop :=
  ∃ p0 s mvs, startup cucvlPiecePos p0 = some s ∧ playGenerated cucvlPiecePos s mvs = some p

/-- The invariant of play with generated moves that `legalMove` relies on. -/
def GenInv (p : PositionStruct) : Prop :=
  WellFormed p ∧ (p.sdPlayer = 0 ∨ p.sdPlayer = 1) ∧ XiangHome p

/-- Every piece stands on a file 0..14, the files `mirrorSquare` maps among themselves (the
on-board files are 3..11). -/
def OnFiles (p : PositionStruct) : Prop :=
  ∀ n : Nat, n < 256 → p.ucpcSquares n ≠ 0 → fileX n ≤ 14

instance (p : PositionStruct) : Decidable (OnFiles p) := by
  unfold OnFiles
  infer_instance

/-- What the square loop of `mirror` has built in `q` from `p` after the squares `0..n-1`. -/
def MirrorLoop (cucvlPiecePos : Int → Int → Int) (p q0 q : PositionStruct) (n : Nat) : Prop :=
  Consistent cucvlPiecePos q ∧ q.sdPlayer = 0 ∧ q.nDistance = 0 ∧
  q.nMoveNum = q0.nMoveNum ∧ q.mvsList = q0.mvsList ∧ q.zobrist = q0.zobrist ∧
  ∀ i : Int, q.ucpcSquares i =
    if 0 ≤ i ∧ i < 256 ∧ fileX i ≤ 14 ∧ mirrorSquare i < n then p.ucpcSquares (mirrorSquare i)
    else 0

/-- What `p.mirror(q0)` leaves in the destination object. -/
def MirrorOf (cucvlPiecePos : Int → Int → Int) (p q0 q : PositionStruct) : Prop :=
  Consistent cucvlPiecePos q ∧ q.sdPlayer = p.sdPlayer ∧ q.nDistance = 0 ∧ q.nMoveNum = 1 ∧
  q.zobrist = q0.zobrist ∧
  (∃ c, q.mvsList 0 = ⟨0, c, 0, q.zobr.dwKey⟩) ∧ (∀ i : Int, i ≠ 0 → q.mvsList i = q0.mvsList i) ∧
  ∀ i : Int, q.ucpcSquares i =
    if 0 ≤ i ∧ i < 256 ∧ fileX i ≤ 14 then p.ucpcSquares (mirrorSquare i) else 0

instance (p : PositionStruct) : Decidable (WellFormed p) := by
  unfold WellFormed
  infer_instance

/-- The board array `startup()` fills: the startup array on the cells 0..255. -/
def startupBoard : Int → Int :=
  fun i => if 0 ≤ i ∧ i < 256 then cucpcStartup.getD i.toNat 0 else 0

/-- The step `legalMove` takes from the source towards a destination on the same rank
(1 or -1) or else on the same file (16 or -16). -/
def lineDelta (sqSrc sqDst : Int) : Int :=
  if sameX sqSrc sqDst then (if sqDst < sqSrc then -1 else 1)
  else (if sqDst < sqSrc then -16 else 16)

/-- The number of steps of `lineDelta` from the source to a destination on the same rank or
file. -/
def lineSteps (sqSrc sqDst : Int) : Nat :=
  if sameX sqSrc sqDst then (if sqDst < sqSrc then (sqSrc - sqDst).toNat else (sqDst - sqSrc).toNat)
  else (if sqDst < sqSrc then ((sqSrc - sqDst) / 16).toNat else ((sqDst - sqSrc) / 16).toNat)

/-- The squares strictly between two squares of one rank or one file, listed from the source
towards the destination. -/
def squaresBetween (sqSrc sqDst : Int) : List Int :=
  (List.range (lineSteps sqSrc sqDst - 1)).map
    (fun j : Nat => sqSrc + ((j : Int) + 1) * lineDelta sqSrc sqDst)

/-- The number of occupied squares strictly between two squares of one rank or one file. -/
def screens (p : PositionStruct) (sqSrc sqDst : Int) : Nat :=
  ((squaresBetween sqSrc sqDst).filter (fun sq => decide (p.ucpcSquares sq ≠ 0))).length

/-- The number of occupied squares among `s, s + nDelta, ..., s + (n-1) * nDelta`. -/
def occFrom (b : Int → Int) (nDelta : Int) : Nat → Int → Nat
  | 0, _ => 0
  | n + 1, s => (if b s ≠ 0 then 1 else 0) + occFrom b nDelta n (s + nDelta)

/-- The records of a list at alternate positions: the 1st, 3rd, ... when `first` is true, the
2nd, 4th, ... otherwise. -/
def alternate : Bool → List MoveStruct → List MoveStruct
  | _, [] => []
  | true, m :: rest => m :: alternate false rest
  | false, _ :: rest => alternate true rest

/-- The opposing-side records of a scanned run: the 1st, 3rd, ... record. -/
def oppSide (l : List MoveStruct) : List MoveStruct := alternate true l

/-- The initial segment of a scanned run down to and including the `n`-th self-side record
whose stored key equals `dwKey` (the whole run when there are fewer); the first record of the
list is a self-side one iff `bSelfSide`. -/
def scanTo (dwKey : Nat) : Bool → Nat → List MoveStruct → List MoveStruct
  | _, _, [] => []
  | true, n, m :: rest =>
    if m.dwKey = dwKey then
      (if n ≤ 1 then [m] else m :: scanTo dwKey false (n - 1) rest)
    else m :: scanTo dwKey false n rest
  | false, n, m :: rest => m :: scanTo dwKey true n rest

/-- The records `repStatus(n)` scans before it returns a nonzero mask. -/
def scannedTo (p : PositionStruct) (n : Int) : List MoveStruct :=
  scanTo p.zobr.dwKey false n.toNat (scannedRun p)

/-- The pairs (move, weight) of the book entries with the given lock whose move, mirrored
when `bMirror`, passes `legalMove`, in book order. -/
def bookEntries (p : PositionStruct) (bMirror : Bool) (dwLock : Nat) (book : List BookItem) :
    List (Int × Int) :=
  (book.filter (fun e => decide (e.dwLock = dwLock))).filterMap (fun e =>
    if legalMove p (if bMirror then mirrorMove e.wmv else e.wmv) = some true then
      some ((if bMirror then mirrorMove e.wmv else e.wmv), e.wvl)
    else none)

/-- The matching pairs of a position: the entries under its own `dwLock1` when the book has
one, else those under the `dwLock1` of the mirrored position `q`, with mirrored moves. -/
def bookMatches (p q : PositionStruct) (book : List BookItem) : List (Int × Int) :=
  if book.any (fun e => decide (e.dwLock = p.zobr.dwLock1)) then
    bookEntries p false p.zobr.dwLock1 book
  else bookEntries p true q.zobr.dwLock1 book

/-- The candidate pairs of a position: the first `MaxGenMoves` of its matching pairs. -/
def bookCandidates (p q : PositionStruct) (book : List BookItem) : List (Int × Int) :=
  (bookMatches p q book).take MaxGenMoves

/-- The sum of the first `i` weights. -/
def weightBefore (l : List (Int × Int)) (i : Nat) : Int := ((l.take i).map Prod.snd).sum

/-- The loop of `searchBook` that fills `mvs` and `vls`, run over the entries from the
current index on. -/
def collectList (p : PositionStruct) (dwLock : Nat) (bMirror : Bool) :
    List BookItem → List (Int × Int) → Option (List (Int × Int))
  | [], acc => some acc
  | e :: rest, acc =>
    if e.dwLock = dwLock then
      match legalMove p (if bMirror then mirrorMove e.wmv else e.wmv) with
      | none => none
      | some true =>
        if (acc ++ [((if bMirror then mirrorMove e.wmv else e.wmv), e.wvl)]).length =
            MaxGenMoves then
          some (acc ++ [((if bMirror then mirrorMove e.wmv else e.wmv), e.wvl)])
        else collectList p dwLock bMirror rest
          (acc ++ [((if bMirror then mirrorMove e.wmv else e.wmv), e.wvl)])
      | some false => collectList p dwLock bMirror rest acc
    else some acc

/-! ### Search: piece counts, state equality and loop measures -/

/-- The number of on-board squares of the board `b` that hold the piece code `pc`. -/
def countCode (b : Int → Int) (pc : Int) : Nat :=
  allSquares.countP (fun sq => inBoard sq && decide (b sq = pc))

/-- The number of on-board squares that hold the piece of type `t` of the side to move. -/
def countPiece (p : PositionStruct) (t : Int) : Nat :=
  countCode p.ucpcSquares (sideTag p.sdPlayer + t)

/-- The largest number of moves one piece of type `t` has on the 9 by 10 board. -/
def moveCap (t : Int) : Nat :=
  if t = PieceJiang then 4 else if t = PieceShi then 4 else if t = PieceXiang then 4
  else if t = PieceMa then 8 else if t = PieceJu then 17 else if t = PiecePao then 17
  else if t = PieceBing then 3 else 0

/-- The number of on-board squares from `sq` on in the direction `nDelta`, `sq` included. -/
def room (nDelta sq : Int) : Nat :=
  if inBoard sq then
    if nDelta = -16 then (rankY sq - 2).toNat
    else if nDelta = 16 then (13 - rankY sq).toNat
    else if nDelta = -1 then (fileX sq - 2).toNat
    else (12 - fileX sq).toNat
  else 0

/-- The number of rounds the loop `for mv := nextSort(s); mv != 0; mv = nextSort(s)` has left
at most. -/
def sortMeasure (s : SortStruct) : Nat :=
  if s.nPhase = PhaseHash then s.mvs.length + 4
  else if s.nPhase = PhaseKiller1 then s.mvs.length + 3
  else if s.nPhase = PhaseKiller2 then s.mvs.length + 2
  else if s.nPhase = PhaseGenMoves then s.mvs.length + 1
  else if s.nPhase = PhaseRest then (s.nGenMoves - s.nIndex).toNat
  else 0

/-- The exchange of the cells `i` and `j` of the permutation `S`. -/
def rc4Swap (S : List Nat) (i j : Nat) : List Nat :=
  (S.set i (S.getD j 0)).set j (S.getD i 0)

/-- One round of the key-scheduling algorithm:
`j := (j + S[i] + key[i mod keylength]) mod 256; swap S[i], S[j]`. -/
def rc4KsaStep (key : List Nat) (jS : Nat × List Nat) (i : Nat) : Nat × List Nat :=
  let j := (jS.1 + jS.2.getD i 0 + key.getD (i % key.length) 0) % 256
  (j, rc4Swap jS.2 i j)

/-- The key-scheduling algorithm of RC4: the permutation after the 256 rounds that start
from the identity permutation. -/
def rc4Ksa (key : List Nat) : List Nat :=
  ((List.range 256).foldl (rc4KsaStep key) (0, List.range 256)).2

/-- One round of the pseudo-random generation algorithm of RC4 on the state `(i, j, S)`:
`i := (i + 1) mod 256; j := (j + S[i]) mod 256; swap S[i], S[j];
output S[(S[i] + S[j]) mod 256]`.  The byte put out and the state after the round. -/
def rc4Round (st : Nat × Nat × List Nat) : Nat × (Nat × Nat × List Nat) :=
  let i := (st.1 + 1) % 256
  let j := (st.2.1 + st.2.2.getD i 0) % 256
  let S := rc4Swap st.2.2 i j
  (S.getD ((S.getD i 0 + S.getD j 0) % 256) 0, (i, j, S))

/-- The first `n` bytes the pseudo-random generation algorithm puts out from a state. -/
def rc4Prga : Nat → Nat × Nat × List Nat → List Nat
  | 0, _ => []
  | n + 1, st => (rc4Round st).1 :: rc4Prga n (rc4Round st).2

/-- The first `n` bytes of the RC4 keystream of `key`. -/
def rc4Keystream (key : List Nat) (n : Nat) : List Nat :=
  rc4Prga n (0, 0, rc4Ksa key)

/-! ### The permutation packed into one number

The 256 cells of the permutation read as the base-256 digits of one natural number, cell 0
the least significant; the rounds of RC4 on that number. -/

/-- The number whose base-256 digits are the cells of `S`. -/
def packCells : List Nat → Nat
  | [] => 0
  | a :: t => a + 256 * packCells t

/-- Digit `i` of the packed permutation. -/
def cellAt (N i : Nat) : Nat := N / 256 ^ i % 256

/-- The packed permutation with digit `i` replaced by `v`. -/
def setCell (N i v : Nat) : Nat := N % 256 ^ i + v * 256 ^ i + N / 256 ^ (i + 1) * 256 ^ (i + 1)

/-- The exchange of the digits `i` and `j`. -/
def swapPacked (N i j : Nat) : Nat := setCell (setCell N i (cellAt N j)) j (cellAt N i)

/-- One round of the key scheduling under an all-zero key, on the packed permutation. -/
def ksaStepPacked (jN : Nat × Nat) (i : Nat) : Nat × Nat :=
  ((jN.1 + cellAt jN.2 i) % 256, swapPacked jN.2 i ((jN.1 + cellAt jN.2 i) % 256))

/-- One round of the generation algorithm on the packed permutation. -/
def roundPacked (st : Nat × Nat × Nat) : Nat × (Nat × Nat × Nat) :=
  let i := (st.1 + 1) % 256
  let j := (st.2.1 + cellAt st.2.2 i) % 256
  let S := swapPacked st.2.2 i j
  (cellAt S ((cellAt S i + cellAt S j) % 256), (i, j, S))

/-- The first `n` bytes of the generation algorithm on the packed permutation. -/
def prgaPacked : Nat → Nat × Nat × Nat → List Nat
  | 0, _ => []
  | n + 1, st => (roundPacked st).1 :: prgaPacked n (roundPacked st).2

/-- The 32-bit words a byte stream spells, four bytes to a word, least significant first. -/
def littleEndianWords : List Nat → List Nat
  | b0 :: b1 :: b2 :: b3 :: rest =>
    (b0 + 256 * b1 + 65536 * b2 + 16777216 * b3) :: littleEndianWords rest
  | _ => []

/-! ## Concrete positions used to instantiate the theorems -/

/-- A table of positional values for the examples. -/
def examplePiecePos : Int → Int → Int := fun pc sq => 10 * (pc + 1) + sq % 7

/-- A Zobrist table for the examples. -/
def exampleZobrist : Zobrist :=
  ⟨⟨1, 2, 3⟩, fun pc sq => ⟨(pc * 256 + sq).toNat, (pc * 1000 + sq).toNat, (sq * 31 + pc).toNat⟩⟩

/-- An empty position object, as allocated before `startup`. -/
def blankPosition : PositionStruct :=
  ⟨0, 0, 0, 0, 0, fun _ => 0, fun _ => ⟨0, false, 0, 0⟩, ⟨0, 0, 0⟩, exampleZobrist⟩

/-- The position `startup()` produces on `blankPosition`. -/
def startPosition : PositionStruct :=
  (startup examplePiecePos blankPosition).getD blankPosition

/-- The position after `startup()` and the soldier move e4-e5 (0x97 to 0x87). -/
def openingPosition : PositionStruct :=
  (playLegal examplePiecePos startPosition [move 0x97 0x87]).getD blankPosition

/-- A history for the examples: a sentinel and four quiet plies, the two self-side ones
(indices 1 and 3) stored with pre-move key 7. -/
def repetitionPosition : PositionStruct :=
  { blankPosition with
    nMoveNum := 5
    zobr := ⟨7, 0, 0⟩
    mvsList := fun i =>
      if i = 1 then ⟨0, true, 100, 7⟩ else if i = 2 then ⟨0, false, 200, 9⟩
      else if i = 3 then ⟨0, true, 300, 7⟩ else if i = 4 then ⟨0, false, 400, 9⟩
      else ⟨0, false, 0, 0⟩ }

/-- Red to move: Red Jiang e1 (0xc7), Red Ju e6 (0x77), Black Jiang e10 (0x37), Black Ma
d10 (0x36); one record in the history. -/
def pinnedPosition : PositionStruct :=
  { blankPosition with
    nMoveNum := 1
    ucpcSquares := fun sq =>
      if sq = 0xc7 then 8 else if sq = 0x77 then 12 else if sq = 0x37 then 16
      else if sq = 0x36 then 19 else 0 }

/-- The position `makeMove` produces from `pinnedPosition` for the Ju move e6-e7
(0x77 to 0x67). -/
def pinnedAfterJu : PositionStruct :=
  ((makeMove examplePiecePos pinnedPosition (move 0x77 0x67)).getD (false, blankPosition)).2

/-- Red to move, Red Pao e3 (0xa7), Black Ju e7 (0x67), nothing between; the generals on
d1 (0xc6) and f10 (0x38). -/
def paoPosition : PositionStruct :=
  { blankPosition with
    nMoveNum := 1
    ucpcSquares := fun sq =>
      if sq = 0xa7 then 13 else if sq = 0x67 then 20 else if sq = 0xc6 then 8
      else if sq = 0x38 then 16 else 0 }

/-- The position `paoPosition` with an extra Red Bing on e5 (0x87). -/
def paoScreenPosition : PositionStruct :=
  { paoPosition with
    ucpcSquares := Function.update paoPosition.ucpcSquares 0x87 14 }

/-- Red general e1 (0xc7) and Black general e10 (0x37) alone on the board. -/
def flyingPosition : PositionStruct :=
  { blankPosition with
    nMoveNum := 1
    ucpcSquares := fun sq => if sq = 0xc7 then 8 else if sq = 0x37 then 16 else 0 }

/-- Red to move: Red Jiang d1 (0xc6), Red Ma d7 (0x66), Black Jiang e10 (0x37); one record
in the history. -/
def perpetualStart : PositionStruct :=
  { blankPosition with
    nMoveNum := 1
    ucpcSquares := fun sq =>
      if sq = 0xc6 then 8 else if sq = 0x66 then 11 else if sq = 0x37 then 16 else 0 }

/-- After the Ma hop d7-c9 (0x66 to 0x45), which gives check. -/
def perpetualPly1 : PositionStruct :=
  ((makeMove examplePiecePos perpetualStart (move 0x66 0x45)).getD (false, blankPosition)).2

/-- After the reply e10-e9 (0x37 to 0x47). -/
def perpetualPly2 : PositionStruct :=
  ((makeMove examplePiecePos perpetualPly1 (move 0x37 0x47)).getD (false, blankPosition)).2

/-- After the Ma hop back c9-d7 (0x45 to 0x66), which gives check again. -/
def perpetualPly3 : PositionStruct :=
  ((makeMove examplePiecePos perpetualPly2 (move 0x45 0x66)).getD (false, blankPosition)).2

/-- After the reply e9-e10 (0x47 to 0x37): the starting board again. -/
def perpetualPly4 : PositionStruct :=
  ((makeMove examplePiecePos perpetualPly3 (move 0x47 0x37)).getD (false, blankPosition)).2

/-- A transposition table as allocated: every slot zero. -/
def emptyHashTable : Nat → HashItem := fun _ => ⟨0, 0, 0, 0, 0, 0, 0⟩

/-- A two-entry book keyed on the lock of `pinnedPosition`: the Ju move e6-e7 with weight 70
and the Ju move e6-d6 with weight 30. -/
def exampleBook : List BookItem :=
  [⟨pinnedPosition.zobr.dwLock1, move 0x77 0x67, 70⟩,
   ⟨pinnedPosition.zobr.dwLock1, move 0x77 0x76, 30⟩]

/-- The mirror image of `pinnedPosition`. -/
def pinnedMirror : PositionStruct :=
  (mirror examplePiecePos pinnedPosition (NewPositionStruct exampleZobrist)).getD blankPosition

/-- A book with 129 entries under the lock of `pinnedPosition`: 128 times the Ju move e6-e7
with weight 0, then the Ju move e6-d6 with weight 5. -/
def longBook : List BookItem :=
  List.replicate 128 ⟨0, move 0x77 0x67, 0⟩ ++ [⟨0, move 0x77 0x76, 5⟩]

/-- The table after `RecordHash(HashPV, 50, 2, d10-e10)` at `pinnedAfterJu` on the empty
table. -/
def quietHashTable : Nat → HashItem :=
  RecordHash pinnedAfterJu emptyHashTable HashPV 50 2 (move 0x37 0x47)

/-- The table after `RecordHash(HashPV, 9950, 3, d10-e10)` at `pinnedAfterJu` on the empty
table. -/
def mateHashTable : Nat → HashItem :=
  RecordHash pinnedAfterJu emptyHashTable HashPV 9950 3 (move 0x37 0x47)

/-- Red to move: Red Jiang e1 (0xc7), Red Bing e7 (0x67) across the river, Black Jiang d10
(0x36); one record in the history. -/
def bingPosition : PositionStruct :=
  { blankPosition with
    nMoveNum := 1
    ucpcSquares := fun sq =>
      if sq = 0xc7 then 8 else if sq = 0x67 then 14 else if sq = 0x36 then 16 else 0 }

/-- Search tables in which one move, Jiang e1-f1, has the history score 9 and every other
cell is zero. -/
def historySearch : Search :=
  ⟨0, fun mv => if mv = move 0xc7 0xc8 then 9 else 0, fun _ _ => 0, emptyHashTable⟩

/-- Search tables as `searchMain` clears them. -/
def clearedSearch : Search := ⟨0, fun _ => 0, fun _ _ => 0, emptyHashTable⟩

/-- Black to move: Red Jiang e1 (0xc7), Red Ma e6 (0x77), Black Jiang e10 (0x37), Black Ma
c8 (0x55); one record in the history. -/
def bookStartPosition : PositionStruct :=
  { blankPosition with
    sdPlayer := 1
    nMoveNum := 1
    ucpcSquares := fun sq =>
      if sq = 0xc7 then 8 else if sq = 0x77 then 11 else if sq = 0x37 then 16
      else if sq = 0x55 then 19 else 0 }

/-- The position after the Ma move c8-d10 (0x55 to 0x36) in `bookStartPosition`: Red to
move, the Red Ma on e6 shielding the generals from each other. -/
def bookPosition : PositionStruct :=
  ((makeMove examplePiecePos bookStartPosition (move 0x55 0x36)).getD (false, blankPosition)).2

/-- The position `bookPosition` as `searchMain` searches it, `nDistance` set to 0. -/
def bookRoot : PositionStruct := { bookPosition with nDistance := 0 }

/-- A book with one entry under the lock of `bookPosition`: the Ma move e6-d8. -/
def pinnedBook : List BookItem := [⟨bookPosition.zobr.dwLock1, move 0x77 0x56, 1⟩]

/-- The position in which `searchMain` returns through the book branch when it is called on
`bookPosition` with the book `pinnedBook`. -/
def bookReturned : PositionStruct :=
  ((searchMainBook examplePiecePos (fun _ => 0) exampleZobrist bookPosition pinnedBook).getD
    (false, blankPosition, clearedSearch)).2.1

/-! ## Lemmas: primitive operations -/

theorem xor1_cancel (z a : ZobristStruct) : (z.xor1 a).xor1 a = z := by
  ext <;> simp [ZobristStruct.xor1, Nat.xor_cancel_right]

theorem xor1_comm (a b : ZobristStruct) : a.xor1 b = b.xor1 a := by
  ext <;> simp [ZobristStruct.xor1, Nat.xor_comm]

theorem xor1_assoc (a b c : ZobristStruct) : (a.xor1 b).xor1 c = a.xor1 (b.xor1 c) := by
  ext <;> simp [ZobristStruct.xor1, Nat.xor_assoc]

theorem xor1_initZero (a : ZobristStruct) : a.xor1 ZobristStruct.initZero = a := by
  ext <;> simp [ZobristStruct.xor1, ZobristStruct.initZero]

theorem initZero_xor1 (a : ZobristStruct) : ZobristStruct.initZero.xor1 a = a := by
  ext <;> simp [ZobristStruct.xor1, ZobristStruct.initZero]

theorem xor1_self (a : ZobristStruct) : a.xor1 a = ZobristStruct.initZero := by
  ext <;> simp [ZobristStruct.xor1, ZobristStruct.initZero]

theorem allSquares_eq : allSquares = (List.range 256).map Int.ofNat := rfl

theorem mem_allSquares (sq : Int) : sq ∈ allSquares ↔ 0 ≤ sq ∧ sq < 256 := by
  unfold allSquares
  rw [List.mem_map]
  constructor
  · rintro ⟨n, hn, rfl⟩
    rw [List.mem_range] at hn
    exact ⟨Int.ofNat_nonneg n, Int.ofNat_lt.2 hn⟩
  · rintro ⟨h0, h1⟩
    refine ⟨sq.toNat, List.mem_range.2 ?_, Int.toNat_of_nonneg h0⟩
    omega

theorem inBoard_bounds (sq : Int) (h : inBoard sq = true) :
    3 ≤ sq / 16 ∧ sq / 16 ≤ 12 ∧ 3 ≤ sq % 16 ∧ sq % 16 ≤ 11 := by
  simpa [inBoard, rankY, fileX] using h

theorem wellFormed_at (p : PositionStruct) (hwf : WellFormed p) (sq : Int) (h0 : 0 ≤ sq)
    (h1 : sq < 256) :
    p.ucpcSquares sq = 0 ∨ (8 ≤ p.ucpcSquares sq ∧ p.ucpcSquares sq ≤ 14) ∨
      (16 ≤ p.ucpcSquares sq ∧ p.ucpcSquares sq ≤ 22) := by
  have h := hwf sq.toNat (by omega)
  have e : ((sq.toNat : Nat) : Int) = sq := by omega
  rw [e] at h
  simpa [okPiece] using h

theorem checked_congr (q1 q2 : PositionStruct) (hb : q1.ucpcSquares = q2.ucpcSquares)
    (hs : q1.sdPlayer = q2.sdPlayer) : checked q1 = checked q2 := by
  unfold checked checkedAt
  rw [hb, hs]

theorem checked_total (p : PositionStruct) (hwf : WellFormed p) : ∃ c, checked p = some c := by
  unfold checked
  split
  · exact ⟨false, rfl⟩
  · rename_i sqSrc hfind
    have hmem := (mem_allSquares sqSrc).1 (List.mem_of_find?_eq_some hfind)
    have hp := List.find?_some hfind
    simp only [Bool.and_eq_true, decide_eq_true_eq] at hp
    have hb := inBoard_bounds sqSrc hp.1
    have hok := wellFormed_at p hwf sqSrc hmem.1 hmem.2
    rw [hp.2] at hok
    have hr : inRange (squareForward sqSrc p.sdPlayer) = true := by
      simp only [inRange, squareForward, decide_eq_true_eq]
      simp only [sideTag, PieceJiang] at hok
      omega
    unfold checkedAt
    simp only [hr, Bool.not_true, Bool.false_eq_true, if_false]
    split_ifs <;> exact ⟨_, rfl⟩

theorem keyOf_zero (z : Zobrist) (sq : Int) : keyOf z 0 sq = ZobristStruct.initZero := by
  simp [keyOf]

theorem keyOf_eq_pieceKey (z : Zobrist) (pc sq : Int) (h : okPiece pc = true) (h0 : pc ≠ 0) :
    keyOf z pc sq = pieceKey z pc sq := by
  simp only [okPiece, decide_eq_true_eq] at h
  unfold keyOf pieceKey
  split_ifs <;> first | rfl | omega

theorem rehashBoard_update (z : Zobrist) (b : Int → Int) (k : Nat) (v : Int) (n : Nat) :
    rehashBoard z (Function.update b (k : Int) v) n =
      if k < n then ((rehashBoard z b n).xor1 (keyOf z (b k) k)).xor1 (keyOf z v k)
      else rehashBoard z b n := by
  induction n with
  | zero => simp [rehashBoard]
  | succ n ih =>
    simp only [rehashBoard, ih]
    by_cases h1 : k < n
    · have h2 : k < n + 1 := by omega
      have h3 : (n : Int) ≠ (k : Int) := by omega
      simp only [h1, h2, if_true, Function.update_noteq h3]
      ac_rfl
    · by_cases h2 : k = n
      · subst h2
        simp only [lt_irrefl, if_false, Nat.lt_succ_self, if_true, Function.update_same]
        rw [xor1_assoc (rehashBoard z b k), xor1_self, xor1_initZero]
      · have h3 : ¬ k < n + 1 := by omega
        have h4 : (n : Int) ≠ (k : Int) := by omega
        simp only [h1, h3, if_false, Function.update_noteq h4]

theorem sumBoard_update (f : Int → Int → Int) (b : Int → Int) (k : Nat) (v : Int) (n : Nat) :
    sumBoard f (Function.update b (k : Int) v) n =
      if k < n then sumBoard f b n - f (b k) k + f v k else sumBoard f b n := by
  induction n with
  | zero => simp [sumBoard]
  | succ n ih =>
    simp only [sumBoard, ih]
    by_cases h1 : k < n
    · have h2 : k < n + 1 := by omega
      have h3 : (n : Int) ≠ (k : Int) := by omega
      simp only [h1, h2, if_true, Function.update_noteq h3]
      ring
    · by_cases h2 : k = n
      · subst h2
        simp only [lt_irrefl, if_false, Nat.lt_succ_self, if_true, Function.update_same]
        ring
      · have h3 : ¬ k < n + 1 := by omega
        have h4 : (n : Int) ≠ (k : Int) := by omega
        simp only [h1, h3, if_false, Function.update_noteq h4]

/-! ## Lemmas: repetition -/

theorem countSelf_false (dwKey : Nat) (l : List MoveStruct) :
    countSelf dwKey false l =
      ((selfSide l).filter (fun m => decide (m.dwKey = dwKey))).length := by
  induction l using selfSide.induct with
  | case1 => rfl
  | case2 m => rfl
  | case3 a m rest ih =>
    simp only [countSelf, selfSide, List.filter_cons]
    rw [ih]
    by_cases h : m.dwKey = dwKey <;> simp [h, Nat.add_comm]

theorem runFrom_succ (lpmvs : Int → MoveStruct) (k : Nat) :
    runFrom lpmvs (k + 1) =
      if (lpmvs k).wmv ≠ 0 ∧ (lpmvs k).ucpcCaptured = 0 then lpmvs k :: runFrom lpmvs k
      else [] := by
  unfold runFrom
  rw [List.range_succ, List.reverse_append]
  simp only [List.reverse_cons, List.reverse_nil, List.nil_append, List.singleton_append,
    List.map_cons, List.takeWhile_cons, Int.ofNat_eq_coe]
  by_cases h1 : (lpmvs k).wmv = 0 <;> by_cases h2 : (lpmvs k).ucpcCaptured = 0 <;>
    simp [h1, h2]

theorem repLoop_nonpos (lpmvs : Int → MoveStruct) (dwKey : Nat) (k : Nat)
    (bSelfSide bPerpCheck bOppPerpCheck : Bool) (nRecur : Int) (h : nRecur ≤ 0) :
    repLoop lpmvs dwKey k bSelfSide bPerpCheck bOppPerpCheck nRecur = 0 := by
  induction k generalizing bSelfSide bPerpCheck bOppPerpCheck nRecur with
  | zero => rfl
  | succ k ih =>
    unfold repLoop
    split_ifs <;> first | omega | exact ih _ _ _ _ (by omega)

theorem repLoop_ne_zero_iff (lpmvs : Int → MoveStruct) (dwKey : Nat) (k : Nat)
    (bSelfSide bPerpCheck bOppPerpCheck : Bool) (nRecur : Int) (h : 1 ≤ nRecur) :
    repLoop lpmvs dwKey k bSelfSide bPerpCheck bOppPerpCheck nRecur ≠ 0 ↔
      nRecur ≤ (countSelf dwKey bSelfSide (runFrom lpmvs k) : Int) := by
  induction k generalizing bSelfSide bPerpCheck bOppPerpCheck nRecur with
  | zero =>
    simp only [repLoop, runFrom, List.range_zero, List.reverse_nil, List.map_nil,
      List.takeWhile_nil, countSelf, ne_eq, not_true_eq_false, false_iff]
    cases bSelfSide <;> simp <;> omega
  | succ k ih =>
    rw [runFrom_succ]
    unfold repLoop
    by_cases hok : (lpmvs k).wmv ≠ 0 ∧ (lpmvs k).ucpcCaptured = 0
    · simp only [hok, and_self, if_true, ne_eq, not_false_eq_true]
      cases bSelfSide with
      | true =>
        simp only [if_true, countSelf, Bool.not_true]
        by_cases hkey : (lpmvs k).dwKey = dwKey
        · simp only [hkey, if_true]
          by_cases h1 : nRecur - 1 = 0
          · simp only [h1, if_true]
            constructor
            · intro _
              push_cast
              omega
            · intro _
              split_ifs <;> omega
          · simp only [h1, if_false]
            rw [← ne_eq, ih _ _ _ _ (by omega)]
            push_cast
            omega
        · simp only [hkey, if_false]
          rw [← ne_eq, ih _ _ _ _ h]
          push_cast
          omega
      | false =>
        simp only [Bool.false_eq_true, if_false, countSelf, Bool.not_false]
        rw [← ne_eq, ih _ _ _ _ h]
    · simp only [hok, if_false, ne_eq, not_true_eq_false, countSelf, false_iff]
      cases bSelfSide <;> simp <;> omega

section OperationLemmas

variable (cucvlPiecePos : Int → Int → Int)

theorem addPiece_fields (p : PositionStruct) (sq pc : Int) :
    (addPiece cucvlPiecePos p sq pc).ucpcSquares = Function.update p.ucpcSquares sq pc ∧
    (addPiece cucvlPiecePos p sq pc).sdPlayer = p.sdPlayer ∧
    (addPiece cucvlPiecePos p sq pc).zobrist = p.zobrist ∧
    (addPiece cucvlPiecePos p sq pc).zobr = p.zobr.xor1 (pieceKey p.zobrist pc sq) ∧
    (addPiece cucvlPiecePos p sq pc).vlRed =
      p.vlRed + (if pc < 16 then cucvlPiecePos (pc - 8) sq else 0) ∧
    (addPiece cucvlPiecePos p sq pc).vlBlack =
      p.vlBlack + (if pc < 16 then 0 else cucvlPiecePos (pc - 16) (squareFlip sq)) ∧
    (addPiece cucvlPiecePos p sq pc).nDistance = p.nDistance ∧
    (addPiece cucvlPiecePos p sq pc).nMoveNum = p.nMoveNum ∧
    (addPiece cucvlPiecePos p sq pc).mvsList = p.mvsList := by
  by_cases h : pc < 16 <;> simp [addPiece, pieceKey, h]

theorem delPiece_fields (p : PositionStruct) (sq pc : Int) :
    (delPiece cucvlPiecePos p sq pc).ucpcSquares = Function.update p.ucpcSquares sq 0 ∧
    (delPiece cucvlPiecePos p sq pc).sdPlayer = p.sdPlayer ∧
    (delPiece cucvlPiecePos p sq pc).zobrist = p.zobrist ∧
    (delPiece cucvlPiecePos p sq pc).zobr = p.zobr.xor1 (pieceKey p.zobrist pc sq) ∧
    (delPiece cucvlPiecePos p sq pc).vlRed =
      p.vlRed - (if pc < 16 then cucvlPiecePos (pc - 8) sq else 0) ∧
    (delPiece cucvlPiecePos p sq pc).vlBlack =
      p.vlBlack - (if pc < 16 then 0 else cucvlPiecePos (pc - 16) (squareFlip sq)) ∧
    (delPiece cucvlPiecePos p sq pc).nDistance = p.nDistance ∧
    (delPiece cucvlPiecePos p sq pc).nMoveNum = p.nMoveNum ∧
    (delPiece cucvlPiecePos p sq pc).mvsList = p.mvsList := by
  by_cases h : pc < 16 <;> simp [delPiece, pieceKey, h]

theorem addPiece_consistent (p : PositionStruct) (sq pc : Int) (h0 : 0 ≤ sq) (h1 : sq < 256)
    (hemp : p.ucpcSquares sq = 0) (hok : okPiece pc = true) (hpc : pc ≠ 0)
    (hc : Consistent cucvlPiecePos p) :
    Consistent cucvlPiecePos (addPiece cucvlPiecePos p sq pc) := by
  obtain ⟨k, rfl⟩ : ∃ k : Nat, sq = (k : Int) := ⟨sq.toNat, (Int.toNat_of_nonneg h0).symm⟩
  have hk : k < 256 := by omega
  obtain ⟨hsd, hz, hr, hb⟩ := hc
  obtain ⟨f1, f2, f3, f4, f5, f6, _, _, _⟩ := addPiece_fields cucvlPiecePos p (k : Int) pc
  have hkey := keyOf_eq_pieceKey p.zobrist pc (k : Int) hok hpc
  simp only [okPiece, decide_eq_true_eq] at hok
  refine ⟨by rw [f2]; exact hsd, ?_, ?_, ?_⟩
  · rw [f4, hz]
    unfold rehash
    rw [f1, f2, f3, rehashBoard_update]
    simp only [hk, if_true, hemp, keyOf_zero, xor1_initZero, hkey]
    split_ifs
    · ac_rfl
    · rfl
  · rw [f5, f1, sumBoard_update, hr]
    simp only [hk, if_true, hemp, redValue]
    split_ifs <;> omega
  · rw [f6, f1, sumBoard_update, hb]
    simp only [hk, if_true, hemp, blackValue]
    split_ifs <;> omega

theorem delPiece_consistent (p : PositionStruct) (sq : Int) (h0 : 0 ≤ sq) (h1 : sq < 256)
    (hok : okPiece (p.ucpcSquares sq) = true) (hpc : p.ucpcSquares sq ≠ 0)
    (hc : Consistent cucvlPiecePos p) :
    Consistent cucvlPiecePos (delPiece cucvlPiecePos p sq (p.ucpcSquares sq)) := by
  obtain ⟨k, rfl⟩ : ∃ k : Nat, sq = (k : Int) := ⟨sq.toNat, (Int.toNat_of_nonneg h0).symm⟩
  have hk : k < 256 := by omega
  obtain ⟨hsd, hz, hr, hb⟩ := hc
  obtain ⟨f1, f2, f3, f4, f5, f6, _, _, _⟩ :=
    delPiece_fields cucvlPiecePos p (k : Int) (p.ucpcSquares k)
  have hkey := keyOf_eq_pieceKey p.zobrist (p.ucpcSquares k) (k : Int) hok hpc
  simp only [okPiece, decide_eq_true_eq] at hok
  refine ⟨by rw [f2]; exact hsd, ?_, ?_, ?_⟩
  · rw [f4, hz]
    unfold rehash
    rw [f1, f2, f3, rehashBoard_update]
    simp only [hk, if_true, keyOf_zero, xor1_initZero, hkey]
    split_ifs
    · ac_rfl
    · rfl
  · rw [f5, f1, sumBoard_update, hr]
    simp only [hk, if_true, redValue]
    split_ifs <;> omega
  · rw [f6, f1, sumBoard_update, hb]
    simp only [hk, if_true, blackValue]
    split_ifs <;> omega

theorem consistent_congr (p q : PositionStruct) (h1 : q.sdPlayer = p.sdPlayer)
    (h2 : q.zobr = p.zobr) (h3 : q.zobrist = p.zobrist) (h4 : q.ucpcSquares = p.ucpcSquares)
    (h5 : q.vlRed = p.vlRed) (h6 : q.vlBlack = p.vlBlack) (hc : Consistent cucvlPiecePos p) :
    Consistent cucvlPiecePos q := by
  unfold Consistent rehash at *
  rw [h1, h2, h3, h4, h5, h6]
  exact hc

theorem wellFormed_congr (p q : PositionStruct) (h : q.ucpcSquares = p.ucpcSquares)
    (hwf : WellFormed p) : WellFormed q := by
  intro n hn
  rw [h]
  exact hwf n hn

theorem wellFormed_update (p q : PositionStruct) (sq pc : Int)
    (h : q.ucpcSquares = Function.update p.ucpcSquares sq pc) (hok : okPiece pc = true)
    (hwf : WellFormed p) : WellFormed q := by
  intro n hn
  rw [h]
  simp only [Function.update_apply]
  split_ifs
  · exact hok
  · exact hwf n hn

theorem land_ne_zero (a b : Int) (h : Int.land a b ≠ 0) : a ≠ 0 := by
  rintro rfl
  apply h
  cases b <;> simp [Int.land, Nat.ldiff]

theorem changeSide_consistent (p : PositionStruct) (hc : Consistent cucvlPiecePos p) :
    Consistent cucvlPiecePos (changeSide p) := by
  obtain ⟨hsd, hz, hr, hb⟩ := hc
  refine ⟨?_, ?_, hr, hb⟩
  · simp only [changeSide]
    omega
  · unfold rehash at *
    simp only [changeSide]
    rw [hz]
    rcases hsd with h | h <;> simp [h, xor1_cancel]

theorem movePiece_consistent (p : PositionStruct) (mv : Int) (hwf : WellFormed p)
    (hc : Consistent cucvlPiecePos p) (hne : src mv ≠ dst mv) (hr : inRange (dst mv) = true)
    (hsrc : p.ucpcSquares (src mv) ≠ 0) :
    Consistent cucvlPiecePos (movePiece cucvlPiecePos p mv).2 := by
  simp only [inRange, decide_eq_true_eq] at hr
  have hs0 : 0 ≤ src mv := by simp only [src]; omega
  have hs1 : src mv < 256 := by simp only [src]; omega
  have hokd : okPiece (p.ucpcSquares (dst mv)) = true := by
    have := wellFormed_at p hwf (dst mv) hr.1 hr.2
    simpa [okPiece] using this
  have hoks : okPiece (p.ucpcSquares (src mv)) = true := by
    have := wellFormed_at p hwf (src mv) hs0 hs1
    simpa [okPiece] using this
  unfold movePiece
  by_cases hcap : p.ucpcSquares (dst mv) = 0
  · simp only [hcap, ne_eq, not_true_eq_false, if_false]
    apply addPiece_consistent cucvlPiecePos _ _ _ hr.1 hr.2 _ hoks hsrc
    · exact delPiece_consistent cucvlPiecePos p (src mv) hs0 hs1 hoks hsrc hc
    · rw [(delPiece_fields cucvlPiecePos p (src mv) _).1, Function.update_noteq hne.symm, hcap]
  · simp only [ne_eq, hcap, not_false_eq_true, if_true]
    have hc1 := delPiece_consistent cucvlPiecePos p (dst mv) hr.1 hr.2 hokd hcap hc
    have hb1 := (delPiece_fields cucvlPiecePos p (dst mv) (p.ucpcSquares (dst mv))).1
    have e1 : (delPiece cucvlPiecePos p (dst mv) (p.ucpcSquares (dst mv))).ucpcSquares (src mv) =
        p.ucpcSquares (src mv) := by
      rw [hb1, Function.update_noteq hne]
    apply addPiece_consistent cucvlPiecePos _ _ _ hr.1 hr.2 _ (by rw [e1]; exact hoks)
      (by rw [e1]; exact hsrc)
    · exact delPiece_consistent cucvlPiecePos _ (src mv) hs0 hs1 (by rw [e1]; exact hoks)
        (by rw [e1]; exact hsrc) hc1
    · rw [(delPiece_fields cucvlPiecePos _ (src mv) _).1, Function.update_noteq hne.symm, hb1,
        Function.update_same]

theorem legalMove_true_src_occupied (p : PositionStruct) (mv : Int)
    (h : legalMove p mv = some true) : p.ucpcSquares (src mv) ≠ 0 := by
  unfold legalMove at h
  by_cases h1 : Int.land (p.ucpcSquares (src mv)) (sideTag p.sdPlayer) = 0
  · simp [h1] at h
  · exact land_ne_zero _ _ h1

theorem undoMovePiece_movePiece (p : PositionStruct) (mv : Int) (h : src mv ≠ dst mv) :
    undoMovePiece cucvlPiecePos (movePiece cucvlPiecePos p mv).2 mv
      (movePiece cucvlPiecePos p mv).1 = p := by
  have h2 : dst mv ≠ src mv := fun e => h e.symm
  by_cases hc : p.ucpcSquares (dst mv) = 0 <;>
  by_cases hc16 : p.ucpcSquares (dst mv) < 16 <;>
  by_cases hp16 : p.ucpcSquares (src mv) < 16 <;>
  · ext1 <;>
    simp [undoMovePiece, movePiece, addPiece, delPiece, hc, hc16, hp16, h, h2,
      Function.update_noteq, xor1_cancel]
    funext i
    simp only [Function.update_apply]
    split_ifs <;> simp_all

theorem movePiece_board (p : PositionStruct) (mv : Int) (h : src mv ≠ dst mv) :
    (movePiece cucvlPiecePos p mv).2.ucpcSquares =
      Function.update (Function.update p.ucpcSquares (src mv) 0) (dst mv)
        (p.ucpcSquares (src mv)) := by
  have h2 : dst mv ≠ src mv := fun e => h e.symm
  funext i
  by_cases hc : p.ucpcSquares (dst mv) = 0 <;>
  by_cases hc16 : p.ucpcSquares (dst mv) < 16 <;>
  by_cases hp16 : p.ucpcSquares (src mv) < 16 <;>
  simp [movePiece, addPiece, delPiece, hc, hc16, hp16, h, h2, Function.update_apply] <;>
  split_ifs <;> simp_all

theorem movePiece_wellFormed (p : PositionStruct) (mv : Int) (hwf : WellFormed p)
    (h : src mv ≠ dst mv) : WellFormed (movePiece cucvlPiecePos p mv).2 := by
  intro n hn
  rw [movePiece_board cucvlPiecePos p mv h]
  simp only [Function.update_apply]
  have hs := hwf (src mv).toNat (by simp only [src]; omega)
  have e : (((src mv).toNat : Nat) : Int) = src mv := by simp only [src]; omega
  rw [e] at hs
  split_ifs
  · exact hs
  · rfl
  · exact hwf n hn

theorem undoMovePiece_frame (q : PositionStruct) (mv pcCaptured s d n : Int)
    (m : Int → MoveStruct) :
    undoMovePiece cucvlPiecePos
        ⟨s, q.vlRed, q.vlBlack, d, n, q.ucpcSquares, m, q.zobr, q.zobrist⟩ mv pcCaptured =
      ⟨s, (undoMovePiece cucvlPiecePos q mv pcCaptured).vlRed,
        (undoMovePiece cucvlPiecePos q mv pcCaptured).vlBlack, d, n,
        (undoMovePiece cucvlPiecePos q mv pcCaptured).ucpcSquares, m,
        (undoMovePiece cucvlPiecePos q mv pcCaptured).zobr,
        (undoMovePiece cucvlPiecePos q mv pcCaptured).zobrist⟩ := by
  by_cases hc : pcCaptured = 0 <;>
  by_cases hc16 : pcCaptured < 16 <;>
  by_cases hp16 : q.ucpcSquares (dst mv) < 16 <;>
  simp [undoMovePiece, addPiece, delPiece, hc, hc16, hp16]

theorem legalMove_true_src_ne_dst (p : PositionStruct) (mv : Int)
    (h : legalMove p mv = some true) : src mv ≠ dst mv ∧ inRange (dst mv) = true := by
  unfold legalMove at h
  by_cases h1 : Int.land (p.ucpcSquares (src mv)) (sideTag p.sdPlayer) = 0
  · simp [h1] at h
  · by_cases h2 : inRange (dst mv) = true
    · by_cases h3 : Int.land (p.ucpcSquares (dst mv)) (sideTag p.sdPlayer) = 0
      · refine ⟨?_, h2⟩
        intro e
        rw [e] at h1
        exact h1 h3
      · simp [h1, h2, h3] at h
    · simp [h1, h2] at h

theorem movePiece_frame (p : PositionStruct) (mv : Int) :
    (movePiece cucvlPiecePos p mv).2.sdPlayer = p.sdPlayer ∧
    (movePiece cucvlPiecePos p mv).2.nDistance = p.nDistance ∧
    (movePiece cucvlPiecePos p mv).2.nMoveNum = p.nMoveNum ∧
    (movePiece cucvlPiecePos p mv).2.mvsList = p.mvsList ∧
    (movePiece cucvlPiecePos p mv).2.zobrist = p.zobrist ∧
    (movePiece cucvlPiecePos p mv).1 = p.ucpcSquares (dst mv) := by
  by_cases hc : p.ucpcSquares (dst mv) = 0 <;>
  by_cases hc16 : p.ucpcSquares (dst mv) < 16 <;>
  by_cases hp16 : p.ucpcSquares (src mv) < 16 <;>
  by_cases hq16 : Function.update p.ucpcSquares (dst mv) 0 (src mv) < 16 <;>
  simp [movePiece, addPiece, delPiece, hc, hc16, hp16, hq16]

theorem makeMove_eq_true (p p1 : PositionStruct) (mv : Int)
    (h : makeMove cucvlPiecePos p mv = some (true, p1)) :
    inRange (dst mv) = true ∧
    checked (movePiece cucvlPiecePos p mv).2 = some false ∧
    0 ≤ p.nMoveNum ∧ p.nMoveNum < MaxMoves ∧
    ∃ c, checked (changeSide (movePiece cucvlPiecePos p mv).2) = some c ∧
      p1 = { changeSide (movePiece cucvlPiecePos p mv).2 with
             mvsList := Function.update p.mvsList p.nMoveNum
               ⟨p.ucpcSquares (dst mv), c, mv, p.zobr.dwKey⟩,
             nMoveNum := p.nMoveNum + 1,
             nDistance := p.nDistance + 1 } := by
  obtain ⟨_, f2, f3, f4, _, f6⟩ := movePiece_frame cucvlPiecePos p mv
  unfold makeMove at h
  by_cases hr : inRange (dst mv) = true
  · simp only [hr, Bool.not_true, Bool.false_eq_true, if_false] at h
    split at h
    · exact absurd h (by simp)
    · exact absurd h (by simp)
    · rename_i hck
      split at h
      · rename_i hrange
        split at h
        · exact absurd h (by simp)
        · rename_i c hc
          simp only [Option.some.injEq, Prod.mk.injEq, true_and] at h
          simp only [changeSide, f3] at hrange
          refine ⟨hr, hck, hrange.1, hrange.2, c, hc, ?_⟩
          rw [← h]
          simp only [changeSide, f2, f3, f4, f6]
      · exact absurd h (by simp)
  · simp [hr] at h

theorem makeMove_eq_false (p p1 : PositionStruct) (mv : Int)
    (h : makeMove cucvlPiecePos p mv = some (false, p1)) :
    inRange (dst mv) = true ∧
    checked (movePiece cucvlPiecePos p mv).2 = some true ∧
    p1 = undoMovePiece cucvlPiecePos (movePiece cucvlPiecePos p mv).2 mv
      (movePiece cucvlPiecePos p mv).1 := by
  unfold makeMove at h
  by_cases hr : inRange (dst mv) = true
  · simp only [hr, Bool.not_true, Bool.false_eq_true, if_false] at h
    split at h
    · exact absurd h (by simp)
    · rename_i hck
      simp only [Option.some.injEq, Prod.mk.injEq, true_and] at h
      exact ⟨hr, hck, h.symm⟩
    · split at h
      · split at h
        · exact absurd h (by simp)
        · simp at h
      · exact absurd h (by simp)
  · simp [hr] at h

theorem makeMove_false_restores (p p1 : PositionStruct) (mv : Int)
    (hlegal : legalMove p mv = some true)
    (hmake : makeMove cucvlPiecePos p mv = some (false, p1)) : p1 = p := by
  obtain ⟨hne, _⟩ := legalMove_true_src_ne_dst p mv hlegal
  obtain ⟨_, _, rfl⟩ := makeMove_eq_false cucvlPiecePos p p1 mv hmake
  exact undoMovePiece_movePiece cucvlPiecePos p mv hne

theorem makeMove_consistent (p : PositionStruct) (mv : Int) (r : Bool × PositionStruct)
    (hwf : WellFormed p) (hc : Consistent cucvlPiecePos p) (hlegal : legalMove p mv = some true)
    (hmake : makeMove cucvlPiecePos p mv = some r) :
    WellFormed r.2 ∧ Consistent cucvlPiecePos r.2 := by
  obtain ⟨hne, hr⟩ := legalMove_true_src_ne_dst p mv hlegal
  have hsrc := legalMove_true_src_occupied p mv hlegal
  obtain ⟨ok, p1⟩ := r
  cases ok with
  | false =>
    have e := makeMove_false_restores cucvlPiecePos p p1 mv hlegal hmake
    subst e
    exact ⟨hwf, hc⟩
  | true =>
    obtain ⟨_, _, _, _, c, _, rfl⟩ := makeMove_eq_true cucvlPiecePos p p1 mv hmake
    have hwf1 := movePiece_wellFormed cucvlPiecePos p mv hwf hne
    have hc1 := changeSide_consistent cucvlPiecePos _
      (movePiece_consistent cucvlPiecePos p mv hwf hc hne hr hsrc)
    exact ⟨wellFormed_congr _ _ rfl hwf1, consistent_congr cucvlPiecePos _ _ rfl rfl rfl rfl rfl rfl hc1⟩

theorem rehashBoard_empty (z : Zobrist) (n : Nat) :
    rehashBoard z (fun _ => 0) n = ZobristStruct.initZero := by
  induction n with
  | zero => rfl
  | succ n ih => simp [rehashBoard, ih, keyOf_zero, xor1_initZero]

theorem sumBoard_empty (f : Int → Int → Int) (hf : ∀ sq, f 0 sq = 0) (n : Nat) :
    sumBoard f (fun _ => 0) n = 0 := by
  induction n with
  | zero => rfl
  | succ n ih => simp [sumBoard, ih, hf]

theorem clearBoard_consistent (p : PositionStruct) :
    Consistent cucvlPiecePos (clearBoard p) := by
  refine ⟨Or.inl rfl, ?_, ?_, ?_⟩
  · simp [rehash, clearBoard, rehashBoard_empty]
  · simp only [clearBoard]
    rw [sumBoard_empty _ (by intro sq; simp [redValue])]
  · simp only [clearBoard]
    rw [sumBoard_empty _ (by intro sq; simp [blackValue])]

set_option maxRecDepth 100000 in
theorem cucpcStartup_ok : ∀ n : Nat, n < 256 → okPiece (cucpcStartup.getD n 0) = true := by
  decide!

theorem startup_loop (p : PositionStruct) (n : Nat) (hn : n ≤ 256) :
    Consistent cucvlPiecePos
      (((List.range n).map Int.ofNat).foldl (startupStep cucvlPiecePos) (clearBoard p)) ∧
    WellFormed
      (((List.range n).map Int.ofNat).foldl (startupStep cucvlPiecePos) (clearBoard p)) ∧
    ∀ i : Int, (n : Int) ≤ i →
      (((List.range n).map Int.ofNat).foldl (startupStep cucvlPiecePos)
        (clearBoard p)).ucpcSquares i = 0 := by
  induction n with
  | zero =>
    refine ⟨clearBoard_consistent cucvlPiecePos p, ?_, ?_⟩
    · intro n _
      simp [clearBoard, okPiece]
    · intro i _
      simp [clearBoard]
  | succ n ih =>
    obtain ⟨hc, hwf, hz⟩ := ih (by omega)
    rw [List.range_succ, List.map_append, List.foldl_append]
    simp only [List.map_cons, List.map_nil, List.foldl_cons, List.foldl_nil]
    generalize ((List.range n).map Int.ofNat).foldl (startupStep cucvlPiecePos) (clearBoard p) = q
      at hc hwf hz ⊢
    have hok := cucpcStartup_ok n (by omega)
    have e : (Int.ofNat n).toNat = n := rfl
    unfold startupStep
    rw [e]
    by_cases hpc : cucpcStartup.getD n 0 = 0
    · simp only [hpc, ne_eq, not_true_eq_false, if_false]
      exact ⟨hc, hwf, fun i hi => hz i (by omega)⟩
    · simp only [ne_eq, hpc, not_false_eq_true, if_true]
      have hb := (addPiece_fields cucvlPiecePos q (Int.ofNat n) (cucpcStartup.getD n 0)).1
      refine ⟨?_, wellFormed_update _ _ _ _ hb hok hwf, ?_⟩
      · exact addPiece_consistent cucvlPiecePos _ _ _ (Int.ofNat_nonneg n)
          (by simp only [Int.ofNat_eq_coe]; omega) (hz _ (le_refl _)) hok hpc hc
      · intro i hi
        rw [hb, Function.update_noteq (by simp only [Int.ofNat_eq_coe]; omega)]
        exact hz i (by omega)

theorem setIrrev_fields (q s : PositionStruct) (h : setIrrev q = some s) :
    s.sdPlayer = q.sdPlayer ∧ s.zobr = q.zobr ∧ s.zobrist = q.zobrist ∧
    s.ucpcSquares = q.ucpcSquares ∧ s.vlRed = q.vlRed ∧ s.vlBlack = q.vlBlack := by
  unfold setIrrev at h
  split at h
  · exact absurd h (by simp)
  · simp only [Option.some.injEq] at h
    subst h
    exact ⟨rfl, rfl, rfl, rfl, rfl, rfl⟩

theorem startup_consistent (p s : PositionStruct) (h : startup cucvlPiecePos p = some s) :
    WellFormed s ∧ Consistent cucvlPiecePos s := by
  have hl := startup_loop cucvlPiecePos p 256 (le_refl _)
  rw [← allSquares_eq] at hl
  obtain ⟨f1, f2, f3, f4, f5, f6⟩ := setIrrev_fields _ s h
  exact ⟨wellFormed_congr _ _ f4 hl.2.1,
    consistent_congr cucvlPiecePos _ _ f1 f2 f3 f4 f5 f6 hl.1⟩

theorem playLegal_consistent (mvs : List Int) (s p : PositionStruct) (hwf : WellFormed s)
    (hc : Consistent cucvlPiecePos s) (h : playLegal cucvlPiecePos s mvs = some p) :
    WellFormed p ∧ Consistent cucvlPiecePos p := by
  induction mvs generalizing s with
  | nil =>
    simp only [playLegal, Option.some.injEq] at h
    subst h
    exact ⟨hwf, hc⟩
  | cons mv mvs ih =>
    unfold playLegal at h
    split_ifs at h with hl
    split at h
    · rename_i r hr
      obtain ⟨hwf1, hc1⟩ := makeMove_consistent cucvlPiecePos s mv r hwf hc hl hr
      exact ih r.2 hwf1 hc1 h
    · exact absurd h (by simp)

theorem played_consistent (p : PositionStruct) (h : Played cucvlPiecePos p) :
    WellFormed p ∧ Consistent cucvlPiecePos p := by
  obtain ⟨p0, s, mvs, hs, hp⟩ := h
  obtain ⟨hwf, hc⟩ := startup_consistent cucvlPiecePos p0 s hs
  exact playLegal_consistent cucvlPiecePos mvs s p hwf hc hp

/-- C1: on a well-formed position, after `makeMove(mv)` returned true for a move accepted
by `legalMove`, `undoMakeMove()` returns and restores the board array, the side to move,
`vlRed`, `vlBlack`, the Zobrist triple, `nDistance`, `nMoveNum` and every live record of the
history stack (those below `nMoveNum`). -/
theorem makeMove_undoMakeMove (p p1 : PositionStruct) (mv : Int) (_hwf : WellFormed p)
    (hlegal : legalMove p mv = some true)
    (hmake : makeMove cucvlPiecePos p mv = some (true, p1)) :
    ∃ p2, undoMakeMove cucvlPiecePos p1 = some p2 ∧
      p2.ucpcSquares = p.ucpcSquares ∧ p2.sdPlayer = p.sdPlayer ∧
      p2.vlRed = p.vlRed ∧ p2.vlBlack = p.vlBlack ∧ p2.zobr = p.zobr ∧
      p2.nDistance = p.nDistance ∧ p2.nMoveNum = p.nMoveNum ∧
      ∀ i : Int, 0 ≤ i → i < p.nMoveNum → p2.mvsList i = p.mvsList i := by
  obtain ⟨hne, _⟩ := legalMove_true_src_ne_dst p mv hlegal
  have hu := undoMovePiece_movePiece cucvlPiecePos p mv hne
  obtain ⟨f1, _, _, _, _, f6⟩ := movePiece_frame cucvlPiecePos p mv
  obtain ⟨_, _, h0, hM, c, _, rfl⟩ := makeMove_eq_true cucvlPiecePos p p1 mv hmake
  refine ⟨⟨p.sdPlayer, p.vlRed, p.vlBlack, p.nDistance, p.nMoveNum, p.ucpcSquares,
    Function.update p.mvsList p.nMoveNum (MoveStruct.mk (p.ucpcSquares (dst mv)) c mv p.zobr.dwKey),
    p.zobr, p.zobrist⟩, ?_, rfl, rfl, rfl, rfl, rfl, rfl, rfl, ?_⟩
  · simp only [undoMakeMove, changeSide, add_sub_cancel_right, h0, hM, and_self, if_true,
      Function.update_same, sub_sub_cancel, xor1_cancel, f1]
    rw [undoMovePiece_frame, ← f6, hu]
  · intro i _ hi
    exact Function.update_noteq (ne_of_lt hi) _ _

set_option maxRecDepth 100000 in
/-- Instance of C1: Ju e6-e7 in `pinnedPosition`. -/
theorem makeMove_undoMakeMove_witness :
    ∃ p2, undoMakeMove examplePiecePos pinnedAfterJu = some p2 ∧
      p2.ucpcSquares = pinnedPosition.ucpcSquares ∧ p2.sdPlayer = pinnedPosition.sdPlayer ∧
      p2.vlRed = pinnedPosition.vlRed ∧ p2.vlBlack = pinnedPosition.vlBlack ∧
      p2.zobr = pinnedPosition.zobr ∧
      p2.nDistance = pinnedPosition.nDistance ∧ p2.nMoveNum = pinnedPosition.nMoveNum ∧
      ∀ i : Int, 0 ≤ i → i < pinnedPosition.nMoveNum →
        p2.mvsList i = pinnedPosition.mvsList i :=
  makeMove_undoMakeMove examplePiecePos pinnedPosition pinnedAfterJu (move 0x77 0x67)
    (by decide!) (by decide!) (by rfl)

/-- C2: on a well-formed position, when `makeMove(mv)` returns false for a move accepted by
`legalMove`, the position it leaves is the position before the call, in every field. -/
theorem makeMove_false_unchanged (p p1 : PositionStruct) (mv : Int) (_hwf : WellFormed p)
    (hlegal : legalMove p mv = some true)
    (hmake : makeMove cucvlPiecePos p mv = some (false, p1)) : p1 = p :=
  makeMove_false_restores cucvlPiecePos p p1 mv hlegal hmake

set_option maxRecDepth 100000 in
/-- Instance of C2: the pinned Ju leaves the file, e6-f6 (0x77 to 0x78), and is put back. -/
theorem makeMove_false_unchanged_witness :
    makeMove examplePiecePos pinnedPosition (move 0x77 0x78) = some (false, pinnedPosition) := by
  have h : ∃ q, makeMove examplePiecePos pinnedPosition (move 0x77 0x78) = some (false, q) :=
    ⟨_, by rfl⟩
  obtain ⟨q, hq⟩ := h
  rw [hq, makeMove_false_unchanged examplePiecePos pinnedPosition q (move 0x77 0x78)
    (by decide!) (by decide!) hq]

/-- C3: on a well-formed position and for a move accepted by `legalMove`, `makeMove`
returns true only if the mover's general is not attacked on the board obtained by moving the
piece, it does return true in that case (given a free history slot), it returns false only if
that general is attacked, and the attack test itself always returns; after `makeMove`
returned true, `checked()` with the side to move set back to the mover is false. -/
theorem makeMove_true_iff_not_checked (p : PositionStruct) (mv : Int) (hwf : WellFormed p)
    (hlegal : legalMove p mv = some true) :
    (∀ p1, makeMove cucvlPiecePos p mv = some (true, p1) →
      checked (movePiece cucvlPiecePos p mv).2 = some false) ∧
    (checked (movePiece cucvlPiecePos p mv).2 = some false →
      0 ≤ p.nMoveNum ∧ p.nMoveNum < MaxMoves →
      ∃ p1, makeMove cucvlPiecePos p mv = some (true, p1)) ∧
    (∀ p1, makeMove cucvlPiecePos p mv = some (false, p1) →
      checked (movePiece cucvlPiecePos p mv).2 = some true) ∧
    (∃ c, checked (movePiece cucvlPiecePos p mv).2 = some c) ∧
    (∀ p1, makeMove cucvlPiecePos p mv = some (true, p1) →
      checked { p1 with sdPlayer := p.sdPlayer } = some false) := by
  obtain ⟨hne, hr⟩ := legalMove_true_src_ne_dst p mv hlegal
  obtain ⟨f1, _, f3, _, _, _⟩ := movePiece_frame cucvlPiecePos p mv
  have hwf1 := movePiece_wellFormed cucvlPiecePos p mv hwf hne
  refine ⟨?_, ?_, ?_, checked_total _ hwf1, ?_⟩
  · intro p1 h
    exact (makeMove_eq_true cucvlPiecePos p p1 mv h).2.1
  · intro hck hslot
    have hwf2 : WellFormed (changeSide (movePiece cucvlPiecePos p mv).2) := hwf1
    obtain ⟨c, hc⟩ := checked_total _ hwf2
    have hslot2 : 0 ≤ (changeSide (movePiece cucvlPiecePos p mv).2).nMoveNum ∧
        (changeSide (movePiece cucvlPiecePos p mv).2).nMoveNum < MaxMoves := by
      simpa only [changeSide, f3] using hslot
    unfold makeMove
    simp only [hr, Bool.not_true, Bool.false_eq_true, if_false, hck, hslot2, and_self, if_true,
      hc]
    exact ⟨_, rfl⟩
  · intro p1 h
    exact (makeMove_eq_false cucvlPiecePos p p1 mv h).2.1
  · intro p1 h
    obtain ⟨_, hck, _, _, c, _, rfl⟩ := makeMove_eq_true cucvlPiecePos p p1 mv h
    rw [← hck]
    exact checked_congr _ _ rfl f1.symm

set_option maxRecDepth 100000 in
/-- Instance of C3: Ju e6-e7 in `pinnedPosition`. -/
theorem makeMove_true_iff_not_checked_witness :
    (∀ p1, makeMove examplePiecePos pinnedPosition (move 0x77 0x67) = some (true, p1) →
      checked (movePiece examplePiecePos pinnedPosition (move 0x77 0x67)).2 = some false) ∧
    (checked (movePiece examplePiecePos pinnedPosition (move 0x77 0x67)).2 = some false →
      0 ≤ pinnedPosition.nMoveNum ∧ pinnedPosition.nMoveNum < MaxMoves →
      ∃ p1, makeMove examplePiecePos pinnedPosition (move 0x77 0x67) = some (true, p1)) ∧
    (∀ p1, makeMove examplePiecePos pinnedPosition (move 0x77 0x67) = some (false, p1) →
      checked (movePiece examplePiecePos pinnedPosition (move 0x77 0x67)).2 = some true) ∧
    (∃ c, checked (movePiece examplePiecePos pinnedPosition (move 0x77 0x67)).2 = some c) ∧
    (∀ p1, makeMove examplePiecePos pinnedPosition (move 0x77 0x67) = some (true, p1) →
      checked { p1 with sdPlayer := pinnedPosition.sdPlayer } = some false) :=
  makeMove_true_iff_not_checked examplePiecePos pinnedPosition (move 0x77 0x67)
    (by decide!) (by decide!)

theorem eq_some_getD {α : Type} (o : Option α) (d : α) (h : o.isSome = true) :
    o = some (o.getD d) := by
  cases o with
  | none => exact absurd h (by simp)
  | some a => rfl

set_option maxRecDepth 100000 in
theorem startPosition_startup : startup examplePiecePos blankPosition = some startPosition :=
  eq_some_getD _ _ (by decide!)

set_option maxRecDepth 100000 in
theorem openingPosition_played :
    playLegal examplePiecePos startPosition [move 0x97 0x87] = some openingPosition :=
  eq_some_getD _ _ (by decide!)

/-- C4: after `startup()` followed by any sequence of `makeMove` calls on moves accepted by
`legalMove` (successful or rejected), the Zobrist triple equals the XOR, over every occupied
square, of `Table[pc-8][sq]` for Red pieces and `Table[pc-9][sq]` for Black pieces, further
XORed with the `Player` triple exactly when Black is to move. -/
theorem zobrist_consistent (p : PositionStruct) (h : Played cucvlPiecePos p) :
    p.zobr = rehash p :=
  (played_consistent cucvlPiecePos p h).2.2.1

/-- Instance of C4: the position after `startup()` and the soldier move e4-e5. -/
theorem zobrist_consistent_witness : openingPosition.zobr = rehash openingPosition :=
  zobrist_consistent examplePiecePos openingPosition
    ⟨blankPosition, startPosition, [move 0x97 0x87], startPosition_startup,
      openingPosition_played⟩

/-- C5: after `startup()` followed by any sequence of `makeMove` calls on moves accepted by
`legalMove`, `vlRed` is the sum over all Red pieces of `cucvlPiecePos[pc-8][sq]` and
`vlBlack` the sum over all Black pieces of `cucvlPiecePos[pc-16][squareFlip(sq)]`. -/
theorem material_consistent (p : PositionStruct) (h : Played cucvlPiecePos p) :
    p.vlRed = sumBoard (redValue cucvlPiecePos) p.ucpcSquares 256 ∧
    p.vlBlack = sumBoard (blackValue cucvlPiecePos) p.ucpcSquares 256 :=
  (played_consistent cucvlPiecePos p h).2.2.2

/-- Instance of C5: the position after `startup()` and the soldier move e4-e5. -/
theorem material_consistent_witness :
    openingPosition.vlRed =
      sumBoard (redValue examplePiecePos) openingPosition.ucpcSquares 256 ∧
    openingPosition.vlBlack =
      sumBoard (blackValue examplePiecePos) openingPosition.ucpcSquares 256 :=
  material_consistent examplePiecePos openingPosition
    ⟨blankPosition, startPosition, [move 0x97 0x87], startPosition_startup,
      openingPosition_played⟩

end OperationLemmas

/-- C10: `repStatus(n)` returns whenever the first record it reads exists
(`nMoveNum - 1 < MaxMoves`); for `n >= 1` its result is nonzero exactly when at least `n`
self-side records of the scanned run store a pre-move key equal to the current `dwKey`; for
`n <= 0` the result is 0; and it is 0 for every `n >= 1` when the scanned run is empty, as
when the most recent record is a capture or a null move. -/
theorem repStatus_characterisation (p : PositionStruct) (n : Int)
    (hcap : p.nMoveNum - 1 < MaxMoves) :
    ∃ r, repStatus p n = some r ∧
      (1 ≤ n → (r ≠ 0 ↔ n ≤ (matchCount p : Int))) ∧
      (n ≤ 0 → r = 0) ∧
      (1 ≤ n → scannedRun p = [] → r = 0) := by
  refine ⟨repLoop p.mvsList p.zobr.dwKey p.nMoveNum.toNat false true true n, ?_, ?_, ?_, ?_⟩
  · simp [repStatus, hcap]
  · intro h
    rw [repLoop_ne_zero_iff _ _ _ _ _ _ _ h, countSelf_false]
    rfl
  · intro h
    exact repLoop_nonpos _ _ _ _ _ _ _ h
  · intro h hrun
    by_contra hne
    have := (repLoop_ne_zero_iff _ _ _ false true true _ h).1 hne
    rw [countSelf_false] at this
    have e : runFrom p.mvsList p.nMoveNum.toNat = [] := hrun
    rw [e] at this
    simp [selfSide] at this
    omega

set_option maxRecDepth 100000 in
/-- Instance of C10: two matching self-side records, asked for two repetitions. -/
theorem repStatus_characterisation_witness :
    ∃ r, repStatus repetitionPosition 2 = some r ∧
      ((1 : Int) ≤ 2 → (r ≠ 0 ↔ (2 : Int) ≤ (matchCount repetitionPosition : Int))) ∧
      ((2 : Int) ≤ 0 → r = 0) ∧
      ((1 : Int) ≤ 2 → scannedRun repetitionPosition = [] → r = 0) :=
  repStatus_characterisation repetitionPosition 2 (by decide!)

/-! ## Lemmas: move generation and legality -/

theorem clear_succ (b : Int → Int) (sq nDelta : Int) (k : Nat) (h : Clear b sq nDelta k)
    (h1 : inBoard (sq + k * nDelta) = true) (h2 : b (sq + k * nDelta) = 0) :
    Clear b sq nDelta (k + 1) := by
  intro j hj1 hj2
  by_cases e : j = k
  · subst e
    exact ⟨h1, h2⟩
  · exact h j hj1 (by omega)

theorem clearExcept_succ (b : Int → Int) (sq nDelta : Int) (k1 k : Nat)
    (h : ClearExcept b sq nDelta k1 k)
    (h1 : inBoard (sq + k * nDelta) = true) (h2 : b (sq + k * nDelta) = 0) :
    ClearExcept b sq nDelta k1 (k + 1) := by
  intro j hj1 hj2 hj3
  by_cases e : j = k
  · subst e
    exact ⟨h1, h2⟩
  · exact h j hj1 (by omega) hj3

theorem juLoop_mem (b : Int → Int) (c : Bool) (opp sq nDelta : Int) (fuel : Nat) :
    ∀ (k0 : Nat) (mv : Int), 1 ≤ k0 → Clear b sq nDelta k0 →
      mv ∈ juLoop b c opp sq nDelta fuel (sq + k0 * nDelta) →
      ∃ k : Nat, k0 ≤ k ∧ mv = move sq (sq + k * nDelta) ∧ Clear b sq nDelta k ∧
        inBoard (sq + k * nDelta) = true ∧
        ((b (sq + k * nDelta) = 0 ∧ c = false) ∨
          (b (sq + k * nDelta) ≠ 0 ∧ Int.land (b (sq + k * nDelta)) opp ≠ 0)) := by
  induction fuel with
  | zero =>
    intro k0 mv _ _ h
    simp [juLoop] at h
  | succ fuel ih =>
    intro k0 mv hk0 hclear h
    unfold juLoop at h
    by_cases hin : inBoard (sq + k0 * nDelta) = true
    · by_cases hemp : b (sq + k0 * nDelta) = 0
      · simp only [hin, hemp, if_true, List.mem_append] at h
        rcases h with h | h
        · cases c with
          | true => simp at h
          | false =>
            simp only [Bool.not_false, if_true, List.mem_singleton] at h
            exact ⟨k0, le_refl _, h, hclear, hin, Or.inl ⟨hemp, rfl⟩⟩
        · have e : sq + (k0 : Int) * nDelta + nDelta = sq + ((k0 + 1 : Nat) : Int) * nDelta := by
            push_cast
            ring
          rw [e] at h
          obtain ⟨k, hk, r⟩ := ih (k0 + 1) mv (by omega) (clear_succ b sq nDelta k0 hclear hin hemp) h
          exact ⟨k, by omega, r⟩
      · simp only [hin, hemp, if_true, if_false] at h
        by_cases hopp : Int.land (b (sq + k0 * nDelta)) opp = 0
        · simp [hopp] at h
        · simp only [ne_eq, hopp, not_false_eq_true, if_true, List.mem_singleton] at h
          exact ⟨k0, le_refl _, h, hclear, hin, Or.inr ⟨hemp, hopp⟩⟩
    · simp [hin] at h

theorem paoLoop1_spec (b : Int → Int) (c : Bool) (sq nDelta : Int) (fuel : Nat) :
    ∀ (k0 : Nat), 1 ≤ k0 → Clear b sq nDelta k0 →
      (∀ mv ∈ (paoLoop1 b c sq nDelta fuel (sq + k0 * nDelta)).1,
        ∃ k : Nat, k0 ≤ k ∧ mv = move sq (sq + k * nDelta) ∧ Clear b sq nDelta k ∧
          inBoard (sq + k * nDelta) = true ∧ b (sq + k * nDelta) = 0 ∧ c = false) ∧
      (∃ k : Nat, k0 ≤ k ∧ k ≤ k0 + fuel ∧
        (paoLoop1 b c sq nDelta fuel (sq + k0 * nDelta)).2 = sq + k * nDelta ∧
        Clear b sq nDelta k ∧
        (k < k0 + fuel → inBoard (sq + k * nDelta) = false ∨ b (sq + k * nDelta) ≠ 0)) := by
  induction fuel with
  | zero =>
    intro k0 _ hclear
    refine ⟨by simp [paoLoop1], k0, le_refl _, le_refl _, rfl, hclear, ?_⟩
    intro h
    omega
  | succ fuel ih =>
    intro k0 hk0 hclear
    unfold paoLoop1
    by_cases hin : inBoard (sq + k0 * nDelta) = true
    · by_cases hemp : b (sq + k0 * nDelta) = 0
      · simp only [hin, hemp, if_true]
        have e : sq + (k0 : Int) * nDelta + nDelta = sq + ((k0 + 1 : Nat) : Int) * nDelta := by
          push_cast
          ring
        rw [e]
        obtain ⟨ih1, k, hk, hk2, hfin, hcl, hstop⟩ :=
          ih (k0 + 1) (by omega) (clear_succ b sq nDelta k0 hclear hin hemp)
        refine ⟨?_, k, by omega, by omega, hfin, hcl, fun h => hstop (by omega)⟩
        intro mv hmv
        rw [List.mem_append] at hmv
        rcases hmv with h | h
        · cases c with
          | true => simp at h
          | false =>
            simp only [Bool.not_false, if_true, List.mem_singleton] at h
            exact ⟨k0, le_refl _, h, hclear, hin, hemp, rfl⟩
        · obtain ⟨k', hk', r⟩ := ih1 mv h
          exact ⟨k', by omega, r⟩
      · simp only [hin, hemp, if_true, if_false]
        exact ⟨by simp, k0, le_refl _, by omega, rfl, hclear, fun _ => Or.inr hemp⟩
    · simp only [hin, Bool.false_eq_true, if_false]
      refine ⟨by simp, k0, le_refl _, by omega, rfl, hclear, fun _ => Or.inl ?_⟩
      simpa using hin

theorem paoLoop2_mem (b : Int → Int) (opp sq nDelta : Int) (k1 : Nat) (fuel : Nat) :
    ∀ (k0 : Nat) (mv : Int), k1 < k0 → ClearExcept b sq nDelta k1 k0 →
      mv ∈ paoLoop2 b opp sq nDelta fuel (sq + k0 * nDelta) →
      ∃ k : Nat, k0 ≤ k ∧ mv = move sq (sq + k * nDelta) ∧ ClearExcept b sq nDelta k1 k ∧
        inBoard (sq + k * nDelta) = true ∧ b (sq + k * nDelta) ≠ 0 ∧
        Int.land (b (sq + k * nDelta)) opp ≠ 0 := by
  induction fuel with
  | zero =>
    intro k0 mv _ _ h
    simp [paoLoop2] at h
  | succ fuel ih =>
    intro k0 mv hk0 hclear h
    unfold paoLoop2 at h
    by_cases hin : inBoard (sq + k0 * nDelta) = true
    · by_cases hemp : b (sq + k0 * nDelta) = 0
      · simp only [hin, hemp, if_true, ne_eq, not_true_eq_false, if_false] at h
        have e : sq + (k0 : Int) * nDelta + nDelta = sq + ((k0 + 1 : Nat) : Int) * nDelta := by
          push_cast
          ring
        rw [e] at h
        obtain ⟨k, hk, r⟩ :=
          ih (k0 + 1) mv (by omega) (clearExcept_succ b sq nDelta k1 k0 hclear hin hemp) h
        exact ⟨k, by omega, r⟩
      · simp only [hin, ne_eq, hemp, not_false_eq_true, if_true] at h
        by_cases hopp : Int.land (b (sq + k0 * nDelta)) opp = 0
        · simp [hopp] at h
        · simp only [hopp, not_false_eq_true, if_true, List.mem_singleton] at h
          exact ⟨k0, le_refl _, h, hclear, hin, hemp, hopp⟩
    · simp [hin] at h

theorem clear_bound (b : Int → Int) (sq nDelta : Int) (k : Nat) (hsq : inBoard sq = true)
    (hd : nDelta ∈ ccJiangDelta) (hc : Clear b sq nDelta k) : k ≤ 10 := by
  have hb := inBoard_bounds sq hsq
  by_contra hk
  simp only [ccJiangDelta, List.mem_cons, List.mem_singleton, List.not_mem_nil, or_false] at hd
  rcases hd with rfl | rfl | rfl | rfl
  · have h := inBoard_bounds _ (hc 10 (by omega) (by omega)).1
    omega
  · have hj : ((sq % 16 - 2).toNat : Int) = sq % 16 - 2 := Int.toNat_of_nonneg (by omega)
    have h := inBoard_bounds _ (hc (sq % 16 - 2).toNat (by omega) (by omega)).1
    rw [hj] at h
    omega
  · have hj : ((12 - sq % 16).toNat : Int) = 12 - sq % 16 := Int.toNat_of_nonneg (by omega)
    have h := inBoard_bounds _ (hc (12 - sq % 16).toNat (by omega) (by omega)).1
    rw [hj] at h
    omega
  · have h := inBoard_bounds _ (hc 10 (by omega) (by omega)).1
    omega

theorem clear_one (b : Int → Int) (sq nDelta : Int) : Clear b sq nDelta 1 := by
  intro j h1 h2
  omega

theorem off_board_step (sq nDelta : Int) (k : Nat) (hsq : inBoard sq = true)
    (hd : nDelta ∈ ccJiangDelta) (hk : 1 ≤ k)
    (hprev : 2 ≤ k → inBoard (sq + ((k - 1 : Nat) : Int) * nDelta) = true)
    (hmid : inBoard (sq + k * nDelta) = false)
    (hnext : inBoard (sq + ((k + 1 : Nat) : Int) * nDelta) = true) : False := by
  have hb := inBoard_bounds sq hsq
  have hn := inBoard_bounds _ hnext
  simp only [inBoard, rankY, fileX, decide_eq_false_iff_not] at hmid
  simp only [ccJiangDelta, List.mem_cons, List.mem_singleton, List.not_mem_nil, or_false] at hd
  by_cases h2 : 2 ≤ k
  · have hp := inBoard_bounds _ (hprev h2)
    have e : ((k - 1 : Nat) : Int) = (k : Int) - 1 := by omega
    rw [e] at hp
    push_cast at hn
    rcases hd with rfl | rfl | rfl | rfl <;> omega
  · have e : k = 1 := by omega
    subst e
    push_cast at hn hmid
    rcases hd with rfl | rfl | rfl | rfl <;> omega

theorem genPiece_sound (p : PositionStruct) (c : Bool) (sq mv : Int)
    (h : mv ∈ genPiece p c sq) :
    inBoard sq = true ∧ Int.land (p.ucpcSquares sq) (sideTag p.sdPlayer) ≠ 0 ∧
      ∃ d, mv = move sq d ∧ GenFact p c sq d := by
  unfold genPiece at h
  by_cases hin : inBoard sq = true
  swap
  · simp [hin] at h
  by_cases hself : Int.land (p.ucpcSquares sq) (sideTag p.sdPlayer) = 0
  · simp [hin, hself] at h
  refine ⟨hin, hself, ?_⟩
  simp only [hin, hself, Bool.not_true, Bool.false_eq_true, if_false] at h
  by_cases hJ : p.ucpcSquares sq - sideTag p.sdPlayer = PieceJiang
  · simp only [hJ, if_true, List.mem_flatMap] at h
    obtain ⟨d, hd, hm⟩ := h
    split_ifs at hm with h1 h2
    · simp at hm
    · simp only [List.mem_singleton] at hm
      refine ⟨sq + d, hm, Or.inl ⟨hJ, by simpa using h1, by simpa using hd, h2⟩⟩
    · simp at hm
  simp only [hJ, if_false] at h
  by_cases hS : p.ucpcSquares sq - sideTag p.sdPlayer = PieceShi
  · simp only [hS, if_true, List.mem_flatMap] at h
    obtain ⟨d, hd, hm⟩ := h
    split_ifs at hm with h1 h2
    · simp at hm
    · simp only [List.mem_singleton] at hm
      refine ⟨sq + d, hm, Or.inr (Or.inl ⟨hS, by simpa using h1, by simpa using hd, h2⟩)⟩
    · simp at hm
  simp only [hS, if_false] at h
  by_cases hX : p.ucpcSquares sq - sideTag p.sdPlayer = PieceXiang
  · simp only [hX, if_true, List.mem_flatMap] at h
    obtain ⟨d, hd, hm⟩ := h
    split_ifs at hm with h1 h2
    · simp at hm
    · simp only [List.mem_singleton] at hm
      simp only [Bool.not_eq_true', Bool.and_eq_false_imp, Bool.and_eq_true, decide_eq_false_iff_not,
        and_imp, not_forall, Classical.not_imp, not_not, exists_prop] at h1
      refine ⟨sq + d + d, hm, Or.inr (Or.inr (Or.inl ⟨hX, ⟨d, hd, rfl, ?_⟩, h2⟩))⟩
      exact h1
    · simp at hm
  simp only [hX, if_false] at h
  by_cases hM : p.ucpcSquares sq - sideTag p.sdPlayer = PieceMa
  · simp only [hM, if_true, List.mem_flatMap] at h
    obtain ⟨x, hx, hm⟩ := h
    split_ifs at hm with h1
    · simp at hm
    · simp only [List.mem_flatMap] at hm
      obtain ⟨m, hm1, hm2⟩ := hm
      split_ifs at hm2 with h2 h3
      · simp at hm2
      · simp only [List.mem_singleton] at hm2
        simp only [Bool.not_eq_true', Bool.not_eq_false] at h2
        simp only [ne_eq, not_not] at h1
        refine ⟨sq + m, hm2, Or.inr (Or.inr (Or.inr (Or.inl ⟨hM, h2, ?_, ?_, h3⟩)))⟩
        · simp only [ccJiangDelta, ccMaDelta, List.zip_cons_cons, List.zip_nil_right,
            List.mem_cons, List.mem_singleton, List.not_mem_nil, or_false] at hx
          rcases hx with rfl | rfl | rfl | rfl <;>
          simp only [List.mem_cons, List.mem_singleton, List.not_mem_nil, or_false] at hm1 <;>
          rcases hm1 with rfl | rfl <;> simp [maPin]
        · simp only [ccJiangDelta, ccMaDelta, List.zip_cons_cons, List.zip_nil_right,
            List.mem_cons, List.mem_singleton, List.not_mem_nil, or_false] at hx
          rcases hx with rfl | rfl | rfl | rfl <;>
          simp only [List.mem_cons, List.mem_singleton, List.not_mem_nil, or_false] at hm1 <;>
          rcases hm1 with rfl | rfl <;> simpa [maPin, sub_eq_add_neg] using h1
      · simp at hm2
  simp only [hM, if_false] at h
  by_cases hU : p.ucpcSquares sq - sideTag p.sdPlayer = PieceJu
  · simp only [hU, if_true, List.mem_flatMap] at h
    obtain ⟨nDelta, hd, hm⟩ := h
    have e : sq + nDelta = sq + ((1 : Nat) : Int) * nDelta := by simp
    rw [e] at hm
    obtain ⟨k, hk, hmv, hcl, hinb, htar⟩ :=
      juLoop_mem _ _ _ _ _ 16 1 mv (le_refl _) (clear_one _ _ _) hm
    exact ⟨sq + k * nDelta, hmv,
      Or.inr (Or.inr (Or.inr (Or.inr (Or.inl ⟨hU, nDelta, hd, k, hk, rfl, hcl, hinb, htar⟩))))⟩
  simp only [hU, if_false] at h
  by_cases hP : p.ucpcSquares sq - sideTag p.sdPlayer = PiecePao
  · simp only [hP, if_true, List.mem_flatMap] at h
    obtain ⟨nDelta, hd, hm⟩ := h
    have e : sq + nDelta = sq + ((1 : Nat) : Int) * nDelta := by simp
    rw [e, List.mem_append] at hm
    obtain ⟨hq, k1, hk1, hk1f, hfin, hcl1, hstop⟩ :=
      paoLoop1_spec p.ucpcSquares c sq nDelta 16 1 (le_refl _) (clear_one _ _ _)
    rcases hm with hm | hm
    · obtain ⟨k, hk, hmv, hcl, hinb, hemp, hc⟩ := hq mv hm
      exact ⟨sq + k * nDelta, hmv, Or.inr (Or.inr (Or.inr (Or.inr (Or.inr (Or.inl
        ⟨hP, nDelta, hd, k, hk, rfl, hinb, Or.inl ⟨hcl, hemp, hc⟩⟩)))))⟩
    · rw [hfin] at hm
      have e2 : sq + (k1 : Int) * nDelta + nDelta = sq + ((k1 + 1 : Nat) : Int) * nDelta := by
        push_cast
        ring
      rw [e2] at hm
      have hce : ClearExcept p.ucpcSquares sq nDelta k1 (k1 + 1) := by
        intro j hj1 hj2 hj3
        exact hcl1 j hj1 (by omega)
      obtain ⟨k, hk, hmv, hcl, hinb, hocc, hopp⟩ :=
        paoLoop2_mem p.ucpcSquares _ sq nDelta k1 16 (k1 + 1) mv (by omega) hce hm
      have hk1b := clear_bound _ _ _ _ hin hd hcl1
      have hnext : inBoard (sq + ((k1 + 1 : Nat) : Int) * nDelta) = true := by
        by_cases e3 : k = k1 + 1
        · rw [← e3]
          exact hinb
        · exact (hcl (k1 + 1) (by omega) (by omega) (by omega)).1
      have hscreen : inBoard (sq + k1 * nDelta) = true ∧
          p.ucpcSquares (sq + k1 * nDelta) ≠ 0 := by
        rcases hstop (by omega) with hoff | hocc1
        · exact (off_board_step sq nDelta k1 hin hd hk1
            (fun h2 => (hcl1 (k1 - 1) (by omega) (by omega)).1) hoff hnext).elim
        · refine ⟨?_, hocc1⟩
          by_contra hoff
          exact off_board_step sq nDelta k1 hin hd hk1
            (fun h2 => (hcl1 (k1 - 1) (by omega) (by omega)).1) (by simpa using hoff) hnext
      exact ⟨sq + k * nDelta, hmv, Or.inr (Or.inr (Or.inr (Or.inr (Or.inr (Or.inl
        ⟨hP, nDelta, hd, k, by omega, rfl, hinb,
          Or.inr ⟨k1, hk1, by omega, hscreen.1, hscreen.2, hcl, hocc, hopp⟩⟩)))))⟩
  simp only [hP, if_false] at h
  by_cases hB : p.ucpcSquares sq - sideTag p.sdPlayer = PieceBing
  · simp only [hB, if_true, List.mem_append] at h
    rcases h with h | h
    · split_ifs at h with h1
      · simp only [List.mem_singleton] at h
        simp only [Bool.and_eq_true] at h1
        exact ⟨_, h, Or.inr (Or.inr (Or.inr (Or.inr (Or.inr (Or.inr
          ⟨hB, h1.1, h1.2, Or.inl rfl⟩)))))⟩
      · simp at h
    · split_ifs at h with h1
      · simp only [List.mem_flatMap] at h
        obtain ⟨nDelta, hd, hm⟩ := h
        split_ifs at hm with h2
        · simp only [List.mem_singleton] at hm
          simp only [Bool.and_eq_true] at h2
          refine ⟨_, hm, Or.inr (Or.inr (Or.inr (Or.inr (Or.inr (Or.inr
            ⟨hB, h2.1, h2.2, Or.inr ⟨h1, ?_⟩⟩)))))⟩
          simp only [List.mem_cons, List.mem_singleton, List.not_mem_nil, or_false] at hd
          rcases hd with rfl | rfl
          · left
            ring
          · right
            rfl
        · simp at hm
      · simp at h
  · simp [hB] at h

theorem src_move (sq d : Int) (h0 : 0 ≤ sq) (h1 : sq < 256) : src (move sq d) = sq := by
  simp only [src, move]
  omega

theorem dst_move (sq d : Int) (h0 : 0 ≤ sq) (h1 : sq < 256) : dst (move sq d) = d := by
  simp only [dst, move]
  omega

theorem mem_generateMoves (p : PositionStruct) (c : Bool) (mv : Int) :
    mv ∈ generateMoves p c ↔ ∃ sq, (0 ≤ sq ∧ sq < 256) ∧ mv ∈ genPiece p c sq := by
  unfold generateMoves
  rw [List.mem_flatMap]
  constructor
  · rintro ⟨sq, h1, h2⟩
    exact ⟨sq, (mem_allSquares sq).1 h1, h2⟩
  · rintro ⟨sq, h1, h2⟩
    exact ⟨sq, (mem_allSquares sq).2 h1, h2⟩

theorem okPiece_tags (pc : Int) (h : okPiece pc = true) :
    Int.land pc 8 = (if 8 ≤ pc ∧ pc ≤ 14 then 8 else 0) ∧
    Int.land pc 16 = (if 16 ≤ pc then 16 else 0) := by
  simp only [okPiece, decide_eq_true_eq] at h
  rcases h with rfl | ⟨h1, h2⟩ | ⟨h1, h2⟩
  · decide
  · interval_cases pc <;> decide!
  · interval_cases pc <;> decide!

theorem opp_not_self (pc sd : Int) (h : okPiece pc = true) (hsd : sd = 0 ∨ sd = 1)
    (ho : Int.land pc (oppSideTag sd) ≠ 0) : Int.land pc (sideTag sd) = 0 := by
  obtain ⟨h8, h16⟩ := okPiece_tags pc h
  rcases hsd with rfl | rfl
  · simp only [oppSideTag, sideTag] at *
    norm_num at *
    rw [h16] at ho
    rw [h8]
    split_ifs at ho ⊢ <;> first | rfl | omega
  · simp only [oppSideTag, sideTag] at *
    norm_num at *
    rw [h8] at ho
    rw [h16]
    split_ifs at ho ⊢ <;> first | rfl | omega

theorem land_zero_left (x : Int) : Int.land 0 x = 0 := by
  cases x <;> simp [Int.land, Nat.ldiff]

theorem emitOk_true (self opp pc : Int) (h : emitOk true self opp pc = true) :
    Int.land pc opp ≠ 0 := by
  simpa [emitOk] using h

theorem emitOk_false (self opp pc : Int) (h : emitOk false self opp pc = true) :
    Int.land pc self = 0 := by
  simpa [emitOk] using h

theorem genFact_capture (p : PositionStruct) (sq d : Int) (h : GenFact p true sq d) :
    Int.land (p.ucpcSquares d) (oppSideTag p.sdPlayer) ≠ 0 := by
  rcases h with h | h | h | h | h | h | h
  · exact emitOk_true _ _ _ h.2.2.2
  · exact emitOk_true _ _ _ h.2.2.2
  · exact emitOk_true _ _ _ h.2.2
  · exact emitOk_true _ _ _ h.2.2.2.2
  · obtain ⟨_, nDelta, _, k, _, rfl, _, _, h1 | h1⟩ := h
    · exact absurd h1.2 (by simp)
    · exact h1.2
  · obtain ⟨_, nDelta, _, k, _, rfl, _, h1 | h1⟩ := h
    · exact absurd h1.2.2 (by simp)
    · obtain ⟨k1, _, _, _, _, _, _, h2⟩ := h1
      exact h2
  · exact emitOk_true _ _ _ h.2.2.1

theorem genFact_geometry (p : PositionStruct) (c : Bool) (sq d : Int) (hin : inBoard sq = true)
    (h : GenFact p c sq d) : d ≠ sq ∧ inRange d = true := by
  have hb := inBoard_bounds sq hin
  simp only [inRange, decide_eq_true_eq]
  rcases h with h | h | h | h | h | h | h
  · obtain ⟨_, hf, hd, _⟩ := h
    simp only [inFort, rankY, fileX, decide_eq_true_eq] at hf
    simp only [ccJiangDelta, List.mem_cons, List.mem_singleton, List.not_mem_nil, or_false] at hd
    omega
  · obtain ⟨_, hf, hd, _⟩ := h
    simp only [inFort, rankY, fileX, decide_eq_true_eq] at hf
    simp only [ccShiDelta, List.mem_cons, List.mem_singleton, List.not_mem_nil, or_false] at hd
    omega
  · obtain ⟨_, ⟨e, he, rfl, hin2, _, _⟩, _⟩ := h
    have hb2 := inBoard_bounds _ hin2
    simp only [ccShiDelta, List.mem_cons, List.mem_singleton, List.not_mem_nil, or_false] at he
    omega
  · obtain ⟨_, hd, hpin, _, _⟩ := h
    have hb2 := inBoard_bounds _ hd
    refine ⟨?_, by omega⟩
    rintro rfl
    apply hpin
    simp [maPin]
  · obtain ⟨_, nDelta, hd, k, hk, rfl, _, hd2, _⟩ := h
    have hb2 := inBoard_bounds _ hd2
    simp only [ccJiangDelta, List.mem_cons, List.mem_singleton, List.not_mem_nil, or_false] at hd
    refine ⟨?_, by omega⟩
    rcases hd with rfl | rfl | rfl | rfl <;> omega
  · obtain ⟨_, nDelta, hd, k, hk, rfl, hd2, _⟩ := h
    have hb2 := inBoard_bounds _ hd2
    simp only [ccJiangDelta, List.mem_cons, List.mem_singleton, List.not_mem_nil, or_false] at hd
    refine ⟨?_, by omega⟩
    rcases hd with rfl | rfl | rfl | rfl <;> omega
  · obtain ⟨_, hd, _, h1⟩ := h
    have hb2 := inBoard_bounds _ hd
    refine ⟨?_, by omega⟩
    rcases h1 with rfl | ⟨_, rfl | rfl⟩
    · simp only [squareForward]
      omega
    · omega
    · omega

theorem walk_spec (b : Int → Int) (nDelta sqDst : Int) :
    ∀ (n fuel : Nat) (start : Int), n < fuel →
      (∀ j : Nat, j < n → b (start + j * nDelta) = 0 ∧ start + j * nDelta ≠ sqDst) →
      (start + n * nDelta = sqDst ∨ b (start + n * nDelta) ≠ 0) →
      walk b nDelta sqDst fuel start = some (start + n * nDelta) := by
  intro n
  induction n with
  | zero =>
    intro fuel start hf _ hstop
    obtain ⟨fuel, rfl⟩ : ∃ f, fuel = f + 1 := ⟨fuel - 1, by omega⟩
    simp only [Nat.cast_zero, zero_mul, add_zero] at hstop ⊢
    unfold walk
    rcases hstop with h | h
    · simp [h]
    · simp [h]
  | succ n ih =>
    intro fuel start hf hclear hstop
    obtain ⟨fuel, rfl⟩ : ∃ f, fuel = f + 1 := ⟨fuel - 1, by omega⟩
    have h0 := hclear 0 (by omega)
    simp only [Nat.cast_zero, zero_mul, add_zero] at h0
    unfold walk
    simp only [ne_eq, h0.2, not_false_eq_true, h0.1, and_self, if_true]
    have e : ∀ j : Nat, start + nDelta + (j : Int) * nDelta = start + ((j + 1 : Nat) : Int) * nDelta := by
      intro j
      push_cast
      ring
    rw [ih fuel (start + nDelta) (by omega)]
    · rw [e]
    · intro j hj
      rw [e]
      exact hclear (j + 1) (by omega)
    · rw [e]
      exact hstop

theorem horizontal_rank (sq nDelta : Int) (k : Nat) (hsq : inBoard sq = true)
    (hd : nDelta = -1 ∨ nDelta = 1)
    (hall : ∀ j : Nat, 1 ≤ j → j ≤ k → inBoard (sq + j * nDelta) = true) :
    (sq + k * nDelta) / 16 = sq / 16 := by
  have hb := inBoard_bounds sq hsq
  rcases hd with rfl | rfl
  · by_cases hk : (k : Int) ≤ sq % 16 - 3
    · omega
    · have hj : ((sq % 16 - 2).toNat : Int) = sq % 16 - 2 := Int.toNat_of_nonneg (by omega)
      have h := inBoard_bounds _ (hall (sq % 16 - 2).toNat (by omega) (by omega))
      rw [hj] at h
      omega
  · by_cases hk : (k : Int) ≤ 11 - sq % 16
    · omega
    · have hj : ((12 - sq % 16).toNat : Int) = 12 - sq % 16 := Int.toNat_of_nonneg (by omega)
      have h := inBoard_bounds _ (hall (12 - sq % 16).toNat (by omega) (by omega))
      rw [hj] at h
      omega

/-- The direction `legalMove` computes for a slide from `sq` to `sq + k * nDelta`. -/
theorem legalMove_direction (p : PositionStruct) (sq nDelta : Int) (k : Nat) (t : Int)
    (hsq : inBoard sq = true) (hd : nDelta ∈ ccJiangDelta) (hk : 1 ≤ k)
    (hall : ∀ j : Nat, 1 ≤ j → j ≤ k → inBoard (sq + j * nDelta) = true) :
    (if sameX sq (sq + k * nDelta) = true then
      legalSlide p.ucpcSquares t sq (sq + k * nDelta) (if sq + k * nDelta < sq then -1 else 1)
    else if sameY sq (sq + k * nDelta) = true then
      legalSlide p.ucpcSquares t sq (sq + k * nDelta) (if sq + k * nDelta < sq then -16 else 16)
    else some false) = legalSlide p.ucpcSquares t sq (sq + k * nDelta) nDelta := by
  have hb := inBoard_bounds sq hsq
  simp only [ccJiangDelta, List.mem_cons, List.mem_singleton, List.not_mem_nil, or_false] at hd
  rcases hd with rfl | rfl | rfl | rfl
  · have h1 : sameX sq (sq + k * -16) = false := by
      simp only [sameX, rankY, decide_eq_false_iff_not]
      omega
    have h2 : sameY sq (sq + k * -16) = true := by
      simp only [sameY, fileX, decide_eq_true_eq]
      omega
    have h3 : sq + (k : Int) * -16 < sq := by omega
    rw [if_neg (by rw [h1]; exact Bool.false_ne_true), if_pos h2, if_pos h3]
  · have h1 : sameX sq (sq + k * -1) = true := by
      simp only [sameX, rankY, decide_eq_true_eq]
      exact (horizontal_rank sq (-1) k hsq (Or.inl rfl) hall).symm
    have h3 : sq + (k : Int) * -1 < sq := by omega
    rw [if_pos h1, if_pos h3]
  · have h1 : sameX sq (sq + k * 1) = true := by
      simp only [sameX, rankY, decide_eq_true_eq]
      exact (horizontal_rank sq 1 k hsq (Or.inr rfl) hall).symm
    have h3 : ¬ sq + (k : Int) * 1 < sq := by omega
    rw [if_pos h1, if_neg h3]
  · have h1 : sameX sq (sq + k * 16) = false := by
      simp only [sameX, rankY, decide_eq_false_iff_not]
      omega
    have h2 : sameY sq (sq + k * 16) = true := by
      simp only [sameY, fileX, decide_eq_true_eq]
      omega
    have h3 : ¬ sq + (k : Int) * 16 < sq := by omega
    rw [if_neg (by rw [h1]; exact Bool.false_ne_true), if_pos h2, if_neg h3]

theorem legalSlide_clear (b : Int → Int) (t sq nDelta : Int) (k : Nat) (hk : 1 ≤ k)
    (hk2 : k ≤ 255) (hd : nDelta ≠ 0) (hc : Clear b sq nDelta k)
    (htar : b (sq + k * nDelta) = 0 ∨ t = PieceJu) :
    legalSlide b t sq (sq + k * nDelta) nDelta = some true := by
  unfold legalSlide
  have e : ∀ j : Nat, sq + nDelta + (j : Int) * nDelta = sq + ((j + 1 : Nat) : Int) * nDelta := by
    intro j
    push_cast
    ring
  have hw := walk_spec b nDelta (sq + k * nDelta) (k - 1) 256 (sq + nDelta) (by omega)
    (by
      intro j hj
      rw [e]
      refine ⟨(hc (j + 1) (by omega) (by omega)).2, ?_⟩
      intro h
      have h2 : (((j + 1 : Nat) : Int) - (k : Int)) * nDelta = 0 := by linarith
      rcases mul_eq_zero.1 h2 with h3 | h3
      · omega
      · exact hd h3)
    (by
      left
      rw [e]
      have : k - 1 + 1 = k := by omega
      rw [this])
  have e2 : sq + nDelta + ((k - 1 : Nat) : Int) * nDelta = sq + k * nDelta := by
    rw [e]
    have : k - 1 + 1 = k := by omega
    rw [this]
  rw [hw, e2]
  rcases htar with h | h <;> simp [h]

theorem legalSlide_screen (b : Int → Int) (sq nDelta : Int) (k1 k : Nat) (hk1 : 1 ≤ k1)
    (hk : k1 < k) (hk2 : k ≤ 255) (hd : nDelta ≠ 0) (hc : ClearExcept b sq nDelta k1 k)
    (hscreen : b (sq + k1 * nDelta) ≠ 0) (htar : b (sq + k * nDelta) ≠ 0) :
    legalSlide b PiecePao sq (sq + k * nDelta) nDelta = some true := by
  unfold legalSlide
  have e : ∀ j : Nat, sq + nDelta + (j : Int) * nDelta = sq + ((j + 1 : Nat) : Int) * nDelta := by
    intro j
    push_cast
    ring
  have hne : ∀ j : Nat, j ≠ k → sq + (j : Int) * nDelta ≠ sq + k * nDelta := by
    intro j hj h
    have h2 : ((j : Int) - (k : Int)) * nDelta = 0 := by linarith
    rcases mul_eq_zero.1 h2 with h3 | h3
    · omega
    · exact hd h3
  have hw := walk_spec b nDelta (sq + k * nDelta) (k1 - 1) 256 (sq + nDelta) (by omega)
    (by
      intro j hj
      rw [e]
      exact ⟨(hc (j + 1) (by omega) (by omega) (by omega)).2, hne _ (by omega)⟩)
    (by
      right
      rw [e]
      have : k1 - 1 + 1 = k1 := by omega
      rw [this]
      exact hscreen)
  have e2 : sq + nDelta + ((k1 - 1 : Nat) : Int) * nDelta = sq + k1 * nDelta := by
    rw [e]
    have : k1 - 1 + 1 = k1 := by omega
    rw [this]
  rw [hw, e2]
  have e3 : ∀ j : Nat, sq + (k1 : Int) * nDelta + nDelta + (j : Int) * nDelta =
      sq + ((k1 + 1 + j : Nat) : Int) * nDelta := by
    intro j
    push_cast
    ring
  have hw2 := walk_spec b nDelta (sq + k * nDelta) (k - k1 - 1) 256 (sq + k1 * nDelta + nDelta)
    (by omega)
    (by
      intro j hj
      rw [e3]
      exact ⟨(hc (k1 + 1 + j) (by omega) (by omega) (by omega)).2, hne _ (by omega)⟩)
    (by
      left
      rw [e3]
      have : k1 + 1 + (k - k1 - 1) = k := by omega
      rw [this])
  have e4 : sq + (k1 : Int) * nDelta + nDelta + ((k - k1 - 1 : Nat) : Int) * nDelta =
      sq + k * nDelta := by
    rw [e3]
    have : k1 + 1 + (k - k1 - 1) = k := by omega
    rw [this]
  simp only []
  rw [if_neg (hne k1 (by omega)), if_pos ⟨htar, trivial⟩, hw2, e4]
  simp

theorem genFact_target (p : PositionStruct) (sq d : Int) (hwf : WellFormed p)
    (hsd : p.sdPlayer = 0 ∨ p.sdPlayer = 1) (hr : inRange d = true)
    (hg : GenFact p false sq d) : Int.land (p.ucpcSquares d) (sideTag p.sdPlayer) = 0 := by
  simp only [inRange, decide_eq_true_eq] at hr
  have hok : okPiece (p.ucpcSquares d) = true := by
    have := wellFormed_at p hwf d hr.1 hr.2
    simpa [okPiece] using this
  rcases hg with h | h | h | h | h | h | h
  · exact emitOk_false _ _ _ h.2.2.2
  · exact emitOk_false _ _ _ h.2.2.2
  · exact emitOk_false _ _ _ h.2.2
  · exact emitOk_false _ _ _ h.2.2.2.2
  · obtain ⟨_, nDelta, _, k, _, rfl, _, _, h1 | h1⟩ := h
    · rw [h1.1]
      exact land_zero_left _
    · exact opp_not_self _ _ hok hsd h1.2
  · obtain ⟨_, nDelta, _, k, _, rfl, _, h1 | h1⟩ := h
    · rw [h1.2.1]
      exact land_zero_left _
    · obtain ⟨k1, _, _, _, _, _, _, h2⟩ := h1
      exact opp_not_self _ _ hok hsd h2
  · exact emitOk_false _ _ _ h.2.2.1

theorem legalMove_of_genFact (p : PositionStruct) (sq d : Int) (hwf : WellFormed p)
    (hsd : p.sdPlayer = 0 ∨ p.sdPlayer = 1) (hx : XiangHome p) (hin : inBoard sq = true)
    (hself : Int.land (p.ucpcSquares sq) (sideTag p.sdPlayer) ≠ 0)
    (hg : GenFact p false sq d) : legalMove p (move sq d) = some true := by
  have hb := inBoard_bounds sq hin
  have h0 : 0 ≤ sq := by omega
  have h1 : sq < 256 := by omega
  obtain ⟨hne, hr⟩ := genFact_geometry p false sq d hin hg
  have hdself := genFact_target p sq d hwf hsd hr hg
  have hr2 := hr
  simp only [inRange, decide_eq_true_eq] at hr2
  unfold legalMove
  simp only [src_move sq d h0 h1, dst_move sq d h0 h1, hself, if_false, hr, Bool.not_true,
    Bool.false_eq_true, hdself, ne_eq, not_true_eq_false]
  rcases hg with h | h | h | h | h | h | h
  · obtain ⟨ht, hf, hd, _⟩ := h
    simp [ht, hf, jiangSpan, hd]
  · obtain ⟨ht, hf, hd, _⟩ := h
    simp [ht, hf, shiSpan, hd, PieceShi, PieceJiang]
  · obtain ⟨ht, ⟨e, he, rfl, hin2, hnr, hemp⟩, _⟩ := h
    have hb2 := inBoard_bounds _ hin2
    have hpin : xiangPin sq (sq + e + e) = sq + e := by
      simp only [xiangPin]
      omega
    have hspan : xiangSpan sq (sq + e + e) = true := by
      simp only [ccShiDelta, List.mem_cons, List.mem_singleton, List.not_mem_nil, or_false] at he
      simp only [xiangSpan, decide_eq_true_eq]
      simp only [List.mem_cons, List.mem_singleton, List.not_mem_nil, or_false]
      omega
    have hriver : sameRiver sq (sq + e + e) = true := by
      have hxs := hx sq h0 h1
      simp only [ccShiDelta, List.mem_cons, List.mem_singleton, List.not_mem_nil, or_false] at he
      simp only [noRiver, ne_eq, decide_eq_true_eq] at hnr
      simp only [sameRiver, decide_eq_true_eq]
      simp only [rankY, PieceXiang] at hxs
      simp only [sideTag, PieceXiang] at ht
      rcases hsd with hs | hs
      · rw [hs] at ht hnr
        have := hxs.1 (by omega)
        rcases he with rfl | rfl | rfl | rfl <;> omega
      · rw [hs] at ht hnr
        have := hxs.2 (by omega)
        rcases he with rfl | rfl | rfl | rfl <;> omega
    simp [ht, PieceXiang, PieceShi, PieceJiang, hpin, hspan, hriver, hemp]
  · obtain ⟨ht, hd, hpin, hemp, _⟩ := h
    have hb2 := inBoard_bounds _ hd
    have hrp : inRange (maPin sq d) = true := by
      simp only [inRange, decide_eq_true_eq]
      unfold maPin
      simp only []
      split_ifs <;> omega
    simp [ht, PieceMa, PieceXiang, PieceShi, PieceJiang, hpin, hemp, hrp]
  · obtain ⟨ht, nDelta, hd, k, hk, rfl, hcl, hd2, htar⟩ := h
    have hall : ∀ j : Nat, 1 ≤ j → j ≤ k → inBoard (sq + j * nDelta) = true := by
      intro j hj1 hj2
      by_cases e : j = k
      · rw [e]
        exact hd2
      · exact (hcl j hj1 (by omega)).1
    have hk2 := clear_bound _ _ _ _ hin hd hcl
    have hdir := legalMove_direction p sq nDelta k (p.ucpcSquares sq - sideTag p.sdPlayer)
      hin hd hk hall
    have hnz : nDelta ≠ 0 := by
      rintro rfl
      simp [ccJiangDelta] at hd
    have hs := legalSlide_clear p.ucpcSquares (p.ucpcSquares sq - sideTag p.sdPlayer) sq nDelta k
      hk (by omega) hnz hcl (Or.inr ht)
    rw [ht] at hdir hs ⊢
    rw [if_neg (show ¬ PieceJu = PieceJiang by decide!), if_neg (show ¬ PieceJu = PieceShi by decide!),
      if_neg (show ¬ PieceJu = PieceXiang by decide!), if_neg (show ¬ PieceJu = PieceMa by decide!),
      if_pos (Or.inl rfl), hdir, hs]
  · obtain ⟨ht, nDelta, hd, k, hk, rfl, hd2, htar⟩ := h
    have hnz : nDelta ≠ 0 := by
      rintro rfl
      simp [ccJiangDelta] at hd
    have hs : legalSlide p.ucpcSquares PiecePao sq (sq + k * nDelta) nDelta = some true ∧
        ∀ j : Nat, 1 ≤ j → j ≤ k → inBoard (sq + j * nDelta) = true := by
      rcases htar with ⟨hcl, hemp, _⟩ | ⟨k1, hk1, hk1k, hs1, hs2, hcl, hocc, _⟩
      · have hk2 := clear_bound _ _ _ _ hin hd hcl
        refine ⟨legalSlide_clear p.ucpcSquares PiecePao sq nDelta k hk (by omega) hnz hcl
          (Or.inl hemp), ?_⟩
        intro j hj1 hj2
        by_cases e : j = k
        · rw [e]
          exact hd2
        · exact (hcl j hj1 (by omega)).1
      · have hb2 := inBoard_bounds _ hd2
        have hk2 : k ≤ 255 := by
          simp only [ccJiangDelta, List.mem_cons, List.mem_singleton, List.not_mem_nil,
            or_false] at hd
          rcases hd with rfl | rfl | rfl | rfl <;> omega
        refine ⟨legalSlide_screen p.ucpcSquares sq nDelta k1 k hk1 hk1k hk2 hnz hcl hs2 hocc, ?_⟩
        intro j hj1 hj2
        by_cases e : j = k
        · rw [e]
          exact hd2
        · by_cases e2 : j = k1
          · rw [e2]
            exact hs1
          · exact (hcl j hj1 (by omega) e2).1
    have hdir := legalMove_direction p sq nDelta k (p.ucpcSquares sq - sideTag p.sdPlayer)
      hin hd hk hs.2
    rw [ht] at hdir ⊢
    rw [if_neg (show ¬ PiecePao = PieceJiang by decide!),
      if_neg (show ¬ PiecePao = PieceShi by decide!),
      if_neg (show ¬ PiecePao = PieceXiang by decide!),
      if_neg (show ¬ PiecePao = PieceMa by decide!),
      if_pos (Or.inr rfl), hdir, hs.1]
  · obtain ⟨ht, hd, _, hstep⟩ := h
    have hb2 := inBoard_bounds _ hd
    rw [ht]
    rw [if_neg (show ¬ PieceBing = PieceJiang by decide!),
      if_neg (show ¬ PieceBing = PieceShi by decide!),
      if_neg (show ¬ PieceBing = PieceXiang by decide!),
      if_neg (show ¬ PieceBing = PieceMa by decide!),
      if_neg (show ¬ (PieceBing = PieceJu ∨ PieceBing = PiecePao) by decide!),
      if_pos rfl]
    rcases hstep with rfl | ⟨hriv, hside⟩
    · simp
    · have hriv2 : hasRiver d p.sdPlayer = true := by
        simp only [hasRiver, decide_eq_true_eq] at hriv ⊢
        rcases hside with rfl | rfl <;> omega
      rcases hside with rfl | rfl <;> simp [hriv2]

section GenerationLemmas

variable (cucvlPiecePos : Int → Int → Int)

theorem genFact_xiang (p : PositionStruct) (sq d : Int) (c : Bool)
    (ht : p.ucpcSquares sq - sideTag p.sdPlayer = PieceXiang) (hg : GenFact p c sq d) :
    ∃ e ∈ ccShiDelta, d = sq + e + e ∧ inBoard (sq + e) = true ∧
      noRiver (sq + e) p.sdPlayer = true := by
  rcases hg with h | h | h | h | h | h | h
  · exact absurd (ht.symm.trans h.1) (by decide!)
  · exact absurd (ht.symm.trans h.1) (by decide!)
  · obtain ⟨_, ⟨e, he, h1, h2, h3, _⟩, _⟩ := h
    exact ⟨e, he, h1, h2, h3⟩
  · exact absurd (ht.symm.trans h.1) (by decide!)
  · exact absurd (ht.symm.trans h.1) (by decide!)
  · exact absurd (ht.symm.trans h.1) (by decide!)
  · exact absurd (ht.symm.trans h.1) (by decide!)

theorem xiang_rank_red (sq e : Int) (hin : inBoard sq = true) (hin2 : inBoard (sq + e) = true)
    (he : e ∈ ccShiDelta) (hnr : noRiver (sq + e) 0 = true)
    (hr0 : rankY sq = 8 ∨ rankY sq = 10 ∨ rankY sq = 12) :
    rankY (sq + e + e) = 8 ∨ rankY (sq + e + e) = 10 ∨ rankY (sq + e + e) = 12 := by
  have hb := inBoard_bounds sq hin
  have hb2 := inBoard_bounds _ hin2
  simp only [ccShiDelta, List.mem_cons, List.mem_singleton, List.not_mem_nil, or_false] at he
  simp only [noRiver, ne_eq, decide_eq_true_eq] at hnr
  simp only [rankY] at hr0 ⊢
  clear hin hin2
  rcases he with rfl | rfl | rfl | rfl <;> omega

theorem xiang_rank_black (sq e : Int) (hin : inBoard sq = true)
    (hin2 : inBoard (sq + e) = true) (he : e ∈ ccShiDelta) (hnr : noRiver (sq + e) 1 = true)
    (hr0 : rankY sq = 3 ∨ rankY sq = 5 ∨ rankY sq = 7) :
    rankY (sq + e + e) = 3 ∨ rankY (sq + e + e) = 5 ∨ rankY (sq + e + e) = 7 := by
  have hb := inBoard_bounds sq hin
  have hb2 := inBoard_bounds _ hin2
  simp only [ccShiDelta, List.mem_cons, List.mem_singleton, List.not_mem_nil, or_false] at he
  simp only [noRiver, ne_eq, decide_eq_true_eq] at hnr
  simp only [rankY] at hr0 ⊢
  clear hin hin2
  rcases he with rfl | rfl | rfl | rfl <;> omega

theorem genInv_makeMove (p p1 : PositionStruct) (mv : Int) (hinv : GenInv p)
    (hmv : mv ∈ generateMoves p false)
    (hmake : makeMove cucvlPiecePos p mv = some (true, p1)) : GenInv p1 := by
  obtain ⟨hwf, hsd, hx⟩ := hinv
  obtain ⟨sq, hsq, hgen⟩ := (mem_generateMoves p false mv).1 hmv
  obtain ⟨hin, hself, d, rfl, hg⟩ := genPiece_sound p false sq mv hgen
  obtain ⟨hne, hr⟩ := genFact_geometry p false sq d hin hg
  have hs := src_move sq d hsq.1 hsq.2
  have hd := dst_move sq d hsq.1 hsq.2
  have hne2 : src (move sq d) ≠ dst (move sq d) := by
    rw [hs, hd]
    exact fun e => hne e.symm
  obtain ⟨_, _, _, _, c, _, rfl⟩ := makeMove_eq_true cucvlPiecePos p p1 _ hmake
  have hwf1 := movePiece_wellFormed cucvlPiecePos p _ hwf hne2
  have hb := movePiece_board cucvlPiecePos p _ hne2
  have hsd1 := (movePiece_frame cucvlPiecePos p (move sq d)).1
  rw [hs, hd] at hb
  have hbb := inBoard_bounds sq hin
  refine ⟨wellFormed_congr _ _ rfl hwf1, ?_, ?_⟩
  · simp only [changeSide, hsd1]
    omega
  · intro x hx0 hx1
    simp only [changeSide, hb, Function.update_apply]
    have hxx := hx x hx0 hx1
    have hxs := hx sq hsq.1 hsq.2
    obtain ⟨h8, h16⟩ := okPiece_tags (p.ucpcSquares sq)
      (by have := wellFormed_at p hwf sq hsq.1 hsq.2; simpa [okPiece] using this)
    constructor
    · intro hv
      split_ifs at hv with e1 e2
      · subst e1
        have hsd0 : p.sdPlayer = 0 := by
          rcases hsd with h | h
          · exact h
          · exfalso
            rw [h, hv] at hself
            exact hself (by decide!)
        have ht : p.ucpcSquares sq - sideTag p.sdPlayer = PieceXiang := by
          rw [hv, hsd0]
          decide!
        obtain ⟨e, he, rfl, hin2, hnr⟩ := genFact_xiang p sq _ false ht hg
        rw [hsd0] at hnr
        exact xiang_rank_red sq e hin hin2 he hnr (hxs.1 hv)
      · simp [PieceXiang] at hv
      · exact hxx.1 hv
    · intro hv
      split_ifs at hv with e1 e2
      · subst e1
        have hsd0 : p.sdPlayer = 1 := by
          rcases hsd with h | h
          · exfalso
            rw [h, hv] at hself
            exact hself (by decide!)
          · exact h
        have ht : p.ucpcSquares sq - sideTag p.sdPlayer = PieceXiang := by
          rw [hv, hsd0]
          decide!
        obtain ⟨e, he, rfl, hin2, hnr⟩ := genFact_xiang p sq _ false ht hg
        rw [hsd0] at hnr
        exact xiang_rank_black sq e hin hin2 he hnr (hxs.2 hv)
      · simp [PieceXiang] at hv
      · exact hxx.2 hv

theorem playGenerated_genInv (mvs : List Int) (s p : PositionStruct) (hinv : GenInv s)
    (h : playGenerated cucvlPiecePos s mvs = some p) : GenInv p := by
  induction mvs generalizing s with
  | nil =>
    simp only [playGenerated, Option.some.injEq] at h
    subst h
    exact hinv
  | cons mv mvs ih =>
    unfold playGenerated at h
    split_ifs at h with hl
    split at h
    · rename_i p1 hr
      exact ih p1 (genInv_makeMove cucvlPiecePos s p1 mv hinv hl hr) h
    · exact absurd h (by simp)

theorem startup_loop_board (p : PositionStruct) (n : Nat) :
    (∀ i : Nat, i < n →
      (((List.range n).map Int.ofNat).foldl (startupStep cucvlPiecePos)
        (clearBoard p)).ucpcSquares i = cucpcStartup.getD i 0) ∧
    (∀ i : Nat, n ≤ i →
      (((List.range n).map Int.ofNat).foldl (startupStep cucvlPiecePos)
        (clearBoard p)).ucpcSquares i = 0) := by
  induction n with
  | zero =>
    refine ⟨fun i hi => absurd hi (by omega), fun i _ => ?_⟩
    simp [clearBoard]
  | succ n ih =>
    obtain ⟨h1, h2⟩ := ih
    rw [List.range_succ, List.map_append, List.foldl_append]
    simp only [List.map_cons, List.map_nil, List.foldl_cons, List.foldl_nil]
    generalize ((List.range n).map Int.ofNat).foldl (startupStep cucvlPiecePos) (clearBoard p) = q
      at h1 h2 ⊢
    have e : (Int.ofNat n).toNat = n := rfl
    unfold startupStep
    rw [e]
    by_cases hpc : cucpcStartup.getD n 0 = 0
    · simp only [hpc, ne_eq, not_true_eq_false, if_false]
      refine ⟨fun i hi => ?_, fun i hi => h2 i (by omega)⟩
      by_cases e2 : i = n
      · subst e2
        rw [hpc]
        exact h2 i (le_refl _)
      · exact h1 i (by omega)
    · simp only [ne_eq, hpc, not_false_eq_true, if_true]
      rw [(addPiece_fields cucvlPiecePos q (Int.ofNat n) (cucpcStartup.getD n 0)).1]
      refine ⟨fun i hi => ?_, fun i hi => ?_⟩
      · by_cases e2 : i = n
        · subst e2
          exact Function.update_same _ _ _
        · rw [Function.update_noteq (by simp only [Int.ofNat_eq_coe]; omega)]
          exact h1 i (by omega)
      · rw [Function.update_noteq (by simp only [Int.ofNat_eq_coe]; omega)]
        exact h2 i (by omega)

set_option maxRecDepth 100000 in
theorem cucpcStartup_xiang : ∀ n : Nat, n < 256 →
    (cucpcStartup.getD n 0 = 10 → (n / 16 = 8 ∨ n / 16 = 10 ∨ n / 16 = 12)) ∧
    (cucpcStartup.getD n 0 = 18 → (n / 16 = 3 ∨ n / 16 = 5 ∨ n / 16 = 7)) := by
  decide!

theorem startup_genInv (p s : PositionStruct) (h : startup cucvlPiecePos p = some s) :
    GenInv s := by
  obtain ⟨hwf, hsd, _⟩ := startup_consistent cucvlPiecePos p s h
  refine ⟨hwf, hsd, ?_⟩
  have hb := (startup_loop_board cucvlPiecePos p 256).1
  rw [← allSquares_eq] at hb
  obtain ⟨_, _, _, f4, _, _⟩ := setIrrev_fields _ s h
  intro sq h0 h1
  have hx := cucpcStartup_xiang sq.toNat (by omega)
  have hq := hb sq.toNat (by omega)
  have e : ((sq.toNat : Nat) : Int) = sq := Int.toNat_of_nonneg h0
  rw [e, ← f4] at hq
  simp only [hq, PieceXiang, rankY]
  constructor
  · intro hv
    have := hx.1 (by simpa using hv)
    omega
  · intro hv
    have := hx.2 (by simpa using hv)
    omega

theorem reached_genInv (p : PositionStruct) (h : Reached cucvlPiecePos p) : GenInv p := by
  obtain ⟨p0, s, mvs, hs, hp⟩ := h
  exact playGenerated_genInv cucvlPiecePos mvs s p (startup_genInv cucvlPiecePos p0 s hs) hp

/-- C6: in every position reachable from the startup position by successful `makeMove`
calls on generated moves, every move `generateMoves(mvs, false)` writes is accepted by
`legalMove` in that position. -/
theorem generateMoves_legal (p : PositionStruct) (h : Reached cucvlPiecePos p) (mv : Int)
    (hmv : mv ∈ generateMoves p false) : legalMove p mv = some true := by
  obtain ⟨hwf, hsd, hx⟩ := reached_genInv cucvlPiecePos p h
  obtain ⟨sq, _, hgen⟩ := (mem_generateMoves p false mv).1 hmv
  obtain ⟨hin, hself, d, rfl, hg⟩ := genPiece_sound p false sq mv hgen
  exact legalMove_of_genFact p sq d hwf hsd hx hin hself hg

set_option maxRecDepth 100000 in
/-- Instance of C6: the soldier move e4-e5 in the startup position. -/
theorem generateMoves_legal_witness : legalMove startPosition (move 0x97 0x87) = some true :=
  generateMoves_legal examplePiecePos startPosition
    ⟨blankPosition, startPosition, [], startPosition_startup, rfl⟩ (move 0x97 0x87)
    ((mem_generateMoves startPosition false (move 0x97 0x87)).2
      ⟨0x97, by decide!, by decide!⟩)

theorem isMateLoop_spec (p : PositionStruct) (hwf : WellFormed p) (mvs : List Int)
    (hne : ∀ mv ∈ mvs, src mv ≠ dst mv) :
    (isMateLoop cucvlPiecePos p mvs = some (true, p) ↔
      ∀ mv ∈ mvs, checked (movePiece cucvlPiecePos p mv).2 = some true) ∧
    (isMateLoop cucvlPiecePos p mvs = some (false, p) ↔
      ∃ mv ∈ mvs, checked (movePiece cucvlPiecePos p mv).2 = some false) ∧
    (∃ ok, isMateLoop cucvlPiecePos p mvs = some (ok, p)) := by
  induction mvs with
  | nil => simp [isMateLoop]
  | cons mv mvs ih =>
    have hne1 := hne mv (List.mem_cons_self _ _)
    obtain ⟨ih1, ih2, ih3⟩ := ih (fun m hm => hne m (List.mem_cons_of_mem _ hm))
    have hu := undoMovePiece_movePiece cucvlPiecePos p mv hne1
    obtain ⟨c, hc⟩ := checked_total _ (movePiece_wellFormed cucvlPiecePos p mv hwf hne1)
    unfold isMateLoop
    simp only [hc, hu, List.forall_mem_cons, List.exists_mem_cons_iff]
    cases c with
    | true =>
      simp only [true_and, ih1, ih2, ih3, and_true]
      constructor
      · exact fun h => Or.inr h
      · rintro (h | h)
        · exact absurd h (by simp)
        · exact h
    | false => simp

/-- C8: on a well-formed position whose generated moves fit the buffer of `MaxGenMoves`
entries, `isMate()` returns, leaves the position as it was, returns true exactly when every
move of `generateMoves(mvs, false)` leaves the mover's general attacked after it is played,
and false exactly when some generated move does not; a generated move leaves the general
attacked exactly when `makeMove` returns false for it. -/
theorem isMate_iff (p : PositionStruct) (hwf : WellFormed p)
    (hbuf : (generateMoves p false).length ≤ MaxGenMoves) :
    (isMate cucvlPiecePos p = some (true, p) ↔
      ∀ mv ∈ generateMoves p false, checked (movePiece cucvlPiecePos p mv).2 = some true) ∧
    (isMate cucvlPiecePos p = some (false, p) ↔
      ∃ mv ∈ generateMoves p false, checked (movePiece cucvlPiecePos p mv).2 = some false) ∧
    (∃ ok, isMate cucvlPiecePos p = some (ok, p)) ∧
    (∀ mv ∈ generateMoves p false,
      (checked (movePiece cucvlPiecePos p mv).2 = some true ↔
        makeMove cucvlPiecePos p mv = some (false, p))) := by
  have hgeo : ∀ mv ∈ generateMoves p false, src mv ≠ dst mv ∧ inRange (dst mv) = true := by
    intro mv hmv
    obtain ⟨sq, hsq, hgen⟩ := (mem_generateMoves p false mv).1 hmv
    obtain ⟨hin, _, d, rfl, hg⟩ := genPiece_sound p false sq mv hgen
    obtain ⟨h1, h2⟩ := genFact_geometry p false sq d hin hg
    rw [src_move sq d hsq.1 hsq.2, dst_move sq d hsq.1 hsq.2]
    exact ⟨fun e => h1 e.symm, h2⟩
  obtain ⟨h1, h2, h3⟩ := isMateLoop_spec cucvlPiecePos p hwf (generateMoves p false)
    (fun mv hmv => (hgeo mv hmv).1)
  unfold isMate
  simp only [hbuf, if_true]
  refine ⟨h1, h2, h3, ?_⟩
  intro mv hmv
  obtain ⟨hne, hr⟩ := hgeo mv hmv
  constructor
  · intro hc
    unfold makeMove
    simp only [hr, Bool.not_true, Bool.false_eq_true, if_false, hc,
      undoMovePiece_movePiece cucvlPiecePos p mv hne]
  · intro hm
    exact (makeMove_eq_false cucvlPiecePos p p mv hm).2.1

set_option maxRecDepth 100000 in
/-- Instance of C8: `pinnedPosition`, where the Ju has moves that keep the file closed. -/
theorem isMate_iff_witness :
    (isMate examplePiecePos pinnedPosition = some (true, pinnedPosition) ↔
      ∀ mv ∈ generateMoves pinnedPosition false,
        checked (movePiece examplePiecePos pinnedPosition mv).2 = some true) ∧
    (isMate examplePiecePos pinnedPosition = some (false, pinnedPosition) ↔
      ∃ mv ∈ generateMoves pinnedPosition false,
        checked (movePiece examplePiecePos pinnedPosition mv).2 = some false) ∧
    (∃ ok, isMate examplePiecePos pinnedPosition = some (ok, pinnedPosition)) ∧
    (∀ mv ∈ generateMoves pinnedPosition false,
      (checked (movePiece examplePiecePos pinnedPosition mv).2 = some true ↔
        makeMove examplePiecePos pinnedPosition mv = some (false, pinnedPosition))) :=
  isMate_iff examplePiecePos pinnedPosition (by decide!) (by decide!)

end GenerationLemmas

/-- C7: for every position, every move `generateMoves(mvs, true)` writes has a destination
cell whose content carries the tag bit of the opposite side; the cell is not empty, and when
its content is a piece code and the side to move is 0 or 1 it does not carry the own tag. -/
theorem generateMoves_captures (p : PositionStruct) (mv : Int)
    (hmv : mv ∈ generateMoves p true) :
    Int.land (p.ucpcSquares (dst mv)) (oppSideTag p.sdPlayer) ≠ 0 ∧
    p.ucpcSquares (dst mv) ≠ 0 ∧
    (okPiece (p.ucpcSquares (dst mv)) = true → (p.sdPlayer = 0 ∨ p.sdPlayer = 1) →
      Int.land (p.ucpcSquares (dst mv)) (sideTag p.sdPlayer) = 0) := by
  obtain ⟨sq, hsq, hgen⟩ := (mem_generateMoves p true mv).1 hmv
  obtain ⟨_, _, d, rfl, hg⟩ := genPiece_sound p true sq mv hgen
  rw [dst_move sq d hsq.1 hsq.2]
  have hc := genFact_capture p sq d hg
  exact ⟨hc, land_ne_zero _ _ hc, fun hok hsd => opp_not_self _ _ hok hsd hc⟩

set_option maxRecDepth 100000 in
/-- Instance of C7: the Ju takes the Black Jiang, e6-e10 (0x77 to 0x37), in
`pinnedPosition`. -/
theorem generateMoves_captures_witness :
    Int.land (pinnedPosition.ucpcSquares (dst (move 0x77 0x37)))
      (oppSideTag pinnedPosition.sdPlayer) ≠ 0 ∧
    pinnedPosition.ucpcSquares (dst (move 0x77 0x37)) ≠ 0 ∧
    (okPiece (pinnedPosition.ucpcSquares (dst (move 0x77 0x37))) = true →
      (pinnedPosition.sdPlayer = 0 ∨ pinnedPosition.sdPlayer = 1) →
      Int.land (pinnedPosition.ucpcSquares (dst (move 0x77 0x37)))
        (sideTag pinnedPosition.sdPlayer) = 0) :=
  generateMoves_captures pinnedPosition (move 0x77 0x37) (by decide!)


/-! ## Lemmas: mirror -/

theorem mirrorSquare_facts (i : Int) (h0 : 0 ≤ i) (h1 : i < 256) (hf : fileX i ≤ 14) :
    0 ≤ mirrorSquare i ∧ mirrorSquare i < 256 ∧ fileX (mirrorSquare i) ≤ 14 ∧
      mirrorSquare (mirrorSquare i) = i := by
  simp only [mirrorSquare, fileX, rankY] at *
  omega

theorem rehashBoard_congr (z : Zobrist) (b1 b2 : Int → Int) (n : Nat)
    (h : ∀ i : Nat, i < n → b1 i = b2 i) : rehashBoard z b1 n = rehashBoard z b2 n := by
  induction n with
  | zero => rfl
  | succ n ih =>
    simp only [rehashBoard]
    rw [ih (fun i hi => h i (by omega)), h n (by omega)]

theorem sumBoard_congr (f : Int → Int → Int) (b1 b2 : Int → Int) (n : Nat)
    (h : ∀ i : Nat, i < n → b1 i = b2 i) : sumBoard f b1 n = sumBoard f b2 n := by
  induction n with
  | zero => rfl
  | succ n ih =>
    simp only [sumBoard]
    rw [ih (fun i hi => h i (by omega)), h n (by omega)]

section MirrorLemmas

variable (cucvlPiecePos : Int → Int → Int)

theorem mirror_loop (p q0 : PositionStruct) (hwf : WellFormed p)
    (hfile : ∀ sq : Int, 0 ≤ sq → sq < 256 → p.ucpcSquares sq ≠ 0 → fileX sq ≤ 14)
    (n : Nat) (hn : n ≤ 256) :
    ∃ q, ((List.range n).map Int.ofNat).foldl (mirrorStep cucvlPiecePos p)
        (some (clearBoard q0)) = some q ∧ MirrorLoop cucvlPiecePos p q0 q n := by
  induction n with
  | zero =>
    refine ⟨clearBoard q0, rfl, clearBoard_consistent cucvlPiecePos q0, rfl, rfl, rfl, rfl, rfl,
      ?_⟩
    intro i
    have : ¬ (0 ≤ i ∧ i < 256 ∧ fileX i ≤ 14 ∧ mirrorSquare i < ((0 : Nat) : Int)) := by
      simp only [mirrorSquare, fileX, rankY]
      omega
    simp only [this, if_false, clearBoard]
  | succ n ih =>
    obtain ⟨q, hq, hc, hsd, hdist, hnum, hmvs, hzt, hb⟩ := ih (by omega)
    rw [List.range_succ, List.map_append, List.foldl_append, hq]
    simp only [List.map_cons, List.map_nil, List.foldl_cons, List.foldl_nil, mirrorStep,
      Int.ofNat_eq_coe]
    by_cases hpc : p.ucpcSquares (n : Int) = 0
    · simp only [hpc, ne_eq, not_true_eq_false, if_false]
      refine ⟨q, rfl, hc, hsd, hdist, hnum, hmvs, hzt, ?_⟩
      intro i
      rw [hb i]
      by_cases hi : 0 ≤ i ∧ i < 256 ∧ fileX i ≤ 14
      · by_cases e : mirrorSquare i = (n : Int)
        · have c1 : ¬ (0 ≤ i ∧ i < 256 ∧ fileX i ≤ 14 ∧ mirrorSquare i < (n : Int)) := by omega
          have c2 : 0 ≤ i ∧ i < 256 ∧ fileX i ≤ 14 ∧ mirrorSquare i < ((n + 1 : Nat) : Int) := by
            omega
          rw [if_neg c1, if_pos c2, e, hpc]
        · have c : (0 ≤ i ∧ i < 256 ∧ fileX i ≤ 14 ∧ mirrorSquare i < (n : Int)) ↔
              (0 ≤ i ∧ i < 256 ∧ fileX i ≤ 14 ∧ mirrorSquare i < ((n + 1 : Nat) : Int)) := by
            omega
          simp only [c]
      · have c1 : ¬ (0 ≤ i ∧ i < 256 ∧ fileX i ≤ 14 ∧ mirrorSquare i < (n : Int)) :=
          fun h => hi ⟨h.1, h.2.1, h.2.2.1⟩
        have c2 : ¬ (0 ≤ i ∧ i < 256 ∧ fileX i ≤ 14 ∧ mirrorSquare i < ((n + 1 : Nat) : Int)) :=
          fun h => hi ⟨h.1, h.2.1, h.2.2.1⟩
        rw [if_neg c1, if_neg c2]
    · have hn0 : (0 : Int) ≤ n := Int.ofNat_nonneg n
      have hn1 : (n : Int) < 256 := by omega
      have hfn := hfile n hn0 hn1 hpc
      obtain ⟨m0, m1, m2, m3⟩ := mirrorSquare_facts n hn0 hn1 hfn
      have hr : inRange (mirrorSquare n) = true := by
        simp only [inRange, decide_eq_true_eq]
        exact ⟨m0, m1⟩
      have hok : okPiece (p.ucpcSquares n) = true := hwf n (by omega)
      simp only [ne_eq, hpc, not_false_eq_true, if_true, hr]
      obtain ⟨f1, f2, f3, _, _, _, f7, f8, f9⟩ :=
        addPiece_fields cucvlPiecePos q (mirrorSquare n) (p.ucpcSquares n)
      have hemp : q.ucpcSquares (mirrorSquare n) = 0 := by
        rw [hb]
        have : ¬ (0 ≤ mirrorSquare (n : Int) ∧ mirrorSquare (n : Int) < 256 ∧
            fileX (mirrorSquare n) ≤ 14 ∧ mirrorSquare (mirrorSquare n) < (n : Int)) := by
          omega
        rw [if_neg this]
      refine ⟨_, rfl, addPiece_consistent cucvlPiecePos q _ _ m0 m1 hemp hok hpc hc,
        by rw [f2]; exact hsd, by rw [f7]; exact hdist, by rw [f8]; exact hnum,
        by rw [f9]; exact hmvs, by rw [f3]; exact hzt, ?_⟩
      intro i
      rw [f1, Function.update_apply, hb i]
      by_cases e : i = mirrorSquare n
      · subst e
        have c2 : 0 ≤ mirrorSquare (n : Int) ∧ mirrorSquare (n : Int) < 256 ∧
            fileX (mirrorSquare n) ≤ 14 ∧
            mirrorSquare (mirrorSquare n) < ((n + 1 : Nat) : Int) := by
          omega
        rw [if_pos rfl, if_pos c2, m3]
      · rw [if_neg e]
        by_cases hi : 0 ≤ i ∧ i < 256 ∧ fileX i ≤ 14
        · have hm := (mirrorSquare_facts i hi.1 hi.2.1 hi.2.2).2.2.2
          have hne : mirrorSquare i ≠ (n : Int) := by
            intro h
            apply e
            rw [← hm, h]
          have c : (0 ≤ i ∧ i < 256 ∧ fileX i ≤ 14 ∧ mirrorSquare i < (n : Int)) ↔
              (0 ≤ i ∧ i < 256 ∧ fileX i ≤ 14 ∧ mirrorSquare i < ((n + 1 : Nat) : Int)) := by
            omega
          simp only [c]
        · have c1 : ¬ (0 ≤ i ∧ i < 256 ∧ fileX i ≤ 14 ∧ mirrorSquare i < (n : Int)) :=
            fun h => hi ⟨h.1, h.2.1, h.2.2.1⟩
          have c2 : ¬ (0 ≤ i ∧ i < 256 ∧ fileX i ≤ 14 ∧
              mirrorSquare i < ((n + 1 : Nat) : Int)) :=
            fun h => hi ⟨h.1, h.2.1, h.2.2.1⟩
          rw [if_neg c1, if_neg c2]

theorem mirror_spec (p q0 : PositionStruct) (hwf : WellFormed p)
    (hsd : p.sdPlayer = 0 ∨ p.sdPlayer = 1)
    (hfile : ∀ sq : Int, 0 ≤ sq → sq < 256 → p.ucpcSquares sq ≠ 0 → fileX sq ≤ 14) :
    ∃ q, mirror cucvlPiecePos p q0 = some q ∧ MirrorOf cucvlPiecePos p q0 q := by
  obtain ⟨q, hq, hc, hqsd, hdist, hnum, hmvs, hzt, hb⟩ :=
    mirror_loop cucvlPiecePos p q0 hwf hfile 256 (le_refl _)
  have hb2 : ∀ i : Int, q.ucpcSquares i =
      if 0 ≤ i ∧ i < 256 ∧ fileX i ≤ 14 then p.ucpcSquares (mirrorSquare i) else 0 := by
    intro i
    rw [hb i]
    by_cases hi : 0 ≤ i ∧ i < 256 ∧ fileX i ≤ 14
    · have hm := mirrorSquare_facts i hi.1 hi.2.1 hi.2.2
      have c : 0 ≤ i ∧ i < 256 ∧ fileX i ≤ 14 ∧ mirrorSquare i < ((256 : Nat) : Int) := by
        refine ⟨hi.1, hi.2.1, hi.2.2, ?_⟩
        have := hm.2.1
        omega
      rw [if_pos c, if_pos hi]
    · have c : ¬ (0 ≤ i ∧ i < 256 ∧ fileX i ≤ 14 ∧ mirrorSquare i < ((256 : Nat) : Int)) :=
        fun h => hi ⟨h.1, h.2.1, h.2.2.1⟩
      rw [if_neg c, if_neg hi]
  have hwfq : WellFormed q := by
    intro n hn
    rw [hb2]
    split_ifs with hi
    · have hm := mirrorSquare_facts n hi.1 hi.2.1 hi.2.2
      have := wellFormed_at p hwf (mirrorSquare n) hm.1 hm.2.1
      simpa [okPiece] using this
    · rfl
  unfold mirror allSquares
  rw [hq]
  simp only []
  by_cases h1 : p.sdPlayer = 1
  · simp only [h1, if_true]
    have hwf2 : WellFormed (changeSide q) := hwfq
    obtain ⟨c, hck⟩ := checked_total _ hwf2
    unfold setIrrev
    rw [hck]
    refine ⟨_, rfl, consistent_congr cucvlPiecePos _ _ rfl rfl rfl rfl rfl rfl
      (changeSide_consistent cucvlPiecePos q hc), ?_, hdist, rfl, hzt, ⟨c, ?_⟩, ?_, hb2⟩
    · simp only [changeSide, hqsd, h1]
      rfl
    · simp only [Function.update_same]
    · intro i hi
      simp only [changeSide]
      rw [Function.update_noteq hi, hmvs]
  · have h0 : p.sdPlayer = 0 := by omega
    simp only [h1, if_false]
    obtain ⟨c, hck⟩ := checked_total _ hwfq
    unfold setIrrev
    rw [hck]
    refine ⟨_, rfl, consistent_congr cucvlPiecePos _ _ rfl rfl rfl rfl rfl rfl hc, ?_, hdist,
      rfl, hzt, ⟨c, ?_⟩, ?_, hb2⟩
    · simp only [hqsd, h0]
    · simp only [Function.update_same]
    · intro i hi
      simp only []
      rw [Function.update_noteq hi, hmvs]

theorem mirror_twice (p q0 r0 : PositionStruct) (hwf : WellFormed p)
    (hsd : p.sdPlayer = 0 ∨ p.sdPlayer = 1) (hon : OnFiles p) :
    ∃ q r, mirror cucvlPiecePos p q0 = some q ∧ mirror cucvlPiecePos q r0 = some r ∧
      (∀ sq : Int, 0 ≤ sq → sq < 256 → r.ucpcSquares sq = p.ucpcSquares sq) ∧
      r.sdPlayer = p.sdPlayer ∧
      Consistent cucvlPiecePos r ∧
      (Consistent cucvlPiecePos p → r0.zobrist = p.zobrist →
        r.vlRed = p.vlRed ∧ r.vlBlack = p.vlBlack ∧ r.zobr = p.zobr) ∧
      r.nDistance = 0 ∧ r.nMoveNum = 1 ∧
      (∃ c, r.mvsList 0 = ⟨0, c, 0, r.zobr.dwKey⟩) ∧
      (∀ i : Int, i ≠ 0 → r.mvsList i = r0.mvsList i) := by
  have hfile : ∀ sq : Int, 0 ≤ sq → sq < 256 → p.ucpcSquares sq ≠ 0 → fileX sq ≤ 14 := by
    intro sq h0 h1 h
    have e : ((sq.toNat : Nat) : Int) = sq := Int.toNat_of_nonneg h0
    have := hon sq.toNat (by omega)
    rw [e] at this
    exact this h
  obtain ⟨q, hq, _, hqsd, _, _, _, _, _, hqb⟩ := mirror_spec cucvlPiecePos p q0 hwf hsd hfile
  have hwfq : WellFormed q := by
    intro n hn
    rw [hqb]
    split_ifs with hi
    · have hm := mirrorSquare_facts n hi.1 hi.2.1 hi.2.2
      have := wellFormed_at p hwf (mirrorSquare n) hm.1 hm.2.1
      simpa [okPiece] using this
    · rfl
  have hfileq : ∀ sq : Int, 0 ≤ sq → sq < 256 → q.ucpcSquares sq ≠ 0 → fileX sq ≤ 14 := by
    intro sq _ _ h
    rw [hqb] at h
    split_ifs at h with hi
    · exact hi.2.2
    · exact absurd rfl h
  obtain ⟨r, hr, hrc, hrsd, hrdist, hrnum, hrzt, hr0, hrm, hrb⟩ :=
    mirror_spec cucvlPiecePos q r0 hwfq (by rw [hqsd]; exact hsd) hfileq
  have hboard : ∀ sq : Int, 0 ≤ sq → sq < 256 → r.ucpcSquares sq = p.ucpcSquares sq := by
    intro sq h0 h1
    rw [hrb]
    by_cases hf : fileX sq ≤ 14
    · have hm := mirrorSquare_facts sq h0 h1 hf
      rw [if_pos ⟨h0, h1, hf⟩, hqb, if_pos ⟨hm.1, hm.2.1, hm.2.2.1⟩, hm.2.2.2]
    · rw [if_neg (fun h => hf h.2.2)]
      by_contra hne
      exact hf (hfile sq h0 h1 (fun e => hne e.symm))
  refine ⟨q, r, hq, hr, hboard, hrsd.trans hqsd, hrc, ?_, hrdist, hrnum, hr0, hrm⟩
  intro hpc hz
  obtain ⟨_, hpz, hpr, hpb⟩ := hpc
  obtain ⟨_, hz2, hr2, hb2⟩ := hrc
  have hbn : ∀ i : Nat, i < 256 → r.ucpcSquares i = p.ucpcSquares i :=
    fun i hi => hboard i (Int.ofNat_nonneg i) (by omega)
  refine ⟨?_, ?_, ?_⟩
  · rw [hr2, hpr]
    exact sumBoard_congr _ _ _ _ hbn
  · rw [hb2, hpb]
    exact sumBoard_congr _ _ _ _ hbn
  · rw [hz2, hpz]
    unfold rehash
    rw [hrsd.trans hqsd, hrzt, hz, rehashBoard_congr _ _ _ _ hbn]

/-- C9 (amended): for a well-formed position with side 0 or 1 whose pieces stand on files
0..14, mirroring twice returns and gives back the board array and the side to move; the
scores and the Zobrist triple of the result are the values recomputed from that board, so
they equal those of `p` when `p` is consistent (with the same Zobrist tables); `nDistance`,
`nMoveNum` and the history are reset: 0, 1, and a sentinel in record 0. -/
theorem mirror_mirror (p q0 r0 : PositionStruct) (hwf : WellFormed p)
    (hsd : p.sdPlayer = 0 ∨ p.sdPlayer = 1) (hon : OnFiles p) :
    ∃ q r, mirror cucvlPiecePos p q0 = some q ∧ mirror cucvlPiecePos q r0 = some r ∧
      (∀ sq : Int, 0 ≤ sq → sq < 256 → r.ucpcSquares sq = p.ucpcSquares sq) ∧
      r.sdPlayer = p.sdPlayer ∧
      Consistent cucvlPiecePos r ∧
      (Consistent cucvlPiecePos p → r0.zobrist = p.zobrist →
        r.vlRed = p.vlRed ∧ r.vlBlack = p.vlBlack ∧ r.zobr = p.zobr) ∧
      r.nDistance = 0 ∧ r.nMoveNum = 1 ∧
      (∃ c, r.mvsList 0 = ⟨0, c, 0, r.zobr.dwKey⟩) ∧
      (∀ i : Int, i ≠ 0 → r.mvsList i = r0.mvsList i) :=
  mirror_twice cucvlPiecePos p q0 r0 hwf hsd hon

theorem openingPosition_consistent :
    WellFormed openingPosition ∧ Consistent examplePiecePos openingPosition :=
  played_consistent examplePiecePos openingPosition
    ⟨blankPosition, startPosition, [move 0x97 0x87], startPosition_startup,
      openingPosition_played⟩

set_option maxRecDepth 100000 in
theorem openingPosition_onFiles : OnFiles openingPosition := by
  decide!

set_option maxRecDepth 100000 in
theorem openingPosition_counters :
    openingPosition.nMoveNum = 2 ∧ openingPosition.nDistance = 1 := by
  decide!

/-- Instance of C9 (amended): the position after `startup()` and e4-e5, mirrored into fresh
objects. -/
theorem mirror_mirror_witness :
    ∃ q r, mirror examplePiecePos openingPosition blankPosition = some q ∧
      mirror examplePiecePos q blankPosition = some r ∧
      (∀ sq : Int, 0 ≤ sq → sq < 256 → r.ucpcSquares sq = openingPosition.ucpcSquares sq) ∧
      r.sdPlayer = openingPosition.sdPlayer ∧
      Consistent examplePiecePos r ∧
      (Consistent examplePiecePos openingPosition →
        blankPosition.zobrist = openingPosition.zobrist →
        r.vlRed = openingPosition.vlRed ∧ r.vlBlack = openingPosition.vlBlack ∧
          r.zobr = openingPosition.zobr) ∧
      r.nDistance = 0 ∧ r.nMoveNum = 1 ∧
      (∃ c, r.mvsList 0 = ⟨0, c, 0, r.zobr.dwKey⟩) ∧
      (∀ i : Int, i ≠ 0 → r.mvsList i = blankPosition.mvsList i) :=
  mirror_mirror examplePiecePos openingPosition blankPosition blankPosition
    openingPosition_consistent.1 openingPosition_consistent.2.1 openingPosition_onFiles

/-- C9 as stated fails: the position after `startup()` and e4-e5 has `nMoveNum = 2` and
`nDistance = 1`; mirrored twice (into fresh objects, as `searchBook` does) it has
`nMoveNum = 1` and `nDistance = 0`. -/
theorem mirror_mirror_counterexample :
    ∃ q r, mirror examplePiecePos openingPosition blankPosition = some q ∧
      mirror examplePiecePos q blankPosition = some r ∧
      r.nMoveNum = 1 ∧ openingPosition.nMoveNum = 2 ∧
      r.nDistance = 0 ∧ openingPosition.nDistance = 1 := by
  obtain ⟨q, r, hq, hr, _, _, _, _, hd, hn, _, _⟩ :=
    mirror_twice examplePiecePos openingPosition blankPosition blankPosition
      openingPosition_consistent.1 openingPosition_consistent.2.1 openingPosition_onFiles
  exact ⟨q, r, hq, hr, hn, openingPosition_counters.1, hd, openingPosition_counters.2⟩

end MirrorLemmas

/-! ## Repetition score, history records, generation count and sliders -/

theorem land_one (n : Int) (h : 0 ≤ n) : Int.land n 1 = n % 2 := by
  obtain ⟨k, rfl⟩ := Int.eq_ofNat_of_zero_le h
  show Int.land (Int.ofNat k) (Int.ofNat 1) = _
  simp only [Int.land]
  rw [Nat.and_one_is_mod k]
  rfl

/-- C12: for `0 <= nDistance <= LimitDepth`: with bit 1 of the mask set and bit 2 clear
`repValue` returns `nDistance - BanValue`; with bit 2 set and bit 1 clear it returns
`BanValue - nDistance`; with both clear it returns `drawValue()`, which is `-DrawValue` for
even and `DrawValue` for odd `nDistance`. -/
theorem repValue_mapping (p : PositionStruct) (mask : Int)
    (h0 : 0 ≤ p.nDistance) (h1 : p.nDistance ≤ LimitDepth) :
    (Int.land mask 2 ≠ 0 → Int.land mask 4 = 0 → repValue p mask = p.nDistance - BanValue) ∧
    (Int.land mask 4 ≠ 0 → Int.land mask 2 = 0 → repValue p mask = BanValue - p.nDistance) ∧
    (Int.land mask 2 = 0 → Int.land mask 4 = 0 → repValue p mask = drawValue p) ∧
    (p.nDistance % 2 = 0 → drawValue p = -DrawValue) ∧
    (p.nDistance % 2 = 1 → drawValue p = DrawValue) := by
  have hL : LimitDepth = 64 := rfl
  have hB : BanValue = 9900 := rfl
  refine ⟨?_, ?_, ?_, ?_, ?_⟩
  · intro a b
    simp only [repValue, a, b, ne_eq, not_false_eq_true, not_true_eq_false, if_true, if_false,
      zero_add]
    rw [if_neg (by omega)]
  · intro a b
    simp only [repValue, a, b, ne_eq, not_false_eq_true, not_true_eq_false, if_true, if_false,
      zero_add]
    rw [if_neg (by omega)]
  · intro a b
    simp only [repValue, a, b, ne_eq, not_false_eq_true, not_true_eq_false, if_true, if_false]
  · intro a
    simp only [drawValue, land_one _ h0, a, if_true]
  · intro a
    simp only [drawValue, land_one _ h0, a]
    rfl

set_option maxRecDepth 100000 in
/-- Instance of C12: mask 3 one ply from the root. -/
theorem repValue_mapping_witness :
    (Int.land 3 2 ≠ 0 → Int.land 3 4 = 0 →
      repValue pinnedAfterJu 3 = pinnedAfterJu.nDistance - BanValue) ∧
    (Int.land 3 4 ≠ 0 → Int.land 3 2 = 0 →
      repValue pinnedAfterJu 3 = BanValue - pinnedAfterJu.nDistance) ∧
    (Int.land 3 2 = 0 → Int.land 3 4 = 0 → repValue pinnedAfterJu 3 = drawValue pinnedAfterJu) ∧
    (pinnedAfterJu.nDistance % 2 = 0 → drawValue pinnedAfterJu = -DrawValue) ∧
    (pinnedAfterJu.nDistance % 2 = 1 → drawValue pinnedAfterJu = DrawValue) :=
  repValue_mapping pinnedAfterJu 3 (by decide!) (by decide!)

/-- C13 (amended): for every position and every mask with bit 1 and bit 2 both set, the two
terms `repValue` adds cancel and it returns `drawValue()`, the score of a plain
repetition. -/
theorem repValue_both (p : PositionStruct) (mask : Int)
    (h2 : Int.land mask 2 ≠ 0) (h4 : Int.land mask 4 ≠ 0) :
    repValue p mask = drawValue p := by
  simp only [repValue, h2, h4, ne_eq, not_false_eq_true, if_true, zero_add, sub_add_sub_cancel,
    sub_self]

/-- Instance of C13: mask 7. -/
theorem repValue_both_witness : repValue pinnedPosition 7 = drawValue pinnedPosition :=
  repValue_both pinnedPosition 7 (by decide) (by decide)

/-- Mask 7 has bit 1 and bit 2 set, and `repValue` gives it the score it gives mask 0, that
of a plain repetition. -/
theorem repValue_both_counterexample :
    Int.land 7 2 ≠ 0 ∧ Int.land 7 4 ≠ 0 ∧ repValue pinnedPosition 7 = drawValue pinnedPosition ∧
      repValue pinnedPosition 0 = drawValue pinnedPosition := by
  decide

section
variable (cucvlPiecePos : Int → Int → Int)

theorem generateMoves_congr (p q : PositionStruct) (c : Bool)
    (hb : p.ucpcSquares = q.ucpcSquares) (hs : p.sdPlayer = q.sdPlayer) :
    generateMoves p c = generateMoves q c := by
  unfold generateMoves genPiece
  rw [hb, hs]

theorem startup_loop_full (p : PositionStruct) (n : Nat) :
    (((List.range n).map Int.ofNat).foldl (startupStep cucvlPiecePos)
        (clearBoard p)).sdPlayer = 0 ∧
    ∀ i : Int, (((List.range n).map Int.ofNat).foldl (startupStep cucvlPiecePos)
        (clearBoard p)).ucpcSquares i =
      if 0 ≤ i ∧ i < n then cucpcStartup.getD i.toNat 0 else 0 := by
  induction n with
  | zero =>
    refine ⟨rfl, fun i => ?_⟩
    rw [if_neg (by simp only [Nat.cast_zero]; omega)]
    rfl
  | succ n ih =>
    rw [List.range_succ, List.map_append, List.foldl_append]
    simp only [List.map_cons, List.map_nil, List.foldl_cons, List.foldl_nil]
    generalize ((List.range n).map Int.ofNat).foldl (startupStep cucvlPiecePos) (clearBoard p) = q
      at ih ⊢
    obtain ⟨hs, hb⟩ := ih
    have e : (Int.ofNat n).toNat = n := rfl
    unfold startupStep
    rw [e]
    by_cases hpc : cucpcStartup.getD n 0 = 0
    · simp only [hpc, ne_eq, not_true_eq_false, if_false]
      refine ⟨hs, fun i => ?_⟩
      rw [hb i]
      by_cases hi : i = (n : Int)
      · subst hi
        rw [if_neg (by omega), if_pos (by push_cast; omega)]
        simp only [Int.toNat_ofNat, hpc]
      · by_cases h1 : 0 ≤ i ∧ i < n
        · rw [if_pos h1, if_pos (by push_cast; omega)]
        · rw [if_neg h1, if_neg (by push_cast; omega)]
    · simp only [ne_eq, hpc, not_false_eq_true, if_true]
      obtain ⟨f1, f2, _⟩ := addPiece_fields cucvlPiecePos q (Int.ofNat n) (cucpcStartup.getD n 0)
      refine ⟨f2.trans hs, fun i => ?_⟩
      rw [f1]
      by_cases hi : i = (n : Int)
      · subst hi
        rw [if_pos (by push_cast; omega)]
        simp only [Int.ofNat_eq_coe, Function.update_same, Int.toNat_ofNat]
      · rw [Function.update_noteq (by simpa only [Int.ofNat_eq_coe] using hi), hb i]
        by_cases h1 : 0 ≤ i ∧ i < n
        · rw [if_pos h1, if_pos (by push_cast; omega)]
        · rw [if_neg h1, if_neg (by push_cast; omega)]

theorem startup_board (p s : PositionStruct) (h : startup cucvlPiecePos p = some s) :
    s.sdPlayer = 0 ∧ s.ucpcSquares = startupBoard := by
  obtain ⟨hs, hb⟩ := startup_loop_full cucvlPiecePos p 256
  rw [← allSquares_eq] at hs hb
  obtain ⟨f1, _, _, f4, _, _⟩ := setIrrev_fields _ s h
  refine ⟨f1.trans hs, ?_⟩
  rw [f4]
  funext i
  exact hb i

set_option maxRecDepth 100000 in
theorem startupBoard_moves :
    (generateMoves { blankPosition with ucpcSquares := startupBoard } false).length = 44 := by
  decide!

/-- C16: in the position `startup()` produces, `generateMoves(mvs, false)` returns exactly
44 moves. -/
theorem startup_generateMoves_count (p s : PositionStruct)
    (h : startup cucvlPiecePos p = some s) : (generateMoves s false).length = 44 := by
  obtain ⟨hs, hb⟩ := startup_board cucvlPiecePos p s h
  rw [generateMoves_congr s { blankPosition with ucpcSquares := startupBoard } false hb hs]
  exact startupBoard_moves

/-- Instance of C16: the position `startup()` produces on `blankPosition`. -/
theorem startup_generateMoves_count_witness : (generateMoves startPosition false).length = 44 :=
  startup_generateMoves_count examplePiecePos blankPosition startPosition startPosition_startup

/-- C14: after `makeMove(mv)` returned true, `nMoveNum` and `nDistance` are one larger than
before, `checked()` returns in the new position, and the top record `mvsList[nMoveNum-1]`
holds the move, the piece code that stood on the destination before the move, the `dwKey`
from before the move and the value of `checked()` in the new position; `inCheck()` is that
value and `captured()` is true exactly when the destination was occupied. -/
theorem makeMove_record (p p1 : PositionStruct) (mv : Int)
    (hmake : makeMove cucvlPiecePos p mv = some (true, p1)) :
    p1.nMoveNum = p.nMoveNum + 1 ∧ p1.nDistance = p.nDistance + 1 ∧
    ∃ c, checked p1 = some c ∧
      p1.mvsList (p1.nMoveNum - 1) = ⟨p.ucpcSquares (dst mv), c, mv, p.zobr.dwKey⟩ ∧
      inCheck p1 = some c ∧
      captured p1 = some (decide (p.ucpcSquares (dst mv) ≠ 0)) := by
  obtain ⟨_, _, h0, hM, c, hc, rfl⟩ := makeMove_eq_true cucvlPiecePos p p1 mv hmake
  have e : p.nMoveNum + 1 - 1 = p.nMoveNum := by omega
  refine ⟨rfl, rfl, c, ?_, ?_, ?_, ?_⟩
  · rw [← hc]
    exact checked_congr _ _ rfl rfl
  · simp only []
    rw [e, Function.update_same]
  · simp only [inCheck]
    rw [e, if_pos ⟨h0, hM⟩, Function.update_same]
  · simp only [captured]
    rw [e, if_pos ⟨h0, hM⟩]
    simp only [Function.update_same]

set_option maxRecDepth 100000 in
/-- Instance of C14: Ju e6-e7 in `pinnedPosition`. -/
theorem makeMove_record_witness :
    pinnedAfterJu.nMoveNum = pinnedPosition.nMoveNum + 1 ∧
    pinnedAfterJu.nDistance = pinnedPosition.nDistance + 1 ∧
    ∃ c, checked pinnedAfterJu = some c ∧
      pinnedAfterJu.mvsList (pinnedAfterJu.nMoveNum - 1) =
        ⟨pinnedPosition.ucpcSquares (dst (move 0x77 0x67)), c, move 0x77 0x67,
          pinnedPosition.zobr.dwKey⟩ ∧
      inCheck pinnedAfterJu = some c ∧
      captured pinnedAfterJu =
        some (decide (pinnedPosition.ucpcSquares (dst (move 0x77 0x67)) ≠ 0)) :=
  makeMove_record examplePiecePos pinnedPosition pinnedAfterJu (move 0x77 0x67) (by rfl)

end

/-- C18 (amended): with Red to move, a Red Pao on e3 (0xa7), e4 and e6 empty and a Black Ju
on e7 (0x67), `legalMove(e3-e7)` returns false when e5 is empty (no screen), and true when a
Red Bing stands on e5 (exactly one screen). -/
theorem legalMove_pao_scenario (p : PositionStruct) (hsd : p.sdPlayer = 0)
    (hpao : p.ucpcSquares 0xa7 = 13) (h4 : p.ucpcSquares 0x97 = 0) (h6 : p.ucpcSquares 0x77 = 0)
    (hju : p.ucpcSquares 0x67 = 20) :
    (p.ucpcSquares 0x87 = 0 → legalMove p (move 0xa7 0x67) = some false) ∧
    (p.ucpcSquares 0x87 = 14 → legalMove p (move 0xa7 0x67) = some true) := by
  have e1 : src (move 0xa7 0x67) = 0xa7 := by decide
  have e2 : dst (move 0xa7 0x67) = 0x67 := by decide
  constructor
  · intro h5
    unfold legalMove
    simp only [e1, e2, hsd, hpao, hju]
    simp [walk, legalSlide, sideTag, inRange, sameX, sameY, rankY, fileX, PieceJiang, PieceShi,
      PieceXiang, PieceMa, PieceJu, PiecePao, h4, h5, h6, hju, Int.land]
  · intro h5
    unfold legalMove
    simp only [e1, e2, hsd, hpao, hju]
    simp [walk, legalSlide, sideTag, inRange, sameX, sameY, rankY, fileX, PieceJiang, PieceShi,
      PieceXiang, PieceMa, PieceJu, PiecePao, h4, h5, h6, hju, Int.land]
    decide

set_option maxRecDepth 100000 in
/-- Instance of C18: the two positions of the scenario. -/
theorem legalMove_pao_scenario_witness :
    legalMove paoPosition (move 0xa7 0x67) = some false ∧
    legalMove paoScreenPosition (move 0xa7 0x67) = some true :=
  ⟨(legalMove_pao_scenario paoPosition (by decide!) (by decide!) (by decide!) (by decide!)
      (by decide!)).1 (by decide!),
   (legalMove_pao_scenario paoScreenPosition (by decide!) (by decide!) (by decide!) (by decide!)
      (by decide!)).2 (by decide!)⟩

set_option maxRecDepth 100000 in
/-- The move the scenario calls legal is rejected, and the one it calls illegal is
accepted. -/
theorem legalMove_pao_scenario_counterexample :
    paoPosition.sdPlayer = 0 ∧ paoPosition.ucpcSquares 0xa7 = 8 + PiecePao ∧
    paoPosition.ucpcSquares 0x97 = 0 ∧ paoPosition.ucpcSquares 0x87 = 0 ∧
    paoPosition.ucpcSquares 0x77 = 0 ∧ paoPosition.ucpcSquares 0x67 = 16 + PieceJu ∧
    legalMove paoPosition (move 0xa7 0x67) = some false ∧
    paoScreenPosition.ucpcSquares 0x87 = 8 + PieceBing ∧
    legalMove paoScreenPosition (move 0xa7 0x67) = some true := by
  decide!

theorem slide_hit (b : Int → Int) (nDelta : Int) :
    ∀ (n fuel : Nat) (start : Int), n < fuel →
      (∀ j : Nat, j < n → inBoard (start + j * nDelta) = true ∧ b (start + j * nDelta) = 0) →
      inBoard (start + n * nDelta) = true → b (start + n * nDelta) ≠ 0 →
      slide b nDelta fuel start = start + n * nDelta := by
  intro n
  induction n with
  | zero =>
    intro fuel start hf _ hin hb
    cases fuel with
    | zero => omega
    | succ fuel =>
      simp only [Nat.cast_zero, zero_mul, add_zero] at hin hb ⊢
      simp only [slide, hin, if_true, ne_eq, hb, not_false_eq_true]
  | succ n ih =>
    intro fuel start hf hc hin hb
    cases fuel with
    | zero => omega
    | succ fuel =>
      have h0 := hc 0 (by omega)
      simp only [Nat.cast_zero, zero_mul, add_zero] at h0
      simp only [slide, h0.1, if_true, ne_eq, h0.2, not_true_eq_false, if_false]
      have e : ∀ j : Nat, start + nDelta + (j : Int) * nDelta = start + ((j + 1 : Nat) : Int) * nDelta := by
        intro j
        push_cast
        ring
      rw [ih fuel (start + nDelta) (by omega) ?_ ?_ ?_, e]
      · intro j hj
        rw [e]
        exact hc (j + 1) (by omega)
      · rw [e]
        exact hin
      · rw [e]
        exact hb

theorem rayAttacked_jiang (b : Int → Int) (opp sq nDelta : Int) (k : Nat) (hk : 1 ≤ k)
    (hk16 : k ≤ 16) (hc : Clear b sq nDelta k) (hin : inBoard (sq + k * nDelta) = true)
    (hpc : b (sq + k * nDelta) = opp + PieceJiang) (hne : opp + PieceJiang ≠ 0) :
    rayAttacked b opp nDelta sq = true := by
  have e : ∀ j : Nat, sq + nDelta + (j : Int) * nDelta = sq + ((j + 1 : Nat) : Int) * nDelta := by
    intro j
    push_cast
    ring
  have hs : slide b nDelta 16 (sq + nDelta) = sq + k * nDelta := by
    obtain ⟨n, rfl⟩ : ∃ n, k = n + 1 := ⟨k - 1, by omega⟩
    rw [slide_hit b nDelta n 16 (sq + nDelta) (by omega) ?_ ?_ ?_, e]
    · intro j hj
      rw [e]
      exact hc (j + 1) (by omega) (by omega)
    · rw [e]
      exact hin
    · rw [e, hpc]
      exact hne
  unfold rayAttacked
  simp only [hs, hin, hpc, decide_True, Bool.or_true, Bool.and_self, if_true]

theorem checked_facing (p : PositionStruct) (own other : Int) (k : Nat) (nDelta : Int)
    (hsd : p.sdPlayer = 0 ∨ p.sdPlayer = 1) (hown : inBoard own = true)
    (hother : inBoard other = true)
    (huniq : ∀ sq, 0 ≤ sq → sq < 256 →
      (p.ucpcSquares sq = sideTag p.sdPlayer + PieceJiang ↔ sq = own))
    (hopp : p.ucpcSquares other = oppSideTag p.sdPlayer + PieceJiang)
    (hd : nDelta ∈ ccJiangDelta) (hk : 1 ≤ k) (hk16 : k ≤ 16) (hko : other = own + k * nDelta)
    (hc : Clear p.ucpcSquares own nDelta k) : checked p = some true := by
  have hob := inBoard_bounds own hown
  have hfind : allSquares.find?
      (fun sq => inBoard sq && decide (p.ucpcSquares sq = sideTag p.sdPlayer + PieceJiang)) =
      some own := by
    cases hf : allSquares.find?
      (fun sq => inBoard sq && decide (p.ucpcSquares sq = sideTag p.sdPlayer + PieceJiang)) with
    | none =>
      have := List.find?_eq_none.1 hf own ((mem_allSquares own).2 (by omega))
      simp only [hown, (huniq own (by omega) (by omega)).2 rfl, decide_True, Bool.and_self,
        not_true_eq_false] at this
    | some sq =>
      have hmem := (mem_allSquares sq).1 (List.mem_of_find?_eq_some hf)
      have hp := List.find?_some hf
      simp only [Bool.and_eq_true, decide_eq_true_eq] at hp
      rw [(huniq sq hmem.1 hmem.2).1 hp.2]
  unfold checked
  rw [hfind]
  have hr : inRange (squareForward own p.sdPlayer) = true := by
    simp only [inRange, squareForward, decide_eq_true_eq]
    omega
  have hray : ccJiangDelta.any
      (fun d => rayAttacked p.ucpcSquares (oppSideTag p.sdPlayer) d own) = true := by
    rw [List.any_eq_true]
    refine ⟨nDelta, hd, rayAttacked_jiang _ _ _ _ k hk hk16 hc (hko ▸ hother) (hko ▸ hopp) ?_⟩
    simp only [oppSideTag, PieceJiang]
    omega
  simp only [checkedAt, hr, Bool.not_true, Bool.false_eq_true, if_false, hray]
  split_ifs <;> rfl

/-- C17: when the board holds exactly one Red general and exactly one Black general, both on
on-board squares of one file with only empty squares between them, `checked()` returns
true, for either side to move and whatever else is on the board. -/
theorem checked_flying_general (p : PositionStruct) (sqR sqB : Int)
    (hsd : p.sdPlayer = 0 ∨ p.sdPlayer = 1)
    (hR : inBoard sqR = true) (hB : inBoard sqB = true)
    (hRed : ∀ sq, 0 ≤ sq → sq < 256 → (p.ucpcSquares sq = 8 + PieceJiang ↔ sq = sqR))
    (hBlack : ∀ sq, 0 ≤ sq → sq < 256 → (p.ucpcSquares sq = 16 + PieceJiang ↔ sq = sqB))
    (hfile : fileX sqR = fileX sqB)
    (hempty : ∀ sq, fileX sq = fileX sqR →
      (sqR < sq ∧ sq < sqB) ∨ (sqB < sq ∧ sq < sqR) → p.ucpcSquares sq = 0) :
    checked p = some true := by
  have hRb := inBoard_bounds sqR hR
  have hBb := inBoard_bounds sqB hB
  have hRB : sqR ≠ sqB := by
    intro h
    have h1 := (hRed sqR (by omega) (by omega)).2 rfl
    have h2 := (hBlack sqR (by omega) (by omega)).2 h
    rw [h1] at h2
    simp only [PieceJiang] at h2
    omega
  have hR' := hR
  have hB' := hB
  simp only [inBoard, rankY, fileX, decide_eq_true_eq] at hR' hB'
  simp only [fileX] at hfile hempty
  have key : ∀ (own other : Int), inBoard own = true → inBoard other = true →
      own % 16 = other % 16 → own ≠ other →
      (∀ sq, sq % 16 = own % 16 → (own < sq ∧ sq < other) ∨ (other < sq ∧ sq < own) →
        p.ucpcSquares sq = 0) →
      ∃ (k : Nat) (nDelta : Int), nDelta ∈ ccJiangDelta ∧ 1 ≤ k ∧ k ≤ 16 ∧
        other = own + k * nDelta ∧ Clear p.ucpcSquares own nDelta k := by
    intro own other ho ht hf hne he
    have ho' := ho
    have ht' := ht
    simp only [inBoard, rankY, fileX, decide_eq_true_eq] at ho' ht'
    by_cases hlt : own < other
    · refine ⟨((other - own) / 16).toNat, 16, by decide, by omega, by omega, by omega, ?_⟩
      intro j hj1 hj2
      refine ⟨?_, he _ (by omega) (Or.inl (by omega))⟩
      simp only [inBoard, rankY, fileX, decide_eq_true_eq]
      omega
    · refine ⟨((own - other) / 16).toNat, -16, by decide, by omega, by omega, by omega, ?_⟩
      intro j hj1 hj2
      refine ⟨?_, he _ (by omega) (Or.inr (by omega))⟩
      simp only [inBoard, rankY, fileX, decide_eq_true_eq]
      omega
  rcases hsd with h0 | h1
  · obtain ⟨k, d, hd, hk, hk16, hko, hc⟩ := key sqR sqB hR hB hfile hRB hempty
    refine checked_facing p sqR sqB k d (Or.inl h0) hR hB ?_ ?_ hd hk hk16 hko hc
    · simpa only [h0, sideTag, mul_zero, add_zero] using hRed
    · have := (hBlack sqB (by omega) (by omega)).2 rfl
      simpa only [h0, oppSideTag, mul_zero, sub_zero] using this
  · obtain ⟨k, d, hd, hk, hk16, hko, hc⟩ := key sqB sqR hB hR hfile.symm (Ne.symm hRB)
      (fun sq h1 h2 => hempty sq (by omega) (by omega))
    refine checked_facing p sqB sqR k d (Or.inr h1) hB hR ?_ ?_ hd hk hk16 hko hc
    · simpa only [h1, sideTag, mul_one] using hBlack
    · have := (hRed sqR (by omega) (by omega)).2 rfl
      simpa only [h1, oppSideTag, mul_one] using this

set_option maxRecDepth 100000 in
/-- Instance of C17: Red general e1, Black general e10, file e empty, Red to move. -/
theorem checked_flying_general_witness : checked flyingPosition = some true :=
  checked_flying_general flyingPosition 0xc7 0x37 (by decide!) (by decide!) (by decide!)
    (by
      intro sq _ _
      show (if sq = 0xc7 then (8 : Int) else if sq = 0x37 then 16 else 0) = 8 + PieceJiang ↔ _
      simp only [PieceJiang]
      split_ifs <;> omega)
    (by
      intro sq _ _
      show (if sq = 0xc7 then (8 : Int) else if sq = 0x37 then 16 else 0) = 16 + PieceJiang ↔ _
      simp only [PieceJiang]
      split_ifs <;> omega)
    (by decide!)
    (by
      intro sq _ h
      show (if sq = 0xc7 then (8 : Int) else if sq = 0x37 then 16 else 0) = 0
      split_ifs <;> omega)

theorem mem_squaresBetween (sqSrc sqDst sq : Int) (h0 : 0 ≤ sqSrc) (h1 : sqSrc < 256)
    (h2 : 0 ≤ sqDst) (h3 : sqDst < 256)
    (hline : sameX sqSrc sqDst = true ∨ sameY sqSrc sqDst = true) :
    sq ∈ squaresBetween sqSrc sqDst ↔
      ((sqSrc < sq ∧ sq < sqDst) ∨ (sqDst < sq ∧ sq < sqSrc)) ∧
      ((rankY sq = rankY sqSrc ∧ rankY sq = rankY sqDst) ∨
        (fileX sq = fileX sqSrc ∧ fileX sq = fileX sqDst)) := by
  unfold squaresBetween lineDelta lineSteps
  simp only [List.mem_map, List.mem_range]
  simp only [sameX, sameY, rankY, fileX, decide_eq_true_eq] at hline ⊢
  by_cases hx : sqSrc / 16 = sqDst / 16
  · simp only [hx, if_true]
    by_cases hlt : sqDst < sqSrc
    · simp only [hlt, if_true]
      constructor
      · rintro ⟨j, hj, rfl⟩
        omega
      · intro h
        refine ⟨(sqSrc - sq - 1).toNat, by omega, by omega⟩
    · simp only [hlt, if_false]
      constructor
      · rintro ⟨j, hj, rfl⟩
        omega
      · intro h
        refine ⟨(sq - sqSrc - 1).toNat, by omega, by omega⟩
  · simp only [hx, if_false]
    have hy : sqSrc % 16 = sqDst % 16 := by
      rcases hline with h | h
      · exact absurd h hx
      · exact h
    by_cases hlt : sqDst < sqSrc
    · simp only [hlt, if_true]
      constructor
      · rintro ⟨j, hj, rfl⟩
        omega
      · intro h
        refine ⟨((sqSrc - sq) / 16 - 1).toNat, by omega, by omega⟩
    · simp only [hlt, if_false]
      constructor
      · rintro ⟨j, hj, rfl⟩
        omega
      · intro h
        refine ⟨((sq - sqSrc) / 16 - 1).toNat, by omega, by omega⟩

theorem occFrom_eq (b : Int → Int) (nDelta : Int) (n : Nat) (s : Int) :
    (((List.range n).map (fun j : Nat => s + ((j : Int) + 1) * nDelta)).filter
      (fun sq => decide (b sq ≠ 0))).length = occFrom b nDelta n (s + nDelta) := by
  induction n generalizing s with
  | zero => rfl
  | succ n ih =>
    rw [List.range_succ_eq_map]
    simp only [List.map_cons, List.map_map, List.filter_cons, occFrom]
    have e : ((fun j : Nat => s + ((j : Int) + 1) * nDelta) ∘ Nat.succ) =
        fun j : Nat => (s + nDelta) + ((j : Int) + 1) * nDelta := by
      funext j
      simp only [Function.comp, Nat.succ_eq_add_one]
      push_cast
      ring
    rw [e]
    have e0 : s + (((0 : Nat) : Int) + 1) * nDelta = s + nDelta := by
      push_cast
      ring
    rw [e0]
    by_cases hb : b (s + nDelta) = 0
    · simp only [hb, ne_eq, not_true_eq_false, decide_False, Bool.false_eq_true, if_false,
        zero_add]
      exact ih (s + nDelta)
    · simp only [hb, ne_eq, not_false_eq_true, decide_True, if_true, List.length_cons]
      rw [ih (s + nDelta)]
      omega

theorem walk_occ (b : Int → Int) (nDelta : Int) (hd : nDelta ≠ 0) :
    ∀ (n fuel : Nat) (s : Int), n < fuel →
      (occFrom b nDelta n s = 0 → walk b nDelta (s + n * nDelta) fuel s = some (s + n * nDelta)) ∧
      (occFrom b nDelta n s ≠ 0 → ∃ i : Nat, i < n ∧
        walk b nDelta (s + n * nDelta) fuel s = some (s + i * nDelta) ∧
        b (s + i * nDelta) ≠ 0 ∧
        occFrom b nDelta (n - i - 1) (s + i * nDelta + nDelta) + 1 = occFrom b nDelta n s) := by
  intro n
  induction n with
  | zero =>
    intro fuel s hf
    cases fuel with
    | zero => omega
    | succ fuel =>
      refine ⟨fun _ => ?_, fun h => absurd rfl h⟩
      simp only [Nat.cast_zero, zero_mul, add_zero, walk, ne_eq, not_true_eq_false, false_and,
        if_false]
  | succ n ih =>
    intro fuel s hf
    cases fuel with
    | zero => omega
    | succ fuel =>
      have e : s + ((n + 1 : Nat) : Int) * nDelta = s + nDelta + n * nDelta := by
        push_cast
        ring
      have hne : s ≠ s + ((n + 1 : Nat) : Int) * nDelta := by
        intro h
        have h2 : ((n + 1 : Nat) : Int) * nDelta = 0 := by omega
        rcases mul_eq_zero.1 h2 with h3 | h3
        · omega
        · exact hd h3
      obtain ⟨ih1, ih2⟩ := ih fuel (s + nDelta) (by omega)
      by_cases hb : b s = 0
      · have hw : walk b nDelta (s + ((n + 1 : Nat) : Int) * nDelta) (fuel + 1) s =
            walk b nDelta (s + nDelta + n * nDelta) fuel (s + nDelta) := by
          rw [walk, if_pos ⟨hne, hb⟩, e]
        have ho : occFrom b nDelta (n + 1) s = occFrom b nDelta n (s + nDelta) := by
          simp only [occFrom, hb, ne_eq, not_true_eq_false, if_false, zero_add]
        rw [hw, ho]
        refine ⟨fun h => ?_, fun h => ?_⟩
        · rw [ih1 h, e]
        · obtain ⟨i, hi, h1, h2, h3⟩ := ih2 h
          have e2 : s + ((i + 1 : Nat) : Int) * nDelta = s + nDelta + i * nDelta := by
            push_cast
            ring
          refine ⟨i + 1, by omega, ?_, ?_, ?_⟩
          · rw [h1, e2]
          · rw [e2]
            exact h2
          · rw [e2]
            have e3 : n + 1 - (i + 1) - 1 = n - i - 1 := by omega
            rw [e3]
            exact h3
      · have hw : walk b nDelta (s + ((n + 1 : Nat) : Int) * nDelta) (fuel + 1) s = some s := by
          rw [walk, if_neg (fun h => hb h.2)]
        have ho : occFrom b nDelta (n + 1) s = 1 + occFrom b nDelta n (s + nDelta) := by
          simp only [occFrom, hb, ne_eq, not_false_eq_true, if_true]
        rw [hw, ho]
        refine ⟨fun h => by omega, fun _ => ⟨0, by omega, ?_, ?_, ?_⟩⟩
        · simp only [Nat.cast_zero, zero_mul, add_zero]
        · simpa only [Nat.cast_zero, zero_mul, add_zero] using hb
        · simp only [Nat.cast_zero, zero_mul, add_zero, Nat.sub_zero, Nat.add_sub_cancel]
          omega

theorem legalSlide_occ (b : Int → Int) (t sq nDelta : Int) (m : Nat) (hm : 1 ≤ m)
    (hm2 : m ≤ 255) (hd : nDelta ≠ 0) :
    legalSlide b t sq (sq + m * nDelta) nDelta =
      some (if occFrom b nDelta (m - 1) (sq + nDelta) = 0 then
          (decide (b (sq + m * nDelta) = 0) || decide (t = PieceJu))
        else if b (sq + m * nDelta) ≠ 0 ∧ t = PiecePao then
          decide (occFrom b nDelta (m - 1) (sq + nDelta) = 1)
        else false) := by
  obtain ⟨n, rfl⟩ : ∃ n, m = n + 1 := ⟨m - 1, by omega⟩
  have e : sq + ((n + 1 : Nat) : Int) * nDelta = sq + nDelta + n * nDelta := by
    push_cast
    ring
  simp only [Nat.add_sub_cancel]
  obtain ⟨h1, h2⟩ := walk_occ b nDelta hd n 256 (sq + nDelta) (by omega)
  unfold legalSlide
  by_cases ho : occFrom b nDelta n (sq + nDelta) = 0
  · rw [e, h1 ho]
    simp only [if_true, ho]
  · obtain ⟨i, hi, hw, hbi, hocc⟩ := h2 ho
    have hne : sq + nDelta + (i : Int) * nDelta ≠ sq + nDelta + n * nDelta := by
      intro h
      have h3 : ((n : Int) - i) * nDelta = 0 := by
        have : (n : Int) * nDelta - i * nDelta = 0 := by omega
        rw [sub_mul]
        exact this
      rcases mul_eq_zero.1 h3 with h4 | h4
      · omega
      · exact hd h4
    rw [e, hw]
    simp only [hne, if_false, ho]
    by_cases htar : b (sq + nDelta + n * nDelta) ≠ 0 ∧ t = PiecePao
    · rw [if_pos htar, if_pos htar]
      have e2 : sq + nDelta + n * nDelta =
          (sq + nDelta + i * nDelta + nDelta) + ((n - i - 1 : Nat) : Int) * nDelta := by
        have : ((n - i - 1 : Nat) : Int) = (n : Int) - i - 1 := by omega
        rw [this]
        ring
      obtain ⟨g1, g2⟩ := walk_occ b nDelta hd (n - i - 1) 256 (sq + nDelta + i * nDelta + nDelta)
        (by omega)
      by_cases ho2 : occFrom b nDelta (n - i - 1) (sq + nDelta + i * nDelta + nDelta) = 0
      · have hw2 := g1 ho2
        rw [← e2] at hw2
        rw [hw2]
        simp only [decide_True, Option.some.injEq, true_eq_decide_iff]
        omega
      · obtain ⟨i2, hi2, hw2, _, _⟩ := g2 ho2
        rw [← e2] at hw2
        rw [hw2]
        simp only [Option.some.injEq, decide_eq_decide]
        constructor
        · intro h
          exfalso
          have h3 : ((n : Int) - i - 1 - i2) * nDelta = 0 := by
            have e4 : ((n : Int) - i - 1 - i2) * nDelta =
                sq + nDelta + n * nDelta - (sq + nDelta + i * nDelta + nDelta + i2 * nDelta) := by
              ring
            rw [e4]
            omega
          rcases mul_eq_zero.1 h3 with h4 | h4
          · omega
          · exact hd h4
        · intro h
          omega
    · rw [if_neg htar, if_neg htar]

theorem line_facts (sqSrc sqDst : Int) (h0 : 0 ≤ sqSrc) (h1 : sqSrc < 256)
    (h2 : 0 ≤ sqDst) (h3 : sqDst < 256) (hne : sqSrc ≠ sqDst)
    (hline : sameX sqSrc sqDst = true ∨ sameY sqSrc sqDst = true) :
    sqDst = sqSrc + (lineSteps sqSrc sqDst : Int) * lineDelta sqSrc sqDst ∧
    1 ≤ lineSteps sqSrc sqDst ∧ lineSteps sqSrc sqDst ≤ 255 ∧ lineDelta sqSrc sqDst ≠ 0 := by
  unfold lineSteps lineDelta
  simp only [sameX, sameY, rankY, fileX, decide_eq_true_eq] at hline ⊢
  by_cases hx : sqSrc / 16 = sqDst / 16 <;> by_cases hlt : sqDst < sqSrc <;>
    simp only [hx, hlt, if_true, if_false] <;> omega

theorem screens_eq (p : PositionStruct) (sqSrc sqDst : Int) :
    screens p sqSrc sqDst =
      occFrom p.ucpcSquares (lineDelta sqSrc sqDst) (lineSteps sqSrc sqDst - 1)
        (sqSrc + lineDelta sqSrc sqDst) := by
  unfold screens squaresBetween
  exact occFrom_eq _ _ _ _

theorem legalSlide_screens (p : PositionStruct) (t sqSrc sqDst : Int) (h0 : 0 ≤ sqSrc)
    (h1 : sqSrc < 256) (h2 : 0 ≤ sqDst) (h3 : sqDst < 256) (hne : sqSrc ≠ sqDst)
    (hline : sameX sqSrc sqDst = true ∨ sameY sqSrc sqDst = true) :
    legalSlide p.ucpcSquares t sqSrc sqDst (lineDelta sqSrc sqDst) =
      some (if screens p sqSrc sqDst = 0 then
          (decide (p.ucpcSquares sqDst = 0) || decide (t = PieceJu))
        else if p.ucpcSquares sqDst ≠ 0 ∧ t = PiecePao then decide (screens p sqSrc sqDst = 1)
        else false) := by
  obtain ⟨e, hm1, hm2, hd⟩ := line_facts sqSrc sqDst h0 h1 h2 h3 hne hline
  have h := legalSlide_occ p.ucpcSquares t sqSrc (lineDelta sqSrc sqDst) (lineSteps sqSrc sqDst)
    hm1 hm2 hd
  rw [← e, ← screens_eq] at h
  exact h

/-- C19: on a well-formed position with side 0 or 1, for a source square holding a Pao of
the side to move and an on-board destination other than the source, with `k` the number of
occupied squares strictly between them: `legalMove` returns false when the destination holds
an own piece or is on neither the rank nor the file of the source; on the same rank or file
it returns true iff `k = 0` when the destination is empty, and true iff `k = 1` when it
holds an enemy piece.  For a Ju it returns true iff the destination is on the same rank or
file, `k = 0` and the destination holds no own piece. -/
theorem legalMove_slider (p : PositionStruct) (sqSrc sqDst : Int) (hwf : WellFormed p)
    (hsd : p.sdPlayer = 0 ∨ p.sdPlayer = 1) (h0 : 0 ≤ sqSrc) (h1 : sqSrc < 256)
    (hdst : inBoard sqDst = true) (hne : sqSrc ≠ sqDst) :
    (p.ucpcSquares sqSrc = sideTag p.sdPlayer + PiecePao →
      (Int.land (p.ucpcSquares sqDst) (sideTag p.sdPlayer) ≠ 0 →
        legalMove p (move sqSrc sqDst) = some false) ∧
      (sameX sqSrc sqDst = false → sameY sqSrc sqDst = false →
        legalMove p (move sqSrc sqDst) = some false) ∧
      (sameX sqSrc sqDst = true ∨ sameY sqSrc sqDst = true → p.ucpcSquares sqDst = 0 →
        legalMove p (move sqSrc sqDst) = some (decide (screens p sqSrc sqDst = 0))) ∧
      (sameX sqSrc sqDst = true ∨ sameY sqSrc sqDst = true →
        Int.land (p.ucpcSquares sqDst) (oppSideTag p.sdPlayer) ≠ 0 →
        legalMove p (move sqSrc sqDst) = some (decide (screens p sqSrc sqDst = 1)))) ∧
    (p.ucpcSquares sqSrc = sideTag p.sdPlayer + PieceJu →
      legalMove p (move sqSrc sqDst) =
        some (decide ((sameX sqSrc sqDst = true ∨ sameY sqSrc sqDst = true) ∧
          screens p sqSrc sqDst = 0 ∧
          Int.land (p.ucpcSquares sqDst) (sideTag p.sdPlayer) = 0))) := by
  have hb := inBoard_bounds sqDst hdst
  have hr : inRange sqDst = true := by
    simp only [inRange, decide_eq_true_eq]
    omega
  have e1 : src (move sqSrc sqDst) = sqSrc := src_move sqSrc sqDst h0 h1
  have e2 : dst (move sqSrc sqDst) = sqDst := dst_move sqSrc sqDst h0 h1
  have hok : okPiece (p.ucpcSquares sqDst) = true := by
    simp only [okPiece, decide_eq_true_eq]
    exact wellFormed_at p hwf sqDst (by omega) (by omega)
  have hself : ∀ t : Int, t = PiecePao ∨ t = PieceJu →
      Int.land (sideTag p.sdPlayer + t) (sideTag p.sdPlayer) ≠ 0 := by
    intro t ht
    rcases hsd with h | h <;> rcases ht with rfl | rfl <;> rw [h] <;> decide
  have hdelta : ∀ t : Int, sameX sqSrc sqDst = true ∨ sameY sqSrc sqDst = true →
      (if sameX sqSrc sqDst = true then
          legalSlide p.ucpcSquares t sqSrc sqDst (if sqDst < sqSrc then -1 else 1)
        else if sameY sqSrc sqDst = true then
          legalSlide p.ucpcSquares t sqSrc sqDst (if sqDst < sqSrc then -16 else 16)
        else some false) =
      legalSlide p.ucpcSquares t sqSrc sqDst (lineDelta sqSrc sqDst) := by
    intro t hline
    unfold lineDelta
    by_cases hx : sameX sqSrc sqDst = true
    · simp only [hx, if_true]
    · have hy : sameY sqSrc sqDst = true := hline.resolve_left hx
      simp only [hx, hy, if_true, if_false, Bool.false_eq_true]
  have hmain : ∀ t : Int, t = PiecePao ∨ t = PieceJu →
      p.ucpcSquares sqSrc = sideTag p.sdPlayer + t →
      Int.land (p.ucpcSquares sqDst) (sideTag p.sdPlayer) = 0 →
      legalMove p (move sqSrc sqDst) =
        if sameX sqSrc sqDst = true then
          legalSlide p.ucpcSquares t sqSrc sqDst (if sqDst < sqSrc then -1 else 1)
        else if sameY sqSrc sqDst = true then
          legalSlide p.ucpcSquares t sqSrc sqDst (if sqDst < sqSrc then -16 else 16)
        else some false := by
    intro t ht hpc hnot
    unfold legalMove
    simp only [e1, e2, hpc, hr, Bool.not_true, Bool.false_eq_true, if_false,
      add_sub_cancel_left, hnot, ne_eq, not_true_eq_false]
    rw [if_neg (hself t ht)]
    rcases ht with rfl | rfl
    · simp only [PiecePao, PieceJiang, PieceShi, PieceXiang, PieceMa, PieceJu]
      norm_num
    · simp only [PiecePao, PieceJiang, PieceShi, PieceXiang, PieceMa, PieceJu]
      norm_num
  have hown : ∀ t : Int, t = PiecePao ∨ t = PieceJu →
      p.ucpcSquares sqSrc = sideTag p.sdPlayer + t →
      Int.land (p.ucpcSquares sqDst) (sideTag p.sdPlayer) ≠ 0 →
      legalMove p (move sqSrc sqDst) = some false := by
    intro t ht hpc hnot
    unfold legalMove
    simp only [e1, e2, hpc, hr, Bool.not_true, Bool.false_eq_true, if_false, hnot, ne_eq,
      not_false_eq_true, if_true]
    rw [if_neg (hself t ht)]
  refine ⟨fun hpc => ⟨?_, ?_, ?_, ?_⟩, fun hpc => ?_⟩
  · exact hown _ (Or.inl rfl) hpc
  · intro hx hy
    by_cases hnot : Int.land (p.ucpcSquares sqDst) (sideTag p.sdPlayer) = 0
    · rw [hmain _ (Or.inl rfl) hpc hnot]
      simp only [hx, hy, Bool.false_eq_true, if_false]
    · exact hown _ (Or.inl rfl) hpc hnot
  · intro hline hempty
    have hnot : Int.land (p.ucpcSquares sqDst) (sideTag p.sdPlayer) = 0 := by
      rw [hempty]
      exact land_zero_left _
    rw [hmain _ (Or.inl rfl) hpc hnot, hdelta _ hline,
      legalSlide_screens p _ sqSrc sqDst h0 h1 (by omega) (by omega) hne hline]
    by_cases hk : screens p sqSrc sqDst = 0
    · simp only [hk, if_true, hempty, decide_True, Bool.true_or]
    · simp only [hk, if_false, hempty, ne_eq, not_true_eq_false, false_and, decide_False]
  · intro hline hopp
    have hnot := opp_not_self _ _ hok hsd hopp
    have hnz := land_ne_zero _ _ hopp
    rw [hmain _ (Or.inl rfl) hpc hnot, hdelta _ hline,
      legalSlide_screens p _ sqSrc sqDst h0 h1 (by omega) (by omega) hne hline]
    by_cases hk : screens p sqSrc sqDst = 0
    · simp only [hk, if_true, hnz, decide_False, Bool.false_or, zero_ne_one, PiecePao, PieceJu]
      decide
    · simp only [hk, if_false, ne_eq, hnz, not_false_eq_true, and_self, if_true]
  · by_cases hnot : Int.land (p.ucpcSquares sqDst) (sideTag p.sdPlayer) = 0
    · rw [hmain _ (Or.inr rfl) hpc hnot]
      by_cases hline : sameX sqSrc sqDst = true ∨ sameY sqSrc sqDst = true
      · rw [hdelta _ hline,
          legalSlide_screens p _ sqSrc sqDst h0 h1 (by omega) (by omega) hne hline]
        by_cases hk : screens p sqSrc sqDst = 0
        · simp only [hk, if_true, decide_True, Bool.or_true, hline, hnot, and_self]
        · have hpj : ¬ (PieceJu = PiecePao) := by decide
          simp only [hk, if_false, hpj, and_false, false_and, decide_False]
      · have hx : sameX sqSrc sqDst = false := by
          cases h : sameX sqSrc sqDst
          · rfl
          · exact absurd (Or.inl h) hline
        have hy : sameY sqSrc sqDst = false := by
          cases h : sameY sqSrc sqDst
          · rfl
          · exact absurd (Or.inr h) hline
        simp only [hx, hy, Bool.false_eq_true, if_false, or_self, false_and, decide_False]
    · rw [hown _ (Or.inr rfl) hpc hnot]
      simp only [hnot, and_false, decide_False]

set_option maxRecDepth 100000 in
theorem paoScreenPosition_wellFormed : WellFormed paoScreenPosition := by
  decide!

set_option maxRecDepth 100000 in
/-- Instance of C19: the Pao e3 takes the Ju e7 over the Bing e5. -/
theorem legalMove_slider_witness :
    legalMove paoScreenPosition (move 0xa7 0x67) =
      some (decide (screens paoScreenPosition 0xa7 0x67 = 1)) ∧
    screens paoScreenPosition 0xa7 0x67 = 1 :=
  ⟨((legalMove_slider paoScreenPosition 0xa7 0x67 paoScreenPosition_wellFormed
    (by decide!) (by decide!) (by decide!) (by decide!) (by decide!)).1 (by decide!)).2.2.2
      (by decide!) (by decide!), by decide!⟩

theorem alternate_false (l : List MoveStruct) : alternate false l = selfSide l := by
  induction l using selfSide.induct with
  | case1 => rfl
  | case2 m => rfl
  | case3 a m rest ih =>
    simp only [alternate, selfSide]
    rw [ih]

theorem repLoop_mask (lpmvs : Int → MoveStruct) (dwKey : Nat) (k : Nat)
    (bSelfSide bPerpCheck bOppPerpCheck : Bool) (nRecur : Int) (h : 1 ≤ nRecur)
    (hne : repLoop lpmvs dwKey k bSelfSide bPerpCheck bOppPerpCheck nRecur ≠ 0) :
    repLoop lpmvs dwKey k bSelfSide bPerpCheck bOppPerpCheck nRecur =
      1 + (if (bPerpCheck && (alternate bSelfSide
              (scanTo dwKey bSelfSide nRecur.toNat (runFrom lpmvs k))).all
                (fun m => m.ucbCheck)) then 2 else 0) +
          (if (bOppPerpCheck && (alternate (!bSelfSide)
              (scanTo dwKey bSelfSide nRecur.toNat (runFrom lpmvs k))).all
                (fun m => m.ucbCheck)) then 4 else 0) := by
  induction k generalizing bSelfSide bPerpCheck bOppPerpCheck nRecur with
  | zero => exact absurd rfl hne
  | succ k ih =>
    rw [runFrom_succ]
    unfold repLoop at hne ⊢
    by_cases hok : (lpmvs k).wmv ≠ 0 ∧ (lpmvs k).ucpcCaptured = 0
    · rw [if_pos hok] at hne ⊢
      rw [if_pos hok]
      cases bSelfSide with
      | true =>
        simp only [if_true, Bool.not_true] at hne ⊢
        by_cases hkey : (lpmvs k).dwKey = dwKey
        · rw [if_pos hkey] at hne ⊢
          by_cases h1 : nRecur - 1 = 0
          · have h2 : nRecur.toNat ≤ 1 := by omega
            simp only [h1, if_true, scanTo, hkey, h2, alternate, List.all_cons, List.all_nil,
              Bool.and_true]
          · have h2 : ¬ nRecur.toNat ≤ 1 := by omega
            have h3 : (nRecur - 1).toNat = nRecur.toNat - 1 := by omega
            rw [if_neg h1] at hne ⊢
            rw [ih _ _ _ _ (by omega) hne]
            simp only [scanTo, hkey, h2, if_true, if_false, alternate, List.all_cons, h3,
              Bool.not_false, Bool.and_assoc]
        · rw [if_neg hkey] at hne ⊢
          rw [ih _ _ _ _ h hne]
          simp only [scanTo, hkey, if_false, alternate, List.all_cons,
            Bool.not_false, Bool.and_assoc]
      | false =>
        simp only [Bool.false_eq_true, if_false, Bool.not_false] at hne ⊢
        rw [ih _ _ _ _ h hne]
        simp only [scanTo, alternate, List.all_cons, Bool.not_true, Bool.and_assoc]
    · rw [if_neg hok] at hne
      exact absurd rfl hne

theorem repLoop_four (lpmvs : Int → MoveStruct) (dwKey : Nat) (k : Nat)
    (hq0 : (lpmvs k).wmv ≠ 0 ∧ (lpmvs k).ucpcCaptured = 0)
    (hq1 : (lpmvs (k + 1)).wmv ≠ 0 ∧ (lpmvs (k + 1)).ucpcCaptured = 0)
    (hq2 : (lpmvs (k + 2)).wmv ≠ 0 ∧ (lpmvs (k + 2)).ucpcCaptured = 0)
    (hq3 : (lpmvs (k + 3)).wmv ≠ 0 ∧ (lpmvs (k + 3)).ucpcCaptured = 0)
    (hkey0 : (lpmvs k).dwKey = dwKey) (hkey2 : (lpmvs (k + 2)).dwKey ≠ dwKey)
    (hc0 : (lpmvs k).ucbCheck = true) (hc2 : (lpmvs (k + 2)).ucbCheck = true)
    (hc13 : (lpmvs (k + 1)).ucbCheck = false ∨ (lpmvs (k + 3)).ucbCheck = false) :
    repLoop lpmvs dwKey (k + 4) false true true 1 = 3 := by
  have e3 : ((k + 3 : Nat) : Int) = (k : Int) + 3 := by push_cast; ring
  have e2 : ((k + 2 : Nat) : Int) = (k : Int) + 2 := by push_cast; ring
  have e1 : ((k + 1 : Nat) : Int) = (k : Int) + 1 := by push_cast; ring
  show repLoop lpmvs dwKey (k + 3 + 1) false true true 1 = 3
  rw [repLoop, e3, if_pos hq3]
  simp only [Bool.false_eq_true, if_false, Bool.not_false, Bool.true_and]
  show repLoop lpmvs dwKey (k + 2 + 1) true true (lpmvs (k + 3)).ucbCheck 1 = 3
  rw [repLoop, e2, if_pos hq2]
  simp only [if_true, hkey2, if_false, Bool.not_true, hc2, Bool.and_true]
  show repLoop lpmvs dwKey (k + 1 + 1) false true (lpmvs (k + 3)).ucbCheck 1 = 3
  rw [repLoop, e1, if_pos hq1]
  simp only [Bool.false_eq_true, if_false, Bool.not_false]
  rw [repLoop, if_pos hq0]
  simp only [if_true, hkey0, sub_self, hc0, Bool.and_true]
  rcases hc13 with h | h <;> simp [h]

section
variable (cucvlPiecePos : Int → Int → Int)

theorem makeMove_history (p p1 : PositionStruct) (mv : Int)
    (hmake : makeMove cucvlPiecePos p mv = some (true, p1)) :
    0 ≤ p.nMoveNum ∧ p.nMoveNum < MaxMoves ∧ p1.nMoveNum = p.nMoveNum + 1 ∧
    ∃ c, checked p1 = some c ∧
      p1.mvsList = Function.update p.mvsList p.nMoveNum
        ⟨p.ucpcSquares (dst mv), c, mv, p.zobr.dwKey⟩ := by
  obtain ⟨_, _, h0, hM, c, hc, rfl⟩ := makeMove_eq_true cucvlPiecePos p p1 mv hmake
  refine ⟨h0, hM, rfl, c, ?_, rfl⟩
  rw [← hc]
  exact checked_congr _ _ rfl rfl

theorem makeMove_getD (p : PositionStruct) (mv : Int) (d : Bool × PositionStruct)
    (h : (makeMove cucvlPiecePos p mv).map Prod.fst = some true) :
    makeMove cucvlPiecePos p mv = some (true, ((makeMove cucvlPiecePos p mv).getD d).2) := by
  cases hm : makeMove cucvlPiecePos p mv with
  | none =>
    rw [hm] at h
    exact absurd h (by simp)
  | some r =>
    rw [hm] at h
    simp only [Option.map_some', Option.some.injEq] at h
    obtain ⟨a, b⟩ := r
    simp only at h
    subst h
    rfl

theorem four_plies_repStatus (p0 p1 p2 p3 p : PositionStruct) (m1 m2 m3 m4 : Int)
    (h1 : makeMove cucvlPiecePos p0 m1 = some (true, p1))
    (h2 : makeMove cucvlPiecePos p1 m2 = some (true, p2))
    (h3 : makeMove cucvlPiecePos p2 m3 = some (true, p3))
    (h4 : makeMove cucvlPiecePos p3 m4 = some (true, p))
    (hmv : m1 ≠ 0 ∧ m2 ≠ 0 ∧ m3 ≠ 0 ∧ m4 ≠ 0)
    (hquiet : p0.ucpcSquares (dst m1) = 0 ∧ p1.ucpcSquares (dst m2) = 0 ∧
      p2.ucpcSquares (dst m3) = 0 ∧ p3.ucpcSquares (dst m4) = 0)
    (hkey : p.zobr.dwKey = p0.zobr.dwKey) (hkey2 : p2.zobr.dwKey ≠ p.zobr.dwKey)
    (hc1 : checked p1 = some true) (hc3 : checked p3 = some true)
    (hc24 : checked p2 = some false ∨ checked p = some false) :
    repStatus p 1 = some 3 := by
  obtain ⟨a0, _, n1, c1, k1, l1⟩ := makeMove_history cucvlPiecePos p0 p1 m1 h1
  obtain ⟨_, _, n2, c2, k2, l2⟩ := makeMove_history cucvlPiecePos p1 p2 m2 h2
  obtain ⟨_, _, n3, c3, k3, l3⟩ := makeMove_history cucvlPiecePos p2 p3 m3 h3
  obtain ⟨_, b3, n4, c4, k4, l4⟩ := makeMove_history cucvlPiecePos p3 p m4 h4
  rw [hc1] at k1
  rw [hc3] at k3
  obtain rfl : c1 = true := (Option.some.inj k1).symm
  obtain rfl : c3 = true := (Option.some.inj k3).symm
  have hc24' : c2 = false ∨ c4 = false := by
    rcases hc24 with h | h
    · rw [h] at k2
      exact Or.inl (Option.some.inj k2).symm
    · rw [h] at k4
      exact Or.inr (Option.some.inj k4).symm
  obtain ⟨k, hk⟩ := Int.eq_ofNat_of_zero_le a0
  have e0 : p.mvsList k = ⟨p0.ucpcSquares (dst m1), true, m1, p0.zobr.dwKey⟩ := by
    rw [l4, l3, l2, l1, Function.update_noteq (by omega), Function.update_noteq (by omega),
      Function.update_noteq (by omega), ← hk, Function.update_same]
  have e1 : p.mvsList (k + 1) = ⟨p1.ucpcSquares (dst m2), c2, m2, p1.zobr.dwKey⟩ := by
    rw [l4, l3, l2, Function.update_noteq (by omega), Function.update_noteq (by omega),
      n1, hk, Function.update_same]
  have e2 : p.mvsList (k + 2) = ⟨p2.ucpcSquares (dst m3), true, m3, p2.zobr.dwKey⟩ := by
    rw [l4, l3, Function.update_noteq (by omega)]
    have : p2.nMoveNum = (k : Int) + 2 := by omega
    rw [this, Function.update_same]
  have e3 : p.mvsList (k + 3) = ⟨p3.ucpcSquares (dst m4), c4, m4, p3.zobr.dwKey⟩ := by
    rw [l4]
    have : p3.nMoveNum = (k : Int) + 3 := by omega
    rw [this, Function.update_same]
  have hM : p.nMoveNum - 1 < MaxMoves := by omega
  have hN : p.nMoveNum.toNat = k + 4 := by omega
  unfold repStatus
  rw [if_pos hM, hN]
  rw [repLoop_four p.mvsList p.zobr.dwKey k]
  · rw [e0]
    exact ⟨hmv.1, hquiet.1⟩
  · rw [e1]
    exact ⟨hmv.2.1, hquiet.2.1⟩
  · rw [e2]
    exact ⟨hmv.2.2.1, hquiet.2.2.1⟩
  · rw [e3]
    exact ⟨hmv.2.2.2, hquiet.2.2.2⟩
  · rw [e0]
    exact hkey.symm
  · rw [e2]
    exact hkey2
  · rw [e0]
  · rw [e2]
  · rw [e1, e3]
    exact hc24'

end

/-- C11: whenever the first record `repStatus(n)` reads exists, it returns, and a nonzero
result has bit 0 set, bit 1 set exactly when every self-side record scanned down to and
including the `n`-th key-matching one has its check flag set, and bit 2 set exactly when every
opposing-side record scanned in that range has its check flag set.  In particular, when the
position was reached by four successful `makeMove` calls (nonzero moves onto empty squares)
that bring back the starting `dwKey`, a key the position two plies earlier does not have, and
the first and third ply gave check while the second or the fourth did not, `repStatus(1)`
returns 3. -/
theorem repStatus_perpetual (cucvlPiecePos : Int → Int → Int) (p : PositionStruct) (n : Int)
    (hcap : p.nMoveNum - 1 < MaxMoves) :
    (∃ r, repStatus p n = some r ∧
      (r ≠ 0 →
        Int.land r 1 = 1 ∧
        (Int.land r 2 ≠ 0 ↔ ∀ m ∈ selfSide (scannedTo p n), m.ucbCheck = true) ∧
        (Int.land r 4 ≠ 0 ↔ ∀ m ∈ oppSide (scannedTo p n), m.ucbCheck = true))) ∧
    (∀ (p0 p1 p2 p3 : PositionStruct) (m1 m2 m3 m4 : Int),
      makeMove cucvlPiecePos p0 m1 = some (true, p1) →
      makeMove cucvlPiecePos p1 m2 = some (true, p2) →
      makeMove cucvlPiecePos p2 m3 = some (true, p3) →
      makeMove cucvlPiecePos p3 m4 = some (true, p) →
      m1 ≠ 0 ∧ m2 ≠ 0 ∧ m3 ≠ 0 ∧ m4 ≠ 0 →
      p0.ucpcSquares (dst m1) = 0 ∧ p1.ucpcSquares (dst m2) = 0 ∧
        p2.ucpcSquares (dst m3) = 0 ∧ p3.ucpcSquares (dst m4) = 0 →
      p.zobr.dwKey = p0.zobr.dwKey → p2.zobr.dwKey ≠ p.zobr.dwKey →
      checked p1 = some true → checked p3 = some true →
      checked p2 = some false ∨ checked p = some false →
      repStatus p 1 = some 3) := by
  refine ⟨⟨repLoop p.mvsList p.zobr.dwKey p.nMoveNum.toNat false true true n, ?_, ?_⟩, ?_⟩
  · simp only [repStatus, hcap, if_true]
  · intro hne
    have h1 : 1 ≤ n := by
      by_contra h
      exact hne (repLoop_nonpos _ _ _ _ _ _ _ (by omega))
    have hm := repLoop_mask _ _ _ _ _ _ _ h1 hne
    have hrun : runFrom p.mvsList p.nMoveNum.toNat = scannedRun p := rfl
    rw [hrun] at hm
    simp only [Bool.true_and, Bool.not_false] at hm
    rw [hm]
    simp only [scannedTo, oppSide, ← alternate_false, ← List.all_eq_true]
    cases (alternate false (scanTo p.zobr.dwKey false n.toNat (scannedRun p))).all
        (fun m => m.ucbCheck) <;>
      cases (alternate true (scanTo p.zobr.dwKey false n.toNat (scannedRun p))).all
        (fun m => m.ucbCheck) <;> decide
  · intro p0 p1 p2 p3 m1 m2 m3 m4 h1 h2 h3 h4 hmv hq hk hk2 hc1 hc3 hc24
    exact four_plies_repStatus cucvlPiecePos p0 p1 p2 p3 p m1 m2 m3 m4 h1 h2 h3 h4 hmv hq hk hk2
      hc1 hc3 hc24

set_option maxRecDepth 100000 in
theorem perpetual_ply1 :
    makeMove examplePiecePos perpetualStart (move 0x66 0x45) = some (true, perpetualPly1) :=
  makeMove_getD _ _ _ _ (by decide!)

set_option maxRecDepth 100000 in
theorem perpetual_ply2 :
    makeMove examplePiecePos perpetualPly1 (move 0x37 0x47) = some (true, perpetualPly2) :=
  makeMove_getD _ _ _ _ (by decide!)

set_option maxRecDepth 100000 in
theorem perpetual_ply3 :
    makeMove examplePiecePos perpetualPly2 (move 0x45 0x66) = some (true, perpetualPly3) :=
  makeMove_getD _ _ _ _ (by decide!)

set_option maxRecDepth 100000 in
theorem perpetual_ply4 :
    makeMove examplePiecePos perpetualPly3 (move 0x47 0x37) = some (true, perpetualPly4) :=
  makeMove_getD _ _ _ _ (by decide!)

set_option maxRecDepth 100000 in
/-- Instance of C11: a Red Ma checks on every ply, the Black general steps aside and back;
Red is to move again. -/
theorem repStatus_perpetual_witness :
    repStatus perpetualPly4 1 = some 3 ∧ perpetualPly4.sdPlayer = 0 ∧
      inCheck perpetualPly1 = some true ∧ inCheck perpetualPly3 = some true ∧
      inCheck perpetualPly2 = some false :=
  ⟨(repStatus_perpetual examplePiecePos perpetualPly4 1 (by decide!)).2
    perpetualStart perpetualPly1 perpetualPly2 perpetualPly3
    (move 0x66 0x45) (move 0x37 0x47) (move 0x45 0x66) (move 0x47 0x37)
    perpetual_ply1 perpetual_ply2 perpetual_ply3 perpetual_ply4
    (by decide!) (by decide!) (by decide!) (by decide!) (by decide!) (by decide!)
    (Or.inl (by decide!)), by decide!, by decide!, by decide!, by decide!⟩

theorem wrapInt_eq (x : Int) (h1 : -(2 ^ 63) ≤ x) (h2 : x < 2 ^ 63) : wrapInt x = x := by
  unfold wrapInt
  rw [Int.emod_eq_of_lt (by omega) (by omega)]
  omega

/-- C20 (amended): for a move `mv != 0` and a score `vl` with `|vl| <= WinValue`, or with
`|vl| >= BanValue` in a position with `nDistance >= 0` where the adjusted score
(`vl + nDistance` for `vl >= BanValue`, `vl - nDistance` for `vl <= -BanValue`) stays in the
range of a 64-bit `int`: when the slot of the position holds an entry of depth at most `d`,
`RecordHash(HashPV, vl, d, mv)` followed by `probeHash(alpha, beta, d2)` at the same
position, for any `alpha`, `beta` and `d2 <= d`, returns `(vl, mv)`. -/
theorem recordHash_probeHash (p : PositionStruct) (hashTable : Nat → HashItem)
    (vl d mv vlAlpha vlBeta d2 : Int) (hmv : mv ≠ 0)
    (hvl : (-WinValue ≤ vl ∧ vl ≤ WinValue) ∨ vl ≤ -BanValue ∨ BanValue ≤ vl)
    (hdist : vl ≤ -BanValue ∨ BanValue ≤ vl → 0 ≤ p.nDistance)
    (hhi : BanValue ≤ vl → vl + p.nDistance < 2 ^ 63)
    (hlo : vl ≤ -BanValue → -(2 ^ 63) ≤ vl - p.nDistance)
    (hslot : (hashTable (hashIndex p)).ucDepth ≤ d) (hd : d2 ≤ d) :
    (probeHash p (RecordHash p hashTable HashPV vl d mv) vlAlpha vlBeta d2).1 = (vl, mv) := by
  have hW : WinValue = 9800 := rfl
  have hB : BanValue = 9900 := rfl
  have hnot : ¬ (hashTable (hashIndex p)).ucDepth > d := by omega
  have hpb : ¬ (HashPV = HashBeta) := by decide
  have hpa : ¬ (HashPV = HashAlpha) := by decide
  unfold RecordHash
  simp only [hnot, if_false, hmv, false_and]
  by_cases h1 : vl > WinValue
  · have hb : BanValue ≤ vl := by omega
    have h0 : 0 ≤ p.nDistance := hdist (Or.inr hb)
    have h63 := hhi hb
    have g1 : vl + p.nDistance > WinValue := by omega
    have g2 : ¬ vl + p.nDistance < BanValue := by omega
    rw [wrapInt_eq (vl + p.nDistance) (by omega) h63]
    simp only [h1, if_true, probeHash, Function.update_same, ne_eq, not_true_eq_false, or_self,
      if_false, g1, g2, probeTail, or_true, hpb, hpa, add_sub_cancel_right]
  · by_cases h2 : vl < -WinValue
    · have hb : vl ≤ -BanValue := by omega
      have h0 : 0 ≤ p.nDistance := hdist (Or.inl hb)
      have h63 := hlo hb
      have g1 : ¬ vl - p.nDistance > WinValue := by omega
      have g2 : vl - p.nDistance < -WinValue := by omega
      have g3 : ¬ vl - p.nDistance > -BanValue := by omega
      rw [wrapInt_eq (vl - p.nDistance) h63 (by omega)]
      simp only [h1, h2, if_true, if_false, probeHash, Function.update_same, ne_eq,
        not_true_eq_false, or_self, g1, g2, g3, probeTail, or_true, hpb, hpa,
        sub_add_cancel]
    · have g3 : d ≥ d2 := hd
      simp only [h1, h2, if_false, probeHash, Function.update_same, ne_eq, not_true_eq_false,
        or_self, probeTail, g3, true_or, if_true, hpb, hpa]

set_option maxRecDepth 100000 in
/-- Instance of C20: a mate score stored and probed one ply from the root. -/
theorem recordHash_probeHash_witness :
    (probeHash pinnedAfterJu (RecordHash pinnedAfterJu emptyHashTable HashPV 9950 3
      (move 0x37 0x47)) (-100) 100 2).1 = (9950, move 0x37 0x47) :=
  recordHash_probeHash pinnedAfterJu emptyHashTable 9950 3 (move 0x37 0x47) (-100) 100 2
    (by decide!) (by decide!) (by decide!) (by decide!) (by decide!) (by decide!) (by decide!)

set_option maxRecDepth 100000 in
/-- The round trip of C20 fails at two inputs inside the bounds of the claim, each on a
cleared table with `mv = 0x4737`, `d = 3`, `d2 = 2`.  In `bookReturned`, where `nDistance`
is -1, the score `BanValue = 9900` is stored as 9899, inside the band `probeHash` rejects,
and the probe returns `(-MateValue, mv)`.  In `pinnedAfterJu`, where `nDistance` is 1, the
score `2^63 - 1` is stored as `-2^63` and the probe returns `(-2^63 + 1, mv)`. -/
theorem recordHash_probeHash_counterexample :
    bookReturned.nDistance = -1 ∧
    (emptyHashTable (hashIndex bookReturned)).ucDepth ≤ 3 ∧
    (RecordHash bookReturned emptyHashTable HashPV 9900 3 (move 0x37 0x47)
      (hashIndex bookReturned)).svl = 9899 ∧
    (probeHash bookReturned (RecordHash bookReturned emptyHashTable HashPV 9900 3
      (move 0x37 0x47)) (-100) 100 2).1 = (-MateValue, move 0x37 0x47) ∧
    pinnedAfterJu.nDistance = 1 ∧
    (emptyHashTable (hashIndex pinnedAfterJu)).ucDepth ≤ 3 ∧
    (RecordHash pinnedAfterJu emptyHashTable HashPV 9223372036854775807 3 (move 0x37 0x47)
      (hashIndex pinnedAfterJu)).svl = -9223372036854775808 ∧
    (probeHash pinnedAfterJu (RecordHash pinnedAfterJu emptyHashTable HashPV
      9223372036854775807 3 (move 0x37 0x47)) (-100) 100 2).1 =
      (-9223372036854775807, move 0x37 0x47) := by
  refine ⟨by decide!, by decide!, by decide!, by decide!, by decide!, by decide!, by decide!,
    by decide!⟩

theorem sortSearch_spec (f : Nat → Bool) (n : Nat)
    (hmono : ∀ a b, a ≤ b → b < n → f a = true → f b = true) :
    ∀ (fuel i j : Nat), i ≤ j → j ≤ n → j - i < fuel →
      (∀ k, k < i → f k = false) → (∀ k, j ≤ k → k < n → f k = true) →
      sortSearch f fuel i j ≤ n ∧ (∀ k, k < sortSearch f fuel i j → f k = false) ∧
      (∀ k, sortSearch f fuel i j ≤ k → k < n → f k = true) := by
  intro fuel
  induction fuel with
  | zero =>
    intro i j _ _ hf
    omega
  | succ fuel ih =>
    intro i j hij hjn hf hlo hhi
    unfold sortSearch
    by_cases hlt : i < j
    · rw [if_pos hlt]
      have hh1 : i ≤ (i + j) / 2 := by omega
      have hh2 : (i + j) / 2 < j := by omega
      cases hfh : f ((i + j) / 2) with
      | false =>
        simp only [Bool.not_false, if_true]
        refine ih _ _ (by omega) hjn (by omega) ?_ hhi
        intro k hk
        cases hfk : f k with
        | false => rfl
        | true =>
          have := hmono k ((i + j) / 2) (by omega) (by omega) hfk
          rw [hfh] at this
          exact absurd this (by simp)
      | true =>
        simp only [Bool.not_true, Bool.false_eq_true, if_false]
        refine ih _ _ hh1 (by omega) (by omega) hlo ?_
        intro k hk hkn
        exact hmono _ k hk hkn hfh
    · rw [if_neg hlt]
      have : i = j := by omega
      subst this
      exact ⟨hjn, hlo, hhi⟩

theorem bookAt_ofNat (book : List BookItem) (i : Nat) :
    bookAt book (Int.ofNat i) = book.getD i ⟨0, 0, 0⟩ := rfl

theorem sorted_locks (book : List BookItem)
    (hsorted : book.Pairwise (fun a b => a.dwLock ≤ b.dwLock)) (i j : Nat) (hij : i ≤ j)
    (hj : j < book.length) :
    (book.getD i ⟨0, 0, 0⟩).dwLock ≤ (book.getD j ⟨0, 0, 0⟩).dwLock := by
  rcases Nat.lt_or_ge i j with h | h
  · rw [List.getD_eq_getElem _ _ (show i < book.length by omega), List.getD_eq_getElem _ _ hj]
    exact (List.pairwise_iff_getElem.1 hsorted) i j (by omega) hj h
  · have : i = j := by omega
    subst this
    exact le_refl _

/-- What the binary search returns on a sorted book. -/
theorem bookFind_spec (book : List BookItem) (dwLock : Nat)
    (hsorted : book.Pairwise (fun a b => a.dwLock ≤ b.dwLock)) :
    ∃ r : Nat, bookFind book dwLock = Int.ofNat r ∧ r ≤ book.length ∧
      (∀ k, k < r → (book.getD k ⟨0, 0, 0⟩).dwLock < dwLock) ∧
      (∀ k, r ≤ k → k < book.length → dwLock ≤ (book.getD k ⟨0, 0, 0⟩).dwLock) := by
  have h := sortSearch_spec (fun i => decide ((bookAt book (Int.ofNat i)).dwLock ≥ dwLock))
    book.length ?_ (book.length + 1) 0 book.length (by omega) (le_refl _) (by omega)
    (fun k hk => absurd hk (by omega)) (fun k hk hk2 => absurd hk2 (by omega))
  · refine ⟨_, rfl, h.1, ?_, ?_⟩
    · intro k hk
      have := h.2.1 k hk
      simp only [bookAt_ofNat, ge_iff_le, decide_eq_false_iff_not, not_le] at this
      exact this
    · intro k hk hk2
      have := h.2.2 k hk hk2
      simp only [bookAt_ofNat, ge_iff_le, decide_eq_true_eq] at this
      exact this
  · intro a b hab hb ha
    simp only [bookAt_ofNat, ge_iff_le, decide_eq_true_eq] at ha ⊢
    exact le_trans ha (sorted_locks book hsorted a b hab hb)

theorem bookRewind_spec (book : List BookItem) (dwLock : Nat) (r : Nat) (hr : r < book.length)
    (hlock : (book.getD r ⟨0, 0, 0⟩).dwLock = dwLock)
    (hlo : ∀ k, k < r → (book.getD k ⟨0, 0, 0⟩).dwLock < dwLock) :
    bookRewind book dwLock (book.length + 1) (Int.ofNat r) + 1 = Int.ofNat r := by
  obtain ⟨n, hn⟩ : ∃ n, book.length = n + 1 := ⟨book.length - 1, by omega⟩
  rw [hn]
  have h1 : bookRewind book dwLock (n + 1 + 1) (Int.ofNat r) =
      bookRewind book dwLock (n + 1) (Int.ofNat r - 1) := by
    rw [bookRewind, if_pos ⟨Int.ofNat_nonneg r, by rw [bookAt_ofNat]; exact hlock⟩]
  rw [h1]
  cases r with
  | zero =>
    rw [bookRewind, if_neg (by simp)]
    rfl
  | succ r =>
    have e : Int.ofNat (r + 1) - 1 = Int.ofNat r := by
      simp only [Int.ofNat_eq_coe]
      push_cast
      ring
    rw [e, bookRewind, if_neg]
    · simp only [Int.ofNat_eq_coe]
      push_cast
      ring
    · rw [bookAt_ofNat]
      intro h
      have := hlo r (by omega)
      omega

theorem bookCollect_eq (p : PositionStruct) (book : List BookItem) (dwLock : Nat)
    (bMirror : Bool) :
    ∀ (l : List BookItem) (d fuel : Nat) (acc : List (Int × Int)), book.drop d = l →
      l.length < fuel →
      bookCollect p book dwLock bMirror fuel (Int.ofNat d) acc =
        collectList p dwLock bMirror l acc := by
  intro l
  induction l with
  | nil =>
    intro d fuel acc hd hf
    cases fuel with
    | zero => omega
    | succ fuel =>
      have hlen : book.length ≤ d := List.drop_eq_nil_iff.1 hd
      rw [bookCollect, if_neg, collectList]
      intro h
      have := h.1
      simp only [Int.ofNat_eq_coe, Nat.cast_lt] at this
      omega
  | cons e rest ih =>
    intro d fuel acc hd hf
    cases fuel with
    | zero => omega
    | succ fuel =>
      have hlt : d < book.length := by
        by_contra h
        rw [List.drop_eq_nil_iff.2 (by omega)] at hd
        exact absurd hd (by simp)
      rw [List.drop_eq_getElem_cons hlt] at hd
      have he : book[d] = e := (List.cons.inj hd).1
      have hrest : book.drop (d + 1) = rest := (List.cons.inj hd).2
      have hat : bookAt book (Int.ofNat d) = e := by
        rw [bookAt_ofNat, List.getD_eq_getElem _ _ hlt, he]
      have hsucc : Int.ofNat d + 1 = Int.ofNat (d + 1) := rfl
      have hlt2 : Int.ofNat d < (book.length : Int) := by
        simp only [Int.ofNat_eq_coe, Nat.cast_lt]
        exact hlt
      rw [bookCollect, collectList, hat, hsucc]
      simp only [List.length_cons] at hf
      by_cases hl : e.dwLock = dwLock
      · rw [if_pos ⟨hlt2, hl⟩, if_pos hl]
        rw [ih (d + 1) fuel acc hrest (by omega)]
        rw [ih (d + 1) fuel (acc ++ [((if bMirror then mirrorMove e.wmv else e.wmv), e.wvl)])
          hrest (by omega)]
      · rw [if_neg (fun h => hl h.2), if_neg hl]

theorem bookEntries_cons_miss (p : PositionStruct) (bMirror : Bool) (dwLock : Nat)
    (e : BookItem) (l : List BookItem) (h : e.dwLock ≠ dwLock) :
    bookEntries p bMirror dwLock (e :: l) = bookEntries p bMirror dwLock l := by
  unfold bookEntries
  rw [List.filter_cons_of_neg (by simpa using h)]

theorem bookEntries_empty (p : PositionStruct) (bMirror : Bool) (dwLock : Nat)
    (l : List BookItem) (h : ∀ e ∈ l, e.dwLock ≠ dwLock) :
    bookEntries p bMirror dwLock l = [] := by
  induction l with
  | nil => rfl
  | cons e l ih =>
    rw [bookEntries_cons_miss p bMirror dwLock e l (h e (List.mem_cons_self _ _))]
    exact ih (fun x hx => h x (List.mem_cons_of_mem _ hx))

theorem collectList_spec (p : PositionStruct) (dwLock : Nat) (bMirror : Bool) :
    ∀ (l : List BookItem) (acc : List (Int × Int)),
      l.Pairwise (fun a b => a.dwLock ≤ b.dwLock) → (∀ e ∈ l, dwLock ≤ e.dwLock) →
      (∀ e ∈ l, legalMove p (if bMirror then mirrorMove e.wmv else e.wmv) ≠ none) →
      acc.length < MaxGenMoves →
      collectList p dwLock bMirror l acc =
        some (acc ++ (bookEntries p bMirror dwLock l).take (MaxGenMoves - acc.length)) := by
  intro l
  induction l with
  | nil =>
    intro acc _ _ _ _
    simp only [collectList, bookEntries, List.filter_nil, List.filterMap_nil, List.take_nil,
      List.append_nil]
  | cons e rest ih =>
    intro acc hs hge hl hcap
    have hs2 := (List.pairwise_cons.1 hs).2
    have hge2 : ∀ x ∈ rest, dwLock ≤ x.dwLock := fun x hx => hge x (List.mem_cons_of_mem _ hx)
    have hl2 : ∀ x ∈ rest, legalMove p (if bMirror then mirrorMove x.wmv else x.wmv) ≠ none :=
      fun x hx => hl x (List.mem_cons_of_mem _ hx)
    rw [collectList]
    by_cases hlock : e.dwLock = dwLock
    · rw [if_pos hlock]
      have hfilter : bookEntries p bMirror dwLock (e :: rest) =
          (if legalMove p (if bMirror then mirrorMove e.wmv else e.wmv) = some true then
            [((if bMirror then mirrorMove e.wmv else e.wmv), e.wvl)] else []) ++
            bookEntries p bMirror dwLock rest := by
        unfold bookEntries
        rw [List.filter_cons_of_pos (by simpa using hlock), List.filterMap_cons]
        split_ifs with h <;> simp [h]
      cases hleg : legalMove p (if bMirror then mirrorMove e.wmv else e.wmv) with
      | none => exact absurd hleg (hl e (List.mem_cons_self _ _))
      | some c =>
        cases c with
        | true =>
          rw [hfilter, hleg]
          simp only [if_true, List.length_append, List.length_cons, List.length_nil,
            List.singleton_append, zero_add]
          obtain ⟨k, hk⟩ : ∃ k, MaxGenMoves - acc.length = k + 1 :=
            ⟨MaxGenMoves - acc.length - 1, by omega⟩
          rw [hk, List.take_succ_cons]
          by_cases hfull : acc.length + 1 = MaxGenMoves
          · have hk0 : k = 0 := by omega
            simp only [hfull, if_true, hk0, List.take_zero]
          · simp only [hfull, if_false]
            have hlen : (acc ++ [((if bMirror then mirrorMove e.wmv else e.wmv), e.wvl)]).length <
                MaxGenMoves := by
              simp only [List.length_append, List.length_cons, List.length_nil]
              omega
            rw [ih _ hs2 hge2 hl2 hlen]
            have hk2 : MaxGenMoves -
                (acc ++ [((if bMirror then mirrorMove e.wmv else e.wmv), e.wvl)]).length = k := by
              simp only [List.length_append, List.length_cons, List.length_nil]
              omega
            rw [hk2]
            simp
        | false =>
          rw [hfilter, hleg]
          simp only [Option.some.injEq, Bool.false_eq_true, if_false, List.nil_append]
          exact ih _ hs2 hge2 hl2 hcap
    · rw [if_neg hlock]
      have hgt : ∀ x ∈ e :: rest, x.dwLock ≠ dwLock := by
        intro x hx
        rcases List.mem_cons.1 hx with rfl | hx
        · exact hlock
        · have h1 := (List.pairwise_cons.1 hs).1 x hx
          have h2 := hge e (List.mem_cons_self _ _)
          omega
      rw [bookEntries_empty p bMirror dwLock _ hgt, List.take_nil, List.append_nil]

theorem bookEntries_drop (p : PositionStruct) (bMirror : Bool) (dwLock : Nat) :
    ∀ (r : Nat) (book : List BookItem),
      (∀ k, k < r → (book.getD k ⟨0, 0, 0⟩).dwLock < dwLock) →
      bookEntries p bMirror dwLock book = bookEntries p bMirror dwLock (book.drop r) := by
  intro r
  induction r with
  | zero =>
    intro book _
    rfl
  | succ r ih =>
    intro book h
    cases book with
    | nil => rfl
    | cons e t =>
      have h0 := h 0 (by omega)
      simp only [List.getD_cons_zero] at h0
      rw [bookEntries_cons_miss p bMirror dwLock e t (by omega), List.drop_succ_cons]
      refine ih t (fun k hk => ?_)
      have := h (k + 1) (by omega)
      simpa only [List.getD_cons_succ] using this

theorem weightBefore_cons (e : Int × Int) (l : List (Int × Int)) (i : Nat) :
    weightBefore (e :: l) (i + 1) = e.2 + weightBefore l i := by
  simp only [weightBefore, List.take_succ_cons, List.map_cons, List.sum_cons]

theorem weightBefore_zero (l : List (Int × Int)) : weightBefore l 0 = 0 := by
  simp only [weightBefore, List.take_zero, List.map_nil, List.sum_nil]

theorem weightBefore_mono (l : List (Int × Int)) (hw : ∀ e ∈ l, 0 ≤ e.2) :
    ∀ a b : Nat, a ≤ b → weightBefore l a ≤ weightBefore l b := by
  induction l with
  | nil =>
    intro a b _
    simp only [weightBefore, List.take_nil, List.map_nil, List.sum_nil, le_refl]
  | cons e l ih =>
    intro a b hab
    have hw2 : ∀ x ∈ l, 0 ≤ x.2 := fun x hx => hw x (List.mem_cons_of_mem _ hx)
    have he := hw e (List.mem_cons_self _ _)
    cases a with
    | zero =>
      rw [weightBefore_zero]
      cases b with
      | zero => rw [weightBefore_zero]
      | succ b =>
        rw [weightBefore_cons]
        have := ih hw2 0 b (by omega)
        rw [weightBefore_zero] at this
        omega
    | succ a =>
      cases b with
      | zero => omega
      | succ b =>
        rw [weightBefore_cons, weightBefore_cons]
        have := ih hw2 a b (by omega)
        omega

theorem weightBefore_total (l : List (Int × Int)) :
    (l.map Prod.snd).sum = weightBefore l l.length := by
  simp only [weightBefore, List.take_length]

theorem bookPick_spec :
    ∀ (l : List (Int × Int)) (r : Int) (i i0 : Nat), (∀ e ∈ l, 0 ≤ e.2) → i < l.length →
      weightBefore l i ≤ r → r < weightBefore l (i + 1) → bookPick r l i0 = i0 + i := by
  intro l
  induction l with
  | nil =>
    intro r i i0 _ hi
    simp only [List.length_nil] at hi
    omega
  | cons e l ih =>
    intro r i i0 hw hi h1 h2
    have hw2 : ∀ x ∈ l, 0 ≤ x.2 := fun x hx => hw x (List.mem_cons_of_mem _ hx)
    rw [bookPick]
    cases i with
    | zero =>
      rw [weightBefore_cons, weightBefore_zero] at h2
      rw [if_pos (by omega)]
      rfl
    | succ i =>
      rw [weightBefore_cons] at h1 h2
      have h0 := weightBefore_mono l hw2 0 i (by omega)
      rw [weightBefore_zero] at h0
      rw [if_neg (by omega), ih (r - e.2) i (i0 + 1) hw2
        (by simp only [List.length_cons] at hi; omega) (by omega) (by omega)]
      omega

theorem exists_interval :
    ∀ (l : List (Int × Int)) (r : Int), (∀ e ∈ l, 0 ≤ e.2) → 0 ≤ r →
      r < weightBefore l l.length →
      ∃ i, i < l.length ∧ weightBefore l i ≤ r ∧ r < weightBefore l (i + 1) := by
  intro l
  induction l with
  | nil =>
    intro r _ h0 h1
    simp only [List.length_nil, weightBefore_zero] at h1
    omega
  | cons e l ih =>
    intro r hw h0 h1
    have hw2 : ∀ x ∈ l, 0 ≤ x.2 := fun x hx => hw x (List.mem_cons_of_mem _ hx)
    simp only [List.length_cons] at h1 ⊢
    rw [weightBefore_cons] at h1
    by_cases hr : r < e.2
    · refine ⟨0, by omega, ?_, ?_⟩
      · rw [weightBefore_zero]
        exact h0
      · rw [weightBefore_cons, weightBefore_zero]
        omega
    · obtain ⟨i, hi, g1, g2⟩ := ih (r - e.2) hw2 (by omega) (by omega)
      refine ⟨i + 1, by omega, ?_, ?_⟩
      · rw [weightBefore_cons]
        omega
      · rw [weightBefore_cons]
        omega

theorem bookMiss_find (book : List BookItem) (dwLock : Nat)
    (hsorted : book.Pairwise (fun a b => a.dwLock ≤ b.dwLock)) :
    ∃ r : Nat, bookFind book dwLock = Int.ofNat r ∧
      (∀ k, k < r → (book.getD k ⟨0, 0, 0⟩).dwLock < dwLock) ∧
      ((bookMiss book dwLock (Int.ofNat r) = true ∧ ∀ e ∈ book, e.dwLock ≠ dwLock) ∨
        (bookMiss book dwLock (Int.ofNat r) = false ∧ r < book.length ∧
          (book.getD r ⟨0, 0, 0⟩).dwLock = dwLock)) := by
  obtain ⟨r, hr, hrn, hlo, hhi⟩ := bookFind_spec book dwLock hsorted
  refine ⟨r, hr, hlo, ?_⟩
  by_cases hhit : r < book.length ∧ (book.getD r ⟨0, 0, 0⟩).dwLock = dwLock
  · right
    refine ⟨?_, hhit.1, hhit.2⟩
    simp only [bookMiss, bookAt_ofNat, Int.ofNat_eq_coe, Nat.cast_inj, Nat.cast_lt,
      decide_eq_false_iff_not]
    intro h
    rcases h with h | h
    · omega
    · exact h.2 hhit.2
  · left
    constructor
    · simp only [bookMiss, bookAt_ofNat, Int.ofNat_eq_coe, Nat.cast_inj, Nat.cast_lt,
        decide_eq_true_eq]
      by_cases h1 : r = book.length
      · exact Or.inl h1
      · exact Or.inr ⟨by omega, fun h => hhit ⟨by omega, h⟩⟩
    · intro e he hlock
      obtain ⟨k, hk, rfl⟩ := List.getElem_of_mem he
      have hkd : (book.getD k ⟨0, 0, 0⟩).dwLock = dwLock := by
        rw [List.getD_eq_getElem _ _ hk]
        exact hlock
      by_cases hkr : k < r
      · have := hlo k hkr
        omega
      · have h1 := hhi r (le_refl _) (by omega)
        have h2 := sorted_locks book hsorted r k (by omega) hk
        exact hhit ⟨by omega, by omega⟩

theorem bookEntries_weights (p : PositionStruct) (bMirror : Bool) (dwLock : Nat)
    (book : List BookItem) (hweights : ∀ e ∈ book, 0 ≤ e.wvl) :
    ∀ x ∈ bookEntries p bMirror dwLock book, 0 ≤ x.2 := by
  intro x hx
  unfold bookEntries at hx
  obtain ⟨e, he, hxe⟩ := List.mem_filterMap.1 hx
  have hmem := (List.mem_filter.1 he).1
  by_cases hl : legalMove p (if bMirror then mirrorMove e.wmv else e.wmv) = some true
  · rw [if_pos hl] at hxe
    rw [← Option.some.inj hxe]
    exact hweights e hmem
  · rw [if_neg hl] at hxe
    exact absurd hxe (by simp)

theorem searchBookTail_spec (intn : Int → Int) (p : PositionStruct) (book : List BookItem)
    (bMirror : Bool) (dwLock : Nat)
    (hsorted : book.Pairwise (fun a b => a.dwLock ≤ b.dwLock))
    (hweights : ∀ e ∈ book, 0 ≤ e.wvl)
    (hlegal : ∀ e ∈ book, legalMove p (if bMirror then mirrorMove e.wmv else e.wmv) ≠ none)
    (c : List (Int × Int)) (hc : c = (bookEntries p bMirror dwLock book).take MaxGenMoves) :
    (weightBefore c c.length = 0 →
      searchBookTail intn p book bMirror dwLock (bookFind book dwLock) = some 0) ∧
    (∀ i, i < c.length → weightBefore c i ≤ intn (weightBefore c c.length) →
      intn (weightBefore c c.length) < weightBefore c (i + 1) →
      searchBookTail intn p book bMirror dwLock (bookFind book dwLock) =
        some (c.getD i (0, 0)).1) := by
  obtain ⟨r, hr, hlo, hcase⟩ := bookMiss_find book dwLock hsorted
  unfold searchBookTail
  rw [hr]
  rcases hcase with ⟨hmiss, hnone⟩ | ⟨hmiss, hrn, hlock⟩
  · rw [hmiss]
    simp only [if_true]
    refine ⟨fun _ => trivial, fun i hi => ?_⟩
    rw [hc, bookEntries_empty p bMirror dwLock book hnone] at hi
    simp only [List.take_nil, List.length_nil] at hi
    omega
  · rw [hmiss]
    simp only [Bool.false_eq_true, if_false]
    rw [bookRewind_spec book dwLock r hrn hlock hlo]
    have hdrop := bookEntries_drop p bMirror dwLock r book hlo
    have hsub : (book.drop r).Pairwise (fun a b => a.dwLock ≤ b.dwLock) :=
      List.Pairwise.sublist (List.drop_sublist r book) hsorted
    have hge : ∀ e ∈ book.drop r, dwLock ≤ e.dwLock := by
      intro e he
      rw [List.drop_eq_getElem_cons hrn] at he hsub
      have hrl : (book[r]).dwLock = dwLock := by
        rw [← List.getD_eq_getElem _ ⟨0, 0, 0⟩ hrn]
        exact hlock
      rcases List.mem_cons.1 he with rfl | he
      · omega
      · have := (List.pairwise_cons.1 hsub).1 e he
        omega
    have hcol := collectList_spec p dwLock bMirror (book.drop r) [] hsub hge
      (fun e he => hlegal e (List.mem_of_mem_drop he)) (by decide)
    rw [bookCollect_eq p book dwLock bMirror (book.drop r) r (book.length + 1) [] rfl
      (by rw [List.length_drop]; omega), hcol, ← hdrop]
    simp only [List.nil_append, List.length_nil, Nat.sub_zero]
    rw [← hc, weightBefore_total]
    have hw : ∀ x ∈ c, 0 ≤ x.2 := by
      intro x hx
      rw [hc] at hx
      exact bookEntries_weights p bMirror dwLock book hweights x (List.mem_of_mem_take hx)
    have hlen : c.length ≤ MaxGenMoves := by
      rw [hc]
      exact List.length_take_le _ _
    constructor
    · intro h0
      rw [if_pos h0]
    · intro i hi h1 h2
      have hm1 := weightBefore_mono _ hw 0 i (by omega)
      have hm2 := weightBefore_mono _ hw (i + 1) _ (show i + 1 ≤ _ from hi)
      rw [weightBefore_zero] at hm1
      rw [if_neg (by omega), if_neg (by omega), bookPick_spec _ _ i 0 hw hi h1 h2]
      simp only [zero_add]
      rw [if_pos (by omega)]

section BookTheorems

variable (cucvlPiecePos : Int → Int → Int)

theorem searchBook_spec (intn : Int → Int) (zobrist : Zobrist) (p q : PositionStruct)
    (book : List BookItem)
    (hsorted : book.Pairwise (fun a b => a.dwLock ≤ b.dwLock))
    (hweights : ∀ e ∈ book, 0 ≤ e.wvl)
    (hq : mirror cucvlPiecePos p (NewPositionStruct zobrist) = some q)
    (hlegal : ∀ e ∈ book, legalMove p e.wmv ≠ none ∧ legalMove p (mirrorMove e.wmv) ≠ none) :
    (weightBefore (bookCandidates p q book) (bookCandidates p q book).length = 0 →
      searchBook cucvlPiecePos intn zobrist p book = some 0) ∧
    (∀ i, i < (bookCandidates p q book).length →
      weightBefore (bookCandidates p q book) i ≤
        intn (weightBefore (bookCandidates p q book) (bookCandidates p q book).length) →
      intn (weightBefore (bookCandidates p q book) (bookCandidates p q book).length) <
        weightBefore (bookCandidates p q book) (i + 1) →
      searchBook cucvlPiecePos intn zobrist p book =
        some ((bookCandidates p q book).getD i (0, 0)).1) := by
  unfold searchBook
  by_cases hlen : book.length = 0
  · have hb : book = [] := List.length_eq_zero.1 hlen
    subst hb
    simp only [List.length_nil, if_true, bookCandidates, bookMatches, List.any_nil,
      Bool.false_eq_true, if_false, bookEntries, List.filter_nil, List.filterMap_nil,
      List.take_nil, implies_true, true_and]
    intro i hi
    omega
  · rw [if_neg hlen]
    obtain ⟨r, hr, _, hcase⟩ := bookMiss_find book p.zobr.dwLock1 hsorted
    rw [hr]
    rcases hcase with ⟨hmiss, hnone⟩ | ⟨hmiss, hrn, hlock⟩
    · have hany : book.any (fun e => decide (e.dwLock = p.zobr.dwLock1)) = false := by
        rw [List.any_eq_false]
        intro e he
        simpa using hnone e he
      have hc : bookCandidates p q book =
          (bookEntries p true q.zobr.dwLock1 book).take MaxGenMoves := by
        unfold bookCandidates bookMatches
        rw [hany]
        rfl
      rw [hmiss, hq]
      simp only [if_true]
      exact searchBookTail_spec intn p book true q.zobr.dwLock1 hsorted hweights
        (fun e he => (hlegal e he).2) _ hc
    · have hany : book.any (fun e => decide (e.dwLock = p.zobr.dwLock1)) = true := by
        rw [List.any_eq_true]
        refine ⟨book.getD r ⟨0, 0, 0⟩, ?_, by simpa using hlock⟩
        rw [List.getD_eq_getElem _ _ hrn]
        exact List.getElem_mem _
      have hc : bookCandidates p q book =
          (bookEntries p false p.zobr.dwLock1 book).take MaxGenMoves := by
        unfold bookCandidates bookMatches
        rw [hany]
        rfl
      rw [hmiss, ← hr]
      simp only [Bool.false_eq_true, if_false]
      exact searchBookTail_spec intn p book false p.zobr.dwLock1 hsorted hweights
        (fun e he => (hlegal e he).1) _ hc

end BookTheorems

section BookClaim

variable (cucvlPiecePos : Int → Int → Int)

theorem bookCandidates_weights (p q : PositionStruct) (book : List BookItem)
    (hweights : ∀ e ∈ book, 0 ≤ e.wvl) : ∀ x ∈ bookCandidates p q book, 0 ≤ x.2 := by
  intro x hx
  have hx2 : x ∈ bookMatches p q book := List.mem_of_mem_take hx
  unfold bookMatches at hx2
  split_ifs at hx2
  · exact bookEntries_weights p false _ book hweights x hx2
  · exact bookEntries_weights p true _ book hweights x hx2

/-- C15 (amended): for a book sorted ascending by lock with non-negative weights, a draw
function `intn` with `0 <= intn n < n`, and `legalMove` returning on every book move: let the
candidates be the first `MaxGenMoves` (128) pairs, in book order, of the entries under the
position's `dwLock1` (or, when the book has none, under the mirrored position's `dwLock1`,
with mirrored moves) whose move passes `legalMove`, and `W` their total weight.  `searchBook`
returns 0 when the book is empty, when there is no candidate, or when `W = 0`; otherwise it
returns the move of the least `i` with `w_0 + ... + w_i > intn W`; and it returns `m_i` for
every draw in the interval from `w_0 + ... + w_(i-1)` up to, not including,
`w_0 + ... + w_i`, which has `w_i` elements. -/
theorem searchBook_weighted_choice (intn : Int → Int) (zobrist : Zobrist)
    (p q : PositionStruct) (book : List BookItem)
    (hsorted : book.Pairwise (fun a b => a.dwLock ≤ b.dwLock))
    (hweights : ∀ e ∈ book, 0 ≤ e.wvl)
    (hintn : ∀ n, 0 < n → 0 ≤ intn n ∧ intn n < n)
    (hq : mirror cucvlPiecePos p (NewPositionStruct zobrist) = some q)
    (hlegal : ∀ e ∈ book, legalMove p e.wmv ≠ none ∧ legalMove p (mirrorMove e.wmv) ≠ none) :
    (book = [] → searchBook cucvlPiecePos intn zobrist p book = some 0) ∧
    (bookCandidates p q book = [] → searchBook cucvlPiecePos intn zobrist p book = some 0) ∧
    (weightBefore (bookCandidates p q book) (bookCandidates p q book).length = 0 →
      searchBook cucvlPiecePos intn zobrist p book = some 0) ∧
    (weightBefore (bookCandidates p q book) (bookCandidates p q book).length ≠ 0 →
      ∃ i, i < (bookCandidates p q book).length ∧
        intn (weightBefore (bookCandidates p q book) (bookCandidates p q book).length) <
          weightBefore (bookCandidates p q book) (i + 1) ∧
        (∀ j, j < i → weightBefore (bookCandidates p q book) (j + 1) ≤
          intn (weightBefore (bookCandidates p q book) (bookCandidates p q book).length)) ∧
        searchBook cucvlPiecePos intn zobrist p book =
          some ((bookCandidates p q book).getD i (0, 0)).1) ∧
    (∀ i, i < (bookCandidates p q book).length →
      weightBefore (bookCandidates p q book) i ≤
        intn (weightBefore (bookCandidates p q book) (bookCandidates p q book).length) →
      intn (weightBefore (bookCandidates p q book) (bookCandidates p q book).length) <
        weightBefore (bookCandidates p q book) (i + 1) →
      searchBook cucvlPiecePos intn zobrist p book =
        some ((bookCandidates p q book).getD i (0, 0)).1) := by
  obtain ⟨h1, h2⟩ := searchBook_spec cucvlPiecePos intn zobrist p q book hsorted hweights hq
    hlegal
  have hw := bookCandidates_weights p q book hweights
  refine ⟨fun hb => ?_, fun hc => ?_, h1, fun hne => ?_, h2⟩
  · subst hb
    rfl
  · apply h1
    rw [hc]
    rfl
  · have h0 := weightBefore_mono _ hw 0 (bookCandidates p q book).length (by omega)
    rw [weightBefore_zero] at h0
    obtain ⟨hr0, hr1⟩ := hintn _ (lt_of_le_of_ne h0 (Ne.symm hne))
    obtain ⟨i, hi, g1, g2⟩ := exists_interval _ _ hw hr0 hr1
    refine ⟨i, hi, g2, fun j hj => ?_, h2 i hi g1 g2⟩
    exact le_trans (weightBefore_mono _ hw (j + 1) i (by omega)) g1

end BookClaim

set_option maxRecDepth 100000 in
theorem pinnedMirror_mirror :
    mirror examplePiecePos pinnedPosition (NewPositionStruct exampleZobrist) =
      some pinnedMirror :=
  eq_some_getD _ _ (by decide!)

set_option maxRecDepth 100000 in
/-- Instance of C15: a two-entry book with weights 70 and 30, for the draws 99 and 69. -/
theorem searchBook_weighted_choice_witness :
    searchBook examplePiecePos (fun n => n - 1) exampleZobrist pinnedPosition exampleBook =
      some (move 0x77 0x76) ∧
    searchBook examplePiecePos (fun _ => 69) exampleZobrist pinnedPosition exampleBook =
      some (move 0x77 0x67) :=
  ⟨((searchBook_weighted_choice examplePiecePos (fun n => n - 1) exampleZobrist pinnedPosition
      pinnedMirror exampleBook (by decide!) (by decide!)
      (fun n hn => ⟨by show 0 ≤ n - 1; omega, by show n - 1 < n; omega⟩)
      pinnedMirror_mirror (by decide!)).2.2.2.2 1 (by decide!) (by decide!)
      (by decide!)).trans (by decide!),
   by decide!⟩

set_option maxRecDepth 100000 in
/-- A sorted book with non-negative weights and 129 entries that match and pass `legalMove`:
their total weight is 5, all of it on the last entry, which every draw below 5 selects
according to the weights; `searchBook` returns 0. -/
theorem searchBook_weighted_choice_counterexample :
    longBook.Pairwise (fun a b => a.dwLock ≤ b.dwLock) ∧ (∀ e ∈ longBook, 0 ≤ e.wvl) ∧
    (bookMatches pinnedPosition pinnedMirror longBook).length = 129 ∧
    weightBefore (bookMatches pinnedPosition pinnedMirror longBook) 129 = 5 ∧
    weightBefore (bookMatches pinnedPosition pinnedMirror longBook) 128 = 0 ∧
    ((bookMatches pinnedPosition pinnedMirror longBook).getD 128 (0, 0)).1 = move 0x77 0x76 ∧
    searchBook examplePiecePos (fun _ => 0) exampleZobrist pinnedPosition longBook = some 0 := by
  decide!

/-! ## Transposition table: probe and store -/

set_option maxRecDepth 100000 in
/-- C22 at a concrete input: `RecordHash(HashAlpha, 9850, 3, 0)` on a slot that holds a
depth-2 PV entry with score 50 overwrites the depth and the flag of the slot and keeps its
score, move and locks, and the next `probeHash(100, 200, 3)` returns the score 50 as a
depth-3 upper bound. -/
theorem recordHash_skip_writes :
    quietHashTable (hashIndex pinnedAfterJu) =
      ⟨2, HashPV, 50, move 0x37 0x47, pinnedAfterJu.zobr.dwLock0,
        pinnedAfterJu.zobr.dwLock1, 0⟩ ∧
    RecordHash pinnedAfterJu quietHashTable HashAlpha 9850 3 0 (hashIndex pinnedAfterJu) =
      ⟨3, HashAlpha, 50, move 0x37 0x47, pinnedAfterJu.zobr.dwLock0,
        pinnedAfterJu.zobr.dwLock1, 0⟩ ∧
    (probeHash pinnedAfterJu quietHashTable 100 200 3).1 = (-MateValue, move 0x37 0x47) ∧
    (probeHash pinnedAfterJu (RecordHash pinnedAfterJu quietHashTable HashAlpha 9850 3 0)
      100 200 3).1 = (50, move 0x37 0x47) := by
  decide!

set_option maxRecDepth 100000 in
/-- C23 at a concrete input: one ply from the root, on a slot that holds the mate score
9951, `probeHash(-100, 100, 2)` returns `(9950, move)` and leaves 9950 in the slot, and the
same probe repeated returns `(9949, move)`. -/
theorem probeHash_writes :
    (mateHashTable (hashIndex pinnedAfterJu)).svl = 9951 ∧
    (probeHash pinnedAfterJu mateHashTable (-100) 100 2).1 = (9950, move 0x37 0x47) ∧
    ((probeHash pinnedAfterJu mateHashTable (-100) 100 2).2 (hashIndex pinnedAfterJu)).svl =
      9950 ∧
    (probeHash pinnedAfterJu (probeHash pinnedAfterJu mateHashTable (-100) 100 2).2
      (-100) 100 2).1 = (9949, move 0x37 0x47) := by
  decide!

/-! ## RC4 key stream -/

theorem land_255 (a : Nat) : Int.land (a : Int) 255 = ((a % 256 : Nat) : Int) := by
  show Int.land (Int.ofNat a) (Int.ofNat 255) = _
  simp only [Int.land]
  have := Nat.and_pow_two_sub_one_eq_mod a 8
  simp only [Nat.reducePow, Nat.add_one_sub_one] at this
  rw [this]

theorem getD_map_ofNat (S : List Nat) (n : Nat) :
    (S.map Int.ofNat).getD n 0 = ((S.getD n 0 : Nat) : Int) :=
  List.getD_map S 0 Int.ofNat

theorem swapCells_map (S : List Nat) (i j : Nat) :
    swapCells (S.map Int.ofNat) (i : Int) (j : Int) = (rc4Swap S i j).map Int.ofNat := by
  simp only [swapCells, rc4Swap, Int.toNat_ofNat, getD_map_ofNat, List.map_set]
  rfl

theorem rc4Swap_bound (S : List Nat) (i j : Nat) (h : ∀ e ∈ S, e < 256) :
    ∀ e ∈ rc4Swap S i j, e < 256 := by
  have hg : ∀ n, S.getD n 0 < 256 := by
    intro n
    rw [List.getD_eq_getElem?_getD]
    cases hn : S[n]? with
    | none => simp
    | some v => exact h v (List.getElem?_mem hn)
  intro e he
  unfold rc4Swap at he
  rcases List.mem_or_eq_of_mem_set he with he | rfl
  · rcases List.mem_or_eq_of_mem_set he with he | rfl
    · exact h e he
    · exact hg j
  · exact hg i

theorem getD_bound (S : List Nat) (h : ∀ e ∈ S, e < 256) (n : Nat) : S.getD n 0 < 256 := by
  rw [List.getD_eq_getElem?_getD]
  cases hn : S[n]? with
  | none => simp
  | some v => exact h v (List.getElem?_mem hn)

theorem getD_zero_key (k m : Nat) : (List.replicate k 0).getD m 0 = 0 := by
  rw [List.getD_eq_getElem?_getD, List.getElem?_replicate]
  split_ifs <;> rfl

theorem initZero_loop (k : Nat) (l : List Nat) :
    ∀ (j : Nat) (S : List Nat),
      (l.map Int.ofNat).foldl initZeroStep ((j : Int), S.map Int.ofNat) =
        ((((l.foldl (rc4KsaStep (List.replicate k 0)) (j, S)).1 : Nat) : Int),
          (l.foldl (rc4KsaStep (List.replicate k 0)) (j, S)).2.map Int.ofNat) := by
  induction l with
  | nil => intro j S; rfl
  | cons i l ih =>
    intro j S
    simp only [List.map_cons, List.foldl_cons]
    have e : initZeroStep ((j : Int), S.map Int.ofNat) (Int.ofNat i) =
        ((((rc4KsaStep (List.replicate k 0) (j, S) i).1 : Nat) : Int),
          (rc4KsaStep (List.replicate k 0) (j, S) i).2.map Int.ofNat) := by
      simp only [initZeroStep, rc4KsaStep, Int.ofNat_eq_coe, Int.toNat_ofNat, getD_map_ofNat,
        getD_zero_key, add_zero]
      rw [← Nat.cast_add, land_255, swapCells_map]
    rw [e]
    exact ih _ _

theorem ksa_bound (key : List Nat) (l : List Nat) :
    ∀ (j : Nat) (S : List Nat), (∀ e ∈ S, e < 256) →
      ∀ e ∈ (l.foldl (rc4KsaStep key) (j, S)).2, e < 256 := by
  induction l with
  | nil => intro j S h; exact h
  | cons i l ih =>
    intro j S h
    simp only [List.foldl_cons]
    exact ih _ _ (rc4Swap_bound S _ _ h)

theorem rc4Ksa_bound (key : List Nat) : ∀ e ∈ rc4Ksa key, e < 256 := by
  apply ksa_bound
  intro e he
  exact List.mem_range.1 he

theorem initZero_identity_loop (n : Nat) (hn : n ≤ 256) :
    ((List.range n).map Int.ofNat).foldl (fun (s : List Int) i => s.set i.toNat i)
        (List.replicate 256 0) =
      (List.range n).map Int.ofNat ++ List.replicate (256 - n) 0 := by
  induction n with
  | zero => rfl
  | succ n ih =>
    rw [List.range_succ, List.map_append, List.foldl_append, ih (by omega)]
    simp only [List.map_cons, List.map_nil, List.foldl_cons, List.foldl_nil, Int.toNat_ofNat]
    have e : 256 - n = (256 - (n + 1)) + 1 := by omega
    rw [e, List.replicate_succ, List.set_append_right _ _ (by simp), List.append_assoc]
    simp

theorem initZero_identity :
    allSquares.foldl (fun (s : List Int) i => s.set i.toNat i) RC4Struct.zero.s =
      (List.range 256).map Int.ofNat := by
  have := initZero_identity_loop 256 (le_refl _)
  simp only [Nat.sub_self, List.replicate_zero, List.append_nil] at this
  exact this

theorem cellAt_pack (l : List Nat) (h : ∀ e ∈ l, e < 256) :
    ∀ i, cellAt (packCells l) i = l.getD i 0 := by
  induction l with
  | nil =>
    intro i
    simp [cellAt, packCells]
  | cons a t ih =>
    intro i
    have ha := h a (List.mem_cons_self _ _)
    have ht := ih (fun e he => h e (List.mem_cons_of_mem _ he))
    cases i with
    | zero =>
      simp only [cellAt, packCells, pow_zero, Nat.div_one, List.getD_cons_zero]
      omega
    | succ i =>
      simp only [List.getD_cons_succ, ← ht i, cellAt, packCells]
      rw [pow_succ, mul_comm (256 ^ i) 256, ← Nat.div_div_eq_div_mul]
      congr 2
      omega

theorem setCell_pack (l : List Nat) (h : ∀ e ∈ l, e < 256) :
    ∀ i v, i < l.length → packCells (l.set i v) = setCell (packCells l) i v := by
  induction l with
  | nil =>
    intro i v hi
    simp at hi
  | cons a t ih =>
    intro i v hi
    have ha := h a (List.mem_cons_self _ _)
    have ht := ih (fun e he => h e (List.mem_cons_of_mem _ he))
    cases i with
    | zero =>
      simp only [List.set_cons_zero, packCells, setCell, pow_zero, Nat.mod_one, zero_add,
        mul_one, pow_one]
      omega
    | succ i =>
      simp only [List.set_cons_succ, packCells, List.length_cons] at hi ⊢
      rw [ht i v (by omega)]
      simp only [setCell]
      have e1 : (a + 256 * packCells t) % 256 ^ (i + 1) = a + 256 * (packCells t % 256 ^ i) := by
        rw [pow_succ, mul_comm (256 ^ i) 256, Nat.mod_mul]
        congr 1
        · omega
        · congr 2
          omega
      have e2 : (a + 256 * packCells t) / 256 ^ (i + 1 + 1) = packCells t / 256 ^ (i + 1) := by
        rw [pow_succ 256 (i + 1), mul_comm (256 ^ (i + 1)) 256, ← Nat.div_div_eq_div_mul]
        congr 1
        omega
      rw [e1, e2]
      ring

theorem rc4Swap_pack (S : List Nat) (i j : Nat) (h : ∀ e ∈ S, e < 256) (hi : i < S.length)
    (hj : j < S.length) : packCells (rc4Swap S i j) = swapPacked (packCells S) i j := by
  unfold rc4Swap swapPacked
  rw [setCell_pack _ ?_ j _ (by rw [List.length_set]; exact hj), setCell_pack S h i _ hi,
    cellAt_pack S h, cellAt_pack S h]
  intro e he
  rcases List.mem_or_eq_of_mem_set he with he | rfl
  · exact h e he
  · exact getD_bound S h j

theorem rc4Swap_length (S : List Nat) (i j : Nat) : (rc4Swap S i j).length = S.length := by
  simp only [rc4Swap, List.length_set]

theorem ksa_pack (l : List Nat) (hl : ∀ i ∈ l, i < 256) :
    ∀ (j : Nat) (S : List Nat), (∀ e ∈ S, e < 256) → S.length = 256 →
      l.foldl ksaStepPacked (j, packCells S) =
        ((l.foldl (rc4KsaStep []) (j, S)).1, packCells (l.foldl (rc4KsaStep []) (j, S)).2) ∧
      (∀ e ∈ (l.foldl (rc4KsaStep []) (j, S)).2, e < 256) ∧
      (l.foldl (rc4KsaStep []) (j, S)).2.length = 256 := by
  induction l with
  | nil => intro j S h hlen; exact ⟨rfl, h, hlen⟩
  | cons i l ih =>
    intro j S h hlen
    have hi := hl i (List.mem_cons_self _ _)
    simp only [List.foldl_cons]
    have e : ksaStepPacked (j, packCells S) i =
        ((rc4KsaStep [] (j, S) i).1, packCells (rc4KsaStep [] (j, S) i).2) := by
      simp only [ksaStepPacked, rc4KsaStep, cellAt_pack S h, List.getD_nil, add_zero]
      rw [rc4Swap_pack S _ _ h (by omega) (by omega)]
    rw [e]
    exact ih (fun i hi => hl i (List.mem_cons_of_mem _ hi)) _ _ (rc4Swap_bound S _ _ h)
      (by simp only [rc4KsaStep, rc4Swap_length]; exact hlen)

theorem round_pack (st : Nat × Nat × List Nat) (h : ∀ e ∈ st.2.2, e < 256)
    (hlen : st.2.2.length = 256) :
    roundPacked (st.1, st.2.1, packCells st.2.2) =
      ((rc4Round st).1, (rc4Round st).2.1, (rc4Round st).2.2.1,
        packCells (rc4Round st).2.2.2) ∧
    (∀ e ∈ (rc4Round st).2.2.2, e < 256) ∧ (rc4Round st).2.2.2.length = 256 := by
  obtain ⟨i, j, S⟩ := st
  simp only [] at h hlen
  have hs := rc4Swap_bound S ((i + 1) % 256) ((j + S.getD ((i + 1) % 256) 0) % 256) h
  refine ⟨?_, hs, by simp only [rc4Round, rc4Swap_length]; exact hlen⟩
  simp only [roundPacked, rc4Round, cellAt_pack S h]
  rw [← rc4Swap_pack S _ _ h (by omega) (by omega)]
  simp only [cellAt_pack _ hs]

theorem prga_pack (n : Nat) :
    ∀ st : Nat × Nat × List Nat, (∀ e ∈ st.2.2, e < 256) → st.2.2.length = 256 →
      prgaPacked n (st.1, st.2.1, packCells st.2.2) = rc4Prga n st := by
  induction n with
  | zero => intro st _ _; rfl
  | succ n ih =>
    intro st h hlen
    obtain ⟨e, hb, hl⟩ := round_pack st h hlen
    unfold prgaPacked rc4Prga
    rw [e]
    simp only []
    rw [ih _ hb hl]

set_option maxRecDepth 100000 in
theorem prgaPacked_zero :
    prgaPacked 4 (0, 0, ((List.range 256).foldl ksaStepPacked
      (0, packCells (List.range 256))).2) = [0xDE, 0x18, 0x89, 0x41] := by
  decide!

theorem rc4Keystream_zero : rc4Keystream [] 4 = [0xDE, 0x18, 0x89, 0x41] := by
  obtain ⟨e, hb, hl⟩ := ksa_pack (List.range 256) (fun i hi => List.mem_range.1 hi) 0
    (List.range 256) (fun i hi => List.mem_range.1 hi) (List.length_range 256)
  rw [← prgaPacked_zero, e]
  unfold rc4Keystream rc4Ksa
  generalize (List.range 256).foldl (rc4KsaStep []) (0, List.range 256) = r at hb hl ⊢
  exact (prga_pack 4 (0, 0, r.2) hb hl).symm

theorem initZero_spec (k : Nat) :
    RC4Struct.zero.initZero = ⟨(rc4Ksa (List.replicate k 0)).map Int.ofNat, 0, 0⟩ := by
  unfold RC4Struct.initZero
  rw [initZero_identity]
  have := initZero_loop k (List.range 256) 0 (List.range 256)
  unfold allSquares
  simp only [Nat.cast_zero] at this
  simp only [this]
  rfl

theorem nextByte_spec (st : Nat × Nat × List Nat) (h : ∀ e ∈ st.2.2, e < 256) :
    RC4Struct.nextByte ⟨st.2.2.map Int.ofNat, (st.1 : Int), (st.2.1 : Int)⟩ =
      ((rc4Round st).1, ⟨(rc4Round st).2.2.2.map Int.ofNat, ((rc4Round st).2.1 : Int),
        ((rc4Round st).2.2.1 : Int)⟩) ∧
    (rc4Round st).1 < 256 ∧ ∀ e ∈ (rc4Round st).2.2.2, e < 256 := by
  obtain ⟨i, j, S⟩ := st
  simp only [] at h
  have e1 : Int.land ((i : Int) + 1) 255 = (((i + 1) % 256 : Nat) : Int) := by
    rw [← land_255]
    rfl
  have hs := rc4Swap_bound S ((i + 1) % 256) ((j + S.getD ((i + 1) % 256) 0) % 256) h
  refine ⟨?_, getD_bound _ hs _, hs⟩
  unfold RC4Struct.nextByte rc4Round
  simp only [e1, Int.toNat_ofNat, getD_map_ofNat]
  rw [← Nat.cast_add, land_255]
  simp only [Int.toNat_ofNat, swapCells_map, getD_map_ofNat]
  rw [← Nat.cast_add, land_255]
  simp only [Int.toNat_ofNat]
  have hb := getD_bound _ hs
    (((rc4Swap S ((i + 1) % 256) ((j + S.getD ((i + 1) % 256) 0) % 256)).getD
              ((i + 1) % 256) 0 +
            (rc4Swap S ((i + 1) % 256) ((j + S.getD ((i + 1) % 256) 0) % 256)).getD
              ((j + S.getD ((i + 1) % 256) 0) % 256) 0) % 256)
  congr 1
  omega

theorem nextBytes_spec (n : Nat) :
    ∀ st : Nat × Nat × List Nat, (∀ e ∈ st.2.2, e < 256) →
      nextBytes n ⟨st.2.2.map Int.ofNat, (st.1 : Int), (st.2.1 : Int)⟩ = rc4Prga n st := by
  induction n with
  | zero => intro st _; rfl
  | succ n ih =>
    intro st h
    obtain ⟨e, _, hb⟩ := nextByte_spec st h
    unfold nextBytes rc4Prga
    rw [e]
    simp only []
    rw [ih _ hb]

theorem nextLong_spec (st : Nat × Nat × List Nat) (h : ∀ e ∈ st.2.2, e < 256) :
    RC4Struct.nextLong ⟨st.2.2.map Int.ofNat, (st.1 : Int), (st.2.1 : Int)⟩ =
      ((rc4Round st).1 + 256 * (rc4Round (rc4Round st).2).1 +
          65536 * (rc4Round (rc4Round (rc4Round st).2).2).1 +
          16777216 * (rc4Round (rc4Round (rc4Round (rc4Round st).2).2).2).1,
        ⟨(rc4Round (rc4Round (rc4Round (rc4Round st).2).2).2).2.2.2.map Int.ofNat,
          ((rc4Round (rc4Round (rc4Round (rc4Round st).2).2).2).2.1 : Int),
          ((rc4Round (rc4Round (rc4Round (rc4Round st).2).2).2).2.2.1 : Int)⟩) ∧
    ∀ e ∈ (rc4Round (rc4Round (rc4Round (rc4Round st).2).2).2).2.2.2, e < 256 := by
  obtain ⟨e0, b0, h0⟩ := nextByte_spec st h
  generalize rc4Round st = r0 at e0 b0 h0 ⊢
  obtain ⟨e1, b1, h1⟩ := nextByte_spec _ h0
  generalize rc4Round r0.2 = r1 at e1 b1 h1 ⊢
  obtain ⟨e2, b2, h2⟩ := nextByte_spec _ h1
  generalize rc4Round r1.2 = r2 at e2 b2 h2 ⊢
  obtain ⟨e3, b3, h3⟩ := nextByte_spec _ h2
  generalize rc4Round r2.2 = r3 at e3 b3 h3 ⊢
  refine ⟨?_, h3⟩
  unfold RC4Struct.nextLong
  simp only []
  rw [e0]
  simp only []
  rw [e1]
  simp only []
  rw [e2]
  simp only []
  rw [e3]
  simp only [Nat.shiftLeft_eq]
  congr 1
  omega

theorem nextLongs_spec (n : Nat) :
    ∀ st : Nat × Nat × List Nat, (∀ e ∈ st.2.2, e < 256) →
      nextLongs n ⟨st.2.2.map Int.ofNat, (st.1 : Int), (st.2.1 : Int)⟩ =
        littleEndianWords (rc4Prga (4 * n) st) := by
  induction n with
  | zero => intro st _; rfl
  | succ n ih =>
    intro st h
    have e4 : 4 * (n + 1) = 4 * n + 1 + 1 + 1 + 1 := by ring
    obtain ⟨e, hb⟩ := nextLong_spec st h
    rw [e4]
    unfold nextLongs
    rw [e]
    simp only []
    rw [ih _ hb]
    rfl

theorem nextLong_bytes (r : RC4Struct) (b0 b1 b2 b3 : Nat)
    (h : nextBytes 4 r = [b0, b1, b2, b3]) :
    r.nextLong.1 =
      (b0 + (b1 <<< 8) % 2 ^ 32 + (b2 <<< 16) % 2 ^ 32 + (b3 <<< 24) % 2 ^ 32) % 2 ^ 32 := by
  simp only [nextBytes, List.cons.injEq, and_true] at h
  obtain ⟨h0, h1, h2, h3⟩ := h
  unfold RC4Struct.nextLong
  simp only [h0, h1, h2, h3]

theorem initRC4_key (rc4 : RC4Struct) : (ZobristStruct.initRC4 rc4).1.dwKey = rc4.nextLong.1 :=
  rfl

theorem initZobrist_player :
    initZobrist.Player = (ZobristStruct.initRC4 RC4Struct.zero.initZero).1 :=
  rfl

theorem nextBytes_initZero (k n : Nat) :
    nextBytes n RC4Struct.zero.initZero = rc4Keystream (List.replicate k 0) n := by
  have hb := rc4Ksa_bound (List.replicate k 0)
  rw [initZero_spec k]
  unfold rc4Keystream
  generalize rc4Ksa (List.replicate k 0) = K at hb ⊢
  exact nextBytes_spec n (0, 0, K) hb

theorem initZero_bytes : nextBytes 4 RC4Struct.zero.initZero = [0xDE, 0x18, 0x89, 0x41] :=
  (nextBytes_initZero 0 4).trans rc4Keystream_zero

set_option maxRecDepth 100000 in
theorem littleEndian_first :
    (0xDE + (0x18 <<< 8) % 2 ^ 32 + (0x89 <<< 16) % 2 ^ 32 + (0x41 <<< 24) % 2 ^ 32) % 2 ^ 32 =
      0x418918DE := by
  decide!

theorem initZero_long : RC4Struct.zero.initZero.nextLong.1 = 0x418918DE :=
  Eq.trans (nextLong_bytes RC4Struct.zero.initZero 0xDE 0x18 0x89 0x41 initZero_bytes)
    littleEndian_first

/-- C28: the bytes `nextByte` returns after `initZero` on a zero-valued `RC4Struct` are the
keystream of textbook RC4 under an all-zero key (of any length `k`), the words `nextLong`
returns are that keystream read four bytes to a word, least significant byte first, the
first four bytes are 0xDE, 0x18, 0x89, 0x41, and the `dwKey` of the side-to-move triple that
`initZobrist` draws first is 0x418918DE. -/
theorem rc4_keystream (k n : Nat) :
    nextBytes n RC4Struct.zero.initZero = rc4Keystream (List.replicate k 0) n ∧
    nextLongs n RC4Struct.zero.initZero =
      littleEndianWords (rc4Keystream (List.replicate k 0) (4 * n)) ∧
    nextBytes 4 RC4Struct.zero.initZero = [0xDE, 0x18, 0x89, 0x41] ∧
    RC4Struct.zero.initZero.nextLong.1 = 0x418918DE ∧
    initZobrist.Player.dwKey = 0x418918DE := by
  have hb := rc4Ksa_bound (List.replicate k 0)
  refine ⟨nextBytes_initZero k n, ?_, initZero_bytes, initZero_long, ?_⟩
  · rw [initZero_spec k]
    unfold rc4Keystream
    generalize rc4Ksa (List.replicate k 0) = K at hb ⊢
    exact nextLongs_spec n (0, 0, K) hb
  · exact (congrArg ZobristStruct.dwKey initZobrist_player).trans
      ((initRC4_key RC4Struct.zero.initZero).trans initZero_long)

/-! ## Size of the move list -/

theorem length_flatMap_le {α β : Type} (f : α → List β) (k : Nat) (l : List α)
    (h : ∀ x ∈ l, (f x).length ≤ k) : (l.flatMap f).length ≤ l.length * k := by
  induction l with
  | nil => simp
  | cons a t ih =>
    have h1 := h a (List.mem_cons_self _ _)
    have h2 := ih (fun x hx => h x (List.mem_cons_of_mem _ hx))
    simp only [List.flatMap_cons, List.length_append, List.length_cons]
    have : (t.length + 1) * k = t.length * k + k := by ring
    omega

theorem room_step (nDelta sq : Int) (hd : nDelta = -16 ∨ nDelta = -1 ∨ nDelta = 1 ∨ nDelta = 16)
    (h : inBoard sq = true) : 1 + room nDelta (sq + nDelta) ≤ room nDelta sq := by
  have hb := inBoard_bounds sq h
  unfold room
  rw [if_pos h]
  by_cases h2 : inBoard (sq + nDelta) = true
  · have hb2 := inBoard_bounds _ h2
    rw [if_pos h2]
    rcases hd with rfl | rfl | rfl | rfl <;> simp only [rankY, fileX] <;> norm_num <;> omega
  · rw [if_neg h2]
    rcases hd with rfl | rfl | rfl | rfl <;> simp only [rankY, fileX] <;> norm_num <;> omega

theorem room_pos (nDelta sq : Int) (h : inBoard sq = true) : 1 ≤ room nDelta sq := by
  have hb := inBoard_bounds sq h
  unfold room
  rw [if_pos h]
  simp only [rankY, fileX]
  split_ifs <;> omega

theorem room_total (sq : Int) (h : inBoard sq = true) :
    room (-16) (sq + -16) + room (-1) (sq + -1) + room 1 (sq + 1) + room 16 (sq + 16) ≤ 17 := by
  have hb := inBoard_bounds sq h
  have h1 := room_step (-16) sq (by omega) h
  have h2 := room_step (-1) sq (by omega) h
  have h3 := room_step 1 sq (by omega) h
  have h4 := room_step 16 sq (by omega) h
  have e1 : room (-16) sq = (sq / 16 - 2).toNat := by
    simp only [room, h, if_true, rankY]
  have e2 : room (-1) sq = (sq % 16 - 2).toNat := by
    simp only [room, h, if_true, fileX]
    norm_num
  have e3 : room 1 sq = (12 - sq % 16).toNat := by
    simp only [room, h, if_true, fileX]
    norm_num
  have e4 : room 16 sq = (13 - sq / 16).toNat := by
    simp only [room, h, if_true, rankY]
    norm_num
  omega

theorem juLoop_length (b : Int → Int) (c : Bool) (opp sqSrc nDelta : Int)
    (hd : nDelta = -16 ∨ nDelta = -1 ∨ nDelta = 1 ∨ nDelta = 16) :
    ∀ (fuel : Nat) (sqDst : Int),
      (juLoop b c opp sqSrc nDelta fuel sqDst).length ≤ room nDelta sqDst := by
  intro fuel
  induction fuel with
  | zero => intro sqDst; simp [juLoop]
  | succ fuel ih =>
    intro sqDst
    unfold juLoop
    by_cases h : inBoard sqDst = true
    · have hs := room_step nDelta sqDst hd h
      have hi := ih (sqDst + nDelta)
      rw [if_pos h]
      by_cases h0 : b sqDst = 0
      · rw [if_pos h0, List.length_append]
        have : (if (!c) = true then [move sqSrc sqDst] else []).length ≤ 1 := by
          split_ifs <;> simp
        omega
      · rw [if_neg h0]
        split_ifs <;> simp
        omega
    · rw [if_neg h]
      simp

theorem paoLoop1_length (b : Int → Int) (c : Bool) (sqSrc nDelta : Int)
    (hd : nDelta = -16 ∨ nDelta = -1 ∨ nDelta = 1 ∨ nDelta = 16) :
    ∀ (fuel : Nat) (sqDst : Int), inBoard (sqDst - nDelta) = true →
      inBoard ((paoLoop1 b c sqSrc nDelta fuel sqDst).2 - nDelta) = true ∧
      (paoLoop1 b c sqSrc nDelta fuel sqDst).1.length +
        room nDelta (paoLoop1 b c sqSrc nDelta fuel sqDst).2 ≤ room nDelta sqDst := by
  intro fuel
  induction fuel with
  | zero => intro sqDst h; exact ⟨h, by simp [paoLoop1]⟩
  | succ fuel ih =>
    intro sqDst hprev
    unfold paoLoop1
    by_cases h : inBoard sqDst = true
    · rw [if_pos h]
      by_cases h0 : b sqDst = 0
      · rw [if_pos h0]
        have hs := room_step nDelta sqDst hd h
        have hi := ih (sqDst + nDelta) (by rw [add_sub_cancel_right]; exact h)
        refine ⟨hi.1, ?_⟩
        simp only [List.length_append]
        have : (if (!c) = true then [move sqSrc sqDst] else []).length ≤ 1 := by
          split_ifs <;> simp
        omega
      · rw [if_neg h0]
        exact ⟨hprev, by simp⟩
    · rw [if_neg h]
      exact ⟨hprev, by simp⟩

theorem paoLoop2_length (b : Int → Int) (opp sqSrc nDelta : Int) (fuel : Nat) (sqDst : Int) :
    (paoLoop2 b opp sqSrc nDelta fuel sqDst).length ≤ 1 ∧
    (inBoard sqDst = false → (paoLoop2 b opp sqSrc nDelta fuel sqDst).length = 0) := by
  induction fuel generalizing sqDst with
  | zero => simp [paoLoop2]
  | succ fuel ih =>
    unfold paoLoop2
    by_cases h : inBoard sqDst = true
    · rw [if_pos h]
      refine ⟨?_, fun hn => by rw [h] at hn; cases hn⟩
      split_ifs
      · simp
      · simp
      · exact (ih _).1
    · rw [if_neg h]
      simp

theorem beyond_edge (nDelta sq : Int)
    (hd : nDelta = -16 ∨ nDelta = -1 ∨ nDelta = 1 ∨ nDelta = 16)
    (h1 : inBoard (sq - nDelta) = true) (h2 : inBoard sq = false) :
    inBoard (sq + nDelta) = false := by
  have hb := inBoard_bounds _ h1
  simp only [inBoard, rankY, fileX, decide_eq_false_iff_not] at h2 ⊢
  rcases hd with rfl | rfl | rfl | rfl <;> omega

theorem pao_length (b : Int → Int) (c : Bool) (opp sqSrc nDelta : Int)
    (hd : nDelta = -16 ∨ nDelta = -1 ∨ nDelta = 1 ∨ nDelta = 16)
    (hin : inBoard sqSrc = true) :
    ((paoLoop1 b c sqSrc nDelta 16 (sqSrc + nDelta)).1 ++
      paoLoop2 b opp sqSrc nDelta 16
        ((paoLoop1 b c sqSrc nDelta 16 (sqSrc + nDelta)).2 + nDelta)).length ≤
      room nDelta (sqSrc + nDelta) := by
  obtain ⟨h1, h2⟩ := paoLoop1_length b c sqSrc nDelta hd 16 (sqSrc + nDelta)
    (by rw [add_sub_cancel_right]; exact hin)
  generalize paoLoop1 b c sqSrc nDelta 16 (sqSrc + nDelta) = r at h1 h2 ⊢
  obtain ⟨h3, h4⟩ := paoLoop2_length b opp sqSrc nDelta 16 (r.2 + nDelta)
  rw [List.length_append]
  by_cases hr : inBoard r.2 = true
  · have := room_pos nDelta r.2 hr
    omega
  · have hr' : inBoard r.2 = false := by simpa using hr
    have := h4 (beyond_edge nDelta r.2 hd h1 hr')
    omega

theorem emit_length (c : Bool) (a b d : Int) (g : Bool) (mv : Int) :
    (if g then ([] : List Int) else if emitOk c a b d then [mv] else []).length ≤ 1 := by
  split_ifs <;> simp

theorem genPiece_length (p : PositionStruct) (c : Bool) (sq : Int) :
    (genPiece p c sq).length ≤
      if inBoard sq then moveCap (p.ucpcSquares sq - sideTag p.sdPlayer) else 0 := by
  unfold genPiece
  by_cases hin : inBoard sq = true
  swap
  · simp [hin]
  simp only [hin, Bool.not_true, Bool.false_eq_true, if_false, if_true]
  by_cases hself : Int.land (p.ucpcSquares sq) (sideTag p.sdPlayer) = 0
  · simp [hself]
  rw [if_neg hself]
  have hd4 : ∀ d ∈ ccJiangDelta, d = -16 ∨ d = -1 ∨ d = 1 ∨ d = 16 := by
    intro d hd
    simpa [ccJiangDelta] using hd
  by_cases hJ : p.ucpcSquares sq - sideTag p.sdPlayer = PieceJiang
  · rw [if_pos hJ, hJ]
    refine (length_flatMap_le _ 1 _ (fun d _ => ?_)).trans (by decide)
    split_ifs <;> simp
  rw [if_neg hJ]
  by_cases hS : p.ucpcSquares sq - sideTag p.sdPlayer = PieceShi
  · rw [if_pos hS, hS]
    refine (length_flatMap_le _ 1 _ (fun d _ => ?_)).trans (by decide)
    split_ifs <;> simp
  rw [if_neg hS]
  by_cases hX : p.ucpcSquares sq - sideTag p.sdPlayer = PieceXiang
  · rw [if_pos hX, hX]
    refine (length_flatMap_le _ 1 _ (fun d _ => ?_)).trans (by decide)
    split_ifs <;> simp
  rw [if_neg hX]
  by_cases hM : p.ucpcSquares sq - sideTag p.sdPlayer = PieceMa
  · rw [if_pos hM, hM]
    refine (length_flatMap_le _ 2 _ (fun x hx => ?_)).trans (by decide)
    split_ifs
    · simp
    · have hlen : x.2.length = 2 := by
        simp only [ccJiangDelta, ccMaDelta, List.zip_cons_cons, List.zip_nil_right,
          List.mem_cons, List.mem_singleton, List.not_mem_nil, or_false] at hx
        rcases hx with rfl | rfl | rfl | rfl <;> rfl
      refine (length_flatMap_le _ 1 _ (fun m _ => ?_)).trans (by rw [hlen])
      split_ifs <;> simp
  rw [if_neg hM]
  by_cases hU : p.ucpcSquares sq - sideTag p.sdPlayer = PieceJu
  · rw [if_pos hU, hU]
    have ht := room_total sq hin
    have h1 := juLoop_length p.ucpcSquares c (oppSideTag p.sdPlayer) sq (-16) (by omega) 16
      (sq + -16)
    have h2 := juLoop_length p.ucpcSquares c (oppSideTag p.sdPlayer) sq (-1) (by omega) 16
      (sq + -1)
    have h3 := juLoop_length p.ucpcSquares c (oppSideTag p.sdPlayer) sq 1 (by omega) 16
      (sq + 1)
    have h4 := juLoop_length p.ucpcSquares c (oppSideTag p.sdPlayer) sq 16 (by omega) 16
      (sq + 16)
    simp only [ccJiangDelta, List.flatMap_cons, List.flatMap_nil, List.length_append,
      List.length_nil, add_zero]
    have : moveCap PieceJu = 17 := by decide
    omega
  rw [if_neg hU]
  by_cases hP : p.ucpcSquares sq - sideTag p.sdPlayer = PiecePao
  · rw [if_pos hP, hP]
    have ht := room_total sq hin
    have h1 := pao_length p.ucpcSquares c (oppSideTag p.sdPlayer) sq (-16) (by omega) hin
    have h2 := pao_length p.ucpcSquares c (oppSideTag p.sdPlayer) sq (-1) (by omega) hin
    have h3 := pao_length p.ucpcSquares c (oppSideTag p.sdPlayer) sq 1 (by omega) hin
    have h4 := pao_length p.ucpcSquares c (oppSideTag p.sdPlayer) sq 16 (by omega) hin
    simp only [ccJiangDelta, List.flatMap_cons, List.flatMap_nil, List.length_append,
      List.length_nil, add_zero] at h1 h2 h3 h4 ⊢
    have : moveCap PiecePao = 17 := by decide
    omega
  rw [if_neg hP]
  by_cases hB : p.ucpcSquares sq - sideTag p.sdPlayer = PieceBing
  · rw [if_pos hB, hB]
    have h1 : (if (inBoard (squareForward sq p.sdPlayer) &&
        emitOk c (sideTag p.sdPlayer) (oppSideTag p.sdPlayer)
          (p.ucpcSquares (squareForward sq p.sdPlayer))) = true
        then [move sq (squareForward sq p.sdPlayer)] else []).length ≤ 1 := by
      split_ifs <;> simp
    have h2 : (if hasRiver sq p.sdPlayer = true then
        ([-1, 1] : List Int).flatMap (fun nDelta =>
          if (inBoard (sq + nDelta) &&
              emitOk c (sideTag p.sdPlayer) (oppSideTag p.sdPlayer)
                (p.ucpcSquares (sq + nDelta))) = true
          then [move sq (sq + nDelta)] else [])
        else []).length ≤ 2 := by
      split_ifs
      · refine (length_flatMap_le _ 1 _ (fun d _ => ?_)).trans (by decide)
        split_ifs <;> simp
      · simp
    rw [List.length_append]
    have : moveCap PieceBing = 3 := by decide
    omega
  rw [if_neg hB]
  simp

theorem moveCap_sum (x T : Int) :
    moveCap (x - T) =
      4 * (if x = T + PieceJiang then 1 else 0) + 4 * (if x = T + PieceShi then 1 else 0) +
      4 * (if x = T + PieceXiang then 1 else 0) + 8 * (if x = T + PieceMa then 1 else 0) +
      17 * (if x = T + PieceJu then 1 else 0) + 17 * (if x = T + PiecePao then 1 else 0) +
      3 * (if x = T + PieceBing then 1 else 0) := by
  simp only [PieceJiang, PieceShi, PieceXiang, PieceMa, PieceJu, PiecePao, PieceBing, moveCap]
  have h : x - T = 0 ∨ x - T = 1 ∨ x - T = 2 ∨ x - T = 3 ∨ x - T = 4 ∨ x - T = 5 ∨ x - T = 6 ∨
      (x - T ≠ 0 ∧ x - T ≠ 1 ∧ x - T ≠ 2 ∧ x - T ≠ 3 ∧ x - T ≠ 4 ∧ x - T ≠ 5 ∧ x - T ≠ 6) := by
    omega
  rcases h with h | h | h | h | h | h | h | h
  · obtain rfl : x = T + 0 := by omega
    simp
  · obtain rfl : x = T + 1 := by omega
    simp
  · obtain rfl : x = T + 2 := by omega
    simp
  · obtain rfl : x = T + 3 := by omega
    simp
  · obtain rfl : x = T + 4 := by omega
    simp
  · obtain rfl : x = T + 5 := by omega
    simp
  · obtain rfl : x = T + 6 := by omega
    simp
  · obtain ⟨h0, h1, h2, h3, h4, h5, h6⟩ := h
    rw [if_neg h0, if_neg h1, if_neg h2, if_neg h3, if_neg h4, if_neg h5, if_neg h6,
      if_neg (by omega), if_neg (by omega), if_neg (by omega), if_neg (by omega),
      if_neg (by omega), if_neg (by omega), if_neg (by omega)]

theorem generateMoves_length_le (p : PositionStruct) (c : Bool) (l : List Int) :
    (l.flatMap (genPiece p c)).length ≤
      4 * l.countP (fun sq => inBoard sq &&
          decide (p.ucpcSquares sq = sideTag p.sdPlayer + PieceJiang)) +
      4 * l.countP (fun sq => inBoard sq &&
          decide (p.ucpcSquares sq = sideTag p.sdPlayer + PieceShi)) +
      4 * l.countP (fun sq => inBoard sq &&
          decide (p.ucpcSquares sq = sideTag p.sdPlayer + PieceXiang)) +
      8 * l.countP (fun sq => inBoard sq &&
          decide (p.ucpcSquares sq = sideTag p.sdPlayer + PieceMa)) +
      17 * l.countP (fun sq => inBoard sq &&
          decide (p.ucpcSquares sq = sideTag p.sdPlayer + PieceJu)) +
      17 * l.countP (fun sq => inBoard sq &&
          decide (p.ucpcSquares sq = sideTag p.sdPlayer + PiecePao)) +
      3 * l.countP (fun sq => inBoard sq &&
          decide (p.ucpcSquares sq = sideTag p.sdPlayer + PieceBing)) := by
  induction l with
  | nil => simp
  | cons sq l ih =>
    have hg := genPiece_length p c sq
    simp only [List.flatMap_cons, List.length_append, List.countP_cons, Bool.and_eq_true,
      decide_eq_true_eq]
    by_cases hin : inBoard sq = true
    · rw [if_pos hin, moveCap_sum] at hg
      simp only [hin, true_and]
      generalize (if p.ucpcSquares sq = sideTag p.sdPlayer + PieceJiang then 1 else 0) = i0
        at hg ⊢
      generalize (if p.ucpcSquares sq = sideTag p.sdPlayer + PieceShi then 1 else 0) = i1
        at hg ⊢
      generalize (if p.ucpcSquares sq = sideTag p.sdPlayer + PieceXiang then 1 else 0) = i2
        at hg ⊢
      generalize (if p.ucpcSquares sq = sideTag p.sdPlayer + PieceMa then 1 else 0) = i3
        at hg ⊢
      generalize (if p.ucpcSquares sq = sideTag p.sdPlayer + PieceJu then 1 else 0) = i4
        at hg ⊢
      generalize (if p.ucpcSquares sq = sideTag p.sdPlayer + PiecePao then 1 else 0) = i5
        at hg ⊢
      generalize (if p.ucpcSquares sq = sideTag p.sdPlayer + PieceBing then 1 else 0) = i6
        at hg ⊢
      omega
    · rw [if_neg hin] at hg
      simp only [hin, Bool.false_eq_true, false_and, if_false, add_zero]
      omega

theorem generateMoves_length_cap (p : PositionStruct) (c : Bool)
    (hJiang : countPiece p PieceJiang ≤ 1) (hShi : countPiece p PieceShi ≤ 2)
    (hXiang : countPiece p PieceXiang ≤ 2) (hMa : countPiece p PieceMa ≤ 2)
    (hJu : countPiece p PieceJu ≤ 2) (hPao : countPiece p PiecePao ≤ 2)
    (hBing : countPiece p PieceBing ≤ 5) :
    (generateMoves p c).length ≤ 119 := by
  have h := generateMoves_length_le p c allSquares
  unfold countPiece countCode at hJiang hShi hXiang hMa hJu hPao hBing
  unfold generateMoves
  omega

/-- C29: when the side to move has at most 1 Jiang, 2 Shi, 2 Xiang, 2 Ma, 2 Ju, 2 Pao and
5 Bing on on-board squares, `generateMoves` (with either flag) returns a count of at most
128, the length of the `MaxGenMoves` buffers. -/
theorem generateMoves_bound (p : PositionStruct) (c : Bool)
    (hJiang : countPiece p PieceJiang ≤ 1) (hShi : countPiece p PieceShi ≤ 2)
    (hXiang : countPiece p PieceXiang ≤ 2) (hMa : countPiece p PieceMa ≤ 2)
    (hJu : countPiece p PieceJu ≤ 2) (hPao : countPiece p PiecePao ≤ 2)
    (hBing : countPiece p PieceBing ≤ 5) :
    (generateMoves p c).length ≤ MaxGenMoves :=
  (generateMoves_length_cap p c hJiang hShi hXiang hMa hJu hPao hBing).trans (by decide)

set_option maxRecDepth 100000 in
/-- Instance of C29: `pinnedPosition`. -/
theorem generateMoves_bound_witness : (generateMoves pinnedPosition false).length ≤ MaxGenMoves :=
  generateMoves_bound pinnedPosition false (by decide!) (by decide!) (by decide!) (by decide!)
    (by decide!) (by decide!) (by decide!)

/-! ## Move ordering and the book branch at concrete inputs -/

set_option maxRecDepth 100000 in
/-- C24 at a concrete input: in `bingPosition`, with the history score 9 on the move Jiang
e1-f1 and 0 on every other move, the first `nextSort` runs the phase GEN and leaves the six
moves in the order `generateMoves` wrote them, the move with the score 9 last behind five
moves with the score 0. -/
theorem nextSort_history_order
    (sortLong : (List Int → Nat → Nat → Bool) → List Int → List Int) :
    generateMoves bingPosition false =
      [move 0x67 0x57, move 0x67 0x66, move 0x67 0x68, move 0xc7 0xb7, move 0xc7 0xc6,
        move 0xc7 0xc8] ∧
    (initSort bingPosition historySearch 0).bind (nextSort sortLong bingPosition historySearch) =
      some (move 0x67 0x57, ⟨0, 0, 0, PhaseRest, 1, 6,
        [move 0x67 0x57, move 0x67 0x66, move 0x67 0x68, move 0xc7 0xb7, move 0xc7 0xc6,
          move 0xc7 0xc8]⟩) ∧
    historySearch.nHistoryTable (move 0x67 0x57) = 0 ∧
    historySearch.nHistoryTable (move 0xc7 0xc8) = 9 := by
  refine ⟨by decide!, ?_, by decide!, by decide!⟩
  rfl

set_option maxRecDepth 100000 in
/-- C27 at a concrete input: in `bookPosition` the book move Ma e6-d8 passes `legalMove` and
is returned by `searchBook`, `makeMove` rejects it because it uncovers the generals and
leaves the position as it was, and `searchMain` returns through the book branch after an
`undoMakeMove` that takes back the previous ply, the Black Ma move c8-d10: Black is to move,
`nMoveNum` is 1 instead of 2, `nDistance` is -1, and the Black Ma stands on c8 again. -/
theorem searchMainBook_unbalanced :
    bookPosition.sdPlayer = 0 ∧ bookPosition.nMoveNum = 2 ∧
    bookPosition.ucpcSquares 0x36 = 19 ∧ bookPosition.ucpcSquares 0x55 = 0 ∧
    legalMove bookPosition (move 0x77 0x56) = some true ∧
    searchBook examplePiecePos (fun _ => 0) exampleZobrist bookRoot pinnedBook =
      some (move 0x77 0x56) ∧
    (makeMove examplePiecePos bookRoot (move 0x77 0x56)).map
      (fun r => (r.1, r.2.sdPlayer, r.2.nMoveNum, r.2.nDistance, r.2.ucpcSquares 0x77,
        r.2.ucpcSquares 0x56)) = some (false, 0, 2, 0, 11, 0) ∧
    (searchMainBook examplePiecePos (fun _ => 0) exampleZobrist bookPosition pinnedBook).map
      (fun r => (r.1, r.2.1.sdPlayer, r.2.1.nMoveNum, r.2.1.nDistance)) =
      some (true, 1, 1, -1) ∧
    (searchMainBook examplePiecePos (fun _ => 0) exampleZobrist bookPosition pinnedBook).map
      (fun r => (r.2.1.ucpcSquares 0x36, r.2.1.ucpcSquares 0x55,
        decide (r.2.1.zobr = bookPosition.zobr))) = some (0, 19, false) := by
  refine ⟨by decide!, by decide!, by decide!, by decide!, by decide!, by decide!, by decide!,
    by decide!, by decide!⟩

/-! ## Search: termination -/

section SearchLemmas

variable (cucvlPiecePos : Int → Int → Int) (cucMvvLva : Int → Int)
  (sortLong : (List Int → Nat → Nat → Bool) → List Int → List Int)

theorem undoMovePiece_nDistance (q : PositionStruct) (mv c : Int) :
    (undoMovePiece cucvlPiecePos q mv c).nDistance = q.nDistance := by
  unfold undoMovePiece
  simp only []
  split_ifs <;>
  simp only [(addPiece_fields cucvlPiecePos _ _ _).2.2.2.2.2.2.1,
    (delPiece_fields cucvlPiecePos _ _ _).2.2.2.2.2.2.1]

theorem makeMove_nDistance (p : PositionStruct) (mv : Int) (r : Bool × PositionStruct)
    (h : makeMove cucvlPiecePos p mv = some r) :
    r.2.nDistance = p.nDistance + (if r.1 = true then 1 else 0) := by
  obtain ⟨b, p1⟩ := r
  cases b with
  | true =>
    obtain ⟨_, _, _, _, c, _, rfl⟩ := makeMove_eq_true cucvlPiecePos p p1 mv h
    simp
  | false =>
    obtain ⟨_, _, rfl⟩ := makeMove_eq_false cucvlPiecePos p p1 mv h
    simp [undoMovePiece_nDistance, (movePiece_frame cucvlPiecePos p mv).2.1]

theorem undoMakeMove_nDistance (p q : PositionStruct)
    (h : undoMakeMove cucvlPiecePos p = some q) : q.nDistance = p.nDistance - 1 := by
  unfold undoMakeMove at h
  simp only [] at h
  split_ifs at h
  simp only [Option.some.injEq] at h
  rw [← h, undoMovePiece_nDistance]
  rfl

theorem nullMove_nDistance (p q : PositionStruct) (h : nullMove p = some q) :
    q.nDistance = p.nDistance + 1 := by
  unfold nullMove at h
  simp only [] at h
  split_ifs at h
  simp only [Option.some.injEq] at h
  rw [← h]
  rfl

theorem undoNullMove_nDistance (p : PositionStruct) :
    (undoNullMove p).nDistance = p.nDistance - 1 := rfl

theorem quiescLoop_bounded
    (searchNext : PositionStruct → Int → Int → Outcome (Int × PositionStruct)) (d : Int)
    (hnext : ∀ q a b, q.nDistance = d + 1 →
      searchNext q a b ≠ .exhausted ∧ ∀ r, searchNext q a b = .done r → r.2.nDistance = d + 1)
    (mvs : List Int) :
    ∀ (p : PositionStruct) (vlAlpha vlBeta vlBest : Int), p.nDistance = d →
      quiescLoop cucvlPiecePos searchNext mvs p vlAlpha vlBeta vlBest ≠ .exhausted ∧
      ∀ r, quiescLoop cucvlPiecePos searchNext mvs p vlAlpha vlBeta vlBest = .done r →
        r.2.nDistance = d := by
  induction mvs with
  | nil =>
    intro p vlAlpha vlBeta vlBest hd
    unfold quiescLoop
    split_ifs
    · exact ⟨by simp, fun r hr => by cases hr; exact hd⟩
    · exact ⟨by simp, fun r hr => by cases hr; exact hd⟩
  | cons mv mvs ih =>
    intro p vlAlpha vlBeta vlBest hd
    unfold quiescLoop
    cases hm : makeMove cucvlPiecePos p mv with
    | none => exact ⟨by simp, fun r hr => by simp at hr⟩
    | some res =>
      obtain ⟨b, p1⟩ := res
      have hn := makeMove_nDistance cucvlPiecePos p mv _ hm
      cases b with
      | false =>
        simp only [Bool.false_eq_true, if_false, add_zero] at hn
        exact ih p1 vlAlpha vlBeta vlBest (hn.trans hd)
      | true =>
        simp only [if_true] at hn
        obtain ⟨h1, h2⟩ := hnext p1 (-vlBeta) (-vlAlpha) (by rw [hn, hd])
        simp only []
        cases hs : searchNext p1 (-vlBeta) (-vlAlpha) with
        | failed => exact ⟨by simp, fun r hr => by simp at hr⟩
        | exhausted => exact absurd hs h1
        | done r =>
          have hr := h2 r hs
          simp only []
          cases hu : undoMakeMove cucvlPiecePos r.2 with
          | none => exact ⟨by simp, fun r hr => by simp at hr⟩
          | some p3 =>
            have h3 : p3.nDistance = d := by
              rw [undoMakeMove_nDistance cucvlPiecePos _ _ hu, hr]
              omega
            simp only []
            split_ifs <;>
              first
              | exact ⟨by simp, fun r hr => by cases hr; exact h3⟩
              | exact ih p3 _ _ _ h3

theorem searchQuiesc_bounded (nHistoryTable : Int → Int) (fuel : Nat) :
    ∀ (p : PositionStruct) (vlAlpha vlBeta : Int), p.nDistance ≤ LimitDepth →
      (LimitDepth - p.nDistance).toNat < fuel →
      searchQuiesc cucvlPiecePos cucMvvLva sortLong nHistoryTable fuel p vlAlpha vlBeta ≠
        .exhausted ∧
      ∀ r, searchQuiesc cucvlPiecePos cucMvvLva sortLong nHistoryTable fuel p vlAlpha vlBeta =
        .done r → r.2.nDistance = p.nDistance := by
  induction fuel with
  | zero => intro p _ _ _ hf; omega
  | succ fuel ih =>
    intro p vlAlpha vlBeta hL hf
    have hnext : p.nDistance ≠ LimitDepth → ∀ q a b, q.nDistance = p.nDistance + 1 →
        searchQuiesc cucvlPiecePos cucMvvLva sortLong nHistoryTable fuel q a b ≠ .exhausted ∧
        ∀ r, searchQuiesc cucvlPiecePos cucMvvLva sortLong nHistoryTable fuel q a b = .done r →
          r.2.nDistance = p.nDistance + 1 := by
      intro hne q a b hq
      have := ih q a b (by omega) (by omega)
      rw [hq] at this
      exact this
    unfold searchQuiesc
    cases hrep : repStatus p 1 with
    | none => exact ⟨by simp, fun r hr => by simp at hr⟩
    | some vl =>
      simp only []
      by_cases h1 : vl ≠ 0
      · rw [if_pos h1]
        exact ⟨by simp, fun r hr => by cases hr; rfl⟩
      rw [if_neg h1]
      by_cases h2 : p.nDistance = LimitDepth
      · rw [if_pos h2]
        exact ⟨by simp, fun r hr => by cases hr; rfl⟩
      rw [if_neg h2]
      cases hc : inCheck p with
      | none => exact ⟨by simp, fun r hr => by simp at hr⟩
      | some c =>
        cases c <;> simp only [] <;> split_ifs <;>
          first
          | exact ⟨by simp, fun r hr => by cases hr; rfl⟩
          | exact ⟨by simp, fun r hr => by simp at hr⟩
          | exact quiescLoop_bounded cucvlPiecePos _ p.nDistance (hnext h2) _ p _ _ _ rfl

theorem nextSortRest_spec (fuel : Nat) :
    ∀ (s s1 : SortStruct) (mv : Int), nextSortRest fuel s = some (mv, s1) →
      s1.nPhase = s.nPhase ∧ s1.nGenMoves = s.nGenMoves ∧
      (mv ≠ 0 → s.nIndex < s1.nIndex ∧ s1.nIndex ≤ s.nGenMoves) := by
  induction fuel with
  | zero =>
    intro s s1 mv h
    simp only [nextSortRest, Option.some.injEq, Prod.mk.injEq] at h
    obtain ⟨rfl, rfl⟩ := h
    exact ⟨rfl, rfl, fun h => absurd rfl h⟩
  | succ fuel ih =>
    intro s s1 mv h
    unfold nextSortRest at h
    by_cases h1 : s.nIndex < s.nGenMoves
    · rw [if_pos h1] at h
      by_cases h2 : 0 ≤ s.nIndex ∧ s.nIndex < s.mvs.length
      · rw [if_pos h2] at h
        split_ifs at h
        · simp only [Option.some.injEq, Prod.mk.injEq] at h
          obtain ⟨_, rfl⟩ := h
          exact ⟨rfl, rfl, fun _ => ⟨by simp, by simp only []; omega⟩⟩
        · obtain ⟨e1, e2, e3⟩ := ih _ _ _ h
          refine ⟨e1, e2, fun hmv => ?_⟩
          have := e3 hmv
          simp only [] at this
          omega
      · rw [if_neg h2] at h
        cases h
    · rw [if_neg h1] at h
      simp only [Option.some.injEq, Prod.mk.injEq] at h
      obtain ⟨rfl, rfl⟩ := h
      exact ⟨rfl, rfl, fun h => absurd rfl h⟩

theorem nextSortGen_measure (p : PositionStruct) (search : Search) (s s1 : SortStruct)
    (mv : Int) (h : nextSortGen sortLong p search s = some (mv, s1)) (hmv : mv ≠ 0) :
    sortMeasure s1 < s.mvs.length + 1 := by
  unfold nextSortGen at h
  split_ifs at h with hlen
  obtain ⟨e1, e2, e3⟩ := nextSortRest_spec _ _ _ _ h
  have := e3 hmv
  simp only [] at e1 e2 this
  have hp : s1.nPhase = 4 := e1
  simp only [sortMeasure, PhaseHash, PhaseKiller1, PhaseKiller2, PhaseGenMoves, PhaseRest, hp]
  norm_num
  omega

theorem nextSortKiller2_measure (p : PositionStruct) (search : Search) (s s1 : SortStruct)
    (mv : Int) (h : nextSortKiller2 sortLong p search s = some (mv, s1)) (hmv : mv ≠ 0) :
    sortMeasure s1 < s.mvs.length + 2 := by
  have hg : ∀ h' : nextSortGen sortLong p search { s with nPhase := PhaseGenMoves } =
      some (mv, s1), sortMeasure s1 < s.mvs.length + 2 := by
    intro h'
    have := nextSortGen_measure sortLong p search _ s1 mv h' hmv
    simp only [] at this
    omega
  unfold nextSortKiller2 at h
  simp only [] at h
  split_ifs at h
  · split at h
    · cases h
    · simp only [Option.some.injEq, Prod.mk.injEq] at h
      obtain ⟨_, rfl⟩ := h
      simp [sortMeasure, PhaseHash, PhaseKiller1, PhaseKiller2, PhaseGenMoves, PhaseRest]
    · exact hg h
  · exact hg h

theorem nextSortKiller1_measure (p : PositionStruct) (search : Search) (s s1 : SortStruct)
    (mv : Int) (h : nextSortKiller1 sortLong p search s = some (mv, s1)) (hmv : mv ≠ 0) :
    sortMeasure s1 < s.mvs.length + 3 := by
  have hg : ∀ h' : nextSortKiller2 sortLong p search { s with nPhase := PhaseKiller2 } =
      some (mv, s1), sortMeasure s1 < s.mvs.length + 3 := by
    intro h'
    have := nextSortKiller2_measure sortLong p search _ s1 mv h' hmv
    simp only [] at this
    omega
  unfold nextSortKiller1 at h
  simp only [] at h
  split_ifs at h
  · split at h
    · cases h
    · simp only [Option.some.injEq, Prod.mk.injEq] at h
      obtain ⟨_, rfl⟩ := h
      simp [sortMeasure, PhaseHash, PhaseKiller1, PhaseKiller2, PhaseGenMoves, PhaseRest]
    · exact hg h
  · exact hg h

theorem nextSort_measure (p : PositionStruct) (search : Search) (s s1 : SortStruct)
    (mv : Int) (h : nextSort sortLong p search s = some (mv, s1)) (hmv : mv ≠ 0) :
    sortMeasure s1 < sortMeasure s := by
  unfold nextSort at h
  by_cases h0 : s.nPhase = PhaseHash
  · have e : sortMeasure s = s.mvs.length + 4 := by
      unfold sortMeasure
      rw [if_pos h0]
    rw [if_pos h0] at h
    split_ifs at h
    · simp only [Option.some.injEq, Prod.mk.injEq] at h
      obtain ⟨_, rfl⟩ := h
      rw [e]
      simp [sortMeasure, PhaseHash, PhaseKiller1, PhaseKiller2, PhaseGenMoves, PhaseRest]
    · have := nextSortKiller1_measure sortLong p search _ s1 mv h hmv
      simp only [] at this
      omega
  rw [if_neg h0] at h
  by_cases h1 : s.nPhase = PhaseKiller1
  · have e : sortMeasure s = s.mvs.length + 3 := by
      unfold sortMeasure
      rw [if_neg h0, if_pos h1]
    rw [if_pos h1] at h
    have := nextSortKiller1_measure sortLong p search _ s1 mv h hmv
    omega
  rw [if_neg h1] at h
  by_cases h2 : s.nPhase = PhaseKiller2
  · have e : sortMeasure s = s.mvs.length + 2 := by
      unfold sortMeasure
      rw [if_neg h0, if_neg h1, if_pos h2]
    rw [if_pos h2] at h
    have := nextSortKiller2_measure sortLong p search _ s1 mv h hmv
    omega
  rw [if_neg h2] at h
  by_cases h3 : s.nPhase = PhaseGenMoves
  · have e : sortMeasure s = s.mvs.length + 1 := by
      unfold sortMeasure
      rw [if_neg h0, if_neg h1, if_neg h2, if_pos h3]
    rw [if_pos h3] at h
    have := nextSortGen_measure sortLong p search _ s1 mv h hmv
    omega
  rw [if_neg h3] at h
  by_cases h4 : s.nPhase = PhaseRest
  · have e : sortMeasure s = (s.nGenMoves - s.nIndex).toNat := by
      unfold sortMeasure
      rw [if_neg h0, if_neg h1, if_neg h2, if_neg h3, if_pos h4]
    rw [if_pos h4] at h
    obtain ⟨e1, e2, e3⟩ := nextSortRest_spec _ _ _ _ h
    have := e3 hmv
    have e' : sortMeasure s1 = (s1.nGenMoves - s1.nIndex).toNat := by
      rw [h4] at e1
      simp [sortMeasure, e1, PhaseHash, PhaseKiller1, PhaseKiller2, PhaseGenMoves, PhaseRest]
    rw [e, e', e2]
    omega
  rw [if_neg h4] at h
  simp only [Option.some.injEq, Prod.mk.injEq] at h
  exact absurd h.1.symm hmv

theorem searchFinish_bounded (p : PositionStruct) (search : Search)
    (nDepth vlBest nHashFlag mvBest : Int) :
    searchFinish p search nDepth vlBest nHashFlag mvBest ≠ .exhausted ∧
    ∀ r, searchFinish p search nDepth vlBest nHashFlag mvBest = .done r → r.2.1 = p := by
  unfold searchFinish
  simp only []
  split_ifs
  · exact ⟨by simp, fun r hr => by cases hr; rfl⟩
  · split
    · exact ⟨by simp, fun r hr => by simp at hr⟩
    · exact ⟨by simp, fun r hr => by cases hr; rfl⟩
  · exact ⟨by simp, fun r hr => by cases hr; rfl⟩

theorem searchPvs_bounded
    (searchNext : PositionStruct → Search → Int → Int → Int → Bool →
      Outcome (Int × PositionStruct × Search)) (d : Int)
    (hnext : ∀ q s a b n c, q.nDistance = d →
      searchNext q s a b n c ≠ .exhausted ∧
      ∀ r, searchNext q s a b n c = .done r → r.2.1.nDistance = d)
    (p1 : PositionStruct) (search : Search) (vlAlpha vlBeta nNewDepth vlBest : Int)
    (hd : p1.nDistance = d) :
    searchPvs searchNext p1 search vlAlpha vlBeta nNewDepth vlBest ≠ .exhausted ∧
    ∀ r, searchPvs searchNext p1 search vlAlpha vlBeta nNewDepth vlBest = .done r →
      r.2.1.nDistance = d := by
  unfold searchPvs
  split_ifs
  · obtain ⟨h1, h2⟩ := hnext p1 search (-vlBeta) (-vlAlpha) nNewDepth false hd
    cases hs : searchNext p1 search (-vlBeta) (-vlAlpha) nNewDepth false with
    | failed => exact ⟨by simp, fun r hr => by simp at hr⟩
    | exhausted => exact absurd hs h1
    | done r => exact ⟨by simp, fun r' hr => by cases hr; exact h2 r hs⟩
  · obtain ⟨h1, h2⟩ := hnext p1 search (-vlAlpha - 1) (-vlAlpha) nNewDepth false hd
    cases hs : searchNext p1 search (-vlAlpha - 1) (-vlAlpha) nNewDepth false with
    | failed => exact ⟨by simp, fun r hr => by simp at hr⟩
    | exhausted => exact absurd hs h1
    | done r =>
      simp only []
      split_ifs
      · obtain ⟨h3, h4⟩ := hnext r.2.1 r.2.2 (-vlBeta) (-vlAlpha) nNewDepth false (h2 r hs)
        cases hs2 : searchNext r.2.1 r.2.2 (-vlBeta) (-vlAlpha) nNewDepth false with
        | failed => exact ⟨by simp, fun r hr => by simp at hr⟩
        | exhausted => exact absurd hs2 h3
        | done r2 => exact ⟨by simp, fun r' hr => by cases hr; exact h4 r2 hs2⟩
      · exact ⟨by simp, fun r' hr => by cases hr; exact h2 r hs⟩

theorem searchLoop_bounded
    (searchNext : PositionStruct → Search → Int → Int → Int → Bool →
      Outcome (Int × PositionStruct × Search)) (nDepth d : Int)
    (hnext : ∀ q s a b n c, q.nDistance = d + 1 →
      searchNext q s a b n c ≠ .exhausted ∧
      ∀ r, searchNext q s a b n c = .done r → r.2.1.nDistance = d + 1)
    (rounds : Nat) :
    ∀ (s : SortStruct) (p : PositionStruct) (search : Search)
      (vlAlpha vlBeta vlBest nHashFlag mvBest : Int),
      p.nDistance = d → sortMeasure s < rounds →
      searchLoop cucvlPiecePos sortLong searchNext nDepth rounds s p search vlAlpha vlBeta
        vlBest nHashFlag mvBest ≠ .exhausted ∧
      ∀ r, searchLoop cucvlPiecePos sortLong searchNext nDepth rounds s p search vlAlpha vlBeta
        vlBest nHashFlag mvBest = .done r → r.2.1.nDistance = d := by
  induction rounds with
  | zero => intro s p search _ _ _ _ _ _ hm; omega
  | succ rounds ih =>
    intro s p search vlAlpha vlBeta vlBest nHashFlag mvBest hd hm
    unfold searchLoop
    cases hn : nextSort sortLong p search s with
    | none => exact ⟨by simp, fun r hr => by simp at hr⟩
    | some res =>
      obtain ⟨mv, s1⟩ := res
      simp only []
      by_cases hmv : mv = 0
      · rw [if_pos hmv]
        obtain ⟨f1, f2⟩ := searchFinish_bounded p search nDepth vlBest nHashFlag mvBest
        exact ⟨f1, fun r hr => by rw [f2 r hr]; exact hd⟩
      rw [if_neg hmv]
      have hm1 : sortMeasure s1 < rounds := by
        have := nextSort_measure sortLong p search s s1 mv hn hmv
        omega
      cases hmk : makeMove cucvlPiecePos p mv with
      | none => exact ⟨by simp, fun r hr => by simp at hr⟩
      | some res =>
        obtain ⟨b, p1⟩ := res
        have hnd := makeMove_nDistance cucvlPiecePos p mv _ hmk
        cases b with
        | false =>
          simp only [Bool.false_eq_true, if_false, add_zero] at hnd
          exact ih s1 p1 search _ _ _ _ _ (hnd.trans hd) hm1
        | true =>
          simp only [if_true] at hnd
          simp only []
          cases hc : inCheck p1 with
          | none => exact ⟨by simp, fun r hr => by simp at hr⟩
          | some c =>
            simp only []
            obtain ⟨h1, h2⟩ := searchPvs_bounded searchNext (d + 1) hnext p1 search vlAlpha vlBeta
              (if c = true then nDepth else nDepth - 1) vlBest (by rw [hnd, hd])
            cases hs : searchPvs searchNext p1 search vlAlpha vlBeta
                (if c = true then nDepth else nDepth - 1) vlBest with
            | failed => exact ⟨by simp, fun r hr => by simp at hr⟩
            | exhausted => exact absurd hs h1
            | done r =>
              simp only []
              cases hu : undoMakeMove cucvlPiecePos r.2.1 with
              | none => exact ⟨by simp, fun r hr => by simp at hr⟩
              | some p3 =>
                have h3 : p3.nDistance = d := by
                  rw [undoMakeMove_nDistance cucvlPiecePos _ _ hu, h2 r hs]
                  omega
                simp only []
                split_ifs
                · obtain ⟨f1, f2⟩ := searchFinish_bounded p3 r.2.2 nDepth r.1 HashBeta mv
                  exact ⟨f1, fun r' hr => by rw [f2 r' hr]; exact h3⟩
                · exact ih s1 p3 _ _ _ _ _ _ h3 hm1
                · exact ih s1 p3 _ _ _ _ _ _ h3 hm1
                · exact ih s1 p3 _ _ _ _ _ _ h3 hm1

theorem searchMoves_bounded
    (searchNext : PositionStruct → Search → Int → Int → Int → Bool →
      Outcome (Int × PositionStruct × Search)) (d : Int)
    (hnext : ∀ q s a b n c, q.nDistance = d + 1 →
      searchNext q s a b n c ≠ .exhausted ∧
      ∀ r, searchNext q s a b n c = .done r → r.2.1.nDistance = d + 1)
    (p : PositionStruct) (search : Search) (vlAlpha vlBeta nDepth mvHash : Int)
    (hd : p.nDistance = d) :
    searchMoves cucvlPiecePos sortLong searchNext p search vlAlpha vlBeta nDepth mvHash ≠
      .exhausted ∧
    ∀ r, searchMoves cucvlPiecePos sortLong searchNext p search vlAlpha vlBeta nDepth mvHash =
      .done r → r.2.1.nDistance = d := by
  unfold searchMoves
  cases hi : initSort p search mvHash with
  | none => exact ⟨by simp, fun r hr => by simp at hr⟩
  | some s =>
    simp only []
    refine searchLoop_bounded cucvlPiecePos sortLong searchNext nDepth d hnext _ s p search _ _ _
      _ _ hd ?_
    unfold initSort at hi
    split_ifs at hi
    simp only [Option.some.injEq] at hi
    subst hi
    simp [sortMeasure, PhaseHash]

theorem searchFull_bounded (fuel : Nat) :
    ∀ (p : PositionStruct) (search : Search) (vlAlpha vlBeta nDepth : Int) (bNoNull : Bool),
      p.nDistance ≤ LimitDepth → (LimitDepth - p.nDistance).toNat < fuel →
      searchFull cucvlPiecePos cucMvvLva sortLong fuel p search vlAlpha vlBeta nDepth bNoNull ≠
        .exhausted ∧
      ∀ r, searchFull cucvlPiecePos cucMvvLva sortLong fuel p search vlAlpha vlBeta nDepth
        bNoNull = .done r → r.2.1.nDistance = p.nDistance := by
  induction fuel with
  | zero => intro p _ _ _ _ _ _ hf; omega
  | succ fuel ih =>
    intro p search vlAlpha vlBeta nDepth bNoNull hL hf
    have hnext : p.nDistance ≠ LimitDepth → ∀ q s a b n c, q.nDistance = p.nDistance + 1 →
        searchFull cucvlPiecePos cucMvvLva sortLong fuel q s a b n c ≠ .exhausted ∧
        ∀ r, searchFull cucvlPiecePos cucMvvLva sortLong fuel q s a b n c = .done r →
          r.2.1.nDistance = p.nDistance + 1 := by
      intro hne q s a b n c hq
      have := ih q s a b n c (by omega) (by omega)
      rw [hq] at this
      exact this
    unfold searchFull
    by_cases h0 : nDepth ≤ 0
    · rw [if_pos h0]
      obtain ⟨q1, q2⟩ := searchQuiesc_bounded cucvlPiecePos cucMvvLva sortLong
        search.nHistoryTable (fuel + 1) p vlAlpha vlBeta hL hf
      cases hq : searchQuiesc cucvlPiecePos cucMvvLva sortLong search.nHistoryTable (fuel + 1) p
          vlAlpha vlBeta with
      | failed => exact ⟨by simp, fun r hr => by simp at hr⟩
      | exhausted => exact absurd hq q1
      | done r => exact ⟨by simp, fun r' hr => by cases hr; exact q2 r hq⟩
    rw [if_neg h0]
    cases hrep : repStatus p 1 with
    | none => exact ⟨by simp, fun r hr => by simp at hr⟩
    | some vl =>
      simp only []
      by_cases h1 : vl ≠ 0
      · rw [if_pos h1]
        exact ⟨by simp, fun r hr => by cases hr; rfl⟩
      rw [if_neg h1]
      by_cases h2 : p.nDistance = LimitDepth
      · rw [if_pos h2]
        exact ⟨by simp, fun r hr => by cases hr; rfl⟩
      rw [if_neg h2]
      have hmoves := fun q s a b n m hq => searchMoves_bounded cucvlPiecePos sortLong
        (searchFull cucvlPiecePos cucMvvLva sortLong fuel) p.nDistance (hnext h2) q s a b n m hq
      by_cases h3 : (probeHash p search.hashTable vlAlpha vlBeta nDepth).1.1 > -MateValue
      · rw [if_pos h3]
        exact ⟨by simp, fun r hr => by cases hr; rfl⟩
      rw [if_neg h3]
      by_cases h4 : bNoNull = true
      · rw [if_pos h4]
        exact hmoves p _ _ _ _ _ rfl
      rw [if_neg h4]
      cases hc : inCheck p with
      | none => exact ⟨by simp, fun r hr => by simp at hr⟩
      | some c =>
        cases c with
        | true => exact hmoves p _ _ _ _ _ rfl
        | false =>
          simp only []
          by_cases h5 : nullOkay p = true
          swap
          · rw [if_neg h5]
            exact hmoves p _ _ _ _ _ rfl
          rw [if_pos h5]
          cases hnm : nullMove p with
          | none => exact ⟨by simp, fun r hr => by simp at hr⟩
          | some p1 =>
            simp only []
            obtain ⟨n1, n2⟩ := hnext h2 p1 { search with hashTable :=
              (probeHash p search.hashTable vlAlpha vlBeta nDepth).2 } (-vlBeta) (1 - vlBeta)
              (nDepth - NullDepth - 1) true (nullMove_nDistance p p1 hnm)
            cases hs : searchFull cucvlPiecePos cucMvvLva sortLong fuel p1 { search with
                hashTable := (probeHash p search.hashTable vlAlpha vlBeta nDepth).2 } (-vlBeta)
                (1 - vlBeta) (nDepth - NullDepth - 1) true with
            | failed => exact ⟨by simp, fun r hr => by simp at hr⟩
            | exhausted => exact absurd hs n1
            | done r =>
              have hr := n2 r hs
              have hu : (undoNullMove r.2.1).nDistance = p.nDistance := by
                rw [undoNullMove_nDistance, hr]
                omega
              simp only []
              split_ifs
              · exact ⟨by simp, fun r' hr' => by cases hr'; exact hu⟩
              · exact hmoves _ _ _ _ _ _ hu

end SearchLemmas

/-! ## Search: mate score -/

section MateLemmas

variable (cucvlPiecePos : Int → Int → Int) (cucMvvLva : Int → Int)
  (sortLong : (List Int → Nat → Nat → Bool) → List Int → List Int)

end MateLemmas

section Termination

variable (cucvlPiecePos : Int → Int → Int) (cucMvvLva : Int → Int)
  (sortLong : (List Int → Nat → Nat → Bool) → List Int → List Int)

/-- C30: for `nDistance <= LimitDepth`, `searchFull` and the `searchQuiesc` it calls end
within a recursion depth of `LimitDepth - nDistance`: run with any bound above that number
they return or fail, and do not reach the bound; at `nDistance = LimitDepth` the bound 1
is enough, there is no recursive call.  A call that returns leaves `nDistance` as it was,
so every call of the next ply starts one above the `nDistance` of its caller. -/
theorem search_terminates (fuel : Nat) (p : PositionStruct) (search : Search)
    (vlAlpha vlBeta nDepth : Int) (bNoNull : Bool)
    (hL : p.nDistance ≤ LimitDepth) (hf : (LimitDepth - p.nDistance).toNat < fuel) :
    searchFull cucvlPiecePos cucMvvLva sortLong fuel p search vlAlpha vlBeta nDepth bNoNull ≠
      .exhausted ∧
    searchQuiesc cucvlPiecePos cucMvvLva sortLong search.nHistoryTable fuel p vlAlpha vlBeta ≠
      .exhausted ∧
    (∀ r, searchFull cucvlPiecePos cucMvvLva sortLong fuel p search vlAlpha vlBeta nDepth
      bNoNull = .done r → r.2.1.nDistance = p.nDistance) ∧
    (∀ r, searchQuiesc cucvlPiecePos cucMvvLva sortLong search.nHistoryTable fuel p vlAlpha
      vlBeta = .done r → r.2.nDistance = p.nDistance) := by
  obtain ⟨h1, h2⟩ := searchFull_bounded cucvlPiecePos cucMvvLva sortLong fuel p search vlAlpha
    vlBeta nDepth bNoNull hL hf
  obtain ⟨h3, h4⟩ := searchQuiesc_bounded cucvlPiecePos cucMvvLva sortLong search.nHistoryTable
    fuel p vlAlpha vlBeta hL hf
  exact ⟨h1, h3, h2, h4⟩

end Termination

set_option maxRecDepth 100000 in
/-- Instance of C30: `bingPosition` at the root with the bound 65. -/
theorem search_terminates_witness :
    searchFull examplePiecePos (fun _ => 0) (fun _ l => l) 65 bingPosition historySearch
      (-MateValue) MateValue 2 false ≠ .exhausted ∧
    searchQuiesc examplePiecePos (fun _ => 0) (fun _ l => l) historySearch.nHistoryTable 65
      bingPosition (-MateValue) MateValue ≠ .exhausted ∧
    (∀ r, searchFull examplePiecePos (fun _ => 0) (fun _ l => l) 65 bingPosition historySearch
      (-MateValue) MateValue 2 false = .done r → r.2.1.nDistance = bingPosition.nDistance) ∧
    (∀ r, searchQuiesc examplePiecePos (fun _ => 0) (fun _ l => l) historySearch.nHistoryTable 65
      bingPosition (-MateValue) MateValue = .done r → r.2.nDistance = bingPosition.nDistance) :=
  search_terminates examplePiecePos (fun _ => 0) (fun _ l => l) 65 bingPosition historySearch
    (-MateValue) MateValue 2 false (by decide!) (by decide!)

section Restore

variable (cucvlPiecePos : Int → Int → Int) (cucMvvLva : Int → Int)
  (sortLong : (List Int → Nat → Nat → Bool) → List Int → List Int)

end Restore

end Chess
